import Mathlib

/-!
Finite-field matrices (`matrix_gf2`): a shallow embedding

The C++ classes `GFElement` (src/src/gf_element.cpp) and `Matrix`
(src/src/matrix.cpp) are embedded as Lean functions.

* `uint32_t` values are natural numbers; every arithmetic operation whose
  result can exceed 32 bits is wrapped with `u32` (reduction modulo 2^32).
* `std::vector` is `List`; `v[i]` is `List.getD`, `resize`, `pop_back` and
  `back` are `resize`, `List.dropLast` and `List.getLastD`.
* Exceptions are the error values of `Except Err`.  `while` loops without an
  a-priori bound are run with a step budget `fuel`; `Err.outOfFuel` means the
  budget was used up before the loop ended.
-/

set_option linter.unusedSectionVars false

namespace MatrixGF2

/-- Failure kinds: the three exception classes thrown by the code, an access
outside a vector (undefined in C++), and an exhausted step budget. -/
inductive Err where
  | invalidArgument
  | runtimeError
  | outOfRange
  | outOfBounds
  | outOfFuel
deriving DecidableEq, Repr

/-- Results of fallible operations can be compared by evaluation. -/
instance instDecidableEqExcept {α : Type} [DecidableEq α] : DecidableEq (Except Err α) :=
  fun a b =>
    match a, b with
    | .ok x, .ok y =>
      if h : x = y then isTrue (by rw [h]) else isFalse (fun h' => h (Except.ok.inj h'))
    | .error x, .error y =>
      if h : x = y then isTrue (by rw [h]) else isFalse (fun h' => h (Except.error.inj h'))
    | .ok _, .error _ => isFalse (fun h' => Except.noConfusion h')
    | .error _, .ok _ => isFalse (fun h' => Except.noConfusion h')

/-- Reduction of a natural number to the range of `uint32_t`. -/
def u32 (n : Nat) : Nat := n % 4294967296

/-- The `uint32_t` subtraction `a - b` (for operands already below 2^32). -/
def usub (a b : Nat) : Nat := u32 (a + 4294967296 - b)

/-- The `std::vector::resize(n, 0)` operation. -/
def resize (v : List Nat) (n : Nat) : List Nat :=
  v.take n ++ List.replicate (n - v.length) 0

/-- Loop `while (v.size() > minSize && v.back() == 0) v.pop_back();` with the
number of remaining elements as loop counter. -/
def popZerosAux (minSize : Nat) : Nat → List Nat → List Nat
  | 0, v => v
  | n + 1, v =>
    if minSize < v.length ∧ v.getLastD 0 = 0 then popZerosAux minSize n v.dropLast else v

/-- Removal of leading-coefficient zeros down to `minSize` entries. -/
def popZeros (minSize : Nat) (v : List Nat) : List Nat :=
  popZerosAux minSize v.length v

/-- The predicate `std::all_of(v.begin(), v.end(), x == 0)`. -/
def allZero (v : List Nat) : Bool := v.all (fun x => x == 0)

/-- The search `for (i = 1; i < p; ++i) if ((lead * i) % p == 1)`; `n` counts
the candidates left, `i` is the current candidate. -/
def findInvAux (p lead : Nat) : Nat → Nat → Option Nat
  | 0, _ => none
  | n + 1, i => if u32 (lead * i) % p = 1 then some i else findInvAux p lead n (i + 1)

/-- Brute-force inverse of `lead` in GF(p): the first `i` in `[1, p)` with
`(lead * i) % p == 1`, if there is one. -/
def findInv (p lead : Nat) : Option Nat := findInvAux p lead (p - 1) 1

/-- An element of GF(p^m): the four data members of the class `GFElement`. -/
structure GFElement where
  p : Nat
  m : Nat
  modulus : List Nat
  coeffs : List Nat
deriving DecidableEq, Repr

/-- The `GFElement::polyMul` helper: convolution, each term reduced modulo `p`. -/
def polyMul (p : Nat) (a b : List Nat) : List Nat :=
  if a = [] ∨ b = [] then [0]
  else
    (List.range a.length).foldl
      (fun res i =>
        (List.range b.length).foldl
          (fun res j =>
            res.set (i + j) (u32 (res.getD (i + j) 0 + u32 (a.getD i 0 * b.getD j 0)) % p))
          res)
      (List.replicate (a.length + b.length - 1) 0)

/-- The inner `for` loop of long division: subtract `coeff * divisor`, aligned
with the top of `remainder`. -/
def subShifted (p coeff : Nat) (divisor remainder : List Nat) : List Nat :=
  (List.range divisor.length).foldl
    (fun rem i =>
      let pos := rem.length - divisor.length + i
      rem.set pos (usub (u32 (rem.getD pos 0 + p)) (u32 (coeff * divisor.getD i 0) % p) % p))
    remainder

/-- The main `while` loop of `GFElement::polyMod`; one unit of `fuel` per
executed loop body. -/
def polyModLoop (p : Nat) (divisor : List Nat) : Nat → List Nat → Except Err (List Nat)
  | fuel, remainder =>
    if divisor.length ≤ remainder.length ∧ allZero remainder = false then
      match fuel with
      | 0 => .error .outOfFuel
      | fuel + 1 =>
        let remainder := popZeros 1 remainder
        if remainder.length < divisor.length then .ok remainder
        else
          let lead := divisor.getLastD 0
          let leadInv := (findInv p lead).getD 1
          let coeff := u32 (remainder.getLastD 0 * leadInv) % p
          polyModLoop p divisor fuel (subShifted p coeff divisor remainder)
    else .ok remainder

/-- The `GFElement::polyMod` helper: remainder of `a` divided by `b` over GF(p). -/
def polyMod (fuel p : Nat) (a b : List Nat) : Except Err (List Nat) :=
  if b = [] ∨ (b.length = 1 ∧ b.getD 0 0 = 0) then .error .invalidArgument
  else
    let divisor := popZeros 1 b
    if divisor.length = 1 ∧ divisor.getD 0 0 = 0 then .error .invalidArgument
    else
      match polyModLoop p divisor fuel a with
      | .error e => .error e
      | .ok remainder =>
        let remainder := popZeros 1 remainder
        .ok (if remainder = [] then [0] else remainder)

namespace GFElement

/-- The `reduce` member: every coefficient modulo `p`. -/
def reduce (e : GFElement) : GFElement :=
  { e with coeffs := e.coeffs.map (fun c => c % e.p) }

/-- The `reduceModulo` member. -/
def reduceModulo (fuel : Nat) (e : GFElement) : Except Err GFElement :=
  if e.m = 1 then .ok e.reduce
  else
    let c := popZeros e.m e.coeffs
    if c.length < e.m then .ok { e with coeffs := resize c e.m }
    else
      match polyMod fuel e.p c e.modulus with
      | .error err => .error err
      | .ok r => .ok { e with coeffs := resize r e.m }

/-- Constructor `GFElement(p, m, modulus)`: the zero element. -/
def new (p m : Nat) (modulus : List Nat) : Except Err GFElement :=
  if p < 2 then .error .invalidArgument
  else if m < 1 then .error .invalidArgument
  else .ok { p := p, m := m, modulus := modulus, coeffs := List.replicate m 0 }

/-- Loop `for (i = 0; i < m && value > 0; ++i)` of the value constructor,
writing base-`p` digits into the zero-filled coefficient vector. -/
def digits (p : Nat) : Nat → Nat → List Nat
  | 0, _ => []
  | n + 1, value =>
    if 0 < value then (value % p) :: digits p n (value / p) else List.replicate (n + 1) 0

/-- Constructor `GFElement(value, p, m, modulus)`. -/
def ofValue (value p m : Nat) (modulus : List Nat) : Except Err GFElement :=
  if p < 2 then .error .invalidArgument
  else if m < 1 then .error .invalidArgument
  else if m = 1 then .ok { p := p, m := m, modulus := modulus, coeffs := [value % p] }
  else .ok { p := p, m := m, modulus := modulus, coeffs := digits p m value }

/-- Constructor `GFElement(coeffs, p, m, modulus)`. -/
def ofCoeffs (fuel : Nat) (coeffs : List Nat) (p m : Nat) (modulus : List Nat) :
    Except Err GFElement :=
  if p < 2 then .error .invalidArgument
  else if m < 1 then .error .invalidArgument
  else
    reduceModulo fuel
      { p := p, m := m, modulus := modulus,
        coeffs := (coeffs.take m).map (fun c => c % p) ++ List.replicate (m - coeffs.length) 0 }

/-- The `operator+` member. -/
def add (fuel : Nat) (a b : GFElement) : Except Err GFElement :=
  if a.p ≠ b.p ∨ a.m ≠ b.m then .error .invalidArgument
  else
    ofCoeffs fuel
      ((List.range a.m).map (fun i => u32 (a.coeffs.getD i 0 + b.coeffs.getD i 0) % a.p))
      a.p a.m a.modulus

/-- The `operator-` member (binary). -/
def sub (fuel : Nat) (a b : GFElement) : Except Err GFElement :=
  if a.p ≠ b.p ∨ a.m ≠ b.m then .error .invalidArgument
  else
    ofCoeffs fuel
      ((List.range a.m).map
        (fun i => usub (u32 (a.coeffs.getD i 0 + a.p)) (b.coeffs.getD i 0) % a.p))
      a.p a.m a.modulus

/-- The `operator*` member. -/
def mul (fuel : Nat) (a b : GFElement) : Except Err GFElement :=
  if a.p ≠ b.p ∨ a.m ≠ b.m then .error .invalidArgument
  else ofCoeffs fuel (polyMul a.p a.coeffs b.coeffs) a.p a.m a.modulus

/-- The `operator-` member (unary). -/
def neg (fuel : Nat) (a : GFElement) : Except Err GFElement :=
  ofCoeffs fuel ((List.range a.m).map (fun i => usub a.p (a.coeffs.getD i 0) % a.p))
    a.p a.m a.modulus

/-- The `operator==` member. -/
def eq (a b : GFElement) : Bool :=
  if a.p ≠ b.p ∨ a.m ≠ b.m then false else decide (a.coeffs = b.coeffs)

/-- The `isZero` member. -/
def isZero (a : GFElement) : Bool := allZero a.coeffs

/-- The `isOne` member. -/
def isOne (a : GFElement) : Bool :=
  if a.coeffs.getD 0 0 ≠ 1 then false else allZero (a.coeffs.drop 1)

/-- The `getValue` member. -/
def getValue (a : GFElement) : Nat :=
  if a.m = 1 then a.coeffs.getD 0 0
  else
    ((List.range a.m).foldl
      (fun (acc : Nat × Nat) i =>
        (u32 (acc.1 + u32 (a.coeffs.getD i 0 * acc.2)), u32 (acc.2 * a.p)))
      (0, 1)).1

/-- State of the quotient loop inside `inverse`: the vectors `dividend`,
`divisor` and `quotient`. -/
structure QuotState where
  dividend : List Nat
  divisor : List Nat
  quotient : List Nat
deriving DecidableEq, Repr

/-- The loop `while (dividend.size() >= divisor.size())` inside `inverse`
that computes the quotient; one unit of `fuel` per executed body. -/
def quotientLoop (p : Nat) : Nat → QuotState → Except Err QuotState
  | fuel, s =>
    if s.divisor.length ≤ s.dividend.length then
      match fuel with
      | 0 => .error .outOfFuel
      | fuel + 1 =>
        let dividend := popZeros 1 s.dividend
        let divisor := popZeros 1 s.divisor
        if dividend.length < divisor.length then
          .ok { dividend := dividend, divisor := divisor, quotient := s.quotient }
        else
          let lead := divisor.getLastD 0
          let leadInv := (findInv p lead).getD 1
          let coeff := u32 (dividend.getLastD 0 * leadInv) % p
          let deg := dividend.length - divisor.length
          let quotient :=
            if s.quotient.length ≤ deg then resize s.quotient (deg + 1) else s.quotient
          let quotient := quotient.set deg coeff
          quotientLoop p fuel
            { dividend := subShifted p coeff divisor dividend,
              divisor := divisor, quotient := quotient }
    else .ok s

/-- State of the extended Euclid loop inside `inverse`. -/
structure EuclidState where
  r0 : List Nat
  r1 : List Nat
  s0 : List Nat
  s1 : List Nat
deriving DecidableEq, Repr

/-- The statements `s2 = s0 - quotient * s1` of the Euclid loop. -/
def bezoutStep (p : Nat) (s0 prod : List Nat) : List Nat :=
  let s2 := resize s0 (max s0.length prod.length)
  (List.range prod.length).foldl
    (fun s2 i => s2.set i (usub (u32 (s2.getD i 0 + p)) (prod.getD i 0 % p) % p))
    s2

/-- The loop `while (!all_of(r1 == 0))` of `inverse` for `m > 1`; one unit of
`fuel` per executed body, and the same budget for each inner loop. -/
def euclidLoop (p : Nat) (budget : Nat) : Nat → EuclidState → Except Err EuclidState
  | fuel, s =>
    if allZero s.r1 = false then
      match fuel with
      | 0 => .error .outOfFuel
      | fuel + 1 =>
        match polyMod budget p s.r0 s.r1 with
        | .error e => .error e
        | .ok remainder =>
          match quotientLoop p budget
              { dividend := s.r0, divisor := s.r1, quotient := [] } with
          | .error e => .error e
          | .ok q =>
            let prod := polyMul p q.quotient s.s1
            let s2 := bezoutStep p s.s0 prod
            euclidLoop p budget fuel { r0 := s.r1, r1 := remainder, s0 := s.s1, s1 := s2 }
    else .ok s

/-- The `inverse` member. -/
def inverse (fuel : Nat) (a : GFElement) : Except Err GFElement :=
  if a.isZero then .error .invalidArgument
  else if a.m = 1 then
    match findInv a.p (a.coeffs.getD 0 0) with
    | some i => ofValue i a.p a.m a.modulus
    | none => .error .runtimeError
  else
    match euclidLoop a.p fuel fuel
        { r0 := a.modulus, r1 := a.coeffs,
          s0 := List.replicate a.m 0, s1 := (List.replicate a.m 0).set 0 1 } with
    | .error e => .error e
    | .ok s => ofCoeffs fuel s.s0 a.p a.m a.modulus

/-- The loop of `operator<<` for `m > 1`: terms from the highest power down;
`n` is the number of powers still to print. -/
def renderTerms (coeffs : List Nat) : Nat → Bool → String → String
  | 0, first, acc => if first then acc ++ "0" else acc
  | n + 1, first, acc =>
    let c := coeffs.getD n 0
    if c ≠ 0 then
      let acc := if first then acc else acc ++ " + "
      let acc := if c ≠ 1 ∨ n = 0 then acc ++ toString c else acc
      let acc := if 0 < n then (acc ++ "x") ++ (if 1 < n then "^" ++ toString n else "") else acc
      renderTerms coeffs n false acc
    else renderTerms coeffs n first acc

/-- The text written by `operator<<` for an element. -/
def render (e : GFElement) : String :=
  if e.m = 1 then toString (e.coeffs.getD 0 0) else renderTerms e.coeffs e.m true ""

/-- The `operator/` member. -/
def div (fuel : Nat) (a b : GFElement) : Except Err GFElement :=
  if b.isZero then .error .invalidArgument
  else
    match b.inverse fuel with
    | .error e => .error e
    | .ok bi => a.mul fuel bi

end GFElement

/-! ## Loops with a known trip count -/

/-- Loop `for (k = lo; k < lo + n; ++k) body(k)` over a state, stopping at the
first failure. -/
def forRange {σ : Type} (body : Nat → σ → Except Err σ) : Nat → Nat → σ → Except Err σ
  | _, 0, s => .ok s
  | lo, n + 1, s =>
    match body lo s with
    | .error e => .error e
    | .ok s' => forRange body (lo + 1) n s'

/-- Loop `for (k = n - 1; k >= 0; --k) body(k)` over a state, stopping at the
first failure. -/
def forDown {σ : Type} (body : Nat → σ → Except Err σ) : Nat → σ → Except Err σ
  | 0, s => .ok s
  | n + 1, s =>
    match body n s with
    | .error e => .error e
    | .ok s' => forDown body n s'

/-! ## The class `Matrix` -/

/-- A matrix over GF(p^m): the six data members of the class `Matrix`. -/
structure Matrix where
  rows : Nat
  cols : Nat
  p : Nat
  m : Nat
  modulus : List Nat
  data : List (List GFElement)
deriving DecidableEq, Repr

/-- The value returned by the elimination routines (struct `GaussResult`). -/
structure GaussResult where
  matrix : Matrix
  rank : Nat
  pivotCols : List Nat
  steps : List String
deriving DecidableEq, Repr

namespace Matrix

/-- The raw read `data_[i][j]`; an index outside the stored vectors is
reported as `Err.outOfBounds`. -/
def getEntry (M : Matrix) (i j : Nat) : Except Err GFElement :=
  match M.data[i]? with
  | none => .error .outOfBounds
  | some row =>
    match row[j]? with
    | none => .error .outOfBounds
    | some e => .ok e

/-- The raw write `data_[i][j] = e`. -/
def setEntry (M : Matrix) (i j : Nat) (e : GFElement) : Except Err Matrix :=
  match M.data[i]? with
  | none => .error .outOfBounds
  | some row =>
    if j < row.length then .ok { M with data := M.data.set i (row.set j e) }
    else .error .outOfBounds

/-- Constructor `Matrix(rows, cols, p, m, modulus)`: the zero matrix.  The
fill element is only built when there is a row to resize. -/
def new (rows cols p m : Nat) (modulus : List Nat) : Except Err Matrix :=
  if rows = 0 then
    .ok { rows := 0, cols := cols, p := p, m := m, modulus := modulus, data := [] }
  else
    match GFElement.new p m modulus with
    | .error e => .error e
    | .ok z =>
      .ok { rows := rows, cols := cols, p := p, m := m, modulus := modulus,
            data := List.replicate rows (List.replicate cols z) }

/-- The static member `Matrix::zero`. -/
def zero (rows cols p m : Nat) (modulus : List Nat) : Except Err Matrix :=
  Matrix.new rows cols p m modulus

/-- The static member `Matrix::identity`. -/
def identity (n p m : Nat) (modulus : List Nat) : Except Err Matrix :=
  match Matrix.new n n p m modulus with
  | .error e => .error e
  | .ok z =>
    forRange
      (fun i (M : Matrix) =>
        match GFElement.ofValue 1 p m modulus with
        | .error e => .error e
        | .ok one => M.setEntry i i one)
      0 n z

/-- The bounds-checked accessor `at(i, j)`. -/
def «at» (M : Matrix) (i j : Nat) : Except Err GFElement :=
  if M.rows ≤ i ∨ M.cols ≤ j then .error .outOfRange else M.getEntry i j

/-- The accumulation `sum = 0; for (k...) sum += data_[i][k] * other.data_[k][j]`
of the matrix product. -/
def mulEntry (fuel : Nat) (A B : Matrix) (i j : Nat) : Except Err GFElement :=
  match GFElement.new A.p A.m A.modulus with
  | .error e => .error e
  | .ok zero =>
    forRange
      (fun k (sum : GFElement) =>
        match A.getEntry i k with
        | .error e => .error e
        | .ok a =>
          match B.getEntry k j with
          | .error e => .error e
          | .ok b =>
            match a.mul fuel b with
            | .error e => .error e
            | .ok ab => sum.add fuel ab)
      0 A.cols zero

/-- The `operator*(const Matrix&)` member. -/
def mul (fuel : Nat) (A B : Matrix) : Except Err Matrix :=
  if A.cols ≠ B.rows then .error .invalidArgument
  else
    match Matrix.new A.rows B.cols A.p A.m A.modulus with
    | .error e => .error e
    | .ok z =>
      forRange
        (fun i (R : Matrix) =>
          forRange
            (fun j (R : Matrix) =>
              match mulEntry fuel A B i j with
              | .error e => .error e
              | .ok sum => R.setEntry i j sum)
            0 B.cols R)
        0 A.rows z

/-- The `operator==` member; a comparison that would read outside the stored
vectors counts as unequal. -/
def eq (A B : Matrix) : Bool :=
  if A.rows ≠ B.rows ∨ A.cols ≠ B.cols then false
  else
    (List.range A.rows).all (fun i =>
      (List.range A.cols).all (fun j =>
        match A.getEntry i j, B.getEntry i j with
        | .ok a, .ok b => a.eq b
        | _, _ => false))

/-- The `swapRows` member. -/
def swapRows (M : Matrix) (i j : Nat) : Except Err Matrix :=
  if M.rows ≤ i ∨ M.rows ≤ j then .error .outOfRange
  else
    match M.data[i]?, M.data[j]? with
    | some ri, some rj => .ok { M with data := (M.data.set i rj).set j ri }
    | _, _ => .error .outOfBounds

/-- The `multiplyRow` member. -/
def multiplyRow (fuel : Nat) (M : Matrix) (i : Nat) (scalar : GFElement) : Except Err Matrix :=
  if M.rows ≤ i then .error .outOfRange
  else
    forRange
      (fun j (M : Matrix) =>
        match M.getEntry i j with
        | .error e => .error e
        | .ok x =>
          match x.mul fuel scalar with
          | .error e => .error e
          | .ok y => M.setEntry i j y)
      0 M.cols M

/-- The `addRow` member. -/
def addRow (fuel : Nat) (M : Matrix) (dest src : Nat) (scalar : GFElement) : Except Err Matrix :=
  if M.rows ≤ dest ∨ M.rows ≤ src then .error .outOfRange
  else
    forRange
      (fun j (M : Matrix) =>
        match M.getEntry src j with
        | .error e => .error e
        | .ok x =>
          match x.mul fuel scalar with
          | .error e => .error e
          | .ok xs =>
            match M.getEntry dest j with
            | .error e => .error e
            | .ok d =>
              match d.add fuel xs with
              | .error e => .error e
              | .ok y => M.setEntry dest j y)
      0 M.cols M

/-- The loop of `findPivot`; `n` rows are left to inspect, starting at `i`. -/
def findPivotAux (mat : Matrix) (col : Nat) : Nat → Nat → Except Err (Option Nat)
  | 0, _ => .ok none
  | n + 1, i =>
    match mat.getEntry i col with
    | .error e => .error e
    | .ok x => if x.isZero then findPivotAux mat col n (i + 1) else .ok (some i)

/-- The `findPivot` member. -/
def findPivot (mat : Matrix) (col startRow : Nat) : Except Err (Option Nat) :=
  findPivotAux mat col (mat.rows - startRow) startRow

/-- Appends a line to the step log when the educational mode is on. -/
def logStep (educational : Bool) (res : GaussResult) (line : String) : GaussResult :=
  if educational then { res with steps := res.steps ++ [line] } else res

/-- Body of the loops that clear one entry of column `col`: if the entry of
`row` is nonzero, add row `src` times its negation (used by both passes). -/
def eliminateEntry (fuel : Nat) (educational : Bool) (src col row : Nat) (res : GaussResult) :
    Except Err GaussResult :=
  match res.matrix.getEntry row col with
  | .error e => .error e
  | .ok x =>
    if x.isZero then .ok res
    else
      match x.neg fuel with
      | .error e => .error e
      | .ok factor =>
        match res.matrix.addRow fuel row src factor with
        | .error e => .error e
        | .ok M =>
          .ok (logStep educational { res with matrix := M }
            ("Шаг: прибавляем к строке " ++ toString row ++ " строку " ++ toString src ++
              ", умноженную на " ++ factor.render ++ " (обнуляем элемент [" ++ toString row ++
              "," ++ toString col ++ "])"))

/-- The block `if (pivotRow.value() != currentRow) swapRows(...)` of the
forward loop. -/
def swapStep (educational : Bool) (col currentRow pivotRow : Nat) (res : GaussResult) :
    Except Err GaussResult :=
  if pivotRow ≠ currentRow then
    match res.matrix.swapRows currentRow pivotRow with
    | .error e => .error e
    | .ok M =>
      .ok (logStep educational { res with matrix := M }
        ("Шаг: меняем местами строки " ++ toString currentRow ++ " и " ++
          toString pivotRow ++ " (нашли ведущий элемент в столбце " ++ toString col ++ ")"))
  else .ok res

/-- The block `if (!pivot.isOne()) multiplyRow(currentRow, pivot.inverse())`
of the forward loop. -/
def normalizeStep (fuel : Nat) (educational : Bool) (col currentRow : Nat) (res : GaussResult) :
    Except Err GaussResult :=
  match res.matrix.getEntry currentRow col with
  | .error e => .error e
  | .ok pivot =>
    if pivot.isOne then .ok res
    else
      match pivot.inverse fuel with
      | .error e => .error e
      | .ok pivotInv =>
        match res.matrix.multiplyRow fuel currentRow pivotInv with
        | .error e => .error e
        | .ok M =>
          .ok (logStep educational { res with matrix := M }
            ("Шаг: умножаем строку " ++ toString currentRow ++ " на " ++
              pivotInv.render ++ " (делаем ведущий элемент равным 1)"))

/-- Body of the forward loop for column `col` with row pointer `currentRow`;
returns the updated result and row pointer. -/
def forwardStep (fuel : Nat) (educational : Bool) (rows col : Nat)
    (res : GaussResult) (currentRow : Nat) : Except Err (GaussResult × Nat) :=
  match res.matrix.findPivot col currentRow with
  | .error e => .error e
  | .ok none =>
    .ok (logStep educational res
      ("Столбец " ++ toString col ++ ": все элементы ниже строки " ++ toString currentRow ++
        " равны нулю"), currentRow)
  | .ok (some pivotRow) =>
    match swapStep educational col currentRow pivotRow res with
    | .error e => .error e
    | .ok res1 =>
      match normalizeStep fuel educational col currentRow
          { res1 with pivotCols := res1.pivotCols ++ [col] } with
      | .error e => .error e
      | .ok res3 =>
        match forRange (eliminateEntry fuel educational currentRow col)
            (currentRow + 1) (rows - (currentRow + 1)) res3 with
        | .error e => .error e
        | .ok res4 => .ok ({ res4 with rank := res4.rank + 1 }, currentRow + 1)

/-- The loop `for (col = 0; col < cols_ && currentRow < rows_; ++col)`; `n`
is the number of columns left, `col` the current column. -/
def forwardLoop (fuel : Nat) (educational : Bool) (rows : Nat) :
    Nat → Nat → GaussResult → Nat → Except Err (GaussResult × Nat)
  | 0, _, res, currentRow => .ok (res, currentRow)
  | n + 1, col, res, currentRow =>
    if currentRow < rows then
      match forwardStep fuel educational rows col res currentRow with
      | .error e => .error e
      | .ok (res', currentRow') => forwardLoop fuel educational rows n (col + 1) res' currentRow'
    else .ok (res, currentRow)

/-- The scan `for (col = 0; col < cols_; ++col) if (!isZero) ... break;` of
one row: the column of its first nonzero entry; `n` columns are left. -/
def firstNonzeroAux (M : Matrix) (row : Nat) : Nat → Nat → Except Err (Option Nat)
  | 0, _ => .ok none
  | n + 1, col =>
    match M.getEntry row col with
    | .error e => .error e
    | .ok x => if x.isZero then firstNonzeroAux M row n (col + 1) else .ok (some col)

/-- Body of the loop that re-derives the pivot columns when no forward pass
was made. -/
def rediscoverRow (cols row : Nat) (res : GaussResult) : Except Err GaussResult :=
  match firstNonzeroAux res.matrix row cols 0 with
  | .error e => .error e
  | .ok none => .ok res
  | .ok (some col) =>
    .ok { res with pivotCols := res.pivotCols ++ [col], rank := res.rank + 1 }

/-- Body of the backward loop for the pivot with index `pivotIdx`. -/
def backwardStep (fuel : Nat) (educational : Bool) (pivotIdx : Nat) (res : GaussResult) :
    Except Err GaussResult :=
  match res.pivotCols[pivotIdx]? with
  | none => .error .outOfBounds
  | some pivotCol => forDown (eliminateEntry fuel educational pivotIdx pivotCol) pivotIdx res

/-- The block `if (forward) ...` of `gaussElimination`. -/
def forwardPass (fuel : Nat) (A : Matrix) (educational : Bool) (result : GaussResult) :
    Except Err GaussResult :=
  match forwardLoop fuel educational A.rows A.cols 0 result 0 with
  | .error e => .error e
  | .ok (res, _) =>
    .ok (logStep educational res ("Прямой ход завершён. Ранг матрицы: " ++ toString res.rank))

/-- The block `if (backward && result.rank > 0) ...` of `gaussElimination`,
entered with the result of the forward block. -/
def backwardPass (fuel : Nat) (A : Matrix) (forward educational : Bool) (result : GaussResult) :
    Except Err GaussResult :=
  let result :=
    if forward then logStep educational result "Начинаем обратный ход (приведение к RREF)"
    else result
  match (if forward then Except.ok result
    else forRange (rediscoverRow A.cols) 0 A.rows { result with pivotCols := [] }) with
  | .error e => .error e
  | .ok result =>
    match forDown (backwardStep fuel educational) result.pivotCols.length result with
    | .error e => .error e
    | .ok result =>
      .ok (logStep educational result "Обратный ход завершён. Матрица приведена к RREF")

/-- The private member `gaussElimination(forward, backward, educational)`. -/
def gaussElimination (fuel : Nat) (A : Matrix) (forward backward educational : Bool) :
    Except Err GaussResult :=
  let result : GaussResult := { matrix := A, rank := 0, pivotCols := [], steps := [] }
  match (if forward then forwardPass fuel A educational result else Except.ok result) with
  | .error e => .error e
  | .ok result =>
    if backward = true ∧ 0 < result.rank then backwardPass fuel A forward educational result
    else .ok result

/-- The `forwardGauss` member. -/
def forwardGauss (fuel : Nat) (A : Matrix) (educational : Bool) : Except Err GaussResult :=
  gaussElimination fuel A true false educational

/-- The `backwardGauss` member. -/
def backwardGauss (fuel : Nat) (A : Matrix) (educational : Bool) : Except Err GaussResult :=
  gaussElimination fuel A false true educational

/-- The `reducedRowEchelonForm` member. -/
def reducedRowEchelonForm (fuel : Nat) (A : Matrix) (educational : Bool) :
    Except Err GaussResult :=
  gaussElimination fuel A true true educational

/-- The `rank` member. -/
def rank (fuel : Nat) (A : Matrix) : Except Err Nat :=
  match A.forwardGauss fuel false with
  | .error e => .error e
  | .ok result => .ok result.rank

/-- The `isInvertible` member. -/
def isInvertible (fuel : Nat) (A : Matrix) : Except Err Bool :=
  if A.rows ≠ A.cols then .ok false
  else
    match A.rank fuel with
    | .error e => .error e
    | .ok r => .ok (decide (r = A.rows))

/-- The loops of `inverse` that fill the augmented matrix `[A | I]`. -/
def augment (A aug : Matrix) : Except Err Matrix :=
  forRange
    (fun i (aug : Matrix) =>
      match forRange
          (fun j (aug : Matrix) =>
            match A.getEntry i j with
            | .error e => .error e
            | .ok x => aug.setEntry i j x)
          0 A.cols aug with
      | .error e => .error e
      | .ok aug =>
        forRange
          (fun j (aug : Matrix) =>
            match (if i = j then GFElement.ofValue 1 A.p A.m A.modulus
              else GFElement.new A.p A.m A.modulus : Except Err GFElement) with
            | .error e => .error e
            | .ok x => aug.setEntry i (A.cols + j) x)
          0 A.cols aug)
    0 A.rows aug

/-- The loops of `inverse` that test whether the left block is the identity;
the state is `false` once the code has returned `nullopt`. -/
def leftIsIdentity (R : Matrix) (rows cols : Nat) : Except Err Bool :=
  forRange
    (fun i (good : Bool) =>
      forRange
        (fun j (good : Bool) =>
          if good then
            match R.getEntry i j with
            | .error e => .error e
            | .ok x => .ok (if i = j then x.isOne else x.isZero)
          else .ok false)
        0 cols good)
    0 rows true

/-- The loops of `inverse` that copy the right block into `inv`. -/
def extractRight (R inv : Matrix) (rows cols : Nat) : Except Err Matrix :=
  forRange
    (fun i (inv : Matrix) =>
      forRange
        (fun j (inv : Matrix) =>
          match R.getEntry i (cols + j) with
          | .error e => .error e
          | .ok x => inv.setEntry i j x)
        0 cols inv)
    0 rows inv

/-- The `inverse` member (the texts written to `std::cout` are not modelled);
`none` is `std::nullopt`. -/
def inverse (fuel : Nat) (A : Matrix) (educational : Bool) : Except Err (Option Matrix) :=
  if A.rows ≠ A.cols then .ok none
  else
    match Matrix.new A.rows (2 * A.cols) A.p A.m A.modulus with
    | .error e => .error e
    | .ok aug0 =>
      match augment A aug0 with
      | .error e => .error e
      | .ok augmented =>
        match augmented.reducedRowEchelonForm fuel educational with
        | .error e => .error e
        | .ok result =>
          match leftIsIdentity result.matrix A.rows A.cols with
          | .error e => .error e
          | .ok false => .ok none
          | .ok true =>
            match Matrix.new A.rows A.cols A.p A.m A.modulus with
            | .error e => .error e
            | .ok inv0 =>
              match extractRight result.matrix inv0 A.rows A.cols with
              | .error e => .error e
              | .ok inv => .ok (some inv)

/-- Constructor `Matrix(data, p, m, modulus)` from a grid of integers: cells
are first default-constructed (`GFElement()` is the zero of GF(2)) and then
assigned for the columns present in both the first row and the current row. -/
def ofGrid (grid : List (List Nat)) (p m : Nat) (modulus : List Nat) : Except Err Matrix :=
  let cols := (grid.head?.getD []).length
  match grid.mapM (fun (row : List Nat) =>
      (List.range cols).mapM (fun j =>
        match row[j]? with
        | some v => GFElement.ofValue v p m modulus
        | none => GFElement.new 2 1 [1, 1])) with
  | .error e => .error e
  | .ok data =>
    .ok { rows := grid.length, cols := cols, p := p, m := m, modulus := modulus, data := data }

end Matrix
/-! ## Concrete field elements used in the statements below -/

/-- The element `x` of GF(4) built with modulus `x^2 + x + 1`. -/
def gf4X : GFElement := { p := 2, m := 2, modulus := [1, 1, 1], coeffs := [0, 1] }

/-- The element `x + 1` of GF(4). -/
def gf4X1 : GFElement := { p := 2, m := 2, modulus := [1, 1, 1], coeffs := [1, 1] }

/-- The element `1` of GF(4). -/
def gf4One : GFElement := { p := 2, m := 2, modulus := [1, 1, 1], coeffs := [1, 0] }

/-- The element `0` of GF(4). -/
def gf4Zero : GFElement := { p := 2, m := 2, modulus := [1, 1, 1], coeffs := [0, 0] }

/-- Membership of an element in the prime field GF(p): characteristic `p`,
degree one, a single coefficient below `p`. -/
def GFElement.InPrimeField (p : Nat) (a : GFElement) : Prop :=
  a.p = p ∧ a.m = 1 ∧ a.coeffs.length = 1 ∧ ∀ c ∈ a.coeffs, c < p

instance GFElement.instDecidableInPrimeField (p : Nat) (a : GFElement) :
    Decidable (GFElement.InPrimeField p a) := by
  unfold GFElement.InPrimeField
  infer_instance

/-- The element `e` is the member `x` of the prime field GF(p), written with
its canonical representative. -/
def ElemRep (p : Nat) (e : GFElement) (x : ZMod p) : Prop :=
  e.p = p ∧ e.m = 1 ∧ e.coeffs = [x.val]

/-! ## Matrices over a prime field and their values in `ZMod p` -/

/-- A matrix over the prime field GF(p): field descriptor `(p, 1)`, `rows`
stored rows of `cols` entries each, every entry an element of GF(p). -/
def Matrix.OverPrimeField (p : Nat) (M : Matrix) : Prop :=
  M.p = p ∧ M.m = 1 ∧ M.data.length = M.rows ∧
    ∀ row ∈ M.data, row.length = M.cols ∧ ∀ e ∈ row, e.InPrimeField p

instance Matrix.instDecidableOverPrimeField (p : Nat) (M : Matrix) :
    Decidable (M.OverPrimeField p) := by
  unfold Matrix.OverPrimeField
  infer_instance

/-- The entry `(i, j)` of a matrix read as a member of `ZMod p` (zero outside
the stored range). -/
def Matrix.toZMod (p : Nat) (M : Matrix) (i j : Nat) : ZMod p :=
  match M.getEntry i j with
  | .ok e => ((e.coeffs.getD 0 0 : Nat) : ZMod p)
  | .error _ => 0

/-- The matrix `M` is an `r` by `c` matrix over GF(p) whose entry `(i, j)` is
`f i j` for all indices in range. -/
def MatRep (p : Nat) (M : Matrix) (r c : Nat) (f : Nat → Nat → ZMod p) : Prop :=
  M.rows = r ∧ M.cols = c ∧ M.p = p ∧ M.m = 1 ∧ M.data.length = r ∧
    (∀ row ∈ M.data, row.length = c) ∧
    ∀ i j, i < r → j < c → ∃ e, M.getEntry i j = .ok e ∧ ElemRep p e (f i j)

/-- Values after the write `data_[a][b] = x`. -/
def pSet {p : Nat} (f : Nat → Nat → ZMod p) (a b : Nat) (x : ZMod p) : Nat → Nat → ZMod p :=
  fun i j => if i = a ∧ j = b then x else f i j

/-- Values after `swapRows(a, b)`. -/
def pSwap {p : Nat} (f : Nat → Nat → ZMod p) (a b : Nat) : Nat → Nat → ZMod p :=
  fun i j => if i = a then f b j else if i = b then f a j else f i j

/-- Values after `multiplyRow(a, s)`. -/
def pScale {p : Nat} (f : Nat → Nat → ZMod p) (a : Nat) (s : ZMod p) : Nat → Nat → ZMod p :=
  fun i j => if i = a then f a j * s else f i j

/-- Values after `addRow(dest, src, s)`. -/
def pAdd {p : Nat} (f : Nat → Nat → ZMod p) (dest src : Nat) (s : ZMod p) :
    Nat → Nat → ZMod p :=
  fun i j => if i = dest then f dest j + f src j * s else f i j

/-! ## The elimination passes on values -/

/-- The search of `findPivot` on values: the first row `i` among the `n` rows
starting at `i` whose entry in column `col` is nonzero. -/
def pFindAux {p : Nat} (f : Nat → Nat → ZMod p) (col : Nat) : Nat → Nat → Option Nat
  | 0, _ => none
  | n + 1, i => if f i col = 0 then pFindAux f col n (i + 1) else some i

/-- Values after the loop that clears column `col` in the rows below `cr`
(rows `cr + 1 .. r - 1`), using row `cr`. -/
def pElimBelow {p : Nat} (f : Nat → Nat → ZMod p) (cr col r : Nat) : Nat → Nat → ZMod p :=
  fun i j => if cr < i ∧ i < r then f i j - f cr j * f i col else f i j

/-- Values after the loop that clears column `col` in the rows above `idx`,
using row `idx`. -/
def pElimAbove {p : Nat} (f : Nat → Nat → ZMod p) (idx col : Nat) : Nat → Nat → ZMod p :=
  fun i j => if i < idx then f i j - f idx j * f i col else f i j

/-- State of the forward loop on values: entries, row pointer, pivot columns. -/
structure PState (p : Nat) where
  f : Nat → Nat → ZMod p
  cr : Nat
  piv : List Nat

/-- One round of the forward loop on values, for column `col`. -/
def pStep {p : Nat} (r col : Nat) (s : PState p) : PState p :=
  match pFindAux s.f col (r - s.cr) s.cr with
  | none => s
  | some pr =>
    { f := pElimBelow (pScale (pSwap s.f s.cr pr) s.cr (s.f pr col)⁻¹) s.cr col r,
      cr := s.cr + 1,
      piv := s.piv ++ [col] }

/-- The forward loop on values; `n` columns are left, `col` is the current one. -/
def pForward {p : Nat} (r : Nat) : Nat → Nat → PState p → PState p
  | 0, _, s => s
  | n + 1, col, s => if s.cr < r then pForward r n (col + 1) (pStep r col s) else s

/-- The backward loop on values; `n` pivots are left to process. -/
def pBackward {p : Nat} (piv : List Nat) : Nat → (Nat → Nat → ZMod p) → Nat → Nat → ZMod p
  | 0, f => f
  | n + 1, f => pBackward piv n (pElimAbove f n (piv.getD n 0))

/-- The result `res` of an elimination pass holds the values, pivot columns
and rank of the state `s`. -/
def ResRep (p : Nat) (res : GaussResult) (r c : Nat) (s : PState p) : Prop :=
  MatRep p res.matrix r c s.f ∧ res.pivotCols = s.piv ∧ res.rank = s.cr

/-- Row-echelon shape of the values `f` of an `r`-row matrix with pivot
columns `piv`, established for the columns before `col`: the pivots are
strictly increasing and lie before `col`; row `k` has a one at its pivot
column, zeros to the left of it and zeros below it; the rows from
`piv.length` on are zero in the columns before `col`. -/
def Echelon {p : Nat} (r : Nat) (f : Nat → Nat → ZMod p) (piv : List Nat) (col : Nat) : Prop :=
  piv.length ≤ r ∧ piv.Pairwise (fun a b => a < b) ∧ (∀ q ∈ piv, q < col) ∧
    (∀ k, k < piv.length →
      f k (piv.getD k 0) = 1 ∧ (∀ j, j < piv.getD k 0 → f k j = 0) ∧
        ∀ i, k < i → i < r → f i (piv.getD k 0) = 0) ∧
    (∀ i j, piv.length ≤ i → i < r → j < col → f i j = 0)

/-- The entry `(i, j)` is stored and `isZero()` holds for it. -/
def Matrix.EntryIsZero (M : Matrix) (i j : Nat) : Prop :=
  ∃ e, M.getEntry i j = .ok e ∧ e.isZero = true

/-- The entry `(i, j)` is stored and `isOne()` holds for it. -/
def Matrix.EntryIsOne (M : Matrix) (i j : Nat) : Prop :=
  ∃ e, M.getEntry i j = .ok e ∧ e.isOne = true

/-- The bookkeeping of an elimination result for the input `A`: the rank is
the number of pivot columns, these are strictly increasing column indices of
`A`, and the rank is at most `min(rows, cols)`. -/
def GaussInv (A : Matrix) (res : GaussResult) : Prop :=
  res.rank = res.pivotCols.length ∧ res.pivotCols.Pairwise (fun a b => a < b) ∧
    (∀ q ∈ res.pivotCols, q < A.cols) ∧ res.rank ≤ min A.rows A.cols

/-- The pivot columns with index `n` and higher are cleared above their
pivot row. -/
def Reduced {p : Nat} (f : Nat → Nat → ZMod p) (piv : List Nat) (n : Nat) : Prop :=
  ∀ k, n ≤ k → k < piv.length → ∀ i, i < k → f i (piv.getD k 0) = 0

/-! ## Concrete matrices used in the statements below -/

/-- The element with value `v` of the prime field GF(3). -/
def gf3 (v : Nat) : GFElement := { p := 3, m := 1, modulus := [1, 1], coeffs := [v] }

/-- The matrix `[[1, 2], [2, 2]]` over GF(3). -/
def exampleGF3 : Matrix :=
  { rows := 2, cols := 2, p := 3, m := 1, modulus := [1, 1],
    data := [[gf3 1, gf3 2], [gf3 2, gf3 2]] }

/-- The singular matrix `[[1, 2], [2, 1]]` over GF(3). -/
def singularGF3 : Matrix :=
  { rows := 2, cols := 2, p := 3, m := 1, modulus := [1, 1],
    data := [[gf3 1, gf3 2], [gf3 2, gf3 1]] }

/-- Among the pivot columns `piv`, exactly the first `cr` lie before column
`col`. -/
def PivotsBefore (piv : List Nat) (cr col : Nat) : Prop :=
  cr ≤ piv.length ∧ (∀ k, k < cr → piv.getD k 0 < col) ∧
    ∀ k, cr ≤ k → k < piv.length → col ≤ piv.getD k 0

/-! ## Values of the augmented matrix used by `inverse` -/

/-- Values of the augmented matrix `[A | I]` for an `n` by `n` matrix `A`. -/
def pAugment {p : Nat} (n : Nat) (f : Nat → Nat → ZMod p) : Nat → Nat → ZMod p :=
  fun i j => if j < n then f i j else if j - n = i then 1 else 0

/-- The values `g` and `f` agree in the first `n` columns. -/
def AgreeLeft {p : Nat} (n : Nat) (g f : Nat → Nat → ZMod p) : Prop :=
  ∀ i j, j < n → g i j = f i j

/-- The row `v` of an augmented matrix satisfies `right part * A = left part`
for the `n` by `n` values `f` of `A`. -/
def RowOK {p : Nat} (n : Nat) (f : Nat → Nat → ZMod p) (v : Nat → ZMod p) : Prop :=
  ∀ j, j < n → (∑ t in Finset.range n, v (n + t) * f t j) = v j

/-! ## A matrix in row-echelon form over GF(2) -/

/-- The element with value `v` of the prime field GF(2). -/
def gf2 (v : Nat) : GFElement := { p := 2, m := 1, modulus := [1, 1], coeffs := [v] }

/-- The matrix `[[1, 1], [0, 1]]` over GF(2): it is in row-echelon form, both
rows are nonzero and their first nonzero entries are in columns 0 and 1. -/
def echelonGF2 : Matrix :=
  { rows := 2, cols := 2, p := 2, m := 1, modulus := [1, 1],
    data := [[gf2 1, gf2 1], [gf2 0, gf2 1]] }

/-! ## Rows of a matrix as vectors -/

/-- Row `i` of the values `f`, as a vector with `c` coordinates. -/
def pRow {p : Nat} (c : Nat) (f : Nat → Nat → ZMod p) (i : Nat) : Fin c → ZMod p :=
  fun j => f i j

/-! ## Matrices on which `addRow` changes the rank -/

/-- The 1 by 1 matrix `[[1]]` over GF(2). -/
def unitGF2 : Matrix :=
  { rows := 1, cols := 1, p := 2, m := 1, modulus := [1, 1], data := [[gf2 1]] }

/-- The element with value `v` of the prime field GF(65537). -/
def gf65537 (v : Nat) : GFElement :=
  { p := 65537, m := 1, modulus := [1, 1], coeffs := [v] }

/-- The matrix `[[1, 65536], [0, 1]]` over GF(65537). -/
def wideGF65537 : Matrix :=
  { rows := 2, cols := 2, p := 65537, m := 1, modulus := [1, 1],
    data := [[gf65537 1, gf65537 65536], [gf65537 0, gf65537 1]] }

/-! ## Elements of a field GF(p^m) given by `(p, m, modulus)` -/

/-- Representation invariant of an element: exactly `m` coefficients, each in
`[0, p)`. -/
def GFElement.Canonical (e : GFElement) : Prop :=
  e.coeffs.length = e.m ∧ ∀ c ∈ e.coeffs, c < e.p

instance GFElement.instDecidableCanonical (e : GFElement) : Decidable e.Canonical := by
  unfold GFElement.Canonical
  infer_instance

/-- A modulus for degree `m`: exactly `m + 1` coefficients, the leading one
nonzero. -/
def ValidModulus (m : Nat) (modulus : List Nat) : Prop :=
  modulus.length = m + 1 ∧ modulus.getLastD 0 ≠ 0

instance instDecidableValidModulus (m : Nat) (modulus : List Nat) :
    Decidable (ValidModulus m modulus) := by
  unfold ValidModulus
  infer_instance

/-- Membership of an element in the field described by `(p, m, modulus)`. -/
def GFElement.InField (p m : Nat) (modulus : List Nat) (e : GFElement) : Prop :=
  e.p = p ∧ e.m = m ∧ e.modulus = modulus ∧ e.Canonical

instance GFElement.instDecidableInField (p m : Nat) (modulus : List Nat) (e : GFElement) :
    Decidable (e.InField p m modulus) := by
  unfold GFElement.InField
  infer_instance

/-! ## Coefficient sequences read in `ZMod p` -/

/-- The list `cs` holds `m` coefficients below `p` whose values in `ZMod p` are
`g 0, ..., g (m - 1)`. -/
def CoeffRep (p m : Nat) (cs : List Nat) (g : Nat → ZMod p) : Prop :=
  cs.length = m ∧ ∀ k, k < m → cs.getD k 0 < p ∧ ((cs.getD k 0 : Nat) : ZMod p) = g k

/-- Coefficient `k` of the product of the polynomials with coefficients
`g 0 .. g (la - 1)` and `h 0 .. h (lb - 1)`. -/
def pConv {p : Nat} (la lb : Nat) (g h : Nat → ZMod p) (k : Nat) : ZMod p :=
  ∑ i in Finset.range la, ∑ j in Finset.range lb, if i + j = k then g i * h j else 0

/-- Coefficient `k` of an element, read in `ZMod p`. -/
def GFElement.coeffZ (p : Nat) (e : GFElement) (k : Nat) : ZMod p :=
  ((e.coeffs.getD k 0 : Nat) : ZMod p)

/-! ## Submatrices and the search for an invertible submatrix -/

/-- The struct `SubmatrixInfo`. -/
structure SubmatrixInfo where
  rows : List Nat
  cols : List Nat
  submatrix : Matrix
deriving DecidableEq, Repr

/-- The `submatrix` member: a fresh `rowIndices.size()` by `colIndices.size()`
matrix filled with `data_[rowIndices[i]][colIndices[j]]`. -/
def Matrix.submatrix (A : Matrix) (rowIndices colIndices : List Nat) : Except Err Matrix :=
  match Matrix.new rowIndices.length colIndices.length A.p A.m A.modulus with
  | .error e => .error e
  | .ok result =>
    forRange
      (fun i (result : Matrix) =>
        forRange
          (fun j (result : Matrix) =>
            match A.getEntry (rowIndices.getD i 0) (colIndices.getD j 0) with
            | .error e => .error e
            | .ok x => result.setEntry i j x)
          0 colIndices.length result)
      0 rowIndices.length result

/-- The comparison `a < b` of two `bool` values (`false < true`). -/
def boolLt (a b : Bool) : Bool := !a && b

/-- The loop `while (!(*--j < *i))` of `std::prev_permutation`: the largest
index below `n` whose element of `tail` is smaller than `x`. -/
def lastSmaller (x : Bool) (tail : List Bool) : Nat → Nat
  | 0 => 0
  | n + 1 => if boolLt (tail.getD n x) x then n else lastSmaller x tail n

/-- The successful case of `std::prev_permutation` on a `std::vector<bool>`:
the rightmost position `i` with `v[i + 1] < v[i]` is located, `v[i]` is
swapped with the last element behind it that is smaller, and the part behind
position `i` is reversed; `none` when there is no such position. -/
def prevPermStep : List Bool → Option (List Bool)
  | [] => none
  | x :: tail =>
    match prevPermStep tail with
    | some tail' => some (x :: tail')
    | none =>
      if boolLt (tail.getD 0 x) x then
        let j := lastSmaller x tail tail.length
        some (tail.getD j x :: (tail.set j x).reverse)
      else none

/-- The standard-library algorithm `std::prev_permutation` on a
`std::vector<bool>` (its code is not part of the repository; the definition
follows the C++ standard and the usual implementation): the previous
permutation in lexicographic order and `true`, or, when the vector is already
the smallest permutation, the reversed vector and `false`. -/
def prevPermutation (v : List Bool) : List Bool × Bool :=
  match prevPermStep v with
  | some v' => (v', true)
  | none => (v.reverse, false)

/-- The loop `for (i = 0; i < n; ++i) if (selector[i]) selected.push_back(i)`,
with `i` the index of the head of the remaining selector. -/
def selectedFrom : Nat → List Bool → List Nat
  | _, [] => []
  | i, b :: rest => if b then i :: selectedFrom (i + 1) rest else selectedFrom (i + 1) rest

/-- A selector `std::vector<bool>(n, false)` whose first `size` entries were
set by `std::fill`. -/
def initSelector (n size : Nat) : List Bool :=
  (List.range n).map (fun i => decide (i < size))

/-- A loop `do { body } while (std::prev_permutation(selector))` whose body can
return from the enclosing function (`some`); one unit of `budget` per
repetition. -/
def doWhilePrev {α : Type} (body : List Bool → Except Err (Option α)) :
    Nat → List Bool → Except Err (Option α)
  | budget, selector =>
    match body selector with
    | .error e => .error e
    | .ok (some r) => .ok (some r)
    | .ok none =>
      match prevPermutation selector with
      | (next, true) =>
        (match budget with
          | 0 => .error .outOfFuel
          | budget + 1 => doWhilePrev body budget next)
      | (_, false) => .ok none

namespace Matrix

/-- The body of the inner loop of `findInvertibleSubmatrix`: extract the
submatrix for the selected rows and columns and test it. -/
def trySelection (fuel : Nat) (A : Matrix) (selectedRows : List Nat) (colSelector : List Bool) :
    Except Err (Option SubmatrixInfo) :=
  let selectedCols := selectedFrom 0 colSelector
  match A.submatrix selectedRows selectedCols with
  | .error e => .error e
  | .ok sub =>
    match sub.isInvertible fuel with
    | .error e => .error e
    | .ok true => .ok (some { rows := selectedRows, cols := selectedCols, submatrix := sub })
    | .ok false => .ok none

/-- The body of the outer loop of `findInvertibleSubmatrix`: all column
selections for one row selection. -/
def tryRows (fuel : Nat) (A : Matrix) (size : Nat) (rowSelector : List Bool) :
    Except Err (Option SubmatrixInfo) :=
  doWhilePrev (trySelection fuel A (selectedFrom 0 rowSelector)) fuel (initSelector A.cols size)

/-- The loop `for (size = maxSize; size >= 1; --size)` of
`findInvertibleSubmatrix`; the argument is the current `size`. -/
def sizeLoop (fuel : Nat) (A : Matrix) : Nat → Except Err (Option SubmatrixInfo)
  | 0 => .ok none
  | size + 1 =>
    match doWhilePrev (tryRows fuel A (size + 1)) fuel (initSelector A.rows (size + 1)) with
    | .error e => .error e
    | .ok (some r) => .ok (some r)
    | .ok none => sizeLoop fuel A size

/-- The `findInvertibleSubmatrix` member; `none` is `std::nullopt`. -/
def findInvertibleSubmatrix (fuel : Nat) (A : Matrix) : Except Err (Option SubmatrixInfo) :=
  sizeLoop fuel A (min A.rows A.cols)

end Matrix

/-! ## The selectors visited by the search loops -/

/-- All selectors of length `n` with exactly `k` entries `true`, in the order
in which repeated `std::prev_permutation` produces them, starting from the
selector whose first `k` entries are `true`. -/
def selectors : Nat → Nat → List (List Bool)
  | 0, 0 => [[]]
  | 0, _ + 1 => []
  | n + 1, 0 => [List.replicate (n + 1) false]
  | n + 1, k + 1 =>
    (selectors n k).map (fun s => true :: s) ++ (selectors n (k + 1)).map (fun s => false :: s)

/-! ## Matrices used as inputs of the submatrix search -/

/-- The 1 by 1 zero matrix `[[0]]` over GF(2). -/
def zeroGF2 : Matrix :=
  { rows := 1, cols := 1, p := 2, m := 1, modulus := [1, 1], data := [[gf2 0]] }

/-- The result of the search on `[[1, 2], [2, 1]]` over GF(3): row 0, column
0, the 1 by 1 matrix `[[1]]`. -/
def singularGF3Info : SubmatrixInfo :=
  { rows := [0], cols := [0],
    submatrix := { rows := 1, cols := 1, p := 3, m := 1, modulus := [1, 1],
                   data := [[gf3 1]] } }

/-- The result of the search on `[[1, 2], [2, 2]]` over GF(3): the matrix
itself. -/
def exampleGF3Info : SubmatrixInfo :=
  { rows := [0, 1], cols := [0, 1], submatrix := exampleGF3 }

/-! ## Matrix construction from elements, sums, differences, vector products -/

namespace Matrix

/-- Constructor `Matrix(data)` from a grid of elements: the grid is copied as
it is; the field descriptor is taken from the first entry when there is one
(with modulus `{1, 1}`), and otherwise `p_` and `m_` are left uninitialised
(`p0` and `m0` stand for their indeterminate values). -/
def ofElements (data : List (List GFElement)) (p0 m0 : Nat) : Matrix :=
  let cols := (data.head?.getD []).length
  match data.head?.bind List.head? with
  | some e =>
    { rows := data.length, cols := cols, p := e.p, m := e.m, modulus := [1, 1], data := data }
  | none =>
    { rows := data.length, cols := cols, p := p0, m := m0, modulus := [], data := data }

/-- The entry `data_[i][j] + other.data_[i][j]` of the matrix sum. -/
def addEntry (fuel : Nat) (A B : Matrix) (i j : Nat) : Except Err GFElement :=
  match A.getEntry i j with
  | .error e => .error e
  | .ok a =>
    match B.getEntry i j with
    | .error e => .error e
    | .ok b => a.add fuel b

/-- The `operator+(const Matrix&)` member. -/
def add (fuel : Nat) (A B : Matrix) : Except Err Matrix :=
  if A.rows ≠ B.rows ∨ A.cols ≠ B.cols then .error .invalidArgument
  else
    match Matrix.new A.rows A.cols A.p A.m A.modulus with
    | .error e => .error e
    | .ok z =>
      forRange
        (fun i (R : Matrix) =>
          forRange
            (fun j (R : Matrix) =>
              match addEntry fuel A B i j with
              | .error e => .error e
              | .ok s => R.setEntry i j s)
            0 A.cols R)
        0 A.rows z

/-- The entry `data_[i][j] - other.data_[i][j]` of the matrix difference. -/
def subEntry (fuel : Nat) (A B : Matrix) (i j : Nat) : Except Err GFElement :=
  match A.getEntry i j with
  | .error e => .error e
  | .ok a =>
    match B.getEntry i j with
    | .error e => .error e
    | .ok b => a.sub fuel b

/-- The `operator-(const Matrix&)` member. -/
def sub (fuel : Nat) (A B : Matrix) : Except Err Matrix :=
  if A.rows ≠ B.rows ∨ A.cols ≠ B.cols then .error .invalidArgument
  else
    match Matrix.new A.rows A.cols A.p A.m A.modulus with
    | .error e => .error e
    | .ok z =>
      forRange
        (fun i (R : Matrix) =>
          forRange
            (fun j (R : Matrix) =>
              match subEntry fuel A B i j with
              | .error e => .error e
              | .ok s => R.setEntry i j s)
            0 A.cols R)
        0 A.rows z

/-- The accumulation `sum = 0; for (j...) sum += data_[i][j] * vec[j]` of the
matrix-vector product. -/
def dotVec (fuel : Nat) (A : Matrix) (vec : List GFElement) (i : Nat) : Except Err GFElement :=
  match GFElement.new A.p A.m A.modulus with
  | .error e => .error e
  | .ok zero =>
    forRange
      (fun j (sum : GFElement) =>
        match A.getEntry i j with
        | .error e => .error e
        | .ok a =>
          match vec[j]? with
          | none => .error .outOfBounds
          | some v =>
            match a.mul fuel v with
            | .error e => .error e
            | .ok av => sum.add fuel av)
      0 A.cols zero

/-- The `operator*(const std::vector<GFElement>&)` member. -/
def mulVec (fuel : Nat) (A : Matrix) (vec : List GFElement) : Except Err (List GFElement) :=
  if vec.length ≠ A.cols then .error .invalidArgument
  else
    match GFElement.new A.p A.m A.modulus with
    | .error e => .error e
    | .ok z =>
      forRange
        (fun i (result : List GFElement) =>
          match dotVec fuel A vec i with
          | .error e => .error e
          | .ok sum => .ok (result.set i sum))
        0 A.rows (List.replicate A.rows z)

end Matrix

/-! ## Matrices over a field GF(p^m) given by `(p, m, modulus)` -/

/-- A matrix over the field `(p, m, modulus)`: that field descriptor, `rows`
stored rows of `cols` entries each, every entry an element of the field. -/
def Matrix.OverField (p m : Nat) (modulus : List Nat) (M : Matrix) : Prop :=
  M.p = p ∧ M.m = m ∧ M.modulus = modulus ∧ M.data.length = M.rows ∧
    ∀ row ∈ M.data, row.length = M.cols ∧ ∀ e ∈ row, e.InField p m modulus

instance Matrix.instDecidableOverField (p m : Nat) (modulus : List Nat) (M : Matrix) :
    Decidable (M.OverField p m modulus) := by
  unfold Matrix.OverField
  infer_instance

/-- The stored data of `M` are `r` rows of `c` entries each. -/
def Matrix.Shaped (M : Matrix) (r c : Nat) : Prop :=
  M.data.length = r ∧ ∀ row ∈ M.data, row.length = c

/-- Spec-side definition for the entries of a matrix product: the field sum,
starting from `zero` and taken for `k' = 0, ..., n - 1` in this order, of
`A(i, k') * B(k', j)`, where `A(i, k')` is the bounds-checked accessor. -/
def sumInOrder (fuel : Nat) (A B : Matrix) (i j : Nat) (zero : GFElement) :
    Nat → Except Err GFElement
  | 0 => .ok zero
  | n + 1 =>
    match sumInOrder fuel A B i j zero n with
    | .error e => .error e
    | .ok sum =>
      match A.«at» i n with
      | .error e => .error e
      | .ok a =>
        match B.«at» n j with
        | .error e => .error e
        | .ok b =>
          match a.mul fuel b with
          | .error e => .error e
          | .ok ab => sum.add fuel ab

/-- The matrices `M` and `N` have the same dimensions and field descriptor. -/
def Matrix.SameHeader (M N : Matrix) : Prop :=
  M.rows = N.rows ∧ M.cols = N.cols ∧ M.p = N.p ∧ M.m = N.m ∧ M.modulus = N.modulus

/-! ## Transposition, and `addRow` as a transformer of the stored matrix -/

namespace Matrix

/-- The `transpose` member. -/
def transpose (M : Matrix) : Except Err Matrix :=
  match Matrix.new M.cols M.rows M.p M.m M.modulus with
  | .error e => .error e
  | .ok z =>
    forRange
      (fun i (R : Matrix) =>
        forRange
          (fun j (R : Matrix) =>
            match M.getEntry i j with
            | .error e => .error e
            | .ok x => R.setEntry j i x)
          0 M.cols R)
      0 M.rows z

end Matrix

/-- Loop `for (k = lo; k < lo + n; ++k) body(k)` on an object modified in
place: the state reached, and the exception that ended the loop, if any. A
body that throws leaves the state as it was before that round. -/
def forRangeState {σ : Type} (body : Nat → σ → Except Err σ) : Nat → Nat → σ → σ × Option Err
  | _, 0, s => (s, none)
  | lo, n + 1, s =>
    match body lo s with
    | .error e => (s, some e)
    | .ok s' => forRangeState body (lo + 1) n s'

/-- The `addRow` member as a transformer of `*this`: the matrix after the
call, and the exception thrown, if any. -/
def Matrix.addRowInPlace (fuel : Nat) (M : Matrix) (dest src : Nat) (scalar : GFElement) :
    Matrix × Option Err :=
  if M.rows ≤ dest ∨ M.rows ≤ src then (M, some .outOfRange)
  else
    forRangeState
      (fun j (M : Matrix) =>
        match M.getEntry src j with
        | .error e => .error e
        | .ok x =>
          match x.mul fuel scalar with
          | .error e => .error e
          | .ok xs =>
            match M.getEntry dest j with
            | .error e => .error e
            | .ok d =>
              match d.add fuel xs with
              | .error e => .error e
              | .ok y => M.setEntry dest j y)
      0 M.cols M

/-- The coefficient `k` of the product of the integer polynomials with
coefficients `a 0, ..., a (n - 1)` and `b 0, ..., b (w - 1)`. -/
def nConv (n w : Nat) (a b : Nat → Nat) (k : Nat) : Nat :=
  ∑ i in Finset.range n, ∑ j in Finset.range w, if i + j = k then a i * b j else 0

/-! ## Matrices over GF(4) used in the statements below -/

/-- The matrix `[[x, 1], [x + 1, 0]]` over GF(4) with modulus `x^2 + x + 1`. -/
def exampleGF4 : Matrix :=
  { rows := 2, cols := 2, p := 2, m := 2, modulus := [1, 1, 1],
    data := [[gf4X, gf4One], [gf4X1, gf4Zero]] }

/-- The 2 by 3 matrix `[[1, x, x + 1], [0, x, 1]]` over GF(4). -/
def wideGF4 : Matrix :=
  { rows := 2, cols := 3, p := 2, m := 2, modulus := [1, 1, 1],
    data := [[gf4One, gf4X, gf4X1], [gf4Zero, gf4X, gf4One]] }

/-! ## Elimination results without their step log -/

/-- The result `res` with an empty step log. -/
def GaussResult.withoutSteps (res : GaussResult) : GaussResult :=
  { res with steps := [] }

/-- The left `r` by `r` block of the `r` by `c` matrix `M` has the pattern of
an identity matrix under the tests of the elimination: on the diagonal
`isOne()` holds and `isZero()` does not, off the diagonal `isZero()` holds. -/
def Matrix.UnitLeft (M : Matrix) (r c : Nat) : Prop :=
  M.rows = r ∧ M.cols = c ∧ r ≤ c ∧ M.Shaped r c ∧
    ∀ i j, i < r → j < r →
      ∃ e, M.getEntry i j = .ok e ∧
        (i = j → e.isOne = true ∧ e.isZero = false) ∧ (i ≠ j → e.isZero = true)

/-! ## Facts about the polynomial helpers -/

theorem popZerosAux_length_pos (k : Nat) : ∀ (n : Nat) (v : List Nat), 0 < v.length →
    0 < (popZerosAux (k + 1) n v).length := by
  intro n
  induction n with
  | zero => intro v hv; simpa [popZerosAux] using hv
  | succ n ih =>
    intro v hv
    unfold popZerosAux
    split
    · rename_i h
      apply ih
      rw [List.length_dropLast]
      omega
    · exact hv

theorem popZeros_length_pos (k : Nat) (v : List Nat) (hv : 0 < v.length) :
    0 < (popZeros (k + 1) v).length :=
  popZerosAux_length_pos k v.length v hv

theorem subShifted_length (p coeff : Nat) (divisor remainder : List Nat) :
    (subShifted p coeff divisor remainder).length = remainder.length := by
  unfold subShifted
  generalize List.range divisor.length = l
  induction l generalizing remainder with
  | nil => rfl
  | cons i l ih => rw [List.foldl_cons, ih]; simp

/-- Once the divisor is a constant polynomial the quotient loop of `inverse`
never leaves: every budget is used up. -/
theorem quotientLoop_constant_divisor (p c : Nat) : ∀ (fuel : Nat) (s : GFElement.QuotState),
    popZeros 1 s.divisor = [c] → s.divisor.length ≤ s.dividend.length → 0 < s.dividend.length →
    GFElement.quotientLoop p fuel s = .error .outOfFuel := by
  intro fuel
  induction fuel with
  | zero =>
    intro s _ hle _
    unfold GFElement.quotientLoop
    simp [hle]
  | succ n ih =>
    intro s hd hle hpos
    unfold GFElement.quotientLoop
    have h1 : 0 < (popZeros 1 s.dividend).length := popZeros_length_pos 0 _ hpos
    have h2 : ¬ (popZeros 1 s.dividend).length < 1 := by omega
    simp only [hle, if_true, hd, List.length_singleton, h2, if_false]
    apply ih
    · rfl
    · simp only [subShifted_length, List.length_singleton]; omega
    · simp only [subShifted_length]; exact h1

theorem polyModLoop_mono (p : Nat) (d : List Nat) : ∀ (fuel : Nat) (r x : List Nat),
    polyModLoop p d fuel r = .ok x → ∀ k, polyModLoop p d (fuel + k) r = .ok x := by
  intro fuel
  induction fuel with
  | zero =>
    intro r x h k
    unfold polyModLoop at h ⊢
    split at h
    · simp at h
    · rename_i hc; simp only [hc, if_false]; exact h
  | succ n ih =>
    intro r x h k
    rw [Nat.add_right_comm]
    unfold polyModLoop at h ⊢
    split at h
    · rename_i hc
      simp only [hc, if_true] at h ⊢
      split at h
      · rename_i hlt; simp only [hlt, if_true]; exact h
      · rename_i hlt; simp only [hlt, if_false]; exact ih _ _ h k
    · rename_i hc; simp only [hc, if_false]; exact h

theorem polyMod_mono (fuel p : Nat) (a b x : List Nat) (h : polyMod fuel p a b = .ok x)
    (k : Nat) : polyMod (fuel + k) p a b = .ok x := by
  unfold polyMod at h ⊢
  by_cases h1 : b = [] ∨ (b.length = 1 ∧ b.getD 0 0 = 0)
  · simp only [h1, if_true] at h; cases h
  · by_cases h2 : (popZeros 1 b).length = 1 ∧ (popZeros 1 b).getD 0 0 = 0
    · simp only [h1, h2, if_true, if_false] at h; cases h
    · simp only [h1, h2, if_false] at h ⊢
      cases hl : polyModLoop p (popZeros 1 b) fuel a with
      | error e => simp only [hl] at h; cases h
      | ok r =>
        rw [polyModLoop_mono p _ fuel a r hl k]
        simpa only [hl] using h

theorem quotientLoop_mono (p : Nat) : ∀ (fuel : Nat) (s t : GFElement.QuotState),
    GFElement.quotientLoop p fuel s = .ok t →
    ∀ k, GFElement.quotientLoop p (fuel + k) s = .ok t := by
  intro fuel
  induction fuel with
  | zero =>
    intro s t h k
    unfold GFElement.quotientLoop at h ⊢
    split at h
    · simp at h
    · rename_i hc; simp only [hc, if_false]; exact h
  | succ n ih =>
    intro s t h k
    rw [Nat.add_right_comm]
    unfold GFElement.quotientLoop at h ⊢
    split at h
    · rename_i hc
      simp only [hc, if_true] at h ⊢
      split at h
      · rename_i hlt; simp only [hlt, if_true]; exact h
      · rename_i hlt; simp only [hlt, if_false]; exact ih _ _ h k
    · rename_i hc; simp only [hc, if_false]; exact h

/-- Second round of the Euclid loop for `x` in GF(4): the divisor is the
constant `1`, and the round never ends. -/
theorem euclid_second_round (budget fuel : Nat) (s0 s1 : List Nat) :
    GFElement.euclidLoop 2 budget fuel { r0 := [0, 1], r1 := [1], s0 := s0, s1 := s1 }
      = .error .outOfFuel := by
  unfold GFElement.euclidLoop
  have hq : GFElement.quotientLoop 2 budget { dividend := [0, 1], divisor := [1], quotient := [] }
      = .error .outOfFuel :=
    quotientLoop_constant_divisor 2 1 budget _ rfl (by decide) (by decide)
  have hnz : allZero [1] = false := by decide
  simp only [hnz, if_true]
  cases fuel with
  | zero => rfl
  | succ n =>
    simp only [hq]
    cases budget with
    | zero =>
      have h0 : polyMod 0 2 [0, 1] [1] = .error .outOfFuel := by decide!
      simp only [h0]
    | succ b =>
      have h1 : polyMod (b + 1) 2 [0, 1] [1] = .ok [0] := by
        rw [Nat.add_comm]; exact polyMod_mono 1 2 _ _ _ (by decide!) b
      simp only [h1]

/-! ## Arithmetic of the prime field GF(p) -/

section PrimeField

variable {p : Nat} [hp : Fact p.Prime]

theorem two_le_prime : 2 ≤ p := hp.out.two_le

theorem inPrimeField_iff (e : GFElement) : e.InPrimeField p ↔ ∃ x : ZMod p, ElemRep p e x := by
  constructor
  · rintro ⟨h1, h2, h3, h4⟩
    obtain ⟨c, hc⟩ := List.length_eq_one.mp h3
    have hcp : c < p := h4 c (by simp [hc])
    refine ⟨(c : ZMod p), h1, h2, ?_⟩
    rw [ZMod.val_natCast, Nat.mod_eq_of_lt hcp, hc]
  · rintro ⟨x, h1, h2, h3⟩
    refine ⟨h1, h2, by rw [h3]; rfl, ?_⟩
    intro c hc
    rw [h3] at hc
    simp only [List.mem_singleton] at hc
    rw [hc]
    exact ZMod.val_lt x

theorem range_one : List.range 1 = [0] := rfl

theorem u32_of_lt {n : Nat} (h : n < 4294967296) : u32 n = n := Nat.mod_eq_of_lt h

theorem val_lt_u16 (hlt : p < 65536) (x : ZMod p) : x.val < 65536 :=
  lt_trans (ZMod.val_lt x) hlt

theorem val_mul_lt (hlt : p < 65536) (x y : ZMod p) : x.val * y.val < 4294967296 := by
  have hx := val_lt_u16 hlt x
  have hy := val_lt_u16 hlt y
  calc x.val * y.val ≤ 65535 * 65535 := Nat.mul_le_mul (by omega) (by omega)
    _ < 4294967296 := by norm_num

theorem ofCoeffs_prime (fuel c : Nat) (modulus : List Nat) :
    GFElement.ofCoeffs fuel [c] p 1 modulus
      = .ok { p := p, m := 1, modulus := modulus, coeffs := [c % p] } := by
  have h2 : ¬ p < 2 := by have := two_le_prime (p := p); omega
  simp [GFElement.ofCoeffs, GFElement.reduceModulo, GFElement.reduce, h2]

theorem elem_add (fuel : Nat) (hlt : p < 65536) {a b : GFElement} {x y : ZMod p}
    (ha : ElemRep p a x) (hb : ElemRep p b y) :
    ∃ r, a.add fuel b = .ok r ∧ ElemRep p r (x + y) := by
  obtain ⟨ha1, ha2, ha3⟩ := ha
  obtain ⟨hb1, hb2, hb3⟩ := hb
  have hx := val_lt_u16 hlt x
  have hy := val_lt_u16 hlt y
  have hs : u32 (x.val + y.val) = x.val + y.val := u32_of_lt (by omega)
  refine ⟨{ p := p, m := 1, modulus := a.modulus, coeffs := [(x + y).val] }, ?_, rfl, rfl, rfl⟩
  unfold GFElement.add
  rw [if_neg (by simp [ha1, ha2, hb1, hb2])]
  simp only [ha1, ha2, ha3, hb3, range_one, List.map_cons, List.map_nil, List.getD_cons_zero,
    hs, ofCoeffs_prime, Nat.mod_mod, ZMod.val_add]

theorem elem_mul (fuel : Nat) (hlt : p < 65536) {a b : GFElement} {x y : ZMod p}
    (ha : ElemRep p a x) (hb : ElemRep p b y) :
    ∃ r, a.mul fuel b = .ok r ∧ ElemRep p r (x * y) := by
  obtain ⟨ha1, ha2, ha3⟩ := ha
  obtain ⟨hb1, hb2, hb3⟩ := hb
  have hm := val_mul_lt hlt x y
  have hs : u32 (x.val * y.val) = x.val * y.val := u32_of_lt hm
  have hpm : polyMul p [x.val] [y.val] = [x.val * y.val % p] := by
    simp [polyMul, range_one, hs]
  refine ⟨{ p := p, m := 1, modulus := a.modulus, coeffs := [(x * y).val] }, ?_, rfl, rfl, rfl⟩
  unfold GFElement.mul
  rw [if_neg (by simp [ha1, ha2, hb1, hb2])]
  simp only [ha1, ha2, ha3, hb3, hpm, ofCoeffs_prime, Nat.mod_mod, ZMod.val_mul]

theorem elem_neg (fuel : Nat) (hlt : p < 65536) {a : GFElement} {x : ZMod p}
    (ha : ElemRep p a x) :
    ∃ r, a.neg fuel = .ok r ∧ ElemRep p r (-x) := by
  obtain ⟨ha1, ha2, ha3⟩ := ha
  have hx := ZMod.val_lt x
  have hs : usub p x.val = p - x.val := by
    unfold usub
    have : p + 4294967296 - x.val = 4294967296 + (p - x.val) := by omega
    rw [this, u32, Nat.add_mod_left, Nat.mod_eq_of_lt (by omega)]
  have hv : (-x).val = (p - x.val) % p := by
    rw [ZMod.neg_val]
    split
    · rename_i h0; simp [h0]
    · rename_i h0
      have : 0 < x.val := Nat.pos_of_ne_zero (fun h => h0 ((ZMod.val_eq_zero x).mp h))
      rw [Nat.mod_eq_of_lt (by omega)]
  refine ⟨{ p := p, m := 1, modulus := a.modulus, coeffs := [(-x).val] }, ?_, rfl, rfl, rfl⟩
  unfold GFElement.neg
  simp only [ha1, ha2, ha3, range_one, List.map_cons, List.map_nil, List.getD_cons_zero,
    hs, ofCoeffs_prime, Nat.mod_mod, hv]

theorem elem_isZero {a : GFElement} {x : ZMod p} (ha : ElemRep p a x) :
    a.isZero = true ↔ x = 0 := by
  obtain ⟨_, _, ha3⟩ := ha
  simp [GFElement.isZero, allZero, ha3, ZMod.val_eq_zero]

theorem elem_isOne {a : GFElement} {x : ZMod p} (ha : ElemRep p a x) :
    a.isOne = true ↔ x = 1 := by
  obtain ⟨_, _, ha3⟩ := ha
  have h1 : (1 : ZMod p).val = 1 := by
    haveI : Fact (1 < p) := ⟨hp.out.one_lt⟩
    exact ZMod.val_one p
  have : x.val = 1 ↔ x = 1 := by
    constructor
    · intro h; apply ZMod.val_injective p; rw [h, h1]
    · intro h; rw [h, h1]
  simp [GFElement.isOne, allZero, ha3, this]

theorem elem_eq {a b : GFElement} {x y : ZMod p} (ha : ElemRep p a x) (hb : ElemRep p b y) :
    a.eq b = true ↔ x = y := by
  obtain ⟨ha1, ha2, ha3⟩ := ha
  obtain ⟨hb1, hb2, hb3⟩ := hb
  have : x.val = y.val ↔ x = y := ⟨fun h => ZMod.val_injective p h, fun h => by rw [h]⟩
  simp [GFElement.eq, ha1, ha2, ha3, hb1, hb2, hb3, this]

theorem elem_new (modulus : List Nat) :
    ∃ z, GFElement.new p 1 modulus = .ok z ∧ ElemRep p z 0 := by
  have h2 : ¬ p < 2 := by have := two_le_prime (p := p); omega
  refine ⟨{ p := p, m := 1, modulus := modulus, coeffs := [0] }, ?_, rfl, rfl, ?_⟩
  · simp [GFElement.new, h2]
  · simp

theorem elem_ofValue (v : Nat) (modulus : List Nat) :
    ∃ z, GFElement.ofValue v p 1 modulus = .ok z ∧ ElemRep p z (v : ZMod p) := by
  have h2 : ¬ p < 2 := by have := two_le_prime (p := p); omega
  refine ⟨{ p := p, m := 1, modulus := modulus, coeffs := [v % p] }, ?_, rfl, rfl, ?_⟩
  · simp [GFElement.ofValue, h2]
  · simp [ZMod.val_natCast]

theorem findInvAux_first (q lead : Nat) : ∀ (n i j : Nat), i ≤ j → j < i + n →
    u32 (lead * j) % q = 1 → (∀ k, i ≤ k → k < j → u32 (lead * k) % q ≠ 1) →
    findInvAux q lead n i = some j := by
  intro n
  induction n with
  | zero => intro i j h1 h2; omega
  | succ n ih =>
    intro i j h1 h2 h3 h4
    unfold findInvAux
    by_cases hij : i = j
    · rw [hij, if_pos h3]
    · rw [if_neg (h4 i (le_refl i) (by omega))]
      exact ih (i + 1) j (by omega) (by omega) h3 (fun k hk1 hk2 => h4 k (by omega) hk2)

theorem findInv_prime (hlt : p < 65536) (x : ZMod p) (hx : x ≠ 0) :
    findInv p x.val = some x⁻¹.val := by
  have hp2 := two_le_prime (p := p)
  have hinv : x * x⁻¹ = 1 := mul_inv_cancel₀ hx
  have hinv0 : x⁻¹ ≠ 0 := inv_ne_zero hx
  have h1 : (1 : ZMod p).val = 1 := by
    haveI : Fact (1 < p) := ⟨hp.out.one_lt⟩
    exact ZMod.val_one p
  have hj0 : 0 < x⁻¹.val := Nat.pos_of_ne_zero (fun h => hinv0 ((ZMod.val_eq_zero _).mp h))
  have hjp : x⁻¹.val < p := ZMod.val_lt _
  unfold findInv
  apply findInvAux_first p x.val (p - 1) 1 x⁻¹.val (by omega) (by omega)
  · rw [u32_of_lt (val_mul_lt hlt x x⁻¹), ← ZMod.val_mul, hinv, h1]
  · intro k hk1 hk2 hk
    have hkp : k < p := by omega
    have hkv : ((k : ZMod p)).val = k := ZMod.val_cast_of_lt hkp
    have hm : x.val * k < 4294967296 := by
      have := val_mul_lt hlt x (k : ZMod p)
      rwa [hkv] at this
    rw [u32_of_lt hm] at hk
    have hxk : x * (k : ZMod p) = 1 := by
      apply ZMod.val_injective p
      rw [ZMod.val_mul, hkv, hk, h1]
    have hke : (k : ZMod p) = x⁻¹ := by
      have := congrArg (fun t => x⁻¹ * t) hxk
      simp only [mul_one] at this
      rw [← mul_assoc, inv_mul_cancel₀ hx, one_mul] at this
      exact this
    rw [← hke, hkv] at hk2
    exact lt_irrefl _ hk2

theorem elem_inverse (fuel : Nat) (hlt : p < 65536) {a : GFElement} {x : ZMod p}
    (ha : ElemRep p a x) (hx : x ≠ 0) :
    ∃ r, a.inverse fuel = .ok r ∧ ElemRep p r x⁻¹ := by
  have hz : ¬ a.isZero = true := fun h => hx ((elem_isZero ha).mp h)
  obtain ⟨ha1, ha2, ha3⟩ := ha
  have h2 : ¬ p < 2 := by have := two_le_prime (p := p); omega
  refine ⟨{ p := p, m := 1, modulus := a.modulus, coeffs := [x⁻¹.val] }, ?_, rfl, rfl, rfl⟩
  unfold GFElement.inverse
  rw [if_neg hz, if_pos ha2]
  simp only [ha1, ha2, ha3, List.getD_cons_zero, findInv_prime hlt x hx, GFElement.ofValue, h2,
    if_false, Nat.lt_irrefl, if_true, Nat.mod_eq_of_lt (ZMod.val_lt x⁻¹)]

end PrimeField

/-! ## Loop rules -/

theorem matrix_bind_ok {x : Except Err Matrix} {a : Matrix} {f : Matrix → Except Err Matrix}
    {b : Matrix} (hx : x = Except.ok a) (hf : f a = Except.ok b) :
    (match x with
      | Except.error e => Except.error e
      | Except.ok v => f v) = Except.ok b := by
  rw [hx]; exact hf

theorem forRange_inv {σ : Type} (Inv : Nat → σ → Prop) (body : Nat → σ → Except Err σ) :
    ∀ (n lo : Nat) (s : σ), Inv lo s →
      (∀ k t, lo ≤ k → k < lo + n → Inv k t → ∃ t', body k t = .ok t' ∧ Inv (k + 1) t') →
      ∃ s', forRange body lo n s = .ok s' ∧ Inv (lo + n) s' := by
  intro n
  induction n with
  | zero => intro lo s h0 _; exact ⟨s, rfl, h0⟩
  | succ n ih =>
    intro lo s h0 hstep
    obtain ⟨t, ht, hinv⟩ := hstep lo s (le_refl lo) (by omega) h0
    obtain ⟨s', hs', hinv'⟩ := ih (lo + 1) t hinv
      (fun k u hk1 hk2 hu => hstep k u (by omega) (by omega) hu)
    refine ⟨s', ?_, ?_⟩
    · rw [forRange, ht]; exact hs'
    · rw [← Nat.add_assoc, Nat.add_right_comm]; exact hinv'

theorem forDown_inv {σ : Type} (Inv : Nat → σ → Prop) (body : Nat → σ → Except Err σ) :
    ∀ (n : Nat) (s : σ), Inv n s →
      (∀ k t, k < n → Inv (k + 1) t → ∃ t', body k t = .ok t' ∧ Inv k t') →
      ∃ s', forDown body n s = .ok s' ∧ Inv 0 s' := by
  intro n
  induction n with
  | zero => intro s h0 _; exact ⟨s, rfl, h0⟩
  | succ n ih =>
    intro s h0 hstep
    obtain ⟨t, ht, hinv⟩ := hstep n s (by omega) h0
    obtain ⟨s', hs', hinv'⟩ := ih t hinv (fun k u hk hu => hstep k u (by omega) hu)
    exact ⟨s', by rw [forDown, ht]; exact hs', hinv'⟩

/-- Partial-correctness rule: a property kept by every successful body is
kept by the loop. -/
theorem forRange_preserves {σ : Type} (P : σ → Prop) (body : Nat → σ → Except Err σ)
    (hbody : ∀ k s t, P s → body k s = .ok t → P t) :
    ∀ (n lo : Nat) (s t : σ), P s → forRange body lo n s = .ok t → P t := by
  intro n
  induction n with
  | zero => intro lo s t hs h; rw [forRange] at h; cases h; exact hs
  | succ n ih =>
    intro lo s t hs h
    rw [forRange] at h
    cases hb : body lo s with
    | error e => rw [hb] at h; cases h
    | ok u => rw [hb] at h; exact ih (lo + 1) u t (hbody lo s u hs hb) h

theorem forDown_preserves {σ : Type} (P : σ → Prop) (body : Nat → σ → Except Err σ)
    (hbody : ∀ k s t, P s → body k s = .ok t → P t) :
    ∀ (n : Nat) (s t : σ), P s → forDown body n s = .ok t → P t := by
  intro n
  induction n with
  | zero => intro s t hs h; rw [forDown] at h; cases h; exact hs
  | succ n ih =>
    intro s t hs h
    rw [forDown] at h
    cases hb : body n s with
    | error e => rw [hb] at h; cases h
    | ok u => rw [hb] at h; exact ih u t (hbody n s u hs hb) h

/-! ## Reading and writing entries -/

section MatrixRep

variable {p : Nat} [hp : Fact p.Prime]

theorem MatRep.congr {M : Matrix} {r c : Nat} {f g : Nat → Nat → ZMod p}
    (h : MatRep p M r c f) (hfg : ∀ i j, i < r → j < c → f i j = g i j) : MatRep p M r c g := by
  obtain ⟨h1, h2, h3, h4, h5, h6, h7⟩ := h
  refine ⟨h1, h2, h3, h4, h5, h6, ?_⟩
  intro i j hi hj
  rw [← hfg i j hi hj]
  exact h7 i j hi hj

theorem getEntry_eq {M : Matrix} {i j : Nat} {row : List GFElement} {e : GFElement}
    (h1 : M.data[i]? = some row) (h2 : row[j]? = some e) : M.getEntry i j = .ok e := by
  simp [Matrix.getEntry, h1, h2]

theorem getEntry_ok_iff {M : Matrix} {i j : Nat} {e : GFElement} :
    M.getEntry i j = .ok e ↔ ∃ row, M.data[i]? = some row ∧ row[j]? = some e := by
  unfold Matrix.getEntry
  cases h1 : M.data[i]? with
  | none => simp
  | some row =>
    cases h2 : row[j]? with
    | none => simp [h2]
    | some x => simp [h2]

theorem matRep_row {M : Matrix} {r c : Nat} {f : Nat → Nat → ZMod p}
    (h : MatRep p M r c f) {i : Nat} (hi : i < r) :
    ∃ row, M.data[i]? = some row ∧ row.length = c := by
  obtain ⟨_, _, _, _, h5, h6, _⟩ := h
  have hlt : i < M.data.length := by omega
  exact ⟨M.data[i], List.getElem?_eq_getElem hlt, h6 _ (List.getElem_mem hlt)⟩

theorem matRep_setEntry {M : Matrix} {r c : Nat} {f : Nat → Nat → ZMod p}
    (h : MatRep p M r c f) {a b : Nat} (ha : a < r) (hb : b < c) {e : GFElement} {x : ZMod p}
    (he : ElemRep p e x) :
    ∃ M', M.setEntry a b e = .ok M' ∧ MatRep p M' r c (pSet f a b x) := by
  obtain ⟨row, hrow, hlen⟩ := matRep_row h ha
  obtain ⟨h1, h2, h3, h4, h5, h6, h7⟩ := h
  refine ⟨{ M with data := M.data.set a (row.set b e) }, ?_, h1, h2, h3, h4, ?_, ?_, ?_⟩
  · simp [Matrix.setEntry, hrow, hlen, hb]
  · simp [h5]
  · intro row' hmem
    rcases List.mem_or_eq_of_mem_set hmem with hm | hm
    · exact h6 _ hm
    · rw [hm, List.length_set]; exact hlen
  · intro i j hi hj
    by_cases hia : i = a
    · subst hia
      have hd : (M.data.set i (row.set b e))[i]? = some (row.set b e) := by
        rw [List.getElem?_set_self (by omega)]
      by_cases hjb : j = b
      · subst hjb
        refine ⟨e, getEntry_eq hd (by rw [List.getElem?_set_self (by omega)]), ?_⟩
        simpa [pSet] using he
      · obtain ⟨e', he', hr'⟩ := h7 i j hi hj
        obtain ⟨row2, hrow2, hj2⟩ := getEntry_ok_iff.mp he'
        rw [hrow] at hrow2
        cases hrow2
        refine ⟨e', getEntry_eq hd (by rw [List.getElem?_set_ne (Ne.symm hjb)]; exact hj2), ?_⟩
        simpa [pSet, hjb] using hr'
    · obtain ⟨e', he', hr'⟩ := h7 i j hi hj
      obtain ⟨row2, hrow2, hj2⟩ := getEntry_ok_iff.mp he'
      refine ⟨e', getEntry_eq (by rw [List.getElem?_set_ne (Ne.symm hia)]; exact hrow2) hj2, ?_⟩
      simpa [pSet, hia] using hr'

theorem matRep_overPrimeField {M : Matrix} {r c : Nat} {f : Nat → Nat → ZMod p}
    (h : MatRep p M r c f) : M.OverPrimeField p := by
  obtain ⟨h1, h2, h3, h4, h5, h6, h7⟩ := h
  refine ⟨h3, h4, by omega, ?_⟩
  intro row hrow
  refine ⟨by rw [h6 row hrow, h2], ?_⟩
  intro e he
  obtain ⟨i, hi, hri⟩ := List.mem_iff_getElem.mp hrow
  obtain ⟨j, hj, hej⟩ := List.mem_iff_getElem.mp he
  have hjc : j < c := by rw [← h6 row hrow]; exact hj
  obtain ⟨e', he', hr'⟩ := h7 i j (by omega) hjc
  obtain ⟨row2, hrow2, hj2⟩ := getEntry_ok_iff.mp he'
  rw [List.getElem?_eq_getElem hi, hri] at hrow2
  cases hrow2
  rw [List.getElem?_eq_getElem hj, hej] at hj2
  cases hj2
  exact (inPrimeField_iff e).mpr ⟨_, hr'⟩

theorem overPrimeField_matRep {M : Matrix} (h : M.OverPrimeField p) :
    MatRep p M M.rows M.cols (M.toZMod p) := by
  obtain ⟨h1, h2, h3, h4⟩ := h
  refine ⟨rfl, rfl, h1, h2, h3, fun row hrow => (h4 row hrow).1, ?_⟩
  intro i j hi hj
  have hi' : i < M.data.length := by omega
  have hrow := List.getElem_mem hi'
  have hj' : j < (M.data[i]).length := by rw [(h4 _ hrow).1]; exact hj
  have he := List.getElem_mem hj'
  have hget : M.getEntry i j = .ok (M.data[i])[j] :=
    getEntry_eq (List.getElem?_eq_getElem hi') (List.getElem?_eq_getElem hj')
  refine ⟨_, hget, ?_⟩
  obtain ⟨x, hx⟩ := (inPrimeField_iff _).mp ((h4 _ hrow).2 _ he)
  have hz : M.toZMod p i j = x := by
    unfold Matrix.toZMod
    rw [hget]
    simp only [hx.2.2, List.getD_cons_zero]
    exact ZMod.natCast_zmod_val x
  rw [hz]
  exact hx

theorem matRep_toZMod {M : Matrix} {r c : Nat} {f : Nat → Nat → ZMod p}
    (h : MatRep p M r c f) {i j : Nat} (hi : i < r) (hj : j < c) : M.toZMod p i j = f i j := by
  obtain ⟨e, he, hr⟩ := h.2.2.2.2.2.2 i j hi hj
  unfold Matrix.toZMod
  rw [he]
  simp only [hr.2.2, List.getD_cons_zero]
  exact ZMod.natCast_zmod_val _

/-! ## Elementary row operations -/

theorem matRep_swapRows {M : Matrix} {r c : Nat} {f : Nat → Nat → ZMod p}
    (h : MatRep p M r c f) {a b : Nat} (ha : a < r) (hb : b < r) :
    ∃ M', M.swapRows a b = .ok M' ∧ MatRep p M' r c (pSwap f a b) := by
  obtain ⟨ra, hra, hla⟩ := matRep_row h ha
  obtain ⟨rb, hrb, hlb⟩ := matRep_row h hb
  obtain ⟨h1, h2, h3, h4, h5, h6, h7⟩ := h
  refine ⟨{ M with data := (M.data.set a rb).set b ra }, ?_, h1, h2, h3, h4, ?_, ?_, ?_⟩
  · have hn : ¬ (M.rows ≤ a ∨ M.rows ≤ b) := by omega
    simp [Matrix.swapRows, hn, hra, hrb]
  · simp [h5]
  · intro row' hmem
    rcases List.mem_or_eq_of_mem_set hmem with hm | hm
    · rcases List.mem_or_eq_of_mem_set hm with hm' | hm'
      · exact h6 _ hm'
      · rw [hm']; exact hlb
    · rw [hm]; exact hla
  · intro i j hi hj
    have key : ∀ (src : Nat) (row : List GFElement), src < r → M.data[src]? = some row →
        ((M.data.set a rb).set b ra)[i]? = some row →
        ∃ e, Matrix.getEntry { M with data := (M.data.set a rb).set b ra } i j = .ok e ∧
          ElemRep p e (f src j) := by
      intro src row hsrc hrow hnew
      obtain ⟨e', he', hr'⟩ := h7 src j hsrc hj
      obtain ⟨row2, hrow2, hj2⟩ := getEntry_ok_iff.mp he'
      rw [hrow] at hrow2
      cases hrow2
      exact ⟨e', getEntry_eq hnew hj2, hr'⟩
    by_cases hib : i = b
    · subst hib
      have hnew : ((M.data.set a rb).set i ra)[i]? = some ra := by
        rw [List.getElem?_set_self (by simp; omega)]
      obtain ⟨e, he, hr⟩ := key a ra ha hra hnew
      refine ⟨e, he, ?_⟩
      by_cases hia : i = a
      · subst hia; simpa [pSwap] using hr
      · simpa [pSwap, hia] using hr
    · by_cases hia : i = a
      · subst hia
        have hnew : ((M.data.set i rb).set b ra)[i]? = some rb := by
          rw [List.getElem?_set_ne (Ne.symm hib), List.getElem?_set_self (by omega)]
        obtain ⟨e, he, hr⟩ := key b rb hb hrb hnew
        exact ⟨e, he, by simpa [pSwap] using hr⟩
      · obtain ⟨ri, hri, _⟩ := matRep_row ⟨h1, h2, h3, h4, h5, h6, h7⟩ hi
        have hnew : ((M.data.set a rb).set b ra)[i]? = some ri := by
          rw [List.getElem?_set_ne (Ne.symm hib), List.getElem?_set_ne (Ne.symm hia)]
          exact hri
        obtain ⟨e, he, hr⟩ := key i ri hi hri hnew
        exact ⟨e, he, by simpa [pSwap, hia, hib] using hr⟩

theorem matRep_multiplyRow (fuel : Nat) (hlt : p < 65536) {M : Matrix} {r c : Nat}
    {f : Nat → Nat → ZMod p} (h : MatRep p M r c f) {a : Nat} (ha : a < r)
    {s : GFElement} {x : ZMod p} (hs : ElemRep p s x) :
    ∃ M', M.multiplyRow fuel a s = .ok M' ∧ MatRep p M' r c (pScale f a x) := by
  have hrows : M.rows = r := h.1
  have hcols : M.cols = c := h.2.1
  unfold Matrix.multiplyRow
  rw [if_neg (by omega), hcols]
  obtain ⟨M', hM', hinv⟩ := forRange_inv
    (fun k (N : Matrix) => MatRep p N r c (fun i j => if i = a ∧ j < k then f a j * x else f i j))
    (fun j (N : Matrix) =>
      match N.getEntry a j with
      | .error e => .error e
      | .ok y =>
        match y.mul fuel s with
        | .error e => .error e
        | .ok z => N.setEntry a j z)
    c 0 M (h.congr (fun i j _ _ => by simp))
    (by
      intro k N _ hk hN
      obtain ⟨e, he, hr⟩ := hN.2.2.2.2.2.2 a k ha (by omega)
      obtain ⟨z, hz, hzr⟩ := elem_mul fuel hlt hr hs
      obtain ⟨N', hN', hrep⟩ := matRep_setEntry hN ha (by omega : k < c) hzr
      refine ⟨N', ?_, hrep.congr ?_⟩
      · simp only [he, hz]; exact hN'
      · intro i j _ _
        simp only [pSet]
        by_cases hia : i = a
        · by_cases hjk : j = k
          · subst hia; subst hjk; simp
          · have : j < k + 1 ↔ j < k := by omega
            simp [hia, hjk, this]
        · simp [hia])
  refine ⟨M', hM', hinv.congr ?_⟩
  intro i j _ hj
  simp only [pScale, Nat.zero_add]
  by_cases hia : i = a
  · simp [hia, hj]
  · simp [hia]

theorem matRep_addRow (fuel : Nat) (hlt : p < 65536) {M : Matrix} {r c : Nat}
    {f : Nat → Nat → ZMod p} (h : MatRep p M r c f) {dest src : Nat} (hd : dest < r)
    (hsrc : src < r) {s : GFElement} {x : ZMod p} (hs : ElemRep p s x) :
    ∃ M', M.addRow fuel dest src s = .ok M' ∧ MatRep p M' r c (pAdd f dest src x) := by
  have hrows : M.rows = r := h.1
  have hcols : M.cols = c := h.2.1
  unfold Matrix.addRow
  rw [if_neg (by omega), hcols]
  obtain ⟨M', hM', hinv⟩ := forRange_inv
    (fun k (N : Matrix) =>
      MatRep p N r c (fun i j => if i = dest ∧ j < k then f dest j + f src j * x else f i j))
    (fun j (N : Matrix) =>
      match N.getEntry src j with
      | .error e => .error e
      | .ok y =>
        match y.mul fuel s with
        | .error e => .error e
        | .ok ys =>
          match N.getEntry dest j with
          | .error e => .error e
          | .ok d =>
            match d.add fuel ys with
            | .error e => .error e
            | .ok z => N.setEntry dest j z)
    c 0 M (h.congr (fun i j _ _ => by simp))
    (by
      intro k N _ hk hN
      obtain ⟨e, he, hr⟩ := hN.2.2.2.2.2.2 src k hsrc (by omega)
      obtain ⟨d, hde, hdr⟩ := hN.2.2.2.2.2.2 dest k hd (by omega)
      simp only [Nat.lt_irrefl, and_false, if_false] at hr hdr
      obtain ⟨ys, hys, hysr⟩ := elem_mul fuel hlt hr hs
      obtain ⟨z, hz, hzr⟩ := elem_add fuel hlt hdr hysr
      obtain ⟨N', hN', hrep⟩ := matRep_setEntry hN hd (by omega : k < c) hzr
      refine ⟨N', ?_, hrep.congr ?_⟩
      · simp only [he, hys, hde, hz]; exact hN'
      · intro i j _ _
        simp only [pSet]
        by_cases hia : i = dest
        · by_cases hjk : j = k
          · subst hia; subst hjk; simp
          · have : j < k + 1 ↔ j < k := by omega
            simp [hia, hjk, this]
        · simp [hia])
  refine ⟨M', hM', hinv.congr ?_⟩
  intro i j _ hj
  simp only [pAdd, Nat.zero_add]
  by_cases hia : i = dest
  · simp [hia, hj]
  · simp [hia]

end MatrixRep

/-! ## The forward pass computes `pForward` -/

@[simp] theorem logStep_matrix (b : Bool) (res : GaussResult) (l : String) :
    (Matrix.logStep b res l).matrix = res.matrix := by
  unfold Matrix.logStep; split <;> rfl

@[simp] theorem logStep_pivotCols (b : Bool) (res : GaussResult) (l : String) :
    (Matrix.logStep b res l).pivotCols = res.pivotCols := by
  unfold Matrix.logStep; split <;> rfl

@[simp] theorem logStep_rank (b : Bool) (res : GaussResult) (l : String) :
    (Matrix.logStep b res l).rank = res.rank := by
  unfold Matrix.logStep; split <;> rfl

section ForwardRefinement

variable {p : Nat} [hp : Fact p.Prime]

theorem findPivotAux_spec {M : Matrix} {r c : Nat} {f : Nat → Nat → ZMod p}
    (h : MatRep p M r c f) {col : Nat} (hcol : col < c) :
    ∀ n i, i + n ≤ r → M.findPivotAux col n i = .ok (pFindAux f col n i) := by
  intro n
  induction n with
  | zero => intro i _; rfl
  | succ n ih =>
    intro i hi
    obtain ⟨e, he, hr⟩ := h.2.2.2.2.2.2 i col (by omega) hcol
    unfold Matrix.findPivotAux pFindAux
    simp only [he]
    by_cases hz : f i col = 0
    · rw [if_pos ((elem_isZero hr).mpr hz), if_pos hz]
      exact ih (i + 1) (by omega)
    · rw [if_neg (fun hh => hz ((elem_isZero hr).mp hh)), if_neg hz]

theorem pFindAux_some {f : Nat → Nat → ZMod p} {col : Nat} :
    ∀ n i pr, pFindAux f col n i = some pr →
      i ≤ pr ∧ pr < i + n ∧ f pr col ≠ 0 ∧ ∀ k, i ≤ k → k < pr → f k col = 0 := by
  intro n
  induction n with
  | zero => intro i pr h; simp [pFindAux] at h
  | succ n ih =>
    intro i pr h
    unfold pFindAux at h
    by_cases hz : f i col = 0
    · rw [if_pos hz] at h
      obtain ⟨h1, h2, h3, h4⟩ := ih (i + 1) pr h
      refine ⟨by omega, by omega, h3, ?_⟩
      intro k hk1 hk2
      by_cases hki : k = i
      · rw [hki]; exact hz
      · exact h4 k (by omega) hk2
    · rw [if_neg hz] at h
      cases h
      exact ⟨le_refl _, by omega, hz, fun k hk1 hk2 => by omega⟩

theorem pFindAux_none {f : Nat → Nat → ZMod p} {col : Nat} :
    ∀ n i, pFindAux f col n i = none → ∀ k, i ≤ k → k < i + n → f k col = 0 := by
  intro n
  induction n with
  | zero => intro i _ k h1 h2; omega
  | succ n ih =>
    intro i h k hk1 hk2
    unfold pFindAux at h
    by_cases hz : f i col = 0
    · rw [if_pos hz] at h
      by_cases hki : k = i
      · rw [hki]; exact hz
      · exact ih (i + 1) h k (by omega) (by omega)
    · rw [if_neg hz] at h; cases h

theorem eliminateEntry_spec (fuel : Nat) (hlt : p < 65536) (edu : Bool) {res : GaussResult}
    {r c : Nat} {f : Nat → Nat → ZMod p} (h : MatRep p res.matrix r c f) {src col row : Nat}
    (hsrc : src < r) (hrow : row < r) (hcol : col < c) :
    ∃ res', Matrix.eliminateEntry fuel edu src col row res = .ok res' ∧
      MatRep p res'.matrix r c (pAdd f row src (-(f row col))) ∧
      res'.pivotCols = res.pivotCols ∧ res'.rank = res.rank := by
  obtain ⟨e, he, hr⟩ := h.2.2.2.2.2.2 row col hrow hcol
  unfold Matrix.eliminateEntry
  simp only [he]
  by_cases hz : f row col = 0
  · rw [if_pos ((elem_isZero hr).mpr hz)]
    refine ⟨res, rfl, h.congr ?_, rfl, rfl⟩
    intro i j _ _
    simp only [pAdd, hz, neg_zero, mul_zero, add_zero]
    split
    · rename_i hi; rw [hi]
    · rfl
  · rw [if_neg (fun hh => hz ((elem_isZero hr).mp hh))]
    obtain ⟨factor, hfac, hfr⟩ := elem_neg fuel hlt hr
    obtain ⟨M', hM', hrep⟩ := matRep_addRow fuel hlt h hrow hsrc hfr
    simp only [hfac, hM']
    exact ⟨_, rfl, by simpa using hrep, by simp, by simp⟩

theorem elimBelow_spec (fuel : Nat) (hlt : p < 65536) (edu : Bool) {res : GaussResult}
    {r c : Nat} {f : Nat → Nat → ZMod p} (h : MatRep p res.matrix r c f) {cr col : Nat}
    (hcr : cr < r) (hcol : col < c) :
    ∃ res', forRange (Matrix.eliminateEntry fuel edu cr col) (cr + 1) (r - (cr + 1)) res
        = .ok res' ∧
      MatRep p res'.matrix r c (pElimBelow f cr col r) ∧
      res'.pivotCols = res.pivotCols ∧ res'.rank = res.rank := by
  obtain ⟨res', hres', hinv⟩ := forRange_inv
    (fun k (t : GaussResult) => MatRep p t.matrix r c (pElimBelow f cr col k) ∧
      t.pivotCols = res.pivotCols ∧ t.rank = res.rank)
    (Matrix.eliminateEntry fuel edu cr col) (r - (cr + 1)) (cr + 1) res
    ⟨h.congr (fun i j _ _ => by
        simp only [pElimBelow]
        rw [if_neg (by omega)]), rfl, rfl⟩
    (by
      intro k t hk1 hk2 ⟨ht, htp, htr⟩
      obtain ⟨t', ht', hrep, hp', hr'⟩ :=
        eliminateEntry_spec fuel hlt edu ht hcr (by omega : k < r) hcol
      refine ⟨t', ht', hrep.congr ?_, by rw [hp', htp], by rw [hr', htr]⟩
      intro i j _ _
      simp only [pAdd, pElimBelow]
      by_cases hik : i = k
      · subst hik
        rw [if_pos rfl, if_neg (by omega), if_neg (by omega), if_neg (by omega),
          if_pos (by omega)]
        ring
      · rw [if_neg hik]
        by_cases hlo : cr < i ∧ i < k
        · rw [if_pos hlo, if_pos (by omega)]
        · rw [if_neg hlo, if_neg (by omega)])
  have hend : cr + 1 + (r - (cr + 1)) = r := by omega
  rw [hend] at hinv
  exact ⟨res', hres', hinv⟩

theorem swapStep_spec (edu : Bool) {res : GaussResult} {r c : Nat} {f : Nat → Nat → ZMod p}
    (h : MatRep p res.matrix r c f) (col : Nat) {cr pr : Nat} (hcr : cr < r) (hpr : pr < r) :
    ∃ res', Matrix.swapStep edu col cr pr res = .ok res' ∧
      MatRep p res'.matrix r c (pSwap f cr pr) ∧
      res'.pivotCols = res.pivotCols ∧ res'.rank = res.rank := by
  unfold Matrix.swapStep
  by_cases hne : pr = cr
  · rw [if_neg (by simp [hne])]
    refine ⟨res, rfl, h.congr ?_, rfl, rfl⟩
    intro i j _ _
    simp only [pSwap, hne]
    split
    · rename_i hi; rw [hi]
    · rfl
  · rw [if_pos hne]
    obtain ⟨M', hM', hrep⟩ := matRep_swapRows h hcr hpr
    simp only [hM']
    exact ⟨_, rfl, by simpa using hrep, by simp, by simp⟩

theorem normalizeStep_spec (fuel : Nat) (hlt : p < 65536) (edu : Bool) {res : GaussResult}
    {r c : Nat} {f : Nat → Nat → ZMod p} (h : MatRep p res.matrix r c f) {col cr : Nat}
    (hcr : cr < r) (hcol : col < c) (hnz : f cr col ≠ 0) :
    ∃ res', Matrix.normalizeStep fuel edu col cr res = .ok res' ∧
      MatRep p res'.matrix r c (pScale f cr (f cr col)⁻¹) ∧
      res'.pivotCols = res.pivotCols ∧ res'.rank = res.rank := by
  obtain ⟨e, he, hr⟩ := h.2.2.2.2.2.2 cr col hcr hcol
  unfold Matrix.normalizeStep
  simp only [he]
  by_cases hone : f cr col = 1
  · rw [if_pos ((elem_isOne hr).mpr hone)]
    refine ⟨res, rfl, h.congr ?_, rfl, rfl⟩
    intro i j _ _
    simp only [pScale, hone, inv_one, mul_one]
    split
    · rename_i hi; rw [hi]
    · rfl
  · rw [if_neg (fun hh => hone ((elem_isOne hr).mp hh))]
    obtain ⟨inv, hinv, hir⟩ := elem_inverse fuel hlt hr hnz
    obtain ⟨M', hM', hrep⟩ := matRep_multiplyRow fuel hlt h hcr hir
    simp only [hinv, hM']
    exact ⟨_, rfl, by simpa using hrep, by simp, by simp⟩

theorem forwardStep_spec (fuel : Nat) (hlt : p < 65536) (edu : Bool) {res : GaussResult}
    {r c : Nat} {s : PState p} (h : ResRep p res r c s) {col : Nat} (hcr : s.cr < r)
    (hcol : col < c) :
    ∃ res', Matrix.forwardStep fuel edu r col res s.cr = .ok (res', (pStep r col s).cr) ∧
      ResRep p res' r c (pStep r col s) := by
  obtain ⟨hM, hpiv, hrank⟩ := h
  have hrows : res.matrix.rows = r := hM.1
  have hfind : res.matrix.findPivot col s.cr = .ok (pFindAux s.f col (r - s.cr) s.cr) := by
    unfold Matrix.findPivot
    rw [hrows]
    exact findPivotAux_spec hM hcol _ _ (by omega)
  unfold Matrix.forwardStep pStep
  simp only [hfind]
  cases hf : pFindAux s.f col (r - s.cr) s.cr with
  | none =>
    refine ⟨_, rfl, ?_, ?_, ?_⟩
    · simpa using hM
    · simpa using hpiv
    · simpa using hrank
  | some pr =>
    obtain ⟨h1, h2, h3, _⟩ := pFindAux_some _ _ _ hf
    have hpr : pr < r := by omega
    obtain ⟨res1, hres1, hrep1, hp1, hr1⟩ := swapStep_spec edu hM col hcr hpr
    have hpiv1 : (pSwap s.f s.cr pr) s.cr col = s.f pr col := by simp [pSwap]
    have hrep1' : MatRep p
        ({ res1 with pivotCols := res1.pivotCols ++ [col] } : GaussResult).matrix r c
        (pSwap s.f s.cr pr) := hrep1
    obtain ⟨res3, hres3, hrep3, hp3, hr3⟩ :=
      normalizeStep_spec fuel hlt edu hrep1' hcr hcol (by rw [hpiv1]; exact h3)
    obtain ⟨res4, hres4, hrep4, hp4, hr4⟩ := elimBelow_spec fuel hlt edu hrep3 hcr hcol
    simp only [hres1, hres3, hres4]
    refine ⟨_, rfl, ?_, ?_, ?_⟩
    · rw [hpiv1] at hrep4; exact hrep4
    · simp only [hp4, hp3, hp1, hpiv]
    · simp only [hr4, hr3, hr1, hrank]

theorem forwardLoop_spec (fuel : Nat) (hlt : p < 65536) (edu : Bool) {r c : Nat} :
    ∀ (n col : Nat) (res : GaussResult) (s : PState p), ResRep p res r c s → col + n ≤ c →
      ∃ res', Matrix.forwardLoop fuel edu r n col res s.cr
          = .ok (res', (pForward r n col s).cr) ∧
        ResRep p res' r c (pForward r n col s) := by
  intro n
  induction n with
  | zero => intro col res s h _; exact ⟨res, rfl, h⟩
  | succ n ih =>
    intro col res s h hc
    unfold Matrix.forwardLoop pForward
    by_cases hcr : s.cr < r
    · rw [if_pos hcr, if_pos hcr]
      obtain ⟨res1, hres1, hrep1⟩ := forwardStep_spec fuel hlt edu h hcr (by omega : col < c)
      obtain ⟨res2, hres2, hrep2⟩ := ih (col + 1) res1 (pStep r col s) hrep1 (by omega)
      simp only [hres1]
      exact ⟨res2, hres2, hrep2⟩
    · rw [if_neg hcr, if_neg hcr]
      exact ⟨res, rfl, h⟩

end ForwardRefinement

/-! ## The forward pass produces a row-echelon form -/

section ForwardEchelon

variable {p : Nat} [hp : Fact p.Prime]

theorem pStep_rows_above {f : Nat → Nat → ZMod p} {cr pr col r : Nat} (x : ZMod p)
    (hpr : cr ≤ pr) {i : Nat} (hi : i < cr) (j : Nat) :
    pElimBelow (pScale (pSwap f cr pr) cr x) cr col r i j = f i j := by
  simp only [pElimBelow, pScale, pSwap]
  rw [if_neg (by omega), if_neg (by omega), if_neg (by omega), if_neg (by omega)]

theorem pStep_zero_column {f : Nat → Nat → ZMod p} {cr pr col r : Nat} (x : ZMod p)
    (hpr : cr ≤ pr) (hprr : pr < r) {j : Nat} (hz : ∀ i, cr ≤ i → i < r → f i j = 0)
    {i : Nat} (hi : cr ≤ i) (hir : i < r) :
    pElimBelow (pScale (pSwap f cr pr) cr x) cr col r i j = 0 := by
  have h1 : f pr j = 0 := hz pr hpr hprr
  have h2 : f cr j = 0 := hz cr (le_refl _) (by omega)
  have h3 : f i j = 0 := hz i hi hir
  simp only [pElimBelow, pScale, pSwap]
  by_cases hic : i = cr
  · subst hic
    simp [h1]
  · rw [if_pos (by omega), if_neg hic, if_neg hic]
    by_cases hip : i = pr
    · simp [hip, h1, h2]
    · simp [hip, h1, h3]

theorem pStep_pivot_one {f : Nat → Nat → ZMod p} {cr pr col r : Nat}
    (hnz : f pr col ≠ 0) :
    pElimBelow (pScale (pSwap f cr pr) cr (f pr col)⁻¹) cr col r cr col = 1 := by
  simp only [pElimBelow, pScale, pSwap]
  rw [if_neg (by omega)]
  simp [mul_inv_cancel₀ hnz]

theorem pStep_below_pivot {f : Nat → Nat → ZMod p} {cr pr col r : Nat}
    (hnz : f pr col ≠ 0) {i : Nat} (hi : cr < i) (hir : i < r) :
    pElimBelow (pScale (pSwap f cr pr) cr (f pr col)⁻¹) cr col r i col = 0 := by
  simp only [pElimBelow, pScale, pSwap]
  rw [if_pos ⟨hi, hir⟩]
  have hic : i ≠ cr := by omega
  simp only [if_neg hic, if_true]
  rw [mul_inv_cancel₀ hnz, one_mul, sub_self]

theorem getD_mem_of_lt {l : List Nat} {k : Nat} (h : k < l.length) : l.getD k 0 ∈ l := by
  rw [List.getD_eq_getElem l 0 h]
  exact List.getElem_mem h

theorem pStep_none {r col : Nat} {s : PState p}
    (hf : pFindAux s.f col (r - s.cr) s.cr = none) : pStep r col s = s := by
  unfold pStep; rw [hf]

theorem pStep_some {r col pr : Nat} {s : PState p}
    (hf : pFindAux s.f col (r - s.cr) s.cr = some pr) :
    pStep r col s =
      { f := pElimBelow (pScale (pSwap s.f s.cr pr) s.cr (s.f pr col)⁻¹) s.cr col r,
        cr := s.cr + 1, piv := s.piv ++ [col] } := by
  unfold pStep; rw [hf]

theorem pStep_echelon {r col : Nat} {s : PState p} (h : Echelon r s.f s.piv col)
    (hcr : s.cr = s.piv.length) (hlt : s.cr < r) :
    Echelon r (pStep r col s).f (pStep r col s).piv (col + 1) ∧
      (pStep r col s).cr = (pStep r col s).piv.length := by
  obtain ⟨h1, h2, h3, h4, h5⟩ := h
  cases hf : pFindAux s.f col (r - s.cr) s.cr with
  | none =>
    have hnone := pFindAux_none _ _ hf
    rw [pStep_none hf]
    refine ⟨⟨h1, h2, fun q hq => Nat.lt_succ_of_lt (h3 q hq), h4, ?_⟩, hcr⟩
    intro i j hi hir hj
    by_cases hjc : j = col
    · rw [hjc]; exact hnone i (by omega) (by omega)
    · exact h5 i j hi hir (by omega)
  | some pr =>
    obtain ⟨hp1, hp2, hp3, _⟩ := pFindAux_some _ _ _ hf
    have hprr : pr < r := by omega
    rw [pStep_some hf]
    dsimp only
    have hzero : ∀ j, j < col → ∀ i, s.cr ≤ i → i < r → s.f i j = 0 :=
      fun j hj i hi hir => h5 i j (by omega) hir hj
    refine ⟨⟨?_, ?_, ?_, ?_, ?_⟩, ?_⟩
    · simp only [List.length_append, List.length_singleton]; omega
    · rw [List.pairwise_append]
      refine ⟨h2, List.pairwise_singleton _ _, ?_⟩
      intro a ha b hb
      rw [List.mem_singleton] at hb
      rw [hb]; exact h3 a ha
    · intro q hq
      rw [List.mem_append, List.mem_singleton] at hq
      rcases hq with hq | hq
      · exact Nat.lt_succ_of_lt (h3 q hq)
      · omega
    · intro k hk
      simp only [List.length_append, List.length_singleton] at hk
      by_cases hkc : k < s.piv.length
      · rw [List.getD_append _ _ _ _ hkc]
        obtain ⟨ha, hb, hc⟩ := h4 k hkc
        have hq : s.piv.getD k 0 < col := h3 _ (getD_mem_of_lt hkc)
        refine ⟨?_, ?_, ?_⟩
        · rw [pStep_rows_above _ hp1 (by omega)]; exact ha
        · intro j hj
          rw [pStep_rows_above _ hp1 (by omega)]; exact hb j hj
        · intro i hki hir
          by_cases hic : i < s.cr
          · rw [pStep_rows_above _ hp1 hic]; exact hc i hki hir
          · exact pStep_zero_column _ hp1 hprr (hzero _ hq) (by omega) hir
      · have hke : k = s.piv.length := by omega
        have hgd : (s.piv ++ [col]).getD k 0 = col := by
          rw [List.getD_append_right _ _ _ _ (by omega), hke]; simp
        rw [hgd, hke, ← hcr]
        refine ⟨pStep_pivot_one hp3, ?_, ?_⟩
        · intro j hj
          exact pStep_zero_column _ hp1 hprr (hzero j hj) (le_refl _) hlt
        · intro i hi hir
          exact pStep_below_pivot hp3 hi hir
    · intro i j hi hir hj
      simp only [List.length_append, List.length_singleton] at hi
      by_cases hjc : j = col
      · rw [hjc]; exact pStep_below_pivot hp3 (by omega) hir
      · exact pStep_zero_column _ hp1 hprr (hzero j (by omega)) (by omega) hir
    · simp only [List.length_append, List.length_singleton]; omega

theorem Echelon.mono_of_full {r col col' : Nat} {f : Nat → Nat → ZMod p} {piv : List Nat}
    (h : Echelon r f piv col) (hfull : r ≤ piv.length) (hle : col ≤ col') :
    Echelon r f piv col' := by
  obtain ⟨h1, h2, h3, h4, _⟩ := h
  refine ⟨h1, h2, fun q hq => lt_of_lt_of_le (h3 q hq) hle, h4, ?_⟩
  intro i j hi hir _
  omega

theorem pForward_echelon {r : Nat} : ∀ (n col : Nat) (s : PState p),
    Echelon r s.f s.piv col → s.cr = s.piv.length →
    Echelon r (pForward r n col s).f (pForward r n col s).piv (col + n) ∧
      (pForward r n col s).cr = (pForward r n col s).piv.length := by
  intro n
  induction n with
  | zero => intro col s h hcr; exact ⟨h, hcr⟩
  | succ n ih =>
    intro col s h hcr
    unfold pForward
    by_cases hlt : s.cr < r
    · rw [if_pos hlt]
      obtain ⟨h', hcr'⟩ := pStep_echelon h hcr hlt
      have := ih (col + 1) (pStep r col s) h' hcr'
      rw [Nat.add_assoc, Nat.add_comm 1 n] at this
      exact this
    · rw [if_neg hlt]
      exact ⟨h.mono_of_full (by omega) (by omega), hcr⟩

theorem echelon_init (r : Nat) (f : Nat → Nat → ZMod p) : Echelon r f [] 0 := by
  refine ⟨Nat.zero_le _, List.Pairwise.nil, ?_, ?_, ?_⟩
  · intro q hq; cases hq
  · intro k hk; cases hk
  · intro i j _ _ hj; cases hj

/-- The forward pass of `gaussElimination` on a matrix over GF(p). -/
theorem forwardGauss_spec (fuel : Nat) (hlt : p < 65536) (edu : Bool) {A : Matrix} {r c : Nat}
    {f : Nat → Nat → ZMod p} (h : MatRep p A r c f) :
    ∃ res, A.forwardGauss fuel edu = .ok res ∧
      ResRep p res r c (pForward r c 0 { f := f, cr := 0, piv := [] }) := by
  have hrows : A.rows = r := h.1
  have hcols : A.cols = c := h.2.1
  obtain ⟨res, hres, hrep⟩ := forwardLoop_spec fuel hlt edu (r := r) (c := c) c 0
    { matrix := A, rank := 0, pivotCols := [], steps := [] } { f := f, cr := 0, piv := [] }
    ⟨h, rfl, rfl⟩ (by omega)
  refine ⟨Matrix.logStep edu res
    ("Прямой ход завершён. Ранг матрицы: " ++ toString res.rank), ?_, ?_⟩
  · unfold Matrix.forwardGauss Matrix.gaussElimination Matrix.forwardPass
    simp only [if_true, hrows, hcols]
    simp only [hres]
    simp
  · obtain ⟨h1, h2, h3⟩ := hrep
    exact ⟨by simpa using h1, by simpa using h2, by simpa using h3⟩

theorem matRep_entryIsZero {M : Matrix} {r c : Nat} {f : Nat → Nat → ZMod p}
    (h : MatRep p M r c f) {i j : Nat} (hi : i < r) (hj : j < c) :
    M.EntryIsZero i j ↔ f i j = 0 := by
  obtain ⟨e, he, hr⟩ := h.2.2.2.2.2.2 i j hi hj
  constructor
  · rintro ⟨e', he', hz⟩
    rw [he] at he'
    cases he'
    exact (elem_isZero hr).mp hz
  · intro hz
    exact ⟨e, he, (elem_isZero hr).mpr hz⟩

theorem matRep_entryIsOne {M : Matrix} {r c : Nat} {f : Nat → Nat → ZMod p}
    (h : MatRep p M r c f) {i j : Nat} (hi : i < r) (hj : j < c) :
    M.EntryIsOne i j ↔ f i j = 1 := by
  obtain ⟨e, he, hr⟩ := h.2.2.2.2.2.2 i j hi hj
  constructor
  · rintro ⟨e', he', hz⟩
    rw [he] at he'
    cases he'
    exact (elem_isOne hr).mp hz
  · intro hz
    exact ⟨e, he, (elem_isOne hr).mpr hz⟩

end ForwardEchelon

/-! ## The backward pass -/

section BackwardRefinement

variable {p : Nat} [hp : Fact p.Prime]

theorem elimAbove_spec (fuel : Nat) (hlt : p < 65536) (edu : Bool) {res : GaussResult}
    {r c : Nat} {f : Nat → Nat → ZMod p} (h : MatRep p res.matrix r c f) {idx col : Nat}
    (hidx : idx < r) (hcol : col < c) :
    ∃ res', forDown (Matrix.eliminateEntry fuel edu idx col) idx res = .ok res' ∧
      MatRep p res'.matrix r c (pElimAbove f idx col) ∧
      res'.pivotCols = res.pivotCols ∧ res'.rank = res.rank := by
  obtain ⟨res', hres', hinv⟩ := forDown_inv
    (fun k (t : GaussResult) =>
      MatRep p t.matrix r c
        (fun i j => if k ≤ i ∧ i < idx then f i j - f idx j * f i col else f i j) ∧
      t.pivotCols = res.pivotCols ∧ t.rank = res.rank)
    (Matrix.eliminateEntry fuel edu idx col) idx res
    ⟨h.congr (fun i j _ _ => by rw [if_neg (by omega)]), rfl, rfl⟩
    (by
      intro k t hk ⟨ht, htp, htr⟩
      obtain ⟨t', ht', hrep, hp', hr'⟩ :=
        eliminateEntry_spec fuel hlt edu ht hidx (by omega : k < r) hcol
      refine ⟨t', ht', hrep.congr ?_, by rw [hp', htp], by rw [hr', htr]⟩
      intro i j _ _
      simp only [pAdd]
      by_cases hik : i = k
      · subst hik
        rw [if_pos rfl, if_neg (by omega), if_neg (by omega), if_neg (by omega),
          if_pos (by omega)]
        ring
      · rw [if_neg hik]
        by_cases hlo : k + 1 ≤ i ∧ i < idx
        · rw [if_pos hlo, if_pos (by omega)]
        · rw [if_neg hlo, if_neg (by omega)])
  refine ⟨res', hres', hinv.1.congr ?_, hinv.2⟩
  intro i j _ _
  simp only [pElimAbove]
  by_cases hi : i < idx
  · rw [if_pos ⟨Nat.zero_le _, hi⟩, if_pos hi]
  · rw [if_neg (by omega), if_neg hi]

theorem backwardStep_spec (fuel : Nat) (hlt : p < 65536) (edu : Bool) {res : GaussResult}
    {r c : Nat} {f : Nat → Nat → ZMod p} (h : MatRep p res.matrix r c f) (idx : Nat)
    (hidx : idx < res.pivotCols.length) (hlen : res.pivotCols.length ≤ r)
    (hcols : ∀ q ∈ res.pivotCols, q < c) :
    ∃ res', Matrix.backwardStep fuel edu idx res = .ok res' ∧
      MatRep p res'.matrix r c (pElimAbove f idx (res.pivotCols.getD idx 0)) ∧
      res'.pivotCols = res.pivotCols ∧ res'.rank = res.rank := by
  unfold Matrix.backwardStep
  rw [List.getElem?_eq_getElem hidx]
  have hq : res.pivotCols.getD idx 0 = res.pivotCols[idx] := List.getD_eq_getElem _ 0 hidx
  rw [hq]
  exact elimAbove_spec fuel hlt edu h (by omega) (hcols _ (List.getElem_mem hidx))

theorem backwardLoop_spec (fuel : Nat) (hlt : p < 65536) (edu : Bool) {r c : Nat}
    (piv : List Nat) (hlen : piv.length ≤ r) (hcols : ∀ q ∈ piv, q < c) :
    ∀ (n : Nat) (res : GaussResult) (f : Nat → Nat → ZMod p), n ≤ piv.length →
      MatRep p res.matrix r c f → res.pivotCols = piv →
      ∃ res', forDown (Matrix.backwardStep fuel edu) n res = .ok res' ∧
        MatRep p res'.matrix r c (pBackward piv n f) ∧
        res'.pivotCols = piv ∧ res'.rank = res.rank := by
  intro n
  induction n with
  | zero => intro res f _ h hpiv; exact ⟨res, rfl, h, hpiv, rfl⟩
  | succ n ih =>
    intro res f hn h hpiv
    obtain ⟨res1, hres1, hrep1, hp1, hr1⟩ :=
      backwardStep_spec fuel hlt edu h n (by rw [hpiv]; omega) (by rw [hpiv]; exact hlen)
        (by rw [hpiv]; exact hcols)
    rw [hpiv] at hrep1
    obtain ⟨res2, hres2, hrep2, hp2, hr2⟩ := ih res1 _ (by omega) hrep1 (by rw [hp1, hpiv])
    refine ⟨res2, ?_, hrep2, hp2, by rw [hr2, hr1]⟩
    rw [forDown, hres1]
    exact hres2

theorem getD_lt_of_pairwise {l : List Nat} (h : l.Pairwise (fun a b => a < b)) {i j : Nat}
    (hij : i < j) (hj : j < l.length) : l.getD i 0 < l.getD j 0 := by
  rw [List.getD_eq_getElem l 0 (by omega), List.getD_eq_getElem l 0 hj]
  exact List.pairwise_iff_getElem.mp h i j (by omega) hj hij

theorem pElimAbove_echelon {r c n : Nat} {f : Nat → Nat → ZMod p} {piv : List Nat}
    (h : Echelon r f piv c) (hred : Reduced f piv (n + 1)) (hn : n < piv.length) :
    Echelon r (pElimAbove f n (piv.getD n 0)) piv c ∧
      Reduced (pElimAbove f n (piv.getD n 0)) piv n := by
  obtain ⟨h1, h2, h3, h4, h5⟩ := h
  have hrow_n_left : ∀ j, j < piv.getD n 0 → f n j = 0 := (h4 n hn).2.1
  refine ⟨⟨h1, h2, h3, ?_, ?_⟩, ?_⟩
  · intro k hk
    obtain ⟨ha, hb, hc⟩ := h4 k hk
    refine ⟨?_, ?_, ?_⟩
    · simp only [pElimAbove]
      by_cases hkn : k < n
      · rw [if_pos hkn, hc n hkn (by omega), ha]; ring
      · rw [if_neg hkn, ha]
    · intro j hj
      simp only [pElimAbove]
      by_cases hkn : k < n
      · have := getD_lt_of_pairwise h2 hkn hn
        rw [if_pos hkn, hb j hj, hrow_n_left j (by omega)]; ring
      · rw [if_neg hkn, hb j hj]
    · intro i hi hir
      simp only [pElimAbove]
      by_cases hin : i < n
      · rw [if_pos hin, hc i hi hir, hc n (by omega) (by omega)]; ring
      · rw [if_neg hin, hc i hi hir]
  · intro i j hi hir hj
    simp only [pElimAbove]
    rw [if_neg (by omega)]
    exact h5 i j hi hir hj
  · intro k hnk hk i hik
    simp only [pElimAbove]
    by_cases hkn : k = n
    · subst hkn
      rw [if_pos hik, (h4 k hk).1]; ring
    · have hk1 : n + 1 ≤ k := by omega
      by_cases hin : i < n
      · rw [if_pos hin, hred k hk1 hk i hik, hred k hk1 hk n (by omega)]; ring
      · rw [if_neg hin, hred k hk1 hk i hik]

theorem pBackward_echelon {r c : Nat} {piv : List Nat} :
    ∀ (n : Nat) (f : Nat → Nat → ZMod p), n ≤ piv.length → Echelon r f piv c →
      Reduced f piv n →
      Echelon r (pBackward piv n f) piv c ∧ Reduced (pBackward piv n f) piv 0 := by
  intro n
  induction n with
  | zero => intro f _ h hred; exact ⟨h, hred⟩
  | succ n ih =>
    intro f hn h hred
    obtain ⟨h', hred'⟩ := pElimAbove_echelon h hred (by omega : n < piv.length)
    exact ih _ (by omega) h' hred'

theorem reduced_full {f : Nat → Nat → ZMod p} {piv : List Nat} : Reduced f piv piv.length := by
  intro k h1 h2; omega

/-- The full elimination (`reducedRowEchelonForm`) of a matrix over GF(p). -/
theorem rref_spec (fuel : Nat) (hlt : p < 65536) (edu : Bool) {A : Matrix} {r c : Nat}
    {f : Nat → Nat → ZMod p} (h : MatRep p A r c f) :
    ∃ res, A.reducedRowEchelonForm fuel edu = .ok res ∧
      MatRep p res.matrix r c
        (pBackward (pForward r c 0 { f := f, cr := 0, piv := [] }).piv
          (pForward r c 0 { f := f, cr := 0, piv := [] }).piv.length
          (pForward r c 0 { f := f, cr := 0, piv := [] }).f) ∧
      res.pivotCols = (pForward r c 0 { f := f, cr := 0, piv := [] }).piv ∧
      res.rank = (pForward r c 0 { f := f, cr := 0, piv := [] }).cr := by
  obtain ⟨res1, hres1, hrep1, hp1, hr1⟩ := forwardGauss_spec fuel hlt edu h
  obtain ⟨hech, hcr⟩ := pForward_echelon (r := r) c 0 { f := f, cr := 0, piv := [] }
    (echelon_init r f) rfl
  rw [Nat.zero_add] at hech
  generalize pForward r c 0 { f := f, cr := 0, piv := [] } = s at hrep1 hp1 hr1 hech hcr ⊢
  have hfw : Matrix.forwardPass fuel A edu { matrix := A, rank := 0, pivotCols := [], steps := [] }
      = .ok res1 := by
    unfold Matrix.forwardGauss Matrix.gaussElimination at hres1
    simp only [if_true] at hres1
    cases hfp : Matrix.forwardPass fuel A edu
        { matrix := A, rank := 0, pivotCols := [], steps := [] } with
    | error e => rw [hfp] at hres1; simp at hres1
    | ok x =>
      rw [hfp] at hres1
      simp only [Bool.false_eq_true, false_and, if_false] at hres1
      rw [hres1]
  unfold Matrix.reducedRowEchelonForm Matrix.gaussElimination
  simp only [if_true, hfw]
  by_cases hpos : 0 < res1.rank
  · rw [if_pos ⟨trivial, hpos⟩]
    unfold Matrix.backwardPass
    simp only [if_true]
    obtain ⟨res2, hres2, hrep2, hp2, hr2⟩ := backwardLoop_spec fuel hlt edu s.piv hech.1
      hech.2.2.1 s.piv.length
      (Matrix.logStep edu res1 "Начинаем обратный ход (приведение к RREF)") s.f (le_refl _)
      (by simpa using hrep1) (by simpa using hp1)
    have hl : (Matrix.logStep edu res1
        "Начинаем обратный ход (приведение к RREF)").pivotCols.length = s.piv.length := by
      simp [hp1]
    rw [hl, hres2]
    refine ⟨_, rfl, by simpa using hrep2, by simpa using hp2, ?_⟩
    simp only [logStep_rank, hr2, hr1]
  · rw [if_neg (by simp [hpos])]
    have hz : s.piv.length = 0 := by omega
    have hnil : s.piv = [] := List.length_eq_zero.mp hz
    refine ⟨res1, rfl, ?_, hp1, hr1⟩
    rw [hnil]
    exact hrep1

/-- Shape of the values after the full elimination. -/
theorem rref_shape (r c : Nat) (f : Nat → Nat → ZMod p) :
    Echelon r
        (pBackward (pForward r c 0 { f := f, cr := 0, piv := [] }).piv
          (pForward r c 0 { f := f, cr := 0, piv := [] }).piv.length
          (pForward r c 0 { f := f, cr := 0, piv := [] }).f)
        (pForward r c 0 { f := f, cr := 0, piv := [] }).piv c ∧
      Reduced
        (pBackward (pForward r c 0 { f := f, cr := 0, piv := [] }).piv
          (pForward r c 0 { f := f, cr := 0, piv := [] }).piv.length
          (pForward r c 0 { f := f, cr := 0, piv := [] }).f)
        (pForward r c 0 { f := f, cr := 0, piv := [] }).piv 0 ∧
      (pForward r c 0 { f := f, cr := 0, piv := [] }).cr
        = (pForward r c 0 { f := f, cr := 0, piv := [] }).piv.length := by
  obtain ⟨hech, hcr⟩ := pForward_echelon (r := r) c 0 { f := f, cr := 0, piv := [] }
    (echelon_init r f) rfl
  rw [Nat.zero_add] at hech
  obtain ⟨h1, h2⟩ := pBackward_echelon _ _ (le_refl _) hech reduced_full
  exact ⟨h1, h2, hcr⟩

end BackwardRefinement

/-! ## Bookkeeping of rank and pivot columns (any matrix) -/

theorem eliminateEntry_frame {fuel : Nat} {edu : Bool} {src col row : Nat}
    {res res' : GaussResult}
    (h : Matrix.eliminateEntry fuel edu src col row res = .ok res') :
    res'.pivotCols = res.pivotCols ∧ res'.rank = res.rank := by
  unfold Matrix.eliminateEntry at h
  cases h1 : res.matrix.getEntry row col with
  | error e => rw [h1] at h; cases h
  | ok x =>
    rw [h1] at h
    dsimp only at h
    by_cases hz : x.isZero = true
    · rw [if_pos hz] at h; cases h; exact ⟨rfl, rfl⟩
    · rw [if_neg hz] at h
      cases h2 : x.neg fuel with
      | error e => rw [h2] at h; cases h
      | ok factor =>
        rw [h2] at h
        dsimp only at h
        cases h3 : res.matrix.addRow fuel row src factor with
        | error e => rw [h3] at h; cases h
        | ok M =>
          rw [h3] at h
          cases h
          exact ⟨by simp, by simp⟩

theorem swapStep_frame {edu : Bool} {col cr pr : Nat} {res res' : GaussResult}
    (h : Matrix.swapStep edu col cr pr res = .ok res') :
    res'.pivotCols = res.pivotCols ∧ res'.rank = res.rank := by
  unfold Matrix.swapStep at h
  by_cases hne : pr ≠ cr
  · rw [if_pos hne] at h
    cases h1 : res.matrix.swapRows cr pr with
    | error e => rw [h1] at h; cases h
    | ok M => rw [h1] at h; cases h; exact ⟨by simp, by simp⟩
  · rw [if_neg hne] at h; cases h; exact ⟨rfl, rfl⟩

theorem normalizeStep_frame {fuel : Nat} {edu : Bool} {col cr : Nat} {res res' : GaussResult}
    (h : Matrix.normalizeStep fuel edu col cr res = .ok res') :
    res'.pivotCols = res.pivotCols ∧ res'.rank = res.rank := by
  unfold Matrix.normalizeStep at h
  cases h1 : res.matrix.getEntry cr col with
  | error e => rw [h1] at h; cases h
  | ok x =>
    rw [h1] at h
    dsimp only at h
    by_cases hz : x.isOne = true
    · rw [if_pos hz] at h; cases h; exact ⟨rfl, rfl⟩
    · rw [if_neg hz] at h
      cases h2 : x.inverse fuel with
      | error e => rw [h2] at h; cases h
      | ok inv =>
        rw [h2] at h
        dsimp only at h
        cases h3 : res.matrix.multiplyRow fuel cr inv with
        | error e => rw [h3] at h; cases h
        | ok M => rw [h3] at h; cases h; exact ⟨by simp, by simp⟩

theorem forwardStep_frame {fuel : Nat} {edu : Bool} {rows col cr cr' : Nat}
    {res res' : GaussResult}
    (h : Matrix.forwardStep fuel edu rows col res cr = .ok (res', cr')) :
    (res'.pivotCols = res.pivotCols ∧ res'.rank = res.rank ∧ cr' = cr) ∨
      (res'.pivotCols = res.pivotCols ++ [col] ∧ res'.rank = res.rank + 1 ∧ cr' = cr + 1) := by
  unfold Matrix.forwardStep at h
  cases h1 : res.matrix.findPivot col cr with
  | error e => rw [h1] at h; cases h
  | ok o =>
    rw [h1] at h
    cases o with
    | none =>
      dsimp only at h
      cases h
      exact Or.inl ⟨by simp, by simp, rfl⟩
    | some pr =>
      dsimp only at h
      cases h2 : Matrix.swapStep edu col cr pr res with
      | error e => rw [h2] at h; cases h
      | ok res1 =>
        rw [h2] at h
        dsimp only at h
        obtain ⟨hp1, hr1⟩ := swapStep_frame h2
        cases h3 : Matrix.normalizeStep fuel edu col cr
            { res1 with pivotCols := res1.pivotCols ++ [col] } with
        | error e => rw [h3] at h; cases h
        | ok res3 =>
          rw [h3] at h
          dsimp only at h
          obtain ⟨hp3, hr3⟩ := normalizeStep_frame h3
          cases h4 : forRange (Matrix.eliminateEntry fuel edu cr col) (cr + 1)
              (rows - (cr + 1)) res3 with
          | error e => rw [h4] at h; cases h
          | ok res4 =>
            rw [h4] at h
            cases h
            have h5 := forRange_preserves
              (fun t : GaussResult => t.pivotCols = res3.pivotCols ∧ t.rank = res3.rank)
              (Matrix.eliminateEntry fuel edu cr col)
              (fun k s t hs hb => by
                obtain ⟨ha, hb'⟩ := eliminateEntry_frame hb
                exact ⟨by rw [ha, hs.1], by rw [hb', hs.2]⟩)
              _ _ res3 res4 ⟨rfl, rfl⟩ h4
            refine Or.inr ⟨?_, ?_, rfl⟩
            · show res4.pivotCols = _
              rw [h5.1, hp3]; simp [hp1]
            · show res4.rank + 1 = _
              rw [h5.2, hr3]; simp [hr1]

/-- Invariant of the forward loop before column `col`, with row pointer `cr`. -/
theorem forwardLoop_frame {fuel : Nat} {edu : Bool} {rows : Nat} :
    ∀ (n col cr cr' : Nat) (res res' : GaussResult),
      Matrix.forwardLoop fuel edu rows n col res cr = .ok (res', cr') →
      (res.rank = cr ∧ res.pivotCols.length = cr ∧
        res.pivotCols.Pairwise (fun a b => a < b) ∧ (∀ q ∈ res.pivotCols, q < col) ∧
        cr ≤ rows ∧ cr ≤ col) →
      (res'.rank = cr' ∧ res'.pivotCols.length = cr' ∧
        res'.pivotCols.Pairwise (fun a b => a < b) ∧ (∀ q ∈ res'.pivotCols, q < col + n) ∧
        cr' ≤ rows ∧ cr' ≤ col + n) := by
  intro n
  induction n with
  | zero =>
    intro col cr cr' res res' h hinv
    rw [Matrix.forwardLoop] at h
    cases h
    exact hinv
  | succ n ih =>
    intro col cr cr' res res' h ⟨i1, i2, i3, i4, i5, i6⟩
    rw [Matrix.forwardLoop] at h
    by_cases hlt : cr < rows
    · rw [if_pos hlt] at h
      cases h1 : Matrix.forwardStep fuel edu rows col res cr with
      | error e => rw [h1] at h; cases h
      | ok x =>
        obtain ⟨res1, cr1⟩ := x
        rw [h1] at h
        dsimp only at h
        have hstep := forwardStep_frame h1
        have := ih (col + 1) cr1 cr' res1 res' h (by
          rcases hstep with ⟨a, b, c⟩ | ⟨a, b, c⟩
          · refine ⟨by rw [b, c, i1], by rw [a, c, i2], by rw [a]; exact i3, ?_, by omega,
              by omega⟩
            intro q hq
            rw [a] at hq
            exact Nat.lt_succ_of_lt (i4 q hq)
          · refine ⟨by rw [b, c, i1], by rw [a, c]; simp [i2], ?_, ?_, by omega, by omega⟩
            · rw [a, List.pairwise_append]
              refine ⟨i3, List.pairwise_singleton _ _, ?_⟩
              intro x hx y hy
              rw [List.mem_singleton] at hy
              rw [hy]; exact i4 x hx
            · intro q hq
              rw [a, List.mem_append, List.mem_singleton] at hq
              rcases hq with hq | hq
              · exact Nat.lt_succ_of_lt (i4 q hq)
              · omega)
        rw [Nat.add_assoc, Nat.add_comm 1 n] at this
        exact this
    · rw [if_neg hlt] at h
      cases h
      exact ⟨i1, i2, i3, fun q hq => by have := i4 q hq; omega, i5, by omega⟩

theorem forwardGauss_inv {fuel : Nat} {edu : Bool} {A : Matrix} {res : GaussResult}
    (h : A.forwardGauss fuel edu = .ok res) : GaussInv A res := by
  unfold Matrix.forwardGauss Matrix.gaussElimination at h
  simp only [if_true] at h
  cases h1 : Matrix.forwardPass fuel A edu
      { matrix := A, rank := 0, pivotCols := [], steps := [] } with
  | error e => rw [h1] at h; cases h
  | ok res1 =>
    rw [h1] at h
    simp only [Bool.false_eq_true, false_and, if_false] at h
    cases h
    unfold Matrix.forwardPass at h1
    cases h2 : Matrix.forwardLoop fuel edu A.rows A.cols 0
        { matrix := A, rank := 0, pivotCols := [], steps := [] } 0 with
    | error e => rw [h2] at h1; cases h1
    | ok x =>
      obtain ⟨res2, cr2⟩ := x
      rw [h2] at h1
      cases h1
      obtain ⟨a, b, c, d, e, f⟩ := forwardLoop_frame _ _ _ _ _ _ h2
        ⟨rfl, rfl, List.Pairwise.nil, fun q hq => absurd hq (List.not_mem_nil q), Nat.zero_le _,
          Nat.zero_le _⟩
      rw [Nat.zero_add] at d f
      refine ⟨by simp [a, b], by simpa using c, by simpa using d, ?_⟩
      simp only [logStep_rank, a]
      exact Nat.le_min.mpr ⟨e, f⟩

theorem backwardStep_frame {fuel : Nat} {edu : Bool} {idx : Nat} {res res' : GaussResult}
    (h : Matrix.backwardStep fuel edu idx res = .ok res') :
    res'.pivotCols = res.pivotCols ∧ res'.rank = res.rank := by
  unfold Matrix.backwardStep at h
  cases h1 : res.pivotCols[idx]? with
  | none => rw [h1] at h; cases h
  | some q =>
    rw [h1] at h
    exact forDown_preserves
      (fun t : GaussResult => t.pivotCols = res.pivotCols ∧ t.rank = res.rank)
      (Matrix.eliminateEntry fuel edu idx q)
      (fun k s t hs hb => by
        obtain ⟨ha, hb'⟩ := eliminateEntry_frame hb
        exact ⟨by rw [ha, hs.1], by rw [hb', hs.2]⟩)
      _ res res' ⟨rfl, rfl⟩ h

theorem rref_inv {fuel : Nat} {edu : Bool} {A : Matrix} {res : GaussResult}
    (h : A.reducedRowEchelonForm fuel edu = .ok res) : GaussInv A res := by
  unfold Matrix.reducedRowEchelonForm Matrix.gaussElimination at h
  simp only [if_true] at h
  cases h1 : Matrix.forwardPass fuel A edu
      { matrix := A, rank := 0, pivotCols := [], steps := [] } with
  | error e => rw [h1] at h; cases h
  | ok res1 =>
    rw [h1] at h
    dsimp only at h
    have hfw : A.forwardGauss fuel edu = .ok res1 := by
      unfold Matrix.forwardGauss Matrix.gaussElimination
      simp [h1]
    have hinv1 := forwardGauss_inv hfw
    by_cases hpos : 0 < res1.rank
    · rw [if_pos ⟨trivial, hpos⟩] at h
      unfold Matrix.backwardPass at h
      simp only [if_true] at h
      cases h2 : forDown (Matrix.backwardStep fuel edu)
          (Matrix.logStep edu res1 "Начинаем обратный ход (приведение к RREF)").pivotCols.length
          (Matrix.logStep edu res1 "Начинаем обратный ход (приведение к RREF)") with
      | error e => rw [h2] at h; cases h
      | ok res2 =>
        rw [h2] at h
        cases h
        have h3 := forDown_preserves
          (fun t : GaussResult => t.pivotCols = res1.pivotCols ∧ t.rank = res1.rank)
          (Matrix.backwardStep fuel edu)
          (fun k s t hs hb => by
            obtain ⟨ha, hb'⟩ := backwardStep_frame hb
            exact ⟨by rw [ha, hs.1], by rw [hb', hs.2]⟩)
          _ _ res2 ⟨by simp, by simp⟩ h2
        unfold GaussInv at hinv1 ⊢
        simp only [logStep_rank, logStep_pivotCols, h3.1, h3.2]
        exact hinv1
    · rw [if_neg (by simp [hpos])] at h
      cases h
      exact hinv1

/-! ## Eliminating a reduced matrix changes nothing -/

section Idempotence

variable {p : Nat} [hp : Fact p.Prime]

theorem pFindAux_eq_none {f : Nat → Nat → ZMod p} {col : Nat} :
    ∀ n i, (∀ k, i ≤ k → k < i + n → f k col = 0) → pFindAux f col n i = none := by
  intro n
  induction n with
  | zero => intro i _; rfl
  | succ n ih =>
    intro i h
    unfold pFindAux
    rw [if_pos (h i (le_refl _) (by omega))]
    exact ih (i + 1) (fun k hk1 hk2 => h k (by omega) (by omega))

theorem pFindAux_eq_first {f : Nat → Nat → ZMod p} {col i : Nat} (n : Nat)
    (h : f i col ≠ 0) : pFindAux f col (n + 1) i = some i := by
  unfold pFindAux
  rw [if_neg h]

theorem pStep_self_eq {f : Nat → Nat → ZMod p} {cr col r : Nat} (h1 : f cr col = 1)
    (h0 : ∀ i, cr < i → i < r → f i col = 0) :
    pElimBelow (pScale (pSwap f cr cr) cr (f cr col)⁻¹) cr col r = f := by
  funext i j
  by_cases hic : i = cr
  · subst hic
    simp [pElimBelow, pScale, pSwap, h1]
  · by_cases hi : i > cr ∧ i < r
    · have hz := h0 i hi.1 hi.2
      simp [pElimBelow, pScale, pSwap, hic, hi.1, hi.2, hz]
    · have hi' : ¬ (cr < i ∧ i < r) := hi
      simp [pElimBelow, pScale, pSwap, hic, hi']

theorem take_succ_getD (l : List Nat) {n : Nat} (h : n < l.length) :
    l.take n ++ [l.getD n 0] = l.take (n + 1) := by
  rw [List.take_succ, List.getD_eq_getElem l 0 h, List.getElem?_eq_getElem h]
  rfl

theorem pStep_reduced {r c col : Nat} {f : Nat → Nat → ZMod p} {piv : List Nat} {cr : Nat}
    (h : Echelon r f piv c) (hcol : col < c) (hcnt : PivotsBefore piv cr col) (hcr : cr < r) :
    ∃ cr', pStep r col { f := f, cr := cr, piv := piv.take cr }
        = { f := f, cr := cr', piv := piv.take cr' } ∧ PivotsBefore piv cr' (col + 1) := by
  obtain ⟨h1, h2, h3, h4, h5⟩ := h
  obtain ⟨c1, c2, c3⟩ := hcnt
  by_cases hnext : cr < piv.length ∧ piv.getD cr 0 = col
  · obtain ⟨hlt, hq⟩ := hnext
    obtain ⟨ha, _, hc⟩ := h4 cr hlt
    rw [hq] at ha hc
    have hne : f cr col ≠ 0 := by rw [ha]; exact one_ne_zero
    have hfind : pFindAux f col (r - cr) cr = some cr := by
      have : r - cr = (r - cr - 1) + 1 := by omega
      rw [this]
      exact pFindAux_eq_first _ hne
    refine ⟨cr + 1, ?_, by omega, ?_, ?_⟩
    · rw [pStep_some (s := { f := f, cr := cr, piv := piv.take cr }) hfind]
      dsimp only
      rw [pStep_self_eq ha hc, ← hq, take_succ_getD piv hlt]
    · intro k hk
      by_cases hkc : k = cr
      · rw [hkc, hq]; omega
      · have := c2 k (by omega); omega
    · intro k hk hkl
      have := getD_lt_of_pairwise h2 (by omega : cr < k) hkl
      omega
  · have hfind : pFindAux f col (r - cr) cr = none := by
      apply pFindAux_eq_none
      intro i hi1 hi2
      by_cases hil : i < piv.length
      · have hcrl : cr < piv.length := by omega
        have hge : col ≤ piv.getD cr 0 := c3 cr (le_refl _) hcrl
        have hne : piv.getD cr 0 ≠ col := fun hh => hnext ⟨hcrl, hh⟩
        have hmono : piv.getD cr 0 ≤ piv.getD i 0 := by
          by_cases hic : i = cr
          · rw [hic]
          · exact le_of_lt (getD_lt_of_pairwise h2 (by omega : cr < i) hil)
        exact (h4 i hil).2.1 col (by omega)
      · exact h5 i col (by omega) (by omega) hcol
    refine ⟨cr, ?_, c1, fun k hk => Nat.lt_succ_of_lt (c2 k hk), ?_⟩
    · exact pStep_none (s := { f := f, cr := cr, piv := piv.take cr }) hfind
    · intro k hk hkl
      have hge := c3 k hk hkl
      have hne : piv.getD k 0 ≠ col := by
        intro hh
        by_cases hkc : k = cr
        · exact hnext ⟨by omega, by rw [← hkc]; exact hh⟩
        · have := getD_lt_of_pairwise h2 (by omega : cr < k) hkl
          have := c3 cr (le_refl _) (by omega)
          omega
      omega

theorem pForward_reduced {r c : Nat} {f : Nat → Nat → ZMod p} {piv : List Nat}
    (h : Echelon r f piv c) :
    ∀ (n col cr : Nat), col + n ≤ c → PivotsBefore piv cr col →
      ∃ cr', pForward r n col { f := f, cr := cr, piv := piv.take cr }
          = { f := f, cr := cr', piv := piv.take cr' } ∧ PivotsBefore piv cr' (col + n) := by
  intro n
  induction n with
  | zero => intro col cr _ hcnt; exact ⟨cr, rfl, hcnt⟩
  | succ n ih =>
    intro col cr hc hcnt
    unfold pForward
    by_cases hlt : cr < r
    · rw [if_pos hlt]
      obtain ⟨cr1, hstep, hcnt1⟩ := pStep_reduced h (by omega : col < c) hcnt hlt
      rw [hstep]
      obtain ⟨cr2, hfw, hcnt2⟩ := ih (col + 1) cr1 (by omega) hcnt1
      refine ⟨cr2, hfw, ?_⟩
      rw [Nat.add_assoc, Nat.add_comm 1 n] at hcnt2
      exact hcnt2
    · rw [if_neg hlt]
      have hfull : cr = piv.length := by have := h.1; have := hcnt.1; omega
      refine ⟨cr, rfl, hcnt.1, fun k hk => ?_, fun k hk hkl => by omega⟩
      have := hcnt.2.1 k hk
      omega

theorem pBackward_reduced {f : Nat → Nat → ZMod p} {piv : List Nat} (hred : Reduced f piv 0) :
    ∀ n, n ≤ piv.length → pBackward piv n f = f := by
  intro n
  induction n with
  | zero => intro _; rfl
  | succ n ih =>
    intro hn
    have hstep : pElimAbove f n (piv.getD n 0) = f := by
      funext i j
      simp only [pElimAbove]
      by_cases hi : i < n
      · rw [if_pos hi, hred n (Nat.zero_le _) (by omega) i hi]; ring
      · rw [if_neg hi]
    rw [pBackward, hstep]
    exact ih (by omega)

/-- On values already in reduced row-echelon form both passes are the
identity and find the same pivots. -/
theorem rref_values_idempotent {r c : Nat} {f : Nat → Nat → ZMod p} {piv : List Nat}
    (h : Echelon r f piv c) (hred : Reduced f piv 0) :
    pForward r c 0 { f := f, cr := 0, piv := [] }
        = { f := f, cr := piv.length, piv := piv } ∧
      pBackward piv piv.length f = f := by
  refine ⟨?_, pBackward_reduced hred _ (le_refl _)⟩
  obtain ⟨cr', hfw, hcnt⟩ := pForward_reduced h c 0 0 (by omega)
    ⟨Nat.zero_le _, fun k hk => by omega, fun k _ _ => Nat.zero_le _⟩
  rw [Nat.zero_add] at hcnt
  have hcr : cr' = piv.length := by
    by_contra hne
    have hlt : cr' < piv.length := by have := hcnt.1; omega
    have h1 := hcnt.2.2 cr' (le_refl _) hlt
    have h2 := h.2.2.1 _ (getD_mem_of_lt hlt)
    omega
  rw [List.take_zero] at hfw
  rw [hfw, hcr, List.take_length]

theorem matRep_eq {M N : Matrix} {r c : Nat} {f : Nat → Nat → ZMod p}
    (hM : MatRep p M r c f) (hN : MatRep p N r c f) : M.eq N = true := by
  unfold Matrix.eq
  rw [if_neg (by rw [hM.1, hM.2.1, hN.1, hN.2.1]; simp)]
  rw [List.all_eq_true]
  intro i hi
  rw [List.all_eq_true]
  intro j hj
  rw [List.mem_range] at hi hj
  rw [hM.1] at hi
  rw [hM.2.1] at hj
  obtain ⟨a, ha, har⟩ := hM.2.2.2.2.2.2 i j hi hj
  obtain ⟨b, hb, hbr⟩ := hN.2.2.2.2.2.2 i j hi hj
  rw [ha, hb]
  exact (elem_eq har hbr).mpr rfl

end Idempotence

/-! ## Construction, product and inverse over a prime field -/

section Construction

variable {p : Nat} [hp : Fact p.Prime]

theorem matRep_new (r c : Nat) (modulus : List Nat) :
    ∃ Z, Matrix.new r c p 1 modulus = .ok Z ∧ MatRep p Z r c (fun _ _ => 0) := by
  unfold Matrix.new
  by_cases hr : r = 0
  · rw [if_pos hr]
    refine ⟨_, rfl, hr.symm, rfl, rfl, rfl, by simp [hr], ?_, ?_⟩
    · intro row hrow; cases hrow
    · intro i j hi; omega
  · rw [if_neg hr]
    obtain ⟨z, hz, hzr⟩ := elem_new (p := p) modulus
    rw [hz]
    refine ⟨_, rfl, rfl, rfl, rfl, rfl, by simp, ?_, ?_⟩
    · intro row hrow
      rw [List.mem_replicate] at hrow
      rw [hrow.2, List.length_replicate]
    · intro i j hi hj
      refine ⟨z, @getEntry_eq _ i j (List.replicate c z) z ?_ ?_, hzr⟩
      · exact List.getElem?_replicate_of_lt hi
      · exact List.getElem?_replicate_of_lt hj

/-- A loop that writes computed elements into `n` consecutive cells of row `i`. -/
theorem fill_row (compute : Nat → Except Err GFElement) (pos : Nat → Nat) (off : Nat)
    (hpos : ∀ j, pos j = off + j) (v : Nat → ZMod p) {r c i n : Nat}
    (hcomp : ∀ j, j < n → ∃ x, compute j = .ok x ∧ ElemRep p x (v j))
    {M : Matrix} {f : Nat → Nat → ZMod p} (hM : MatRep p M r c f) (hi : i < r)
    (hoff : off + n ≤ c) :
    ∃ M', forRange (fun j (N : Matrix) =>
          match compute j with
          | .error e => .error e
          | .ok x => N.setEntry i (pos j) x) 0 n M = .ok M' ∧
      MatRep p M' r c
        (fun a b => if a = i ∧ off ≤ b ∧ b < off + n then v (b - off) else f a b) := by
  obtain ⟨M', hM', hinv⟩ := forRange_inv
    (fun k (N : Matrix) => MatRep p N r c
      (fun a b => if a = i ∧ off ≤ b ∧ b < off + k then v (b - off) else f a b))
    (fun j (N : Matrix) =>
      match compute j with
      | .error e => .error e
      | .ok x => N.setEntry i (pos j) x)
    n 0 M (hM.congr (fun a b _ _ => by rw [if_neg (by omega)]))
    (by
      intro k N _ hk hN
      obtain ⟨x, hx, hxr⟩ := hcomp k (by omega)
      obtain ⟨N', hN', hrep⟩ := matRep_setEntry hN hi (by omega : off + k < c) hxr
      refine ⟨N', ?_, hrep.congr ?_⟩
      · simp only [hx, hpos]; exact hN'
      · intro a b _ _
        simp only [pSet]
        by_cases hab : a = i ∧ b = off + k
        · rw [if_pos hab, if_pos ⟨hab.1, by omega, by omega⟩]
          congr 1; omega
        · rw [if_neg hab]
          by_cases h2 : a = i ∧ off ≤ b ∧ b < off + k
          · rw [if_pos h2, if_pos ⟨h2.1, h2.2.1, by omega⟩]
          · rw [if_neg h2, if_neg (by
              intro h3
              rcases h3 with ⟨h3a, h3b, h3c⟩
              by_cases hb : b = off + k
              · exact hab ⟨h3a, hb⟩
              · exact h2 ⟨h3a, h3b, by omega⟩)])
  rw [Nat.zero_add] at hinv
  exact ⟨M', hM', hinv⟩

/-- A loop whose body replaces row `i` by the values `w i`. -/
theorem fill_rows (rowBody : Nat → Matrix → Except Err Matrix) (w : Nat → Nat → ZMod p)
    {r c n : Nat}
    (hrow : ∀ i, i < n → ∀ (N : Matrix) (g : Nat → Nat → ZMod p), MatRep p N r c g →
      ∃ N', rowBody i N = .ok N' ∧ MatRep p N' r c (fun a b => if a = i then w a b else g a b))
    {M : Matrix} {f : Nat → Nat → ZMod p} (hM : MatRep p M r c f) :
    ∃ M', forRange rowBody 0 n M = .ok M' ∧
      MatRep p M' r c (fun a b => if a < n then w a b else f a b) := by
  obtain ⟨M', hM', hinv⟩ := forRange_inv
    (fun k (N : Matrix) => MatRep p N r c (fun a b => if a < k then w a b else f a b))
    rowBody n 0 M (hM.congr (fun a b _ _ => by rw [if_neg (by omega)]))
    (by
      intro k N _ hk hN
      obtain ⟨N', hN', hrep⟩ := hrow k (by omega) N _ hN
      refine ⟨N', hN', hrep.congr ?_⟩
      intro a b _ _
      by_cases hak : a = k
      · rw [if_pos hak, if_pos (by omega)]
      · rw [if_neg hak]
        by_cases h2 : a < k
        · rw [if_pos h2, if_pos (by omega)]
        · rw [if_neg h2, if_neg (by omega)])
  rw [Nat.zero_add] at hinv
  exact ⟨M', hM', hinv⟩

theorem matRep_identity (n : Nat) (modulus : List Nat) :
    ∃ I, Matrix.identity n p 1 modulus = .ok I ∧
      MatRep p I n n (fun i j => if i = j then 1 else 0) := by
  obtain ⟨Z, hZ, hZr⟩ := matRep_new (p := p) n n modulus
  obtain ⟨one, hone, honer⟩ := elem_ofValue (p := p) 1 modulus
  rw [Nat.cast_one] at honer
  unfold Matrix.identity
  rw [hZ]
  dsimp only
  obtain ⟨I, hI, hinv⟩ := forRange_inv
    (fun k (N : Matrix) => MatRep p N n n (fun i j => if i = j ∧ i < k then 1 else 0))
    (fun i (M : Matrix) =>
      match GFElement.ofValue 1 p 1 modulus with
      | .error e => .error e
      | .ok one => M.setEntry i i one)
    n 0 Z (hZr.congr (fun a b _ _ => by rw [if_neg (by omega)]))
    (by
      intro k N _ hk hN
      obtain ⟨N', hN', hrep⟩ := matRep_setEntry hN (by omega : k < n) (by omega : k < n) honer
      refine ⟨N', ?_, hrep.congr ?_⟩
      · simp only [hone]; exact hN'
      · intro a b _ _
        simp only [pSet]
        by_cases hab : a = k ∧ b = k
        · rw [if_pos hab, if_pos ⟨by omega, by omega⟩]
        · rw [if_neg hab]
          by_cases h2 : a = b ∧ a < k
          · rw [if_pos h2, if_pos ⟨h2.1, by omega⟩]
          · rw [if_neg h2, if_neg (by omega)])
  refine ⟨I, hI, hinv.congr ?_⟩
  intro a b ha _
  by_cases hab : a = b
  · rw [if_pos ⟨hab, by omega⟩, if_pos hab]
  · rw [if_neg (by tauto), if_neg hab]

theorem mulEntry_spec (fuel : Nat) (hlt : p < 65536) {A B : Matrix} {r k c : Nat}
    {f g : Nat → Nat → ZMod p} (hA : MatRep p A r k f) (hB : MatRep p B k c g) {i j : Nat}
    (hi : i < r) (hj : j < c) :
    ∃ x, Matrix.mulEntry fuel A B i j = .ok x ∧
      ElemRep p x (∑ t in Finset.range k, f i t * g t j) := by
  obtain ⟨z, hz, hzr⟩ := elem_new (p := p) A.modulus
  unfold Matrix.mulEntry
  rw [hA.2.2.1, hA.2.2.2.1, hA.2.1, hz]
  dsimp only
  obtain ⟨x, hx, hinv⟩ := forRange_inv
    (fun n (sum : GFElement) => ElemRep p sum (∑ t in Finset.range n, f i t * g t j))
    (fun t (sum : GFElement) =>
      match A.getEntry i t with
      | .error e => .error e
      | .ok a =>
        match B.getEntry t j with
        | .error e => .error e
        | .ok b =>
          match a.mul fuel b with
          | .error e => .error e
          | .ok ab => sum.add fuel ab)
    k 0 z (by simpa using hzr)
    (by
      intro n sum _ hn hs
      obtain ⟨a, ha, har⟩ := hA.2.2.2.2.2.2 i n hi (by omega)
      obtain ⟨b, hb, hbr⟩ := hB.2.2.2.2.2.2 n j (by omega) hj
      obtain ⟨ab, hab, habr⟩ := elem_mul fuel hlt har hbr
      obtain ⟨s', hs', hsr⟩ := elem_add fuel hlt hs habr
      refine ⟨s', ?_, ?_⟩
      · simp only [ha, hb, hab]; exact hs'
      · show ElemRep p s' (∑ t in Finset.range (n + 1), f i t * g t j)
        rw [Finset.sum_range_succ]; exact hsr)
  rw [Nat.zero_add] at hinv
  exact ⟨x, hx, hinv⟩

theorem matRep_mul (fuel : Nat) (hlt : p < 65536) {A B : Matrix} {r k c : Nat}
    {f g : Nat → Nat → ZMod p} (hA : MatRep p A r k f) (hB : MatRep p B k c g) :
    ∃ P, A.mul fuel B = .ok P ∧
      MatRep p P r c (fun i j => ∑ t in Finset.range k, f i t * g t j) := by
  obtain ⟨Z, hZ, hZr⟩ := matRep_new (p := p) r c A.modulus
  unfold Matrix.mul
  rw [if_neg (by rw [hA.2.1, hB.1]; simp), hA.1, hB.2.1, hA.2.2.1, hA.2.2.2.1, hZ]
  dsimp only
  obtain ⟨P, hP, hPr⟩ := fill_rows
    (fun i (R : Matrix) =>
      forRange
        (fun j (R : Matrix) =>
          match Matrix.mulEntry fuel A B i j with
          | .error e => .error e
          | .ok sum => R.setEntry i j sum)
        0 c R)
    (fun i j => ∑ t in Finset.range k, f i t * g t j) (r := r) (c := c) (n := r)
    (by
      intro i hi N g' hN
      obtain ⟨N', hN', hrep⟩ := fill_row
        (fun j => Matrix.mulEntry fuel A B i j)
        (fun j => j) 0 (fun j => (Nat.zero_add j).symm)
        (fun j => ∑ t in Finset.range k, f i t * g t j)
        (fun j hj => mulEntry_spec fuel hlt hA hB hi hj) hN hi (by omega : 0 + c ≤ c)
      refine ⟨N', hN', hrep.congr ?_⟩
      intro a b _ hb
      by_cases hai : a = i
      · rw [if_pos ⟨hai, Nat.zero_le _, by omega⟩, if_pos hai, hai, Nat.sub_zero]
      · rw [if_neg (by tauto), if_neg hai])
    hZr
  refine ⟨P, hP, hPr.congr ?_⟩
  intro a b ha _
  rw [if_pos ha]

end Construction

/-! ## The forward pass on `[A | I]` follows the forward pass on `A` -/

section Augmented

variable {p : Nat} [hp : Fact p.Prime]

theorem pFindAux_congr {g f : Nat → Nat → ZMod p} {col : Nat} (h : ∀ i, g i col = f i col) :
    ∀ n i, pFindAux g col n i = pFindAux f col n i := by
  intro n
  induction n with
  | zero => intro i; rfl
  | succ n ih => intro i; unfold pFindAux; rw [h i, ih (i + 1)]

theorem pStep_agree {n r col : Nat} {s t : PState p} (hf : AgreeLeft n s.f t.f)
    (hcr : s.cr = t.cr) (hpiv : s.piv = t.piv) (hcol : col < n) :
    AgreeLeft n (pStep r col s).f (pStep r col t).f ∧ (pStep r col s).cr = (pStep r col t).cr ∧
      (pStep r col s).piv = (pStep r col t).piv := by
  have hfind : pFindAux s.f col (r - s.cr) s.cr = pFindAux t.f col (r - t.cr) t.cr := by
    rw [hcr]
    exact pFindAux_congr (fun i => hf i col hcol) _ _
  cases hft : pFindAux t.f col (r - t.cr) t.cr with
  | none =>
    rw [pStep_none hft, pStep_none (hfind.trans hft)]
    exact ⟨hf, hcr, hpiv⟩
  | some pr =>
    rw [pStep_some hft, pStep_some (hfind.trans hft)]
    dsimp only
    refine ⟨?_, by rw [hcr], by rw [hpiv]⟩
    intro i j hj
    simp only [pElimBelow, pScale, pSwap, hcr, hf _ j hj, hf _ col hcol]

theorem pForward_agree {n r : Nat} : ∀ (k col : Nat) (s t : PState p), col + k ≤ n →
    AgreeLeft n s.f t.f → s.cr = t.cr → s.piv = t.piv →
    AgreeLeft n (pForward r k col s).f (pForward r k col t).f ∧
      (pForward r k col s).cr = (pForward r k col t).cr ∧
      (pForward r k col s).piv = (pForward r k col t).piv := by
  intro k
  induction k with
  | zero => intro col s t _ hf hcr hpiv; exact ⟨hf, hcr, hpiv⟩
  | succ k ih =>
    intro col s t hc hf hcr hpiv
    unfold pForward
    rw [hcr]
    by_cases hlt : t.cr < r
    · rw [if_pos hlt, if_pos hlt]
      obtain ⟨a, b, c⟩ := pStep_agree (r := r) hf hcr hpiv (by omega : col < n)
      exact ih (col + 1) _ _ (by omega) a b c
    · rw [if_neg hlt, if_neg hlt]
      exact ⟨hf, hcr, hpiv⟩

theorem pForward_stop {r : Nat} (k col : Nat) (s : PState p) (h : r ≤ s.cr) :
    pForward r k col s = s := by
  cases k with
  | zero => rfl
  | succ k => unfold pForward; rw [if_neg (by omega)]

theorem pForward_split {r : Nat} : ∀ (a b col : Nat) (s : PState p),
    pForward r (a + b) col s = pForward r b (col + a) (pForward r a col s) := by
  intro a
  induction a with
  | zero => intro b col s; rw [Nat.zero_add]; rfl
  | succ a ih =>
    intro b col s
    rw [Nat.add_right_comm a 1 b]
    rw [pForward, pForward]
    by_cases hlt : s.cr < r
    · rw [if_pos hlt, if_pos hlt, ih b (col + 1) _]
      rw [Nat.add_assoc col 1 a, Nat.add_comm 1 a]
    · rw [if_neg hlt, if_neg hlt, pForward_stop _ _ _ (by omega)]

theorem pStep_piv (r col : Nat) (s : PState p) :
    ∃ extra, (pStep r col s).piv = s.piv ++ extra ∧ ∀ q ∈ extra, col ≤ q := by
  cases hf : pFindAux s.f col (r - s.cr) s.cr with
  | none => rw [pStep_none hf]; exact ⟨[], by simp, fun q hq => absurd hq (List.not_mem_nil q)⟩
  | some pr =>
    rw [pStep_some hf]
    refine ⟨[col], rfl, ?_⟩
    intro q hq
    rw [List.mem_singleton] at hq
    omega

theorem pForward_piv {r : Nat} : ∀ (k col : Nat) (s : PState p),
    ∃ extra, (pForward r k col s).piv = s.piv ++ extra ∧ ∀ q ∈ extra, col ≤ q := by
  intro k
  induction k with
  | zero => intro col s; exact ⟨[], by simp [pForward], fun q hq => absurd hq (List.not_mem_nil q)⟩
  | succ k ih =>
    intro col s
    unfold pForward
    by_cases hlt : s.cr < r
    · rw [if_pos hlt]
      obtain ⟨e1, h1, h1'⟩ := pStep_piv r col s
      obtain ⟨e2, h2, h2'⟩ := ih (col + 1) (pStep r col s)
      refine ⟨e1 ++ e2, by rw [h2, h1, List.append_assoc], ?_⟩
      intro q hq
      rw [List.mem_append] at hq
      rcases hq with hq | hq
      · exact h1' q hq
      · have := h2' q hq; omega
    · rw [if_neg hlt]
      exact ⟨[], by simp, fun q hq => absurd hq (List.not_mem_nil q)⟩

theorem pairwise_getD_add {l : List Nat} (h : l.Pairwise (fun a b => a < b)) :
    ∀ d k, k + d < l.length → l.getD k 0 + d ≤ l.getD (k + d) 0 := by
  intro d
  induction d with
  | zero => intro k _; exact le_refl _
  | succ d ih =>
    intro k hk
    have h1 := ih k (by omega)
    have h2 := getD_lt_of_pairwise h (by omega : k + d < k + (d + 1)) hk
    omega

theorem pivots_full {l : List Nat} {n : Nat} (h : l.Pairwise (fun a b => a < b))
    (hlen : l.length = n) (hlt : ∀ q ∈ l, q < n) {k : Nat} (hk : k < n) : l.getD k 0 = k := by
  have h1 := pairwise_getD_add h k 0 (by omega)
  rw [Nat.zero_add] at h1
  have h2 := pairwise_getD_add h (n - 1 - k) k (by omega)
  have h3 : k + (n - 1 - k) = n - 1 := by omega
  rw [h3] at h2
  have h4 := hlt _ (getD_mem_of_lt (by omega : n - 1 < l.length))
  omega

/-! ## Row operations keep `right part * A = left part` -/

theorem rowOK_scale {n : Nat} {f : Nat → Nat → ZMod p} {v : Nat → ZMod p} (x : ZMod p)
    (h : RowOK n f v) : RowOK n f (fun j => v j * x) := by
  intro j hj
  have := h j hj
  calc (∑ t in Finset.range n, v (n + t) * x * f t j)
      = (∑ t in Finset.range n, v (n + t) * f t j) * x := by
        rw [Finset.sum_mul]
        apply Finset.sum_congr rfl
        intro t _
        ring
    _ = v j * x := by rw [this]

theorem rowOK_sub {n : Nat} {f : Nat → Nat → ZMod p} {v w : Nat → ZMod p} (x : ZMod p)
    (hv : RowOK n f v) (hw : RowOK n f w) : RowOK n f (fun j => v j - w j * x) := by
  intro j hj
  have h1 := hv j hj
  have h2 := hw j hj
  calc (∑ t in Finset.range n, (v (n + t) - w (n + t) * x) * f t j)
      = (∑ t in Finset.range n, v (n + t) * f t j)
          - (∑ t in Finset.range n, w (n + t) * f t j) * x := by
        rw [Finset.sum_mul, ← Finset.sum_sub_distrib]
        apply Finset.sum_congr rfl
        intro t _
        ring
    _ = v j - w j * x := by rw [h1, h2]

theorem rowOK_augment {n : Nat} (f : Nat → Nat → ZMod p) {i : Nat} (hi : i < n) :
    RowOK n f (pAugment n f i) := by
  intro j hj
  have hterm : ∀ t ∈ Finset.range n,
      pAugment n f i (n + t) * f t j = if t = i then f i j else 0 := by
    intro t _
    simp only [pAugment]
    rw [if_neg (by omega)]
    have : n + t - n = t := by omega
    rw [this]
    by_cases hti : t = i
    · rw [if_pos hti, if_pos hti, one_mul, hti]
    · rw [if_neg hti, if_neg hti, zero_mul]
  rw [Finset.sum_congr rfl hterm, Finset.sum_ite_eq' (Finset.range n) i]
  simp only [pAugment]
  rw [if_pos (Finset.mem_range.mpr hi), if_pos hj]

theorem pStep_rowOK {n col : Nat} {f : Nat → Nat → ZMod p} {s : PState p}
    (h : ∀ i, i < n → RowOK n f (s.f i)) : ∀ i, i < n → RowOK n f ((pStep n col s).f i) := by
  cases hf : pFindAux s.f col (n - s.cr) s.cr with
  | none => rw [pStep_none hf]; exact h
  | some pr =>
    obtain ⟨h1, h2, _, _⟩ := pFindAux_some _ _ _ hf
    have hpr : pr < n := by omega
    have hcr : s.cr < n := by omega
    rw [pStep_some hf]
    dsimp only
    have hswap : ∀ i, i < n → RowOK n f (pSwap s.f s.cr pr i) := by
      intro i hi
      by_cases h1 : i = s.cr
      · have he : pSwap s.f s.cr pr i = s.f pr := by funext j; simp [pSwap, h1]
        rw [he]; exact h pr hpr
      · by_cases h2 : i = pr
        · have he : pSwap s.f s.cr pr i = s.f s.cr := by
            funext j
            simp only [pSwap, if_neg h1, if_pos h2]
          rw [he]; exact h s.cr hcr
        · have he : pSwap s.f s.cr pr i = s.f i := by funext j; simp [pSwap, h1, h2]
          rw [he]; exact h i hi
    have hscale : ∀ i, i < n →
        RowOK n f (pScale (pSwap s.f s.cr pr) s.cr (s.f pr col)⁻¹ i) := by
      intro i hi
      by_cases h1 : i = s.cr
      · have := rowOK_scale (s.f pr col)⁻¹ (hswap s.cr hcr)
        intro j hj
        simp only [pScale, h1, if_true]
        exact this j hj
      · intro j hj
        simp only [pScale, if_neg h1]
        exact hswap i hi j hj
    intro i hi
    by_cases h1 : s.cr < i ∧ i < n
    · have := rowOK_sub
        (pScale (pSwap s.f s.cr pr) s.cr (s.f pr col)⁻¹ i col) (hscale i hi) (hscale s.cr hcr)
      intro j hj
      simp only [pElimBelow, if_pos h1]
      exact this j hj
    · intro j hj
      simp only [pElimBelow, if_neg h1]
      exact hscale i hi j hj

theorem pForward_rowOK {n : Nat} {f : Nat → Nat → ZMod p} : ∀ (k col : Nat) (s : PState p),
    (∀ i, i < n → RowOK n f (s.f i)) → ∀ i, i < n → RowOK n f ((pForward n k col s).f i) := by
  intro k
  induction k with
  | zero => intro col s h; exact h
  | succ k ih =>
    intro col s h
    unfold pForward
    by_cases hlt : s.cr < n
    · rw [if_pos hlt]; exact ih (col + 1) _ (pStep_rowOK h)
    · rw [if_neg hlt]; exact h

theorem pBackward_rowOK {n : Nat} {f : Nat → Nat → ZMod p} {piv : List Nat} :
    ∀ (k : Nat) (g : Nat → Nat → ZMod p), k ≤ n →
      (∀ i, i < n → RowOK n f (g i)) → ∀ i, i < n → RowOK n f (pBackward piv k g i) := by
  intro k
  induction k with
  | zero => intro g _ h; exact h
  | succ k ih =>
    intro g hk h
    rw [pBackward]
    apply ih _ (by omega)
    intro i hi
    by_cases h1 : i < k
    · have := rowOK_sub (g i (piv.getD k 0)) (h i hi) (h k (by omega))
      intro j hj
      simp only [pElimAbove, if_pos h1]
      exact this j hj
    · intro j hj
      simp only [pElimAbove, if_neg h1]
      exact h i hi j hj

/-- From `R * A = 1` to `A * R = 1`, for values indexed by natural numbers. -/
theorem right_inverse_of_left {n : Nat} {f R : Nat → Nat → ZMod p}
    (h : ∀ i j, i < n → j < n →
      (∑ t in Finset.range n, R i t * f t j) = if i = j then 1 else 0) :
    ∀ i j, i < n → j < n →
      (∑ t in Finset.range n, f i t * R t j) = if i = j then 1 else 0 := by
  have hRA : Matrix.of (fun (i j : Fin n) => R i.val j.val)
      * Matrix.of (fun (i j : Fin n) => f i.val j.val) = 1 := by
    ext i j
    rw [Matrix.mul_apply, Matrix.one_apply]
    have := h i.val j.val i.isLt j.isLt
    rw [Finset.sum_range] at this
    simp only [Matrix.of_apply]
    rw [this]
    by_cases hij : i = j
    · rw [if_pos hij, if_pos (by rw [hij])]
    · rw [if_neg hij, if_neg (fun hh => hij (Fin.ext hh))]
  have hAR := Matrix.mul_eq_one_comm.mp hRA
  intro i j hi hj
  have := congrFun (congrFun hAR (Fin.mk i hi)) (Fin.mk j hj)
  rw [Matrix.mul_apply, Matrix.one_apply] at this
  simp only [Matrix.of_apply] at this
  rw [Finset.sum_range]
  rw [this]
  by_cases hij : i = j
  · rw [if_pos hij, if_pos (Fin.ext hij)]
  · rw [if_neg hij, if_neg (fun hh => hij (Fin.mk.inj hh))]

end Augmented

/-! ## The member `inverse` over a prime field -/

section InverseSpec

variable {p : Nat} [hp : Fact p.Prime]

theorem augment_spec {A aug0 : Matrix} {n : Nat} {f g0 : Nat → Nat → ZMod p}
    (hA : MatRep p A n n f) (h0 : MatRep p aug0 n (2 * n) g0) :
    ∃ aug, Matrix.augment A aug0 = .ok aug ∧ MatRep p aug n (2 * n) (pAugment n f) := by
  unfold Matrix.augment
  rw [hA.1, hA.2.1, hA.2.2.1, hA.2.2.2.1]
  obtain ⟨aug, haug, hrep⟩ := fill_rows
    (fun i (aug : Matrix) =>
      match forRange
          (fun j (aug : Matrix) =>
            match A.getEntry i j with
            | .error e => .error e
            | .ok x => aug.setEntry i j x)
          0 n aug with
      | .error e => .error e
      | .ok aug =>
        forRange
          (fun j (aug : Matrix) =>
            match (if i = j then GFElement.ofValue 1 p 1 A.modulus
              else GFElement.new p 1 A.modulus : Except Err GFElement) with
            | .error e => .error e
            | .ok x => aug.setEntry i (n + j) x)
          0 n aug)
    (pAugment n f) (r := n) (c := 2 * n) (n := n)
    (by
      intro i hi N g hN
      obtain ⟨N1, hN1, hrep1⟩ := fill_row (fun j => A.getEntry i j) (fun j => j) 0
        (fun j => (Nat.zero_add j).symm) (fun j => f i j)
        (fun j hj => hA.2.2.2.2.2.2 i j hi hj) hN hi (by omega : 0 + n ≤ 2 * n)
      obtain ⟨N2, hN2, hrep2⟩ := fill_row
        (fun j => (if i = j then GFElement.ofValue 1 p 1 A.modulus
              else GFElement.new p 1 A.modulus : Except Err GFElement))
        (fun j => n + j) n (fun j => rfl) (fun j => if i = j then 1 else 0)
        (fun j hj => by
          dsimp only
          by_cases hij : i = j
          · rw [if_pos hij, if_pos hij]
            obtain ⟨x, hx, hxr⟩ := elem_ofValue (p := p) 1 A.modulus
            rw [Nat.cast_one] at hxr
            exact ⟨x, hx, hxr⟩
          · rw [if_neg hij, if_neg hij]
            exact elem_new A.modulus)
        hrep1 hi (by omega : n + n ≤ 2 * n)
      refine ⟨N2, ?_, hrep2.congr ?_⟩
      · exact matrix_bind_ok hN1 hN2
      · intro a b _ hb
        by_cases hai : a = i
        · rw [if_pos hai]
          simp only [pAugment]
          by_cases hbn : b < n
          · rw [if_neg (by omega), if_pos ⟨hai, by omega, by omega⟩, if_pos hbn, Nat.sub_zero, hai]
          · rw [if_pos ⟨hai, by omega, by omega⟩, if_neg hbn, hai]
            by_cases hd : b - n = i
            · rw [if_pos hd.symm, if_pos hd]
            · rw [if_neg (fun hh => hd hh.symm), if_neg hd]
        · rw [if_neg (by tauto), if_neg (by tauto), if_neg hai])
    h0
  refine ⟨aug, haug, hrep.congr ?_⟩
  intro a b ha _
  rw [if_pos ha]

theorem leftIsIdentity_spec {R : Matrix} {n c : Nat} {h : Nat → Nat → ZMod p}
    (hR : MatRep p R n c h) (hc : n ≤ c) :
    ∃ b, Matrix.leftIsIdentity R n n = .ok b ∧
      (b = true ↔ ∀ i j, i < n → j < n → h i j = if i = j then 1 else 0) := by
  unfold Matrix.leftIsIdentity
  obtain ⟨b, hb, hinv⟩ := forRange_inv
    (fun k (good : Bool) =>
      good = true ↔ ∀ i j, i < k → j < n → h i j = if i = j then 1 else 0)
    (fun i (good : Bool) =>
      forRange
        (fun j (good : Bool) =>
          if good then
            match R.getEntry i j with
            | .error e => .error e
            | .ok x => .ok (if i = j then x.isOne else x.isZero)
          else .ok false)
        0 n good)
    n 0 true (by simp)
    (by
      intro i good _ hi hgood
      obtain ⟨b', hb', hinv'⟩ := forRange_inv
        (fun k (g : Bool) =>
          g = true ↔ (∀ a j, a < i → j < n → h a j = if a = j then 1 else 0) ∧
            ∀ j, j < k → h i j = if i = j then 1 else 0)
        (fun j (good : Bool) =>
          if good then
            match R.getEntry i j with
            | .error e => .error e
            | .ok x => .ok (if i = j then x.isOne else x.isZero)
          else .ok false)
        n 0 good
        (by
          show good = true ↔ _
          rw [hgood]
          constructor
          · intro hh; exact ⟨hh, fun j hj => by omega⟩
          · intro hh; exact hh.1)
        (by
          intro j g _ hj hg
          obtain ⟨e, he, her⟩ := hR.2.2.2.2.2.2 i j (by omega) (by omega)
          by_cases hgt : g = true
          · refine ⟨(if i = j then e.isOne else e.isZero), ?_, ?_⟩
            · simp only [hgt, if_true, he]
            · have hprev := hg.mp hgt
              by_cases hij : i = j
              · rw [if_pos hij]
                show e.isOne = true ↔ _
                rw [elem_isOne her]
                constructor
                · intro h1
                  refine ⟨hprev.1, ?_⟩
                  intro j' hj'
                  by_cases hjj : j' = j
                  · rw [hjj, h1, if_pos hij]
                  · exact hprev.2 j' (by omega)
                · intro hh
                  have := hh.2 j (by omega)
                  rw [if_pos hij] at this
                  exact this
              · rw [if_neg hij]
                show e.isZero = true ↔ _
                rw [elem_isZero her]
                constructor
                · intro h1
                  refine ⟨hprev.1, ?_⟩
                  intro j' hj'
                  by_cases hjj : j' = j
                  · rw [hjj, h1, if_neg hij]
                  · exact hprev.2 j' (by omega)
                · intro hh
                  have := hh.2 j (by omega)
                  rw [if_neg hij] at this
                  exact this
          · refine ⟨false, ?_, ?_⟩
            · have hgf : g = false := by cases g <;> simp_all
              simp only [hgf, Bool.false_eq_true, if_false]
            · constructor
              · intro hh; cases hh
              · intro hh
                exfalso
                exact hgt (hg.mpr ⟨hh.1, fun j' hj' => hh.2 j' (by omega)⟩))
      refine ⟨b', hb', ?_⟩
      show b' = true ↔ _
      rw [hinv']
      constructor
      · rintro ⟨h1, h2⟩ a j ha hj
        by_cases hai : a = i
        · rw [hai]; exact h2 j (by omega)
        · exact h1 a j (by omega) hj
      · intro hh
        exact ⟨fun a j ha hj => hh a j (by omega) hj, fun j hj => hh i j (by omega) (by omega)⟩)
  rw [Nat.zero_add] at hinv
  exact ⟨b, hb, hinv⟩

theorem extractRight_spec {R inv0 : Matrix} {n : Nat} {h g0 : Nat → Nat → ZMod p}
    (hR : MatRep p R n (2 * n) h) (h0 : MatRep p inv0 n n g0) :
    ∃ inv, Matrix.extractRight R inv0 n n = .ok inv ∧
      MatRep p inv n n (fun i j => h i (n + j)) := by
  unfold Matrix.extractRight
  obtain ⟨inv, hinv, hrep⟩ := fill_rows
    (fun i (inv : Matrix) =>
      forRange
        (fun j (inv : Matrix) =>
          match R.getEntry i (n + j) with
          | .error e => .error e
          | .ok x => inv.setEntry i j x)
        0 n inv)
    (fun i j => h i (n + j)) (r := n) (c := n) (n := n)
    (by
      intro i hi N g hN
      obtain ⟨N1, hN1, hrep1⟩ := fill_row (fun j => R.getEntry i (n + j)) (fun j => j) 0
        (fun j => (Nat.zero_add j).symm) (fun j => h i (n + j))
        (fun j hj => hR.2.2.2.2.2.2 i (n + j) hi (by omega)) hN hi (by omega : 0 + n ≤ n)
      refine ⟨N1, hN1, hrep1.congr ?_⟩
      intro a b _ hb
      by_cases hai : a = i
      · rw [if_pos ⟨hai, Nat.zero_le _, by omega⟩, if_pos hai, Nat.sub_zero, hai]
      · rw [if_neg (by tauto), if_neg hai])
    h0
  refine ⟨inv, hinv, hrep.congr ?_⟩
  intro a b ha _
  rw [if_pos ha]

/-- The member `inverse` on a square matrix over GF(p): it returns the right
block of the reduced augmented matrix exactly when the left block is the
identity. -/
theorem inverse_spec (fuel : Nat) (hlt : p < 65536) (edu : Bool) {A : Matrix} {n : Nat}
    {f : Nat → Nat → ZMod p} (hA : MatRep p A n n f) :
    ∃ (o : Option Matrix) (h : Nat → Nat → ZMod p),
      A.inverse fuel edu = .ok o ∧
      h = pBackward (pForward n (2 * n) 0 { f := pAugment n f, cr := 0, piv := [] }).piv
          (pForward n (2 * n) 0 { f := pAugment n f, cr := 0, piv := [] }).piv.length
          (pForward n (2 * n) 0 { f := pAugment n f, cr := 0, piv := [] }).f ∧
      ((∀ i j, i < n → j < n → h i j = if i = j then 1 else 0) →
        ∃ M, o = some M ∧ MatRep p M n n (fun i j => h i (n + j))) ∧
      ((¬ ∀ i j, i < n → j < n → h i j = if i = j then 1 else 0) → o = none) := by
  obtain ⟨aug0, haug0, hrep0⟩ := matRep_new (p := p) n (2 * n) A.modulus
  obtain ⟨aug, haug, hrepa⟩ := augment_spec hA hrep0
  obtain ⟨res, hres, hM, _, _⟩ := rref_spec fuel hlt edu hrepa
  obtain ⟨b, hb, hbi⟩ := leftIsIdentity_spec hM (by omega : n ≤ 2 * n)
  obtain ⟨inv0, hinv0, hrepi⟩ := matRep_new (p := p) n n A.modulus
  obtain ⟨inv, hinv, hrepinv⟩ := extractRight_spec hM hrepi
  have hrows : A.rows = n := hA.1
  have hcols : A.cols = n := hA.2.1
  have hpp : A.p = p := hA.2.2.1
  have hmm : A.m = 1 := hA.2.2.2.1
  cases b with
  | true =>
    refine ⟨some inv, _, ?_, rfl, fun _ => ⟨inv, rfl, hrepinv⟩, fun hn => absurd (hbi.mp rfl) hn⟩
    unfold Matrix.inverse
    rw [if_neg (by rw [hrows, hcols]; simp), hrows, hcols, hpp, hmm, haug0]
    simp only [haug, hres, hb, hinv0, hinv]
  | false =>
    refine ⟨none, _, ?_, rfl, fun hh => ?_, fun _ => rfl⟩
    · unfold Matrix.inverse
      rw [if_neg (by rw [hrows, hcols]; simp), hrows, hcols, hpp, hmm, haug0]
      simp only [haug, hres, hb]
    · have := hbi.mpr hh
      cases this

end InverseSpec

/-! ## Claims about field elements -/

/-- C1 (code defect): over GF(4) with modulus `x^2 + x + 1` the element `x` is
what the coefficient constructor builds from `{0, 1}`, and the product `x * x`
computed by `operator*` is the zero element for every step budget, whereas the
reduced polynomial product is `x + 1`: the constructor keeps only the first `m`
coefficients of the product before `reduceModulo` runs. -/
theorem C1_mul_drops_high_coefficients :
    ∀ fuel : Nat, GFElement.ofCoeffs fuel [0, 1] 2 2 [1, 1, 1] = .ok gf4X ∧
      gf4X.mul fuel gf4X = .ok gf4Zero ∧ gf4Zero.eq gf4X1 = false ∧
      gf4Zero.isZero = true := by
  intro fuel
  refine ⟨?_, ?_, by decide, by decide⟩ <;> cases fuel <;> rfl

/-- C2: in a prime field GF(p) with `p < 2^16`, the inverse of every nonzero
element is found by the brute-force search, and the product of the element
with its inverse is the one element. -/
theorem C2_prime_inverse (fuel p : Nat) (a : GFElement) (hp : p.Prime) (hlt : p < 65536)
    (ha : a.InPrimeField p) (hnz : a.isZero = false) :
    ∃ b, a.inverse fuel = .ok b ∧ b.InPrimeField p ∧
      ∃ r, a.mul fuel b = .ok r ∧ r.isOne = true ∧
        ∃ one, GFElement.ofValue 1 a.p a.m a.modulus = .ok one ∧ r.eq one = true := by
  haveI : Fact p.Prime := ⟨hp⟩
  obtain ⟨x, hx⟩ := (inPrimeField_iff a).mp ha
  have hx0 : x ≠ 0 := by
    intro h
    have := (elem_isZero hx).mpr h
    rw [hnz] at this
    cases this
  obtain ⟨b, hb, hbr⟩ := elem_inverse fuel hlt hx hx0
  obtain ⟨r, hr, hrr⟩ := elem_mul fuel hlt hx hbr
  rw [mul_inv_cancel₀ hx0] at hrr
  obtain ⟨one, hone, honer⟩ := elem_ofValue (p := p) 1 a.modulus
  rw [Nat.cast_one] at honer
  refine ⟨b, hb, (inPrimeField_iff b).mpr ⟨_, hbr⟩, r, hr, (elem_isOne hrr).mpr rfl, one, ?_,
    (elem_eq hrr honer).mpr rfl⟩
  rw [hx.1, hx.2.1]
  exact hone

/-- Witness for C2: the element 3 of GF(7). -/
theorem C2_prime_inverse_witness :
    ∃ b, ({ p := 7, m := 1, modulus := [1, 1], coeffs := [3] } : GFElement).inverse 0 = .ok b ∧
      b.InPrimeField 7 ∧
      ∃ r, ({ p := 7, m := 1, modulus := [1, 1], coeffs := [3] } : GFElement).mul 0 b = .ok r ∧
        r.isOne = true ∧
        ∃ one, GFElement.ofValue 1 7 1 [1, 1] = .ok one ∧ r.eq one = true :=
  C2_prime_inverse 0 7 { p := 7, m := 1, modulus := [1, 1], coeffs := [3] }
    (by norm_num) (by decide) (by decide) (by decide)

/-- C3 (code defect): for the nonzero element `x` of GF(4) (modulus
`x^2 + x + 1`) the quotient loop inside `inverse` never ends, so `inverse`
returns no element whatever the step budget. -/
theorem C3_inverse_extension_diverges :
    ∀ fuel : Nat, gf4X.isZero = false ∧ gf4X.inverse fuel = .error .outOfFuel := by
  intro fuel
  refine ⟨by decide, ?_⟩
  rcases fuel with _ | _ | _ | k
  · decide!
  · decide!
  · decide!
  · have hpm : polyMod (k + 3) 2 [1, 1, 1] [0, 1] = .ok [1] := by
      rw [Nat.add_comm]; exact polyMod_mono 3 2 _ _ _ (by decide!) k
    have hq : GFElement.quotientLoop 2 (k + 3)
        { dividend := [1, 1, 1], divisor := [0, 1], quotient := [] }
        = .ok { dividend := [1], divisor := [0, 1], quotient := [1, 1] } := by
      rw [Nat.add_comm]; exact quotientLoop_mono 2 3 _ _ (by decide!) k
    have hz : gf4X.isZero = false := by decide
    have hm : ¬ gf4X.m = 1 := by decide
    unfold GFElement.inverse
    rw [if_neg (by simp [hz]), if_neg hm]
    have he : GFElement.euclidLoop gf4X.p (k + 3) (k + 3)
        { r0 := gf4X.modulus, r1 := gf4X.coeffs, s0 := List.replicate gf4X.m 0,
          s1 := (List.replicate gf4X.m 0).set 0 1 } = .error .outOfFuel := by
      show GFElement.euclidLoop 2 (k + 3) (k + 3)
        { r0 := [1, 1, 1], r1 := [0, 1], s0 := [0, 0], s1 := [1, 0] } = _
      rw [GFElement.euclidLoop]
      have hnz : allZero [0, 1] = false := by decide
      simp only [hnz, if_true, hpm, hq]
      exact euclid_second_round _ _ _ _
    rw [he]

/-- C4 (code defect): in GF(4) no element at all multiplies `x` to one under
`operator*`: for each of the four elements `b` the product `x * b` is returned
and is not the one element; so `a * a.inverse() == one` cannot hold for `x`. -/
theorem C4_no_inverse_under_mul :
    ∀ fuel : Nat,
      (gf4X.mul fuel gf4Zero = .ok gf4Zero ∧ gf4X.mul fuel gf4One = .ok gf4X ∧
        gf4X.mul fuel gf4X = .ok gf4Zero ∧ gf4X.mul fuel gf4X1 = .ok gf4X) ∧
      gf4Zero.isOne = false ∧ gf4X.isOne = false := by
  intro fuel
  refine ⟨⟨?_, ?_, ?_, ?_⟩, by decide, by decide⟩ <;> cases fuel <;> rfl

/-! ## Claims about the elimination passes -/

theorem echelon_observed {p : Nat} [Fact p.Prime] {M : Matrix} {r c : Nat}
    {f : Nat → Nat → ZMod p} {piv : List Nat} (hM : MatRep p M r c f)
    (h : Echelon r f piv c) :
    (∀ k, k < piv.length → ∃ q, piv[k]? = some q ∧ q < c ∧ M.EntryIsOne k q ∧
        (∀ j, j < q → M.EntryIsZero k j) ∧ ∀ i, k < i → i < r → M.EntryIsZero i q) ∧
      (∀ i j, piv.length ≤ i → i < r → j < c → M.EntryIsZero i j) := by
  obtain ⟨h1, _, h3, h4, h5⟩ := h
  constructor
  · intro k hk
    have hq : piv.getD k 0 = piv[k] := List.getD_eq_getElem _ 0 hk
    have hqc : piv[k] < c := h3 _ (List.getElem_mem hk)
    have hkr : k < r := by omega
    obtain ⟨ha, hb, hc⟩ := h4 k hk
    rw [hq] at ha hb hc
    refine ⟨piv[k], List.getElem?_eq_getElem hk, hqc, (matRep_entryIsOne hM hkr hqc).mpr ha, ?_, ?_⟩
    · intro j hj
      exact (matRep_entryIsZero hM hkr (by omega)).mpr (hb j hj)
    · intro i hi hir
      exact (matRep_entryIsZero hM hir hqc).mpr (hc i hi hir)
  · intro i j hi hir hj
    exact (matRep_entryIsZero hM hir hj).mpr (h5 i j hi hir hj)

/-- C7: over a prime field GF(p), `p < 2^16`, `forwardGauss` returns a matrix
in row-echelon form with unit pivots: for each `k < rank` the entry at
`(k, pivotCols[k])` is one, the entries of row `k` to its left are zero, the
entries below it in that column are zero, and the rows from `rank` on are
entirely zero. -/
theorem C7_forwardGauss_row_echelon (fuel p : Nat) (A : Matrix) (educational : Bool)
    (hp : p.Prime) (hlt : p < 65536) (hA : A.OverPrimeField p) :
    ∃ res, A.forwardGauss fuel educational = .ok res ∧
      res.matrix.OverPrimeField p ∧ res.matrix.rows = A.rows ∧ res.matrix.cols = A.cols ∧
      (∀ k, k < res.rank → ∃ c, res.pivotCols[k]? = some c ∧ c < A.cols ∧
          res.matrix.EntryIsOne k c ∧ (∀ j, j < c → res.matrix.EntryIsZero k j) ∧
          ∀ i, k < i → i < A.rows → res.matrix.EntryIsZero i c) ∧
      (∀ i j, res.rank ≤ i → i < A.rows → j < A.cols → res.matrix.EntryIsZero i j) := by
  haveI : Fact p.Prime := ⟨hp⟩
  have hrep := overPrimeField_matRep hA
  obtain ⟨res, hres, hM, hpiv, hrank⟩ := forwardGauss_spec fuel hlt educational hrep
  obtain ⟨hech, hcr⟩ := pForward_echelon (r := A.rows) A.cols 0
    { f := A.toZMod p, cr := 0, piv := [] } (echelon_init _ _) rfl
  rw [Nat.zero_add] at hech
  obtain ⟨ho1, ho2⟩ := echelon_observed hM hech
  rw [← hpiv] at ho1 ho2
  have hrl : res.rank = res.pivotCols.length := by rw [hrank, hcr, hpiv]
  refine ⟨res, hres, matRep_overPrimeField hM, hM.1, hM.2.1, ?_, ?_⟩
  · rw [hrl]; exact ho1
  · rw [hrl]; exact ho2

/-- Witness for C7: the matrix `[[1, 2], [2, 2]]` over GF(3). -/
theorem C7_forwardGauss_row_echelon_witness :
    ∃ res, exampleGF3.forwardGauss 0 false = .ok res ∧
      res.matrix.OverPrimeField 3 ∧ res.matrix.rows = exampleGF3.rows ∧
      res.matrix.cols = exampleGF3.cols ∧
      (∀ k, k < res.rank → ∃ c, res.pivotCols[k]? = some c ∧ c < exampleGF3.cols ∧
          res.matrix.EntryIsOne k c ∧ (∀ j, j < c → res.matrix.EntryIsZero k j) ∧
          ∀ i, k < i → i < exampleGF3.rows → res.matrix.EntryIsZero i c) ∧
      (∀ i j, res.rank ≤ i → i < exampleGF3.rows → j < exampleGF3.cols →
        res.matrix.EntryIsZero i j) :=
  C7_forwardGauss_row_echelon 0 3 exampleGF3 false (by norm_num) (by decide) (by decide)

/-- C8: over a prime field GF(p), `p < 2^16`, in the matrix returned by
`reducedRowEchelonForm` every pivot column `pivotCols[k]`, `k < rank`, has a
one in row `k` (a nonzero entry) and a zero in every other row. -/
theorem C8_rref_pivot_columns (fuel p : Nat) (A : Matrix) (educational : Bool)
    (hp : p.Prime) (hlt : p < 65536) (hA : A.OverPrimeField p) :
    ∃ res, A.reducedRowEchelonForm fuel educational = .ok res ∧
      res.matrix.rows = A.rows ∧ res.matrix.cols = A.cols ∧
      ∀ k, k < res.rank → ∃ c, res.pivotCols[k]? = some c ∧ c < A.cols ∧
        res.matrix.EntryIsOne k c ∧ ¬ res.matrix.EntryIsZero k c ∧
        ∀ i, i < A.rows → i ≠ k → res.matrix.EntryIsZero i c := by
  haveI : Fact p.Prime := ⟨hp⟩
  have hrep := overPrimeField_matRep hA
  obtain ⟨res, hres, hM, hpiv, hrank⟩ := rref_spec fuel hlt educational hrep
  obtain ⟨hech, hred, hcr⟩ := rref_shape A.rows A.cols (A.toZMod p)
  rw [← hrank] at hcr
  generalize pForward A.rows A.cols 0 { f := A.toZMod p, cr := 0, piv := [] } = s
    at hM hpiv hech hred hcr
  rw [← hpiv] at hech hred hcr hM
  refine ⟨res, hres, hM.1, hM.2.1, ?_⟩
  intro k hk
  have hkl : k < res.pivotCols.length := by rw [← hcr]; exact hk
  obtain ⟨ho1, _⟩ := echelon_observed hM hech
  obtain ⟨c, hc1, hc2, hc3, _, hc5⟩ := ho1 k hkl
  have hkr : k < A.rows := by have := hech.1; omega
  have hcq : res.pivotCols.getD k 0 = c := by
    rw [List.getD_eq_getElem _ 0 hkl]
    rw [List.getElem?_eq_getElem hkl] at hc1
    exact Option.some.inj hc1
  refine ⟨c, hc1, hc2, hc3, ?_, ?_⟩
  · intro hz
    have h1 := (matRep_entryIsOne hM hkr hc2).mp hc3
    have h0 := (matRep_entryIsZero hM hkr hc2).mp hz
    rw [h1] at h0
    exact one_ne_zero h0
  · intro i hi hik
    by_cases hlt' : i < k
    · have := hred k (Nat.zero_le _) hkl i hlt'
      rw [hcq] at this
      exact (matRep_entryIsZero hM hi hc2).mpr this
    · exact hc5 i (by omega) hi

/-- Witness for C8: the matrix `[[1, 2], [2, 2]]` over GF(3). -/
theorem C8_rref_pivot_columns_witness :
    ∃ res, exampleGF3.reducedRowEchelonForm 0 false = .ok res ∧
      res.matrix.rows = exampleGF3.rows ∧ res.matrix.cols = exampleGF3.cols ∧
      ∀ k, k < res.rank → ∃ c, res.pivotCols[k]? = some c ∧ c < exampleGF3.cols ∧
        res.matrix.EntryIsOne k c ∧ ¬ res.matrix.EntryIsZero k c ∧
        ∀ i, i < exampleGF3.rows → i ≠ k → res.matrix.EntryIsZero i c :=
  C8_rref_pivot_columns 0 3 exampleGF3 false (by norm_num) (by decide) (by decide)

/-- C9: for a matrix over a prime field, every result returned by
`forwardGauss` or by `reducedRowEchelonForm` has `rank` equal to the number of
pivot columns, pivot columns strictly increasing and below `cols`, and
`rank <= min(rows, cols)`; for `p < 2^16` both calls do return a result. -/
theorem C9_rank_and_pivot_columns (fuel p : Nat) (A : Matrix) (educational : Bool)
    (hp : p.Prime) (hA : A.OverPrimeField p) :
    (∀ res, A.forwardGauss fuel educational = .ok res → GaussInv A res) ∧
      (∀ res, A.reducedRowEchelonForm fuel educational = .ok res → GaussInv A res) ∧
      (p < 65536 →
        (∃ res, A.forwardGauss fuel educational = .ok res) ∧
          ∃ res, A.reducedRowEchelonForm fuel educational = .ok res) := by
  haveI : Fact p.Prime := ⟨hp⟩
  refine ⟨fun res h => forwardGauss_inv h, fun res h => rref_inv h, ?_⟩
  intro hlt
  have hrep := overPrimeField_matRep hA
  obtain ⟨res1, hres1, _⟩ := forwardGauss_spec fuel hlt educational hrep
  obtain ⟨res2, hres2, _⟩ := rref_spec fuel hlt educational hrep
  exact ⟨⟨res1, hres1⟩, ⟨res2, hres2⟩⟩

/-- Witness for C9: the matrix `[[1, 2], [2, 2]]` over GF(3). -/
theorem C9_rank_and_pivot_columns_witness :
    (∀ res, exampleGF3.forwardGauss 0 false = .ok res → GaussInv exampleGF3 res) ∧
      (∀ res, exampleGF3.reducedRowEchelonForm 0 false = .ok res → GaussInv exampleGF3 res) ∧
      ((3 : Nat) < 65536 →
        (∃ res, exampleGF3.forwardGauss 0 false = .ok res) ∧
          ∃ res, exampleGF3.reducedRowEchelonForm 0 false = .ok res) :=
  C9_rank_and_pivot_columns 0 3 exampleGF3 false (by norm_num) (by decide)

/-- C10: over a prime field GF(p), `p < 2^16`, reducing the matrix returned by
`reducedRowEchelonForm` once more returns an equal matrix, with the same rank
and the same pivot columns as found for `A`. -/
theorem C10_rref_idempotent (fuel p : Nat) (A : Matrix) (educational educational2 : Bool)
    (hp : p.Prime) (hlt : p < 65536) (hA : A.OverPrimeField p) :
    ∃ res, A.reducedRowEchelonForm fuel educational = .ok res ∧
      ∃ res2, res.matrix.reducedRowEchelonForm fuel educational2 = .ok res2 ∧
        res2.matrix.eq res.matrix = true ∧ res2.rank = res.rank ∧
        res2.pivotCols = res.pivotCols := by
  haveI : Fact p.Prime := ⟨hp⟩
  have hrep := overPrimeField_matRep hA
  obtain ⟨res, hres, hM, hpiv, hrank⟩ := rref_spec fuel hlt educational hrep
  obtain ⟨hech, hred, hcr⟩ := rref_shape A.rows A.cols (A.toZMod p)
  obtain ⟨res2, hres2, hM2, hpiv2, hrank2⟩ := rref_spec fuel hlt educational2 hM
  obtain ⟨hfw, hbw⟩ := rref_values_idempotent hech hred
  rw [hfw] at hM2 hpiv2 hrank2
  dsimp only at hM2 hpiv2 hrank2
  rw [hbw] at hM2
  refine ⟨res, hres, res2, hres2, matRep_eq hM2 hM, ?_, ?_⟩
  · rw [hrank2, hrank, hcr]
  · rw [hpiv2, hpiv]

/-- Witness for C10: the matrix `[[1, 2], [2, 2]]` over GF(3). -/
theorem C10_rref_idempotent_witness :
    ∃ res, exampleGF3.reducedRowEchelonForm 0 false = .ok res ∧
      ∃ res2, res.matrix.reducedRowEchelonForm 0 false = .ok res2 ∧
        res2.matrix.eq res.matrix = true ∧ res2.rank = res.rank ∧
        res2.pivotCols = res.pivotCols :=
  C10_rref_idempotent 0 3 exampleGF3 false false (by norm_num) (by decide) (by decide)

/-! ## Claims about `inverse` -/

section InverseClaims

variable {p : Nat} [hp : Fact p.Prime]

theorem rank_spec (fuel : Nat) (hlt : p < 65536) {A : Matrix} {r c : Nat}
    {f : Nat → Nat → ZMod p} (h : MatRep p A r c f) :
    A.rank fuel = .ok (pForward r c 0 { f := f, cr := 0, piv := [] }).cr := by
  obtain ⟨res, hres, _, _, hrank⟩ := forwardGauss_spec fuel hlt false h
  unfold Matrix.rank
  simp only [hres, hrank]

theorem isInvertible_spec (fuel : Nat) (hlt : p < 65536) {A : Matrix} {r c : Nat}
    {f : Nat → Nat → ZMod p} (h : MatRep p A r c f) :
    A.isInvertible fuel
      = .ok (decide (r = c ∧ (pForward r c 0 { f := f, cr := 0, piv := [] }).cr = r)) := by
  unfold Matrix.isInvertible
  rw [h.1, h.2.1]
  by_cases hrc : r = c
  · rw [if_neg (by simp [hrc]), rank_spec fuel hlt h]
    simp [hrc]
  · rw [if_pos hrc]
    simp [hrc]

/-- The reduced augmented matrix when the code rank of `A` is `n`: the left
block is the identity. -/
theorem augmented_left_identity {n : Nat} (f : Nat → Nat → ZMod p)
    (hrank : (pForward n n 0 { f := f, cr := 0, piv := [] }).cr = n) :
    ∀ i j, i < n → j < n →
      pBackward (pForward n (2 * n) 0 { f := pAugment n f, cr := 0, piv := [] }).piv
        (pForward n (2 * n) 0 { f := pAugment n f, cr := 0, piv := [] }).piv.length
        (pForward n (2 * n) 0 { f := pAugment n f, cr := 0, piv := [] }).f i j
        = if i = j then 1 else 0 := by
  obtain ⟨hech, hred, _⟩ := rref_shape n (2 * n) (pAugment n f)
  obtain ⟨hechA, hcrA⟩ := pForward_echelon (r := n) n 0 { f := f, cr := 0, piv := [] }
    (echelon_init n f) rfl
  rw [Nat.zero_add] at hechA
  obtain ⟨_, hcrG, hpivG⟩ := pForward_agree (n := n) (r := n) n 0
    { f := pAugment n f, cr := 0, piv := [] } { f := f, cr := 0, piv := [] } (by omega)
    (fun i j hj => by simp [pAugment, hj]) rfl rfl
  have hstop : pForward n n n (pForward n n 0 ({ f := pAugment n f, cr := 0, piv := [] } : PState p))
      = pForward n n 0 ({ f := pAugment n f, cr := 0, piv := [] } : PState p) :=
    pForward_stop n n _ (by rw [hcrG, hrank])
  have hsplit := pForward_split (r := n) n n 0 ({ f := pAugment n f, cr := 0, piv := [] } : PState p)
  rw [Nat.zero_add, hstop] at hsplit
  have h2n : 2 * n = n + n := by omega
  rw [h2n] at hech hred ⊢
  rw [hsplit] at hech hred ⊢
  rw [hpivG] at hech hred ⊢
  generalize pBackward (pForward n n 0 { f := f, cr := 0, piv := [] }).piv
    (pForward n n 0 { f := f, cr := 0, piv := [] }).piv.length
    (pForward n n 0 ({ f := pAugment n f, cr := 0, piv := [] } : PState p)).f = h at hech hred ⊢
  generalize pForward n n 0 ({ f := f, cr := 0, piv := [] } : PState p) = sA
    at hrank hechA hcrA hech hred
  have hlen : sA.piv.length = n := by omega
  have hfull : ∀ k, k < n → sA.piv.getD k 0 = k :=
    fun k hk => pivots_full hechA.2.1 hlen hechA.2.2.1 hk
  intro i j hi hj
  by_cases hij : i = j
  · rw [if_pos hij, ← hij]
    have := (hech.2.2.2.1 i (by omega)).1
    rw [hfull i hi] at this
    exact this
  · rw [if_neg hij]
    by_cases hlt' : i < j
    · have := hred j (Nat.zero_le _) (by omega) i hlt'
      rw [hfull j hj] at this
      exact this
    · have := (hech.2.2.2.1 j (by omega)).2.2 i (by omega) hi
      rw [hfull j hj] at this
      exact this

/-- The reduced augmented matrix when the code rank of `A` is below `n`: the
last diagonal entry of the left block is zero. -/
theorem augmented_left_deficient {n : Nat} (f : Nat → Nat → ZMod p)
    (hrank : (pForward n n 0 { f := f, cr := 0, piv := [] }).cr < n) :
    pBackward (pForward n (2 * n) 0 { f := pAugment n f, cr := 0, piv := [] }).piv
      (pForward n (2 * n) 0 { f := pAugment n f, cr := 0, piv := [] }).piv.length
      (pForward n (2 * n) 0 { f := pAugment n f, cr := 0, piv := [] }).f (n - 1) (n - 1) = 0 := by
  obtain ⟨hech, _, _⟩ := rref_shape n (2 * n) (pAugment n f)
  obtain ⟨_, hcrA⟩ := pForward_echelon (r := n) n 0 { f := f, cr := 0, piv := [] }
    (echelon_init n f) rfl
  obtain ⟨_, hcrG, hpivG⟩ := pForward_agree (n := n) (r := n) n 0
    { f := pAugment n f, cr := 0, piv := [] } { f := f, cr := 0, piv := [] } (by omega)
    (fun i j hj => by simp [pAugment, hj]) rfl rfl
  have hsplit := pForward_split (r := n) n n 0 ({ f := pAugment n f, cr := 0, piv := [] } : PState p)
  rw [Nat.zero_add] at hsplit
  obtain ⟨extra, hex, hge⟩ := pForward_piv (r := n) n n
    (pForward n n 0 ({ f := pAugment n f, cr := 0, piv := [] } : PState p))
  rw [← hsplit, hpivG] at hex
  have h2n : 2 * n = n + n := by omega
  rw [h2n] at hech ⊢
  generalize pForward n (n + n) 0 ({ f := pAugment n f, cr := 0, piv := [] } : PState p) = sG
    at hech hex ⊢
  generalize pBackward sG.piv sG.piv.length sG.f = h at hech ⊢
  generalize pForward n n 0 ({ f := f, cr := 0, piv := [] } : PState p) = sA
    at hrank hcrA hex
  by_cases hk : n - 1 < sG.piv.length
  · have hq : n ≤ sG.piv.getD (n - 1) 0 := by
      rw [hex, List.getD_append_right _ _ _ _ (by omega)]
      apply hge
      apply getD_mem_of_lt
      rw [hex, List.length_append] at hk
      omega
    exact (hech.2.2.2.1 (n - 1) hk).2.1 (n - 1) (by omega)
  · exact hech.2.2.2.2 (n - 1) (n - 1) (by omega) (by omega) (by omega)

/-- The rows of the reduced augmented matrix satisfy `right * A = left`. -/
theorem augmented_rows_ok {n : Nat} (f : Nat → Nat → ZMod p) :
    ∀ i, i < n → RowOK n f
      (pBackward (pForward n (2 * n) 0 { f := pAugment n f, cr := 0, piv := [] }).piv
        (pForward n (2 * n) 0 { f := pAugment n f, cr := 0, piv := [] }).piv.length
        (pForward n (2 * n) 0 { f := pAugment n f, cr := 0, piv := [] }).f i) := by
  obtain ⟨hech, _⟩ := pForward_echelon (r := n) (2 * n) 0
    ({ f := pAugment n f, cr := 0, piv := [] } : PState p) (echelon_init n _) rfl
  apply pBackward_rowOK _ _ hech.1
  apply pForward_rowOK
  intro i hi
  exact rowOK_augment f hi

end InverseClaims

/-- C5: for a matrix `A` over a prime field GF(p), `p < 2^16`, with
`A.isInvertible()` true, `A.inverse()` returns a matrix `M` and the product
`A * M` equals `identity(A.rows())` built over the field of `A`. -/
theorem C5_inverse_is_right_inverse (fuel p : Nat) (A : Matrix) (educational : Bool)
    (hp : p.Prime) (hlt : p < 65536) (hA : A.OverPrimeField p)
    (hinv : A.isInvertible fuel = .ok true) :
    ∃ M, A.inverse fuel educational = .ok (some M) ∧ M.OverPrimeField p ∧
      ∃ P I, A.mul fuel M = .ok P ∧ Matrix.identity A.rows A.p A.m A.modulus = .ok I ∧
        P.eq I = true := by
  haveI : Fact p.Prime := ⟨hp⟩
  have hrep := overPrimeField_matRep hA
  rw [isInvertible_spec fuel hlt hrep] at hinv
  have hdec := of_decide_eq_true (Except.ok.inj hinv)
  obtain ⟨hsq, hrank⟩ := hdec
  rw [← hsq] at hrep hrank
  obtain ⟨o, h, ho, hh, hsome, _⟩ := inverse_spec fuel hlt educational hrep
  have hleft : ∀ i j, i < A.rows → j < A.rows → h i j = if i = j then 1 else 0 := by
    rw [hh]; exact augmented_left_identity (A.toZMod p) hrank
  obtain ⟨M, hoM, hM⟩ := hsome hleft
  obtain ⟨P, hP, hPr⟩ := matRep_mul fuel hlt hrep hM
  obtain ⟨I, hI, hIr⟩ := matRep_identity (p := p) A.rows A.modulus
  have hrows := augmented_rows_ok (n := A.rows) (A.toZMod p)
  rw [← hh] at hrows
  have hRA : ∀ i j, i < A.rows → j < A.rows →
      (∑ t in Finset.range A.rows, h i (A.rows + t) * A.toZMod p t j)
        = if i = j then 1 else 0 := by
    intro i j hi hj
    rw [hrows i hi j hj, hleft i j hi hj]
  have hAR := right_inverse_of_left (f := A.toZMod p) (R := fun i t => h i (A.rows + t)) hRA
  refine ⟨M, by rw [ho, hoM], matRep_overPrimeField hM, P, I, hP, ?_, ?_⟩
  · rw [hrep.2.2.1, hrep.2.2.2.1]; exact hI
  · exact matRep_eq (hPr.congr (fun i j hi hj => hAR i j hi hj)) hIr

/-- Witness for C5: the matrix `[[1, 2], [2, 2]]` over GF(3). -/
theorem C5_inverse_is_right_inverse_witness :
    ∃ M, exampleGF3.inverse 0 false = .ok (some M) ∧ M.OverPrimeField 3 ∧
      ∃ P I, exampleGF3.mul 0 M = .ok P ∧
        Matrix.identity exampleGF3.rows exampleGF3.p exampleGF3.m exampleGF3.modulus = .ok I ∧
        P.eq I = true :=
  C5_inverse_is_right_inverse 0 3 exampleGF3 false (by norm_num) (by decide) (by decide)
    (by decide)

/-- C6: for a matrix `A` over a prime field GF(p), `p < 2^16`, `inverse()`
returns a matrix exactly when `isInvertible()` is true, that is when `A` is
square and `rank()` equals `rows()`; otherwise it returns `nullopt`. -/
theorem C6_inverse_iff_invertible (fuel p : Nat) (A : Matrix) (educational : Bool)
    (hp : p.Prime) (hlt : p < 65536) (hA : A.OverPrimeField p) :
    ∃ (b : Bool) (o : Option Matrix) (r : Nat),
      A.isInvertible fuel = .ok b ∧ A.inverse fuel educational = .ok o ∧
      A.rank fuel = .ok r ∧ (o.isSome = true ↔ b = true) ∧
      (b = true ↔ A.rows = A.cols ∧ r = A.rows) ∧ (b = false → o = none) := by
  haveI : Fact p.Prime := ⟨hp⟩
  have hrep := overPrimeField_matRep hA
  have hinvb := isInvertible_spec fuel hlt hrep
  have hrk := rank_spec fuel hlt hrep
  by_cases hsq : A.rows = A.cols
  · have hrep' := hrep
    rw [← hsq] at hrep'
    obtain ⟨o, h, ho, hh, hsome, hnone⟩ := inverse_spec fuel hlt educational hrep'
    by_cases hrank : (pForward A.rows A.rows 0 { f := A.toZMod p, cr := 0, piv := [] }).cr = A.rows
    · have hleft : ∀ i j, i < A.rows → j < A.rows → h i j = if i = j then 1 else 0 := by
        rw [hh]; exact augmented_left_identity (A.toZMod p) hrank
      obtain ⟨M, hoM, _⟩ := hsome hleft
      refine ⟨true, o, _, ?_, ho, hrk, by simp [hoM], ?_, by simp⟩
      · rw [hinvb]; rw [← hsq]; simp [hrank]
      · rw [← hsq]; simp [hrank]
    · have hlt' : (pForward A.rows A.rows 0 { f := A.toZMod p, cr := 0, piv := [] }).cr < A.rows := by
        obtain ⟨hech, hcr⟩ := pForward_echelon (r := A.rows) A.rows 0
          ({ f := A.toZMod p, cr := 0, piv := [] } : PState p) (echelon_init _ _) rfl
        have := hech.1
        omega
      have hzero := augmented_left_deficient (A.toZMod p) hlt'
      rw [← hh] at hzero
      have hon : o = none := by
        apply hnone
        intro hall
        have := hall (A.rows - 1) (A.rows - 1) (by omega) (by omega)
        rw [if_pos rfl, hzero] at this
        exact zero_ne_one this
      refine ⟨false, o, _, ?_, ho, hrk, by simp [hon], ?_, fun _ => hon⟩
      · rw [hinvb]; rw [← hsq]; simp [hrank]
      · rw [← hsq]; simp [hrank]
  · refine ⟨false, none, _, ?_, ?_, hrk, by simp, by simp [hsq], fun _ => rfl⟩
    · rw [hinvb]; simp [hsq]
    · unfold Matrix.inverse
      rw [if_pos hsq]

/-- Witness for C6: the singular matrix `[[1, 2], [2, 1]]` over GF(3). -/
theorem C6_inverse_iff_invertible_witness :
    ∃ (b : Bool) (o : Option Matrix) (r : Nat),
      singularGF3.isInvertible 0 = .ok b ∧ singularGF3.inverse 0 false = .ok o ∧
      singularGF3.rank 0 = .ok r ∧ (o.isSome = true ↔ b = true) ∧
      (b = true ↔ singularGF3.rows = singularGF3.cols ∧ r = singularGF3.rows) ∧
      (b = false → o = none) :=
  C6_inverse_iff_invertible 0 3 singularGF3 false (by norm_num) (by decide) (by decide)

/-! ## Claims about the backward pass called on its own -/

/-- Called on its own, `backwardGauss` returns its input unchanged with rank 0
and no pivot columns: `result.rank` is still 0 at the test
`backward && result.rank > 0`, so the block that re-derives the pivots and
eliminates above them is never entered. -/
theorem backwardGauss_noop (fuel : Nat) (A : Matrix) (educational : Bool) :
    A.backwardGauss fuel educational =
      .ok { matrix := A, rank := 0, pivotCols := [], steps := [] } := by
  unfold Matrix.backwardGauss Matrix.gaussElimination
  simp

theorem echelonGF2_forward (fuel : Nat) :
    echelonGF2.forwardGauss fuel false =
      .ok { matrix := echelonGF2, rank := 2, pivotCols := [0, 1], steps := [] } := rfl

theorem echelonGF2_rref (fuel : Nat) :
    echelonGF2.reducedRowEchelonForm fuel false =
      .ok { matrix := { echelonGF2 with data := [[gf2 1, gf2 0], [gf2 0, gf2 1]] },
            rank := 2, pivotCols := [0, 1], steps := [] } := rfl

/-- C11, refuted on the code: for the matrix `A = [[1, 1], [0, 1]]` over GF(2)
(and every step budget) `A.forwardGauss().matrix.backwardGauss().matrix` is
`[[1, 1], [0, 1]]`, while `A.reducedRowEchelonForm().matrix` is the identity
`[[1, 0], [0, 1]]`; `operator==` on the two is false. -/
theorem C11_rref_differs_from_composed_passes (fuel : Nat) :
    echelonGF2.OverPrimeField 2 ∧
      ∃ fw bw rr, echelonGF2.forwardGauss fuel false = .ok fw ∧
        fw.matrix.backwardGauss fuel false = .ok bw ∧
        echelonGF2.reducedRowEchelonForm fuel false = .ok rr ∧
        bw.matrix.data = [[gf2 1, gf2 1], [gf2 0, gf2 1]] ∧
        rr.matrix.data = [[gf2 1, gf2 0], [gf2 0, gf2 1]] ∧
        rr.matrix.eq bw.matrix = false := by
  refine ⟨by decide, _, _, _, echelonGF2_forward fuel, backwardGauss_noop fuel _ false,
    echelonGF2_rref fuel, rfl, rfl, ?_⟩
  decide

/-- C12, refuted on the code: the matrix `E = [[1, 1], [0, 1]]` over GF(2) is
in row-echelon form (the forward pass leaves it unchanged and finds the pivot
columns 0 and 1), it has two nonzero rows, yet `E.backwardGauss()` reports
rank 0 and an empty pivot-column sequence, for every step budget. -/
theorem C12_backwardGauss_reports_no_pivots (fuel : Nat) :
    echelonGF2.OverPrimeField 2 ∧
      echelonGF2.forwardGauss fuel false =
        .ok { matrix := echelonGF2, rank := 2, pivotCols := [0, 1], steps := [] } ∧
      ∃ bw, echelonGF2.backwardGauss fuel false = .ok bw ∧
        bw.matrix = echelonGF2 ∧ bw.rank = 0 ∧ bw.pivotCols = [] :=
  ⟨by decide, echelonGF2_forward fuel, _, backwardGauss_noop fuel _ false, rfl, rfl, rfl⟩

/-! ## The rank computed by the forward pass is the dimension of the row space -/

section RowSpace

variable {p : Nat} [hp : Fact p.Prime]

theorem row_mem_span {r c : Nat} (f : Nat → Nat → ZMod p) {i : Nat} (hi : i < r) :
    pRow c f i ∈ Submodule.span (ZMod p) (Set.range fun k : Fin r => pRow c f k) :=
  Submodule.subset_span ⟨⟨i, hi⟩, rfl⟩

theorem span_rows_le {r c : Nat} {f g : Nat → Nat → ZMod p}
    (h : ∀ i, i < r →
      pRow c g i ∈ Submodule.span (ZMod p) (Set.range fun k : Fin r => pRow c f k)) :
    Submodule.span (ZMod p) (Set.range fun k : Fin r => pRow c g k)
      ≤ Submodule.span (ZMod p) (Set.range fun k : Fin r => pRow c f k) := by
  rw [Submodule.span_le]
  rintro _ ⟨k, rfl⟩
  exact h k.1 k.2

theorem span_rows_eq {r c : Nat} {f g : Nat → Nat → ZMod p}
    (h1 : ∀ i, i < r →
      pRow c g i ∈ Submodule.span (ZMod p) (Set.range fun k : Fin r => pRow c f k))
    (h2 : ∀ i, i < r →
      pRow c f i ∈ Submodule.span (ZMod p) (Set.range fun k : Fin r => pRow c g k)) :
    Submodule.span (ZMod p) (Set.range fun k : Fin r => pRow c g k)
      = Submodule.span (ZMod p) (Set.range fun k : Fin r => pRow c f k) :=
  le_antisymm (span_rows_le h1) (span_rows_le h2)

/-- The rows of `swapRows(a, b)` span the same space. -/
theorem span_pSwap {r : Nat} (c : Nat) (f : Nat → Nat → ZMod p) {a b : Nat} (ha : a < r)
    (hb : b < r) :
    Submodule.span (ZMod p) (Set.range fun k : Fin r => pRow c (pSwap f a b) k)
      = Submodule.span (ZMod p) (Set.range fun k : Fin r => pRow c f k) := by
  apply span_rows_eq
  · intro i hi
    by_cases h1 : i = a
    · have : pRow c (pSwap f a b) i = pRow c f b := by
        funext j; simp [pRow, pSwap, h1]
      rw [this]; exact row_mem_span f hb
    · by_cases h2 : i = b
      · have hba : b ≠ a := by rw [← h2]; exact h1
        have : pRow c (pSwap f a b) i = pRow c f a := by
          funext j; simp [pRow, pSwap, h2, hba]
        rw [this]; exact row_mem_span f ha
      · have : pRow c (pSwap f a b) i = pRow c f i := by
          funext j; simp [pRow, pSwap, h1, h2]
        rw [this]; exact row_mem_span f hi
  · intro i hi
    by_cases h1 : i = a
    · have : pRow c f i = pRow c (pSwap f a b) b := by
        funext j
        by_cases hba : b = a
        · simp [pRow, pSwap, h1, hba]
        · simp [pRow, pSwap, h1, hba]
      rw [this]; exact row_mem_span _ hb
    · by_cases h2 : i = b
      · have : pRow c f i = pRow c (pSwap f a b) a := by
          funext j; simp [pRow, pSwap, h2]
        rw [this]; exact row_mem_span _ ha
      · have : pRow c f i = pRow c (pSwap f a b) i := by
          funext j; simp [pRow, pSwap, h1, h2]
        rw [this]; exact row_mem_span _ hi

/-- The rows of `multiplyRow(a, s)` with `s` nonzero span the same space. -/
theorem span_pScale {r : Nat} (c : Nat) (f : Nat → Nat → ZMod p) {a : Nat} (ha : a < r)
    {s : ZMod p} (hs : s ≠ 0) :
    Submodule.span (ZMod p) (Set.range fun k : Fin r => pRow c (pScale f a s) k)
      = Submodule.span (ZMod p) (Set.range fun k : Fin r => pRow c f k) := by
  apply span_rows_eq
  · intro i hi
    by_cases h1 : i = a
    · have : pRow c (pScale f a s) i = s • pRow c f a := by
        funext j; simp [pRow, pScale, h1, mul_comm]
      rw [this]; exact Submodule.smul_mem _ _ (row_mem_span f ha)
    · have : pRow c (pScale f a s) i = pRow c f i := by
        funext j; simp [pRow, pScale, h1]
      rw [this]; exact row_mem_span f hi
  · intro i hi
    by_cases h1 : i = a
    · have : pRow c f i = s⁻¹ • pRow c (pScale f a s) a := by
        funext j
        simp only [pRow, pScale, h1, if_true, Pi.smul_apply, smul_eq_mul]
        field_simp
      rw [this]; exact Submodule.smul_mem _ _ (row_mem_span _ ha)
    · have : pRow c f i = pRow c (pScale f a s) i := by
        funext j; simp [pRow, pScale, h1]
      rw [this]; exact row_mem_span _ hi

/-- The rows of `addRow(dest, src, s)` with `dest != src` span the same space. -/
theorem span_pAdd {r : Nat} (c : Nat) (f : Nat → Nat → ZMod p) {dest src : Nat}
    (hd : dest < r) (hsrc : src < r) (hne : dest ≠ src) (s : ZMod p) :
    Submodule.span (ZMod p) (Set.range fun k : Fin r => pRow c (pAdd f dest src s) k)
      = Submodule.span (ZMod p) (Set.range fun k : Fin r => pRow c f k) := by
  have hsd : src ≠ dest := fun h => hne h.symm
  apply span_rows_eq
  · intro i hi
    by_cases h1 : i = dest
    · have : pRow c (pAdd f dest src s) i = pRow c f dest + s • pRow c f src := by
        funext j; simp [pRow, pAdd, h1, mul_comm]
      rw [this]
      exact Submodule.add_mem _ (row_mem_span f hd)
        (Submodule.smul_mem _ _ (row_mem_span f hsrc))
    · have : pRow c (pAdd f dest src s) i = pRow c f i := by
        funext j; simp [pRow, pAdd, h1]
      rw [this]; exact row_mem_span f hi
  · intro i hi
    by_cases h1 : i = dest
    · have : pRow c f i
          = pRow c (pAdd f dest src s) dest - s • pRow c (pAdd f dest src s) src := by
        funext j
        simp only [pRow, pAdd, h1, hsd, if_true, if_false, Pi.sub_apply, Pi.smul_apply,
          smul_eq_mul]
        ring
      rw [this]
      exact Submodule.sub_mem _ (row_mem_span _ hd)
        (Submodule.smul_mem _ _ (row_mem_span _ hsrc))
    · have : pRow c f i = pRow c (pAdd f dest src s) i := by
        funext j; simp [pRow, pAdd, h1]
      rw [this]; exact row_mem_span _ hi

/-- Clearing a column below row `cr` keeps the row space. -/
theorem span_pElimBelow {r : Nat} (c : Nat) (f : Nat → Nat → ZMod p) {cr : Nat}
    (hcr : cr < r) (col : Nat) :
    Submodule.span (ZMod p) (Set.range fun k : Fin r => pRow c (pElimBelow f cr col r) k)
      = Submodule.span (ZMod p) (Set.range fun k : Fin r => pRow c f k) := by
  have hself : pRow c (pElimBelow f cr col r) cr = pRow c f cr := by
    funext j; simp [pRow, pElimBelow]
  apply span_rows_eq
  · intro i hi
    by_cases h1 : cr < i
    · have : pRow c (pElimBelow f cr col r) i = pRow c f i - f i col • pRow c f cr := by
        funext j; simp [pRow, pElimBelow, h1, hi, mul_comm]
      rw [this]
      exact Submodule.sub_mem _ (row_mem_span f hi)
        (Submodule.smul_mem _ _ (row_mem_span f hcr))
    · have : pRow c (pElimBelow f cr col r) i = pRow c f i := by
        funext j; simp [pRow, pElimBelow, h1]
      rw [this]; exact row_mem_span f hi
  · intro i hi
    by_cases h1 : cr < i
    · have : pRow c f i
          = pRow c (pElimBelow f cr col r) i + f i col • pRow c (pElimBelow f cr col r) cr := by
        rw [hself]
        funext j
        simp only [pRow, pElimBelow, h1, hi, and_self, if_true, Pi.add_apply, Pi.smul_apply,
          smul_eq_mul]
        ring
      rw [this]
      exact Submodule.add_mem _ (row_mem_span _ hi)
        (Submodule.smul_mem _ _ (row_mem_span _ hcr))
    · have : pRow c f i = pRow c (pElimBelow f cr col r) i := by
        funext j; simp [pRow, pElimBelow, h1]
      rw [this]; exact row_mem_span _ hi

/-- One round of the forward loop keeps the row space. -/
theorem pStep_span {r : Nat} (c col : Nat) (s : PState p) (hlt : s.cr < r) :
    Submodule.span (ZMod p) (Set.range fun k : Fin r => pRow c (pStep r col s).f k)
      = Submodule.span (ZMod p) (Set.range fun k : Fin r => pRow c s.f k) := by
  cases hf : pFindAux s.f col (r - s.cr) s.cr with
  | none => rw [pStep_none hf]
  | some pr =>
    obtain ⟨h1, h2, h3, _⟩ := pFindAux_some _ _ _ hf
    rw [pStep_some hf]
    dsimp only
    rw [span_pElimBelow c _ hlt col, span_pScale c _ hlt (inv_ne_zero h3),
      span_pSwap c _ hlt (by omega)]

/-- The forward loop keeps the row space. -/
theorem pForward_span {r : Nat} (c : Nat) : ∀ (n col : Nat) (s : PState p),
    Submodule.span (ZMod p) (Set.range fun k : Fin r => pRow c (pForward r n col s).f k)
      = Submodule.span (ZMod p) (Set.range fun k : Fin r => pRow c s.f k) := by
  intro n
  induction n with
  | zero => intro col s; rfl
  | succ n ih =>
    intro col s
    unfold pForward
    by_cases hlt : s.cr < r
    · rw [if_pos hlt, ih, pStep_span c col s hlt]
    · rw [if_neg hlt]

end RowSpace

section EchelonRank

variable {p : Nat} [hp : Fact p.Prime]

/-- The pivot rows of a matrix in row-echelon form are linearly independent. -/
theorem echelon_independent {r c : Nat} {f : Nat → Nat → ZMod p} {piv : List Nat}
    (h : Echelon r f piv c) :
    LinearIndependent (ZMod p) (fun k : Fin piv.length => pRow c f k) := by
  obtain ⟨h1, _, h3, h4, _⟩ := h
  rw [Fintype.linearIndependent_iff]
  intro g hg
  have key : ∀ n (hn : n < piv.length), g ⟨n, hn⟩ = 0 := by
    intro n
    induction n using Nat.strong_induction_on with
    | _ n ih =>
      intro hn
      have hq : piv.getD n 0 < c := h3 _ (getD_mem_of_lt hn)
      have hcol := congrFun hg ⟨piv.getD n 0, hq⟩
      simp only [Finset.sum_apply, Pi.smul_apply, smul_eq_mul, Pi.zero_apply, pRow] at hcol
      rw [Finset.sum_eq_single ⟨n, hn⟩] at hcol
      · rw [(h4 n hn).1, mul_one] at hcol
        exact hcol
      · intro b _ hb
        rcases Nat.lt_or_gt_of_ne (fun h => hb (Fin.ext h)) with hlt | hgt
        · have := ih b.1 hlt b.2
          rw [Fin.eta] at this
          rw [this, zero_mul]
        · rw [(h4 n hn).2.2 b.1 hgt (by omega), mul_zero]
      · intro hmem
        exact absurd (Finset.mem_univ _) hmem
  intro i
  exact key i.1 i.2

theorem indep_finrank {k c : Nat} {v : Fin k → Fin c → ZMod p}
    (h : LinearIndependent (ZMod p) v) :
    Module.finrank (ZMod p) (Submodule.span (ZMod p) (Set.range v)) = k := by
  have := finrank_span_eq_card h
  rw [this, Fintype.card_fin]

/-- The row space of a matrix in row-echelon form has dimension equal to the
number of pivots. -/
theorem echelon_finrank {r c : Nat} {f : Nat → Nat → ZMod p} {piv : List Nat}
    (h : Echelon r f piv c) :
    Module.finrank (ZMod p)
        (Submodule.span (ZMod p) (Set.range fun k : Fin r => pRow c f k)) = piv.length := by
  have hspan : Submodule.span (ZMod p) (Set.range fun k : Fin r => pRow c f k)
      = Submodule.span (ZMod p) (Set.range fun k : Fin piv.length => pRow c f k) := by
    apply le_antisymm
    · rw [Submodule.span_le]
      rintro _ ⟨k, rfl⟩
      by_cases hk : k.1 < piv.length
      · exact Submodule.subset_span ⟨⟨k.1, hk⟩, rfl⟩
      · have hz : pRow c f k.1 = 0 := by
          funext j
          exact h.2.2.2.2 k.1 j.1 (by omega) k.2 j.2
        show pRow c f k.1 ∈ _
        rw [hz]
        exact Submodule.zero_mem _
    · rw [Submodule.span_le]
      rintro _ ⟨k, rfl⟩
      exact Submodule.subset_span ⟨⟨k.1, by have := h.1; omega⟩, rfl⟩
  rw [hspan]
  exact indep_finrank (echelon_independent h)

/-- The number of pivots found by the forward loop is the dimension of the
row space of the input. -/
theorem pForward_cr_eq_finrank (r c : Nat) (f : Nat → Nat → ZMod p) :
    (pForward r c 0 { f := f, cr := 0, piv := [] }).cr
      = Module.finrank (ZMod p)
          (Submodule.span (ZMod p) (Set.range fun k : Fin r => pRow c f k)) := by
  obtain ⟨hech, hcr⟩ := pForward_echelon (r := r) c 0
    { f := f, cr := 0, piv := [] } (echelon_init _ _) rfl
  rw [Nat.zero_add] at hech
  have h1 := echelon_finrank hech
  have h2 := pForward_span (r := r) c c 0 { f := f, cr := 0, piv := [] }
  rw [h2] at h1
  exact hcr.trans h1.symm

/-- The number of pivots found by the forward loop is the rank of the matrix
of values. -/
theorem pForward_cr_eq_rank (r c : Nat) (f : Nat → Nat → ZMod p) :
    (pForward r c 0 { f := f, cr := 0, piv := [] }).cr
      = (Matrix.of fun (i : Fin r) (j : Fin c) => f i j).rank := by
  rw [pForward_cr_eq_finrank, Matrix.rank_eq_finrank_span_row]
  rfl

/-- Two matrices over GF(p) with the same row space have the same `rank()`. -/
theorem rank_eq_of_span (fuel : Nat) (hlt : p < 65536) {A B : Matrix} {r c : Nat}
    {f g : Nat → Nat → ZMod p} (hA : MatRep p A r c f) (hB : MatRep p B r c g)
    (hspan : Submodule.span (ZMod p) (Set.range fun k : Fin r => pRow c g k)
      = Submodule.span (ZMod p) (Set.range fun k : Fin r => pRow c f k)) :
    B.rank fuel = A.rank fuel := by
  rw [rank_spec fuel hlt hA, rank_spec fuel hlt hB, pForward_cr_eq_finrank,
    pForward_cr_eq_finrank, hspan]

end EchelonRank

/-! ## Claims about the rank under elementary row operations -/

/-- C13, counterexample: (1) over GF(2), `addRow(0, 0, 1)` on `[[1]]` adds the
row to itself and gives `[[0]]`, so `rank()` drops from 1 to 0; (2) over
GF(65537), `addRow(1, 0, 65536)` on `[[1, 65536], [0, 1]]` computes
`65536 * 65536` in 32 bits (which is 0) and gives `[[1, 65536], [65536, 1]]`,
whose `rank()` is 1 while the rank of the input is 2. -/
theorem C13_addRow_changes_rank :
    (unitGF2.OverPrimeField 2 ∧ (gf2 1).InPrimeField 2 ∧
      ∀ fuel : Nat, ∃ B, unitGF2.addRow fuel 0 0 (gf2 1) = .ok B ∧
        unitGF2.rank fuel = .ok 1 ∧ B.rank fuel = .ok 0) ∧
    (Nat.Prime 65537 ∧ wideGF65537.OverPrimeField 65537 ∧
      (gf65537 65536).InPrimeField 65537 ∧
      ∀ fuel : Nat, ∃ B, wideGF65537.addRow fuel 1 0 (gf65537 65536) = .ok B ∧
        wideGF65537.rank fuel = .ok 2 ∧ B.rank fuel = .ok 1) := by
  refine ⟨⟨by decide, by decide, fun fuel => ⟨_, rfl, rfl, rfl⟩⟩,
    ⟨by norm_num, by decide, by decide, fun fuel => ⟨_, rfl, rfl, rfl⟩⟩⟩

/-- C13, amended: over a prime field GF(p) with `p < 2^16`, for in-range row
indices `dest != src` and every scalar `s` of the field, `addRow(dest, src, s)`
returns a matrix over GF(p) that has the same `rank()` as `A`. -/
theorem C13_rank_addRow_distinct_rows (fuel p : Nat) (A : Matrix) (dest src : Nat)
    (s : GFElement) (hp : p.Prime) (hlt : p < 65536) (hA : A.OverPrimeField p)
    (hd : dest < A.rows) (hsrc : src < A.rows) (hne : dest ≠ src) (hs : s.InPrimeField p) :
    ∃ B k, A.addRow fuel dest src s = .ok B ∧ B.OverPrimeField p ∧
      A.rank fuel = .ok k ∧ B.rank fuel = .ok k := by
  haveI : Fact p.Prime := ⟨hp⟩
  have hrep := overPrimeField_matRep hA
  obtain ⟨x, hx⟩ := (inPrimeField_iff s).mp hs
  obtain ⟨B, hB, hBrep⟩ := matRep_addRow fuel hlt hrep hd hsrc hx
  have hrank := rank_eq_of_span fuel hlt hrep hBrep (span_pAdd A.cols _ hd hsrc hne x)
  exact ⟨B, _, hB, matRep_overPrimeField hBrep, rank_spec fuel hlt hrep,
    hrank.trans (rank_spec fuel hlt hrep)⟩

/-- Witness for the amended C13: `addRow(1, 0, 2)` on `[[1, 2], [2, 2]]` over
GF(3). -/
theorem C13_rank_addRow_distinct_rows_witness :
    ∃ B k, exampleGF3.addRow 0 1 0 (gf3 2) = .ok B ∧ B.OverPrimeField 3 ∧
      exampleGF3.rank 0 = .ok k ∧ B.rank 0 = .ok k :=
  C13_rank_addRow_distinct_rows 0 3 exampleGF3 1 0 (gf3 2) (by norm_num) (by decide)
    (by decide) (by decide) (by decide) (by decide) (by decide)

/-- C14: over a prime field GF(p) with `p < 2^16`, for in-range row indices
`i`, `j` and a nonzero scalar `s` of the field, the matrix obtained by
`swapRows(i, j)` and the matrix obtained by `multiplyRow(i, s)` are matrices
over GF(p) with the same `rank()` as `A`. -/
theorem C14_rank_swapRows_multiplyRow (fuel p : Nat) (A : Matrix) (i j : Nat)
    (s : GFElement) (hp : p.Prime) (hlt : p < 65536) (hA : A.OverPrimeField p)
    (hi : i < A.rows) (hj : j < A.rows) (hs : s.InPrimeField p) (hs0 : s.isZero = false) :
    ∃ k, A.rank fuel = .ok k ∧
      (∃ B, A.swapRows i j = .ok B ∧ B.OverPrimeField p ∧ B.rank fuel = .ok k) ∧
      ∃ B, A.multiplyRow fuel i s = .ok B ∧ B.OverPrimeField p ∧ B.rank fuel = .ok k := by
  haveI : Fact p.Prime := ⟨hp⟩
  have hrep := overPrimeField_matRep hA
  obtain ⟨x, hx⟩ := (inPrimeField_iff s).mp hs
  have hx0 : x ≠ 0 := by
    intro h0
    rw [(elem_isZero hx).mpr h0] at hs0
    cases hs0
  obtain ⟨B1, hB1, hrep1⟩ := matRep_swapRows hrep hi hj
  obtain ⟨B2, hB2, hrep2⟩ := matRep_multiplyRow fuel hlt hrep hi hx
  have hr1 := rank_eq_of_span fuel hlt hrep hrep1 (span_pSwap A.cols _ hi hj)
  have hr2 := rank_eq_of_span fuel hlt hrep hrep2 (span_pScale A.cols _ hi hx0)
  exact ⟨_, rank_spec fuel hlt hrep,
    ⟨B1, hB1, matRep_overPrimeField hrep1, hr1.trans (rank_spec fuel hlt hrep)⟩,
    ⟨B2, hB2, matRep_overPrimeField hrep2, hr2.trans (rank_spec fuel hlt hrep)⟩⟩

/-- Witness for C14: rows 0 and 1 and the scalar 2 on `[[1, 2], [2, 2]]` over
GF(3). -/
theorem C14_rank_swapRows_multiplyRow_witness :
    ∃ k, exampleGF3.rank 0 = .ok k ∧
      (∃ B, exampleGF3.swapRows 0 1 = .ok B ∧ B.OverPrimeField 3 ∧ B.rank 0 = .ok k) ∧
      ∃ B, exampleGF3.multiplyRow 0 0 (gf3 2) = .ok B ∧ B.OverPrimeField 3 ∧
        B.rank 0 = .ok k :=
  C14_rank_swapRows_multiplyRow 0 3 exampleGF3 0 1 (gf3 2) (by norm_num) (by decide)
    (by decide) (by decide) (by decide) (by decide) (by decide)

/-! ## The representation invariant of `GFElement` -/

theorem popZerosAux_of_length_le (k n : Nat) (v : List Nat) (h : v.length ≤ k) :
    popZerosAux k n v = v := by
  cases n with
  | zero => rfl
  | succ n =>
    unfold popZerosAux
    rw [if_neg (fun hc => absurd hc.1 (by omega))]

theorem popZerosAux_of_last_ne (k n : Nat) (v : List Nat) (h : v.getLastD 0 ≠ 0) :
    popZerosAux k n v = v := by
  cases n with
  | zero => rfl
  | succ n =>
    unfold popZerosAux
    rw [if_neg (fun hc => h hc.2)]

/-- Removing zeros from the end and padding with zeros again gives the vector
back. -/
theorem popZerosAux_pad (k : Nat) : ∀ (n : Nat) (v : List Nat),
    ∃ z, popZerosAux k n v ++ List.replicate z 0 = v := by
  intro n
  induction n with
  | zero => intro v; exact ⟨0, by simp [popZerosAux]⟩
  | succ n ih =>
    intro v
    unfold popZerosAux
    by_cases hc : k < v.length ∧ v.getLastD 0 = 0
    · rw [if_pos hc]
      rcases List.eq_nil_or_concat v with hv | ⟨L, b, hv⟩
      · rw [hv] at hc
        exact absurd hc.1 (by simp)
      · rw [List.concat_eq_append] at hv
        subst hv
        rw [List.getLastD_concat] at hc
        rw [List.dropLast_concat]
        obtain ⟨z, hz⟩ := ih L
        refine ⟨z + 1, ?_⟩
        rw [List.replicate_succ', ← List.append_assoc, hz, hc.2]
    · rw [if_neg hc]
      exact ⟨0, by simp⟩

theorem resize_popZeros (k : Nat) (v : List Nat) : resize (popZeros k v) v.length = v := by
  obtain ⟨z, hz⟩ := popZerosAux_pad k v.length v
  unfold popZeros
  generalize popZerosAux k v.length v = w at hz
  subst hz
  unfold resize
  simp

theorem popZerosAux_subset (k : Nat) : ∀ (n : Nat) (v : List Nat),
    ∀ c ∈ popZerosAux k n v, c ∈ v := by
  intro n
  induction n with
  | zero => intro v c hc; exact hc
  | succ n ih =>
    intro v c hc
    unfold popZerosAux at hc
    split at hc
    · exact List.dropLast_subset v (ih _ c hc)
    · exact hc

theorem resize_length (v : List Nat) (n : Nat) : (resize v n).length = n := by
  unfold resize
  simp
  omega

theorem resize_bound {p : Nat} (hp : 0 < p) (v : List Nat) (n : Nat) (h : ∀ c ∈ v, c < p) :
    ∀ c ∈ resize v n, c < p := by
  intro c hc
  unfold resize at hc
  rcases List.mem_append.mp hc with h1 | h1
  · exact h c (List.mem_of_mem_take h1)
  · rw [(List.mem_replicate.mp h1).2]
    exact hp

theorem subShifted_bound {p : Nat} (hp : 0 < p) (coeff : Nat) (divisor remainder : List Nat)
    (h : ∀ c ∈ remainder, c < p) : ∀ c ∈ subShifted p coeff divisor remainder, c < p := by
  unfold subShifted
  generalize List.range divisor.length = l
  induction l generalizing remainder with
  | nil => exact h
  | cons i l ih =>
    rw [List.foldl_cons]
    apply ih
    intro c hc
    rcases List.mem_or_eq_of_mem_set hc with h1 | h1
    · exact h c h1
    · rw [h1]
      exact Nat.mod_lt _ hp

theorem polyModLoop_bound {p : Nat} (hp : 0 < p) (d : List Nat) :
    ∀ (fuel : Nat) (rem r : List Nat), (∀ c ∈ rem, c < p) → polyModLoop p d fuel rem = .ok r →
      ∀ c ∈ r, c < p := by
  intro fuel
  induction fuel with
  | zero =>
    intro rem r hrem h
    unfold polyModLoop at h
    split at h
    · cases h
    · cases h
      exact hrem
  | succ n ih =>
    intro rem r hrem h
    unfold polyModLoop at h
    split at h
    · simp only at h
      split at h
      · cases h
        exact fun c hc => hrem c (popZerosAux_subset 1 _ _ c hc)
      · exact ih _ _
          (subShifted_bound hp _ _ _ (fun c hc => hrem c (popZerosAux_subset 1 _ _ c hc))) h
    · cases h
      exact hrem

theorem polyMod_bound {p : Nat} (hp : 0 < p) (fuel : Nat) (a b r : List Nat)
    (ha : ∀ c ∈ a, c < p) (h : polyMod fuel p a b = .ok r) : ∀ c ∈ r, c < p := by
  unfold polyMod at h
  split at h
  · cases h
  · simp only at h
    split at h
    · cases h
    · cases hl : polyModLoop p (popZeros 1 b) fuel a with
      | error e => rw [hl] at h; cases h
      | ok rem =>
        rw [hl] at h
        simp only at h
        cases h
        have hrem := polyModLoop_bound hp _ fuel a rem ha hl
        split
        · intro c hc
          rw [List.mem_singleton.mp hc]
          exact hp
        · exact fun c hc => hrem c (popZerosAux_subset 1 _ _ c hc)

/-- Whatever `reduceModulo` returns satisfies the representation invariant. -/
theorem reduceModulo_canonical (fuel : Nat) (e e' : GFElement) (hp : 0 < e.p)
    (hlen : e.coeffs.length = e.m) (hlt : ∀ c ∈ e.coeffs, c < e.p)
    (h : e.reduceModulo fuel = .ok e') :
    e'.p = e.p ∧ e'.m = e.m ∧ e'.modulus = e.modulus ∧ e'.Canonical := by
  unfold GFElement.reduceModulo at h
  split at h
  · cases h
    refine ⟨rfl, rfl, rfl, ?_, ?_⟩
    · simp [GFElement.reduce, hlen]
    · intro c hc
      simp only [GFElement.reduce, List.mem_map] at hc
      obtain ⟨x, _, hx⟩ := hc
      rw [← hx]
      exact Nat.mod_lt _ hp
  · simp only at h
    split at h
    · cases h
      refine ⟨rfl, rfl, rfl, resize_length _ _, ?_⟩
      exact resize_bound hp _ _ (fun c hc => hlt c (popZerosAux_subset _ _ _ c hc))
    · cases hm : polyMod fuel e.p (popZeros e.m e.coeffs) e.modulus with
      | error err => rw [hm] at h; cases h
      | ok r =>
        rw [hm] at h
        cases h
        refine ⟨rfl, rfl, rfl, resize_length _ _, ?_⟩
        exact resize_bound hp _ _ (polyMod_bound hp fuel _ _ r
          (fun c hc => hlt c (popZerosAux_subset _ _ _ c hc)) hm)

/-- Whatever the coefficient constructor returns satisfies the representation
invariant, and the call succeeds only for `p >= 2`, `m >= 1`. -/
theorem ofCoeffs_canonical (fuel : Nat) (cs : List Nat) (p m : Nat) (modulus : List Nat)
    (e : GFElement) (h : GFElement.ofCoeffs fuel cs p m modulus = .ok e) :
    2 ≤ p ∧ 1 ≤ m ∧ e.InField p m modulus := by
  unfold GFElement.ofCoeffs at h
  split at h
  · cases h
  · split at h
    · cases h
    · have hp : 0 < p := by omega
      obtain ⟨h1, h2, h3, h4⟩ := reduceModulo_canonical fuel _ e hp
        (by simp; omega)
        (by
          intro c hc
          rcases List.mem_append.mp hc with hc1 | hc1
          · obtain ⟨x, _, hx⟩ := List.mem_map.mp hc1
            rw [← hx]
            exact Nat.mod_lt _ hp
          · rw [(List.mem_replicate.mp hc1).2]
            exact hp) h
      exact ⟨by omega, by omega, h1, h2, h3, h4⟩

/-! ## The coefficient constructor in a field with a valid modulus -/

theorem polyModLoop_short (p : Nat) (d : List Nat) (fuel : Nat) (r : List Nat)
    (h : r.length < d.length) : polyModLoop p d fuel r = .ok r := by
  unfold polyModLoop
  rw [if_neg (fun hc => absurd hc.1 (by omega))]

/-- When the modulus has one coefficient more than the dividend and a nonzero
leading coefficient, `polyMod` does not enter its loop. -/
theorem polyMod_short (fuel p : Nat) (a b : List Nat) (ha : 0 < a.length)
    (hb : b.length = a.length + 1) (hlead : b.getLastD 0 ≠ 0) :
    polyMod fuel p a b = .ok (popZeros 1 a) := by
  unfold polyMod
  have hb0 : ¬ (b = [] ∨ (b.length = 1 ∧ b.getD 0 0 = 0)) := by
    rintro (h | h)
    · rw [h] at hb
      simp at hb
    · omega
  have hd : popZeros 1 b = b := popZerosAux_of_last_ne 1 _ b hlead
  have hd1 : ¬ (b.length = 1 ∧ b.getD 0 0 = 0) := fun h => by omega
  have hne : popZeros 1 a ≠ [] := by
    intro h
    have := popZeros_length_pos 0 a ha
    rw [h] at this
    simp at this
  rw [if_neg hb0]
  simp only [hd]
  rw [if_neg hd1, polyModLoop_short p b fuel a (by omega)]
  simp only [if_neg hne]

/-- In a field with a valid modulus (or of degree one) `reduceModulo` leaves
an element that satisfies the representation invariant unchanged. -/
theorem reduceModulo_fixed (fuel : Nat) (e : GFElement) (hm : 1 ≤ e.m) (he : e.Canonical)
    (hmod : e.m = 1 ∨ ValidModulus e.m e.modulus) : e.reduceModulo fuel = .ok e := by
  obtain ⟨hlen, hlt⟩ := he
  unfold GFElement.reduceModulo
  by_cases h1 : e.m = 1
  · rw [if_pos h1]
    have : e.coeffs.map (fun c => c % e.p) = e.coeffs := by
      conv_rhs => rw [← List.map_id e.coeffs]
      exact List.map_congr_left (fun c hc => Nat.mod_eq_of_lt (hlt c hc))
    unfold GFElement.reduce
    rw [this]
  · rw [if_neg h1]
    rcases hmod with hmod | ⟨hmod1, hmod2⟩
    · exact absurd hmod h1
    · have hpz : popZeros e.m e.coeffs = e.coeffs :=
        popZerosAux_of_length_le _ _ _ (by omega)
      simp only [hpz]
      rw [if_neg (by omega), polyMod_short fuel e.p e.coeffs e.modulus (by omega) (by omega) hmod2]
      simp only
      have := resize_popZeros 1 e.coeffs
      rw [hlen] at this
      rw [this]

/-- The coefficient constructor in a field with a valid modulus (or of degree
one): the first `m` coefficients reduced modulo `p`, padded with zeros. -/
theorem ofCoeffs_field (fuel : Nat) (cs : List Nat) {p m : Nat} (modulus : List Nat)
    (hp : 2 ≤ p) (hm : 1 ≤ m) (hmod : m = 1 ∨ ValidModulus m modulus) :
    GFElement.ofCoeffs fuel cs p m modulus
      = .ok { p := p, m := m, modulus := modulus,
              coeffs := (cs.take m).map (fun c => c % p) ++ List.replicate (m - cs.length) 0 } := by
  unfold GFElement.ofCoeffs
  rw [if_neg (by omega), if_neg (by omega)]
  apply reduceModulo_fixed fuel _ hm _ hmod
  refine ⟨by simp; omega, ?_⟩
  intro c hc
  rcases List.mem_append.mp hc with hc1 | hc1
  · obtain ⟨x, _, hx⟩ := List.mem_map.mp hc1
    rw [← hx]
    exact Nat.mod_lt _ (by omega)
  · rw [(List.mem_replicate.mp hc1).2]
    show 0 < p
    omega

/-- The coefficient constructor applied to `m` coefficients below `p`. -/
theorem ofCoeffs_field_canonical (fuel : Nat) (cs : List Nat) {p m : Nat} (modulus : List Nat)
    (hp : 2 ≤ p) (hm : 1 ≤ m) (hmod : m = 1 ∨ ValidModulus m modulus) (hlen : cs.length = m)
    (hlt : ∀ c ∈ cs, c < p) :
    GFElement.ofCoeffs fuel cs p m modulus
      = .ok { p := p, m := m, modulus := modulus, coeffs := cs } := by
  rw [ofCoeffs_field fuel cs modulus hp hm hmod]
  have h1 : cs.take m = cs := by rw [← hlen]; exact List.take_length cs
  have h2 : cs.map (fun c => c % p) = cs := by
    conv_rhs => rw [← List.map_id cs]
    exact List.map_congr_left (fun c hc => Nat.mod_eq_of_lt (hlt c hc))
  rw [h1, h2, hlen, Nat.sub_self]
  simp

/-! ## The value constructor and `getValue` -/

theorem digits_length (p : Nat) : ∀ (n v : Nat), (GFElement.digits p n v).length = n := by
  intro n
  induction n with
  | zero => intro v; rfl
  | succ n ih =>
    intro v
    unfold GFElement.digits
    split
    · rw [List.length_cons, ih]
    · rw [List.length_replicate]

theorem digits_bound {p : Nat} (hp : 0 < p) : ∀ (n v : Nat),
    ∀ c ∈ GFElement.digits p n v, c < p := by
  intro n
  induction n with
  | zero => intro v c hc; cases hc
  | succ n ih =>
    intro v c hc
    unfold GFElement.digits at hc
    split at hc
    · rcases List.mem_cons.mp hc with h | h
      · rw [h]
        exact Nat.mod_lt _ hp
      · exact ih _ c h
    · rw [(List.mem_replicate.mp hc).2]
      exact hp

/-- Coefficient `i` written by the value constructor is the `i`-th base-`p`
digit of the value. -/
theorem digits_getD (p : Nat) : ∀ (n v i : Nat), i < n →
    (GFElement.digits p n v).getD i 0 = v / p ^ i % p := by
  intro n
  induction n with
  | zero => intro v i hi; omega
  | succ n ih =>
    intro v i hi
    unfold GFElement.digits
    by_cases hv : 0 < v
    · rw [if_pos hv]
      cases i with
      | zero => simp
      | succ i =>
        rw [List.getD_cons_succ, ih _ _ (by omega), Nat.div_div_eq_div_mul, pow_succ']
    · rw [if_neg hv]
      have hv0 : v = 0 := by omega
      rw [hv0, List.getD_eq_getElem _ _ (by rw [List.length_replicate]; exact hi)]
      simp

/-- The loop of `getValue` over the first `n` coefficients, when these are the
base-`p` digits of `v` and `p^m` fits in 32 bits. -/
theorem getValue_fold {p m v : Nat} (cs : List Nat) (hp : 0 < p) (hpm : p ^ m < 4294967296)
    (hcs : ∀ i, i < m → cs.getD i 0 = v / p ^ i % p) :
    ∀ n, n ≤ m →
      (List.range n).foldl
        (fun (acc : Nat × Nat) i =>
          (u32 (acc.1 + u32 (cs.getD i 0 * acc.2)), u32 (acc.2 * p)))
        (0, 1) = (v % p ^ n, p ^ n) := by
  intro n
  induction n with
  | zero => intro _; simp [Nat.mod_one]
  | succ n ih =>
    intro hn
    rw [List.range_succ, List.foldl_append, ih (by omega)]
    simp only [List.foldl_cons, List.foldl_nil]
    have hle : p ^ (n + 1) ≤ p ^ m := Nat.pow_le_pow_right hp hn
    have hmod : v % p ^ (n + 1) = v % p ^ n + p ^ n * (v / p ^ n % p) := Nat.mod_pow_succ
    have hlt : v % p ^ (n + 1) < p ^ (n + 1) := Nat.mod_lt _ (pow_pos hp _)
    have hsum : v % p ^ (n + 1) < 4294967296 := lt_of_lt_of_le hlt (le_trans hle (le_of_lt hpm))
    have h1 : cs.getD n 0 * p ^ n < 4294967296 := by
      rw [hcs n (by omega), Nat.mul_comm]
      exact lt_of_le_of_lt (by rw [hmod]; exact Nat.le_add_left _ _) hsum
    rw [u32_of_lt h1, hcs n (by omega), Nat.mul_comm (v / p ^ n % p), ← hmod,
      u32_of_lt hsum, ← pow_succ, u32_of_lt (lt_of_le_of_lt hle hpm)]

/-! ## Claims about the representation of field elements -/

/-- C18: in a valid field (`p >= 2`, `m >= 1`, modulus of exactly `m + 1`
coefficients with nonzero leading coefficient) every element `e` (its
coefficient sequence has length `m` and entries below `p`, as for every element
returned by a constructor or an operation) is reproduced by the constructor
`GFElement(e.getCoeffs(), p, m, modulus)`: the call returns `e` itself and
`operator==` holds, for every step budget. -/
theorem C18_canonical_round_trip (fuel p m : Nat) (modulus : List Nat) (e : GFElement)
    (hp : 2 ≤ p) (hm : 1 ≤ m) (hmod : ValidModulus m modulus) (he : e.InField p m modulus) :
    ∃ e', GFElement.ofCoeffs fuel e.coeffs p m modulus = .ok e' ∧ e'.eq e = true ∧ e' = e := by
  obtain ⟨h1, h2, h3, h4, h5⟩ := he
  have hrt := ofCoeffs_field_canonical fuel e.coeffs modulus hp hm (Or.inr hmod)
    (by rw [h4, h2]) (by rw [← h1]; exact h5)
  have heq : ({ p := p, m := m, modulus := modulus, coeffs := e.coeffs } : GFElement) = e := by
    rw [← h1, ← h2, ← h3]
  rw [heq] at hrt
  refine ⟨e, hrt, ?_, rfl⟩
  simp [GFElement.eq]

/-- Witness for C18: the element `x + 1` of GF(4) with modulus `x^2 + x + 1`. -/
theorem C18_canonical_round_trip_witness :
    ∃ e', GFElement.ofCoeffs 0 gf4X1.coeffs 2 2 [1, 1, 1] = .ok e' ∧ e'.eq gf4X1 = true ∧
      e' = gf4X1 :=
  C18_canonical_round_trip 0 2 2 [1, 1, 1] gf4X1 (by decide) (by decide) (by decide) (by decide)

/-- C19: every element `e` returned by one of the three constructors or by
`+`, binary `-`, `*`, unary `-` has the field descriptor of the call (of the
left operand), comes from a call with `p >= 2` and `m >= 1`, and has exactly
`m` coefficients, each in `[0, p)`; this holds for every modulus and every
step budget. -/
theorem C19_representation_invariant (fuel p m value : Nat) (modulus coeffs : List Nat)
    (a b e : GFElement) :
    (GFElement.new p m modulus = .ok e → 2 ≤ p ∧ 1 ≤ m ∧ e.InField p m modulus) ∧
    (GFElement.ofValue value p m modulus = .ok e → 2 ≤ p ∧ 1 ≤ m ∧ e.InField p m modulus) ∧
    (GFElement.ofCoeffs fuel coeffs p m modulus = .ok e →
      2 ≤ p ∧ 1 ≤ m ∧ e.InField p m modulus) ∧
    (a.add fuel b = .ok e → 2 ≤ a.p ∧ 1 ≤ a.m ∧ e.InField a.p a.m a.modulus) ∧
    (a.sub fuel b = .ok e → 2 ≤ a.p ∧ 1 ≤ a.m ∧ e.InField a.p a.m a.modulus) ∧
    (a.mul fuel b = .ok e → 2 ≤ a.p ∧ 1 ≤ a.m ∧ e.InField a.p a.m a.modulus) ∧
    (a.neg fuel = .ok e → 2 ≤ a.p ∧ 1 ≤ a.m ∧ e.InField a.p a.m a.modulus) := by
  refine ⟨?_, ?_, ofCoeffs_canonical fuel _ _ _ _ e, ?_, ?_, ?_, ?_⟩
  · intro h
    unfold GFElement.new at h
    split at h
    · cases h
    · split at h
      · cases h
      · cases h
        refine ⟨by omega, by omega, rfl, rfl, rfl, by simp, ?_⟩
        intro c hc
        rw [(List.mem_replicate.mp hc).2]
        show 0 < p
        omega
  · intro h
    unfold GFElement.ofValue at h
    split at h
    · cases h
    · split at h
      · cases h
      · have hp : 0 < p := by omega
        split at h
        · cases h
          rename_i hm1
          refine ⟨by omega, by omega, rfl, rfl, rfl, by simp [hm1], ?_⟩
          intro c hc
          rw [List.mem_singleton.mp hc]
          exact Nat.mod_lt _ hp
        · cases h
          exact ⟨by omega, by omega, rfl, rfl, rfl, digits_length _ _ _, digits_bound hp _ _⟩
  · intro h
    unfold GFElement.add at h
    split at h
    · cases h
    · exact ofCoeffs_canonical fuel _ _ _ _ e h
  · intro h
    unfold GFElement.sub at h
    split at h
    · cases h
    · exact ofCoeffs_canonical fuel _ _ _ _ e h
  · intro h
    unfold GFElement.mul at h
    split at h
    · cases h
    · exact ofCoeffs_canonical fuel _ _ _ _ e h
  · intro h
    exact ofCoeffs_canonical fuel _ _ _ _ e h

/-- Witness for C19: the product `x * (x + 1)` in GF(4) as computed by
`operator*`. -/
theorem C19_representation_invariant_witness :
    gf4X.mul 0 gf4X1 = .ok gf4X ∧ 2 ≤ gf4X.p ∧ 1 ≤ gf4X.m ∧
      gf4X.InField gf4X.p gf4X.m gf4X.modulus :=
  ⟨by decide!,
    (C19_representation_invariant 0 2 2 0 [1, 1, 1] [] gf4X gf4X1 gf4X).2.2.2.2.2.1
      (by decide!)⟩

/-- C20: for `p >= 2`, `m >= 1` with `p^m < 2^32` and every 32-bit value `v`,
the constructor `GFElement(v, p, m)` returns an element whose `getValue()` is
`v mod p^m`, whose coefficient `i` is the `i`-th base-`p` digit of `v`, and
whose `getValue()` is `v` itself when `v < p^m`. -/
theorem C20_integer_round_trip (v p m : Nat) (modulus : List Nat) (hp : 2 ≤ p) (hm : 1 ≤ m)
    (hpm : p ^ m < 4294967296) (_hv : v < 4294967296) :
    ∃ e, GFElement.ofValue v p m modulus = .ok e ∧ e.getValue = v % p ^ m ∧
      (∀ i, i < m → e.coeffs.getD i 0 = v / p ^ i % p) ∧ (v < p ^ m → e.getValue = v) := by
  have hval : ∃ e, GFElement.ofValue v p m modulus = .ok e ∧ e.getValue = v % p ^ m ∧
      (∀ i, i < m → e.coeffs.getD i 0 = v / p ^ i % p) := by
    unfold GFElement.ofValue
    rw [if_neg (by omega), if_neg (by omega)]
    by_cases hm1 : m = 1
    · rw [if_pos hm1]
      refine ⟨_, rfl, ?_, ?_⟩
      · simp [GFElement.getValue, hm1]
      · intro i hi
        have hi0 : i = 0 := by omega
        simp [hi0]
    · rw [if_neg hm1]
      refine ⟨_, rfl, ?_, fun i hi => digits_getD p m v i hi⟩
      unfold GFElement.getValue
      simp only [if_neg hm1]
      rw [getValue_fold (GFElement.digits p m v) (by omega) hpm
        (fun i hi => digits_getD p m v i hi) m (Nat.le_refl m)]
  obtain ⟨e, he1, he2, he3⟩ := hval
  exact ⟨e, he1, he2, he3, fun hlt => by rw [he2, Nat.mod_eq_of_lt hlt]⟩

/-- Witness for C20: the value 7 in GF(4) (`p = 2`, `m = 2`): `getValue()` is 3. -/
theorem C20_integer_round_trip_witness :
    ∃ e, GFElement.ofValue 7 2 2 [1, 1] = .ok e ∧ e.getValue = 7 % 2 ^ 2 ∧
      (∀ i, i < 2 → e.coeffs.getD i 0 = 7 / 2 ^ i % 2) ∧ (7 < 2 ^ 2 → e.getValue = 7) :=
  C20_integer_round_trip 7 2 2 [1, 1] (by decide) (by decide) (by decide) (by decide)

/-! ## `polyMul` computes the convolution of the coefficient sequences -/

section Convolution

variable {p : Nat} [hp : Fact p.Prime]

theorem coeffRep_unique {m : Nat} {cs cs' : List Nat} {g : Nat → ZMod p}
    (h : CoeffRep p m cs g) (h' : CoeffRep p m cs' g) : cs = cs' := by
  apply List.ext_getElem (by rw [h.1, h'.1])
  intro k hk hk'
  have hkm : k < m := by rw [← h.1]; exact hk
  obtain ⟨h1, h2⟩ := h.2 k hkm
  obtain ⟨h1', h2'⟩ := h'.2 k hkm
  rw [List.getD_eq_getElem _ _ hk] at h1 h2
  rw [List.getD_eq_getElem _ _ hk'] at h1' h2'
  have := congrArg ZMod.val (h2.trans h2'.symm)
  rwa [ZMod.val_natCast, ZMod.val_natCast, Nat.mod_eq_of_lt h1, Nat.mod_eq_of_lt h1'] at this

theorem coeffRep_of_bound {m : Nat} {cs : List Nat} (hlen : cs.length = m)
    (hlt : ∀ c ∈ cs, c < p) :
    CoeffRep p m cs (fun k => ((cs.getD k 0 : Nat) : ZMod p)) := by
  refine ⟨hlen, fun k hk => ⟨?_, rfl⟩⟩
  rw [List.getD_eq_getElem _ _ (by omega)]
  exact hlt _ (List.getElem_mem _)

/-- One update `result[i + j] = (result[i + j] + a[i] * b[j]) % p`. -/
theorem polyMul_update (hlt : p < 65536) {L : Nat} {res : List Nat} {g : Nat → ZMod p}
    (h : CoeffRep p L res g) {x y t : Nat} (hx : x < p) (hy : y < p) (ht : t < L) :
    CoeffRep p L (res.set t (u32 (res.getD t 0 + u32 (x * y)) % p))
      (fun k => g k + if t = k then (x : ZMod p) * (y : ZMod p) else 0) := by
  have hp0 : 0 < p := hp.out.pos
  refine ⟨by rw [List.length_set]; exact h.1, ?_⟩
  intro k hk
  dsimp only
  have hxy : x * y < 4294967296 := by
    calc x * y ≤ 65535 * 65535 := Nat.mul_le_mul (by omega) (by omega)
      _ < 4294967296 := by norm_num
  have hrt := (h.2 t ht).1
  have hsum : res.getD t 0 + x * y < 4294967296 := by
    have : x * y ≤ 65535 * 65535 := Nat.mul_le_mul (by omega) (by omega)
    omega
  by_cases htk : t = k
  · subst htk
    rw [List.getD_eq_getElem _ _ (by rw [List.length_set, h.1]; exact ht), List.getElem_set_self,
      u32_of_lt hxy, u32_of_lt hsum, if_pos rfl]
    refine ⟨Nat.mod_lt _ hp0, ?_⟩
    rw [ZMod.natCast_mod, Nat.cast_add, Nat.cast_mul, (h.2 t ht).2]
  · have hget : (res.set t (u32 (res.getD t 0 + u32 (x * y)) % p)).getD k 0 = res.getD k 0 := by
      simp only [List.getD_eq_getElem?_getD, List.getElem?_set_ne htk]
    rw [hget, if_neg htk, add_zero]
    exact h.2 k hk

/-- The inner loop of `polyMul` for a fixed `i`. -/
theorem polyMul_inner (hlt : p < 65536) {L : Nat} (a b : List Nat) (i : Nat)
    (hai : a.getD i 0 < p) (hb : ∀ j, j < b.length → b.getD j 0 < p) :
    ∀ (n : Nat) (res : List Nat) (g : Nat → ZMod p), CoeffRep p L res g → n ≤ b.length →
      i + b.length ≤ L → 0 < b.length →
      CoeffRep p L
        ((List.range n).foldl
          (fun res j =>
            res.set (i + j) (u32 (res.getD (i + j) 0 + u32 (a.getD i 0 * b.getD j 0)) % p))
          res)
        (fun k => g k + ∑ j in Finset.range n,
          if i + j = k then ((a.getD i 0 : Nat) : ZMod p) * ((b.getD j 0 : Nat) : ZMod p)
          else 0) := by
  intro n
  induction n with
  | zero =>
    intro res g h _ _ _
    simpa using h
  | succ n ih =>
    intro res g h hn hL hb0
    rw [List.range_succ, List.foldl_append]
    simp only [List.foldl_cons, List.foldl_nil]
    have h1 := ih res g h (by omega) hL hb0
    have h2 := polyMul_update hlt h1 hai (hb n (by omega)) (show i + n < L by omega)
    refine ⟨h2.1, fun k hk => ?_⟩
    obtain ⟨h3, h4⟩ := h2.2 k hk
    refine ⟨h3, ?_⟩
    rw [h4]
    dsimp only
    rw [Finset.sum_range_succ, add_assoc]

/-- The two nested loops of `polyMul`. -/
theorem polyMul_outer (hlt : p < 65536) {L : Nat} (a b : List Nat)
    (ha : ∀ i, i < a.length → a.getD i 0 < p) (hb : ∀ j, j < b.length → b.getD j 0 < p)
    (hL : a.length + b.length = L + 1) (hb0 : 0 < b.length) :
    ∀ (n : Nat), n ≤ a.length →
      CoeffRep p L
        ((List.range n).foldl
          (fun res i =>
            (List.range b.length).foldl
              (fun res j =>
                res.set (i + j)
                  (u32 (res.getD (i + j) 0 + u32 (a.getD i 0 * b.getD j 0)) % p))
              res)
          (List.replicate L 0))
        (pConv n b.length (fun i => ((a.getD i 0 : Nat) : ZMod p))
          (fun j => ((b.getD j 0 : Nat) : ZMod p))) := by
  intro n
  induction n with
  | zero =>
    intro _
    simp only [List.range_zero, List.foldl_nil]
    refine ⟨List.length_replicate _ _, fun k hk => ?_⟩
    rw [List.getD_eq_getElem _ _ (by rw [List.length_replicate]; exact hk)]
    simp [pConv, hp.out.pos]
  | succ n ih =>
    intro hn
    rw [List.range_succ, List.foldl_append]
    simp only [List.foldl_cons, List.foldl_nil]
    have h1 := ih (by omega)
    have h2 := polyMul_inner hlt a b n (ha n (by omega)) hb b.length _ _ h1 (Nat.le_refl _)
      (by omega) hb0
    refine ⟨h2.1, fun k hk => ?_⟩
    obtain ⟨h3, h4⟩ := h2.2 k hk
    refine ⟨h3, ?_⟩
    rw [h4]
    unfold pConv
    rw [Finset.sum_range_succ]

/-- The product computed by `polyMul` for nonempty operands with entries below
`p < 2^16`: each coefficient is the convolution sum modulo `p`. -/
theorem polyMul_spec (hlt : p < 65536) (a b : List Nat) (ha0 : 0 < a.length)
    (hb0 : 0 < b.length) (ha : ∀ c ∈ a, c < p) (hb : ∀ c ∈ b, c < p) :
    CoeffRep p (a.length + b.length - 1) (polyMul p a b)
      (pConv a.length b.length (fun i => ((a.getD i 0 : Nat) : ZMod p))
        (fun j => ((b.getD j 0 : Nat) : ZMod p))) := by
  unfold polyMul
  have hne : ¬ (a = [] ∨ b = []) := by
    rintro (h | h)
    · rw [h] at ha0; exact absurd ha0 (by simp)
    · rw [h] at hb0; exact absurd hb0 (by simp)
  rw [if_neg hne]
  exact polyMul_outer hlt a b
    (fun i hi => by rw [List.getD_eq_getElem _ _ hi]; exact ha _ (List.getElem_mem _))
    (fun j hj => by rw [List.getD_eq_getElem _ _ hj]; exact hb _ (List.getElem_mem _))
    (by omega) hb0 a.length (Nat.le_refl _)

end Convolution

/-! ## Addition and multiplication in a field with a valid modulus -/

section FieldOps

variable {p : Nat} [hp : Fact p.Prime]

theorem coeffRep_congr {m : Nat} {cs : List Nat} {g h : Nat → ZMod p} (hc : CoeffRep p m cs g)
    (hgh : ∀ k, k < m → g k = h k) : CoeffRep p m cs h :=
  ⟨hc.1, fun k hk => ⟨(hc.2 k hk).1, (hc.2 k hk).2.trans (hgh k hk)⟩⟩

theorem inField_coeffRep {m : Nat} {modulus : List Nat} {e : GFElement}
    (he : e.InField p m modulus) : CoeffRep p m e.coeffs (e.coeffZ p) := by
  obtain ⟨h1, h2, _, h4, h5⟩ := he
  rw [h1] at h5
  rw [h2] at h4
  exact coeffRep_of_bound h4 h5

/-- The `operator+` member in a field with a valid modulus: coefficient-wise
sum in `ZMod p`. -/
theorem field_add (fuel : Nat) (hlt : p < 65536) {m : Nat} {modulus : List Nat}
    {a b : GFElement} (hm : 1 ≤ m) (hmod : m = 1 ∨ ValidModulus m modulus)
    (ha : a.InField p m modulus) (hb : b.InField p m modulus) :
    ∃ r, a.add fuel b = .ok r ∧ r.InField p m modulus ∧
      CoeffRep p m r.coeffs (fun k => a.coeffZ p k + b.coeffZ p k) := by
  have hp2 : 2 ≤ p := hp.out.two_le
  have hca := inField_coeffRep ha
  have hcb := inField_coeffRep hb
  obtain ⟨ha1, ha2, ha3, _, _⟩ := ha
  obtain ⟨hb1, hb2, _, _, _⟩ := hb
  have hrep : CoeffRep p m
      ((List.range m).map (fun i => u32 (a.coeffs.getD i 0 + b.coeffs.getD i 0) % p))
      (fun k => a.coeffZ p k + b.coeffZ p k) := by
    refine ⟨by simp, fun k hk => ?_⟩
    have hx := (hca.2 k hk).1
    have hy := (hcb.2 k hk).1
    rw [List.getD_eq_getElem _ _ (by simpa using hk), List.getElem_map, List.getElem_range,
      u32_of_lt (by omega)]
    refine ⟨Nat.mod_lt _ (by omega), ?_⟩
    rw [ZMod.natCast_mod, Nat.cast_add]
    rfl
  have hbound : ∀ c ∈ (List.range m).map
      (fun i => u32 (a.coeffs.getD i 0 + b.coeffs.getD i 0) % p), c < p := by
    intro c hc
    obtain ⟨x, _, hx⟩ := List.mem_map.mp hc
    rw [← hx]
    exact Nat.mod_lt _ (by omega)
  refine ⟨{ p := p, m := m, modulus := modulus,
            coeffs := (List.range m).map
              (fun i => u32 (a.coeffs.getD i 0 + b.coeffs.getD i 0) % p) }, ?_,
    ⟨rfl, rfl, rfl, hrep.1, hbound⟩, hrep⟩
  unfold GFElement.add
  rw [if_neg (by rw [ha1, ha2, hb1, hb2]; simp), ha1, ha2, ha3]
  exact ofCoeffs_field_canonical fuel _ modulus hp2 hm hmod hrep.1 hbound

/-- The `operator*` member in a field with a valid modulus: the first `m`
coefficients of the product polynomial, without any reduction by the modulus. -/
theorem field_mul (fuel : Nat) (hlt : p < 65536) {m : Nat} {modulus : List Nat}
    {a b : GFElement} (hm : 1 ≤ m) (hmod : m = 1 ∨ ValidModulus m modulus)
    (ha : a.InField p m modulus) (hb : b.InField p m modulus) :
    ∃ r, a.mul fuel b = .ok r ∧ r.InField p m modulus ∧
      CoeffRep p m r.coeffs (pConv m m (a.coeffZ p) (b.coeffZ p)) := by
  have hp2 : 2 ≤ p := hp.out.two_le
  obtain ⟨ha1, ha2, ha3, ha4, ha5⟩ := ha
  obtain ⟨hb1, hb2, _, hb4, hb5⟩ := hb
  rw [ha1] at ha5
  rw [hb1] at hb5
  rw [ha2] at ha4
  rw [hb2] at hb4
  have hmul := polyMul_spec hlt a.coeffs b.coeffs (by omega) (by omega) ha5 hb5
  rw [ha4, hb4] at hmul
  have hok := ofCoeffs_field fuel (polyMul p a.coeffs b.coeffs) modulus hp2 hm hmod
  have hrep : CoeffRep p m
      (((polyMul p a.coeffs b.coeffs).take m).map (fun c => c % p)
        ++ List.replicate (m - (polyMul p a.coeffs b.coeffs).length) 0)
      (pConv m m (a.coeffZ p) (b.coeffZ p)) := by
    have hlen : (polyMul p a.coeffs b.coeffs).length = m + m - 1 := hmul.1
    refine ⟨by simp [hlen]; omega, fun k hk => ?_⟩
    obtain ⟨h1, h2⟩ := hmul.2 k (by omega)
    have hk1 : k < (((polyMul p a.coeffs b.coeffs).take m).map (fun c => c % p)).length := by
      simp [hlen]; omega
    have hk2 : k < (polyMul p a.coeffs b.coeffs).length := by omega
    have hget : (((polyMul p a.coeffs b.coeffs).take m).map (fun c => c % p)
        ++ List.replicate (m - (polyMul p a.coeffs b.coeffs).length) 0).getD k 0
        = (polyMul p a.coeffs b.coeffs).getD k 0 := by
      have h1' := h1
      rw [List.getD_eq_getElem _ _ hk2] at h1'
      rw [List.getD_append _ _ _ _ hk1, List.getD_eq_getElem _ _ hk1, List.getElem_map,
        List.getElem_take, List.getD_eq_getElem _ _ hk2]
      exact Nat.mod_eq_of_lt h1'
    rw [hget]
    exact ⟨h1, h2⟩
  refine ⟨{ p := p, m := m, modulus := modulus,
            coeffs := ((polyMul p a.coeffs b.coeffs).take m).map (fun c => c % p)
              ++ List.replicate (m - (polyMul p a.coeffs b.coeffs).length) 0 }, ?_,
    ⟨rfl, rfl, rfl, hrep.1, ?_⟩, hrep⟩
  · unfold GFElement.mul
    rw [if_neg (by rw [ha1, ha2, hb1, hb2]; simp), ha1, ha2, ha3]
    exact hok
  · intro c hc
    obtain ⟨k, hk, hck⟩ := List.mem_iff_getElem.mp hc
    have hkm : k < m := by rw [← hrep.1]; exact hk
    have := (hrep.2 k hkm).1
    rw [List.getD_eq_getElem _ _ hk, hck] at this
    exact this

theorem pConv_congr {m : Nat} {g g' h h' : Nat → ZMod p} (hg : ∀ k, k < m → g k = g' k)
    (hh : ∀ k, k < m → h k = h' k) (k : Nat) : pConv m m g h k = pConv m m g' h' k := by
  unfold pConv
  apply Finset.sum_congr rfl
  intro i hi
  apply Finset.sum_congr rfl
  intro j hj
  rw [hg i (Finset.mem_range.mp hi), hh j (Finset.mem_range.mp hj)]

theorem pConv_add {m : Nat} (g h h' : Nat → ZMod p) (k : Nat) :
    pConv m m g (fun j => h j + h' j) k = pConv m m g h k + pConv m m g h' k := by
  unfold pConv
  rw [← Finset.sum_add_distrib]
  apply Finset.sum_congr rfl
  intro i _
  rw [← Finset.sum_add_distrib]
  apply Finset.sum_congr rfl
  intro j _
  by_cases hij : i + j = k
  · simp only [hij, if_true]; ring
  · simp only [hij, if_false]; ring

end FieldOps

/-! ## Claims about the field laws -/

/-- C17: in a valid field (`p` prime, `p < 2^16`, `m >= 1`, modulus of exactly
`m + 1` coefficients with nonzero leading coefficient), for all elements `a`,
`b`, `c` of it the four products and sums are returned and
`a * (b + c) == a * b + a * c` holds, for every step budget. -/
theorem C17_mul_distributes_over_add (fuel p m : Nat) (modulus : List Nat) (a b c : GFElement)
    (hp : p.Prime) (hlt : p < 65536) (hm : 1 ≤ m) (hmod : ValidModulus m modulus)
    (ha : a.InField p m modulus) (hb : b.InField p m modulus) (hc : c.InField p m modulus) :
    ∃ bc l ab ac r, b.add fuel c = .ok bc ∧ a.mul fuel bc = .ok l ∧ a.mul fuel b = .ok ab ∧
      a.mul fuel c = .ok ac ∧ ab.add fuel ac = .ok r ∧ l.eq r = true := by
  haveI : Fact p.Prime := ⟨hp⟩
  have hv : m = 1 ∨ ValidModulus m modulus := Or.inr hmod
  obtain ⟨bc, hbc, hbcF, hbcR⟩ := field_add fuel hlt hm hv hb hc
  obtain ⟨l, hl, hlF, hlR⟩ := field_mul fuel hlt hm hv ha hbcF
  obtain ⟨ab, hab, habF, habR⟩ := field_mul fuel hlt hm hv ha hb
  obtain ⟨ac, hac, hacF, hacR⟩ := field_mul fuel hlt hm hv ha hc
  obtain ⟨r, hr, hrF, hrR⟩ := field_add fuel hlt hm hv habF hacF
  refine ⟨bc, l, ab, ac, r, hbc, hl, hab, hac, hr, ?_⟩
  have h1 : CoeffRep p m l.coeffs
      (fun k => pConv m m (a.coeffZ p) (b.coeffZ p) k + pConv m m (a.coeffZ p) (c.coeffZ p) k) := by
    apply coeffRep_congr hlR
    intro k _
    rw [← pConv_add]
    exact pConv_congr (fun _ _ => rfl) (fun j hj => (hbcR.2 j hj).2) k
  have h2 : CoeffRep p m r.coeffs
      (fun k => pConv m m (a.coeffZ p) (b.coeffZ p) k + pConv m m (a.coeffZ p) (c.coeffZ p) k) := by
    apply coeffRep_congr hrR
    intro k hk
    show ab.coeffZ p k + ac.coeffZ p k = _
    rw [show ab.coeffZ p k = _ from (habR.2 k hk).2, show ac.coeffZ p k = _ from (hacR.2 k hk).2]
  have hcs : l.coeffs = r.coeffs := coeffRep_unique h1 h2
  unfold GFElement.eq
  rw [if_neg (by rw [hlF.1, hlF.2.1, hrF.1, hrF.2.1]; simp)]
  simp [hcs]

/-- Witness for C17: `a = x`, `b = x + 1`, `c = 1` in GF(4) with modulus
`x^2 + x + 1`. -/
theorem C17_mul_distributes_over_add_witness :
    ∃ bc l ab ac r, gf4X1.add 0 gf4One = .ok bc ∧ gf4X.mul 0 bc = .ok l ∧
      gf4X.mul 0 gf4X1 = .ok ab ∧ gf4X.mul 0 gf4One = .ok ac ∧ ab.add 0 ac = .ok r ∧
      l.eq r = true :=
  C17_mul_distributes_over_add 0 2 2 [1, 1, 1] gf4X gf4X1 gf4One (by norm_num) (by decide)
    (by decide) (by decide) (by decide) (by decide) (by decide)

/-! ## `std::prev_permutation` enumerates the selectors -/

theorem prevPermStep_cons_some {x : Bool} {tail tail' : List Bool}
    (h : prevPermStep tail = some tail') : prevPermStep (x :: tail) = some (x :: tail') := by
  rw [prevPermStep, h]

theorem prevPermStep_cons_false {tail : List Bool} (h : prevPermStep tail = none) :
    prevPermStep (false :: tail) = none := by
  rw [prevPermStep, h]
  simp [boolLt]

theorem prevPermStep_all_true : ∀ b : Nat, prevPermStep (List.replicate b true) = none := by
  intro b
  induction b with
  | zero => rfl
  | succ b ih =>
    rw [List.replicate_succ, prevPermStep, ih]
    cases b with
    | zero => simp [boolLt]
    | succ b => simp [boolLt, List.replicate_succ]

/-- The smallest arrangement (all `false` entries first) has no predecessor. -/
theorem prevPermStep_min (a b : Nat) :
    prevPermStep (List.replicate a false ++ List.replicate b true) = none := by
  induction a with
  | zero => simpa using prevPermStep_all_true b
  | succ a ih =>
    rw [List.replicate_succ, List.cons_append]
    exact prevPermStep_cons_false ih

theorem getD_false_true (a b i : Nat) (hi : a ≤ i) :
    (List.replicate a false ++ List.replicate b true).getD i true = true := by
  rw [List.getD_eq_getElem?_getD]
  by_cases h : i < a + b
  · rw [List.getElem?_append_right (by simpa using hi)]
    simp only [List.length_replicate]
    rw [List.getElem?_replicate_of_lt (by omega)]
    rfl
  · rw [List.getElem?_eq_none (by simp; omega)]
    rfl

theorem lastSmaller_false_true (a b : Nat) : ∀ n, n ≤ b →
    lastSmaller true (List.replicate (a + 1) false ++ List.replicate b true) (a + 1 + n) = a := by
  intro n
  induction n with
  | zero =>
    intro _
    rw [Nat.add_zero, lastSmaller]
    have : (List.replicate (a + 1) false ++ List.replicate b true).getD a true = false := by
      rw [List.getD_eq_getElem?_getD, List.getElem?_append_left (by simp),
        List.getElem?_replicate_of_lt (by omega)]
      rfl
    rw [this]
    simp [boolLt]
  | succ n ih =>
    intro hn
    rw [← Nat.add_assoc, lastSmaller, getD_false_true (a + 1) b (a + 1 + n) (by omega)]
    simp only [boolLt, Bool.not_true, Bool.false_and, Bool.false_eq_true, if_false]
    exact ih (by omega)

/-- The step from the last selector with a leading `true` to the first
selector with a leading `false`. -/
theorem prevPermStep_boundary (a b : Nat) :
    prevPermStep (true :: (List.replicate (a + 1) false ++ List.replicate b true))
      = some (false :: (List.replicate (b + 1) true ++ List.replicate a false)) := by
  rw [prevPermStep, prevPermStep_min]
  have h0 : (List.replicate (a + 1) false ++ List.replicate b true).getD 0 true = false := by
    simp [List.replicate_succ]
  have hlen : (List.replicate (a + 1) false ++ List.replicate b true).length = a + 1 + b := by
    simp
  have hj := lastSmaller_false_true a b b (Nat.le_refl b)
  have hget : (List.replicate (a + 1) false ++ List.replicate b true).getD a true = false := by
    rw [List.getD_eq_getElem?_getD, List.getElem?_append_left (by simp),
      List.getElem?_replicate_of_lt (by omega)]
    rfl
  have hset : (List.replicate (a + 1) false ++ List.replicate b true).set a true
      = List.replicate a false ++ List.replicate (b + 1) true := by
    rw [List.replicate_succ', List.append_assoc, List.set_append_right _ _ (by simp)]
    simp [List.replicate_succ]
  simp only [h0, hlen, hj, hget, hset, boolLt, Bool.not_false, Bool.true_and, if_true]
  simp

theorem selectors_empty : ∀ n k, n < k → selectors n k = [] := by
  intro n
  induction n with
  | zero =>
    intro k hk
    cases k with
    | zero => omega
    | succ k => rfl
  | succ n ih =>
    intro k hk
    cases k with
    | zero => omega
    | succ k => rw [selectors, ih k (by omega), ih (k + 1) (by omega)]; rfl

theorem selectors_head : ∀ n k, k ≤ n →
    (selectors n k).head? = some (List.replicate k true ++ List.replicate (n - k) false) := by
  intro n
  induction n with
  | zero =>
    intro k hk
    have : k = 0 := by omega
    subst this
    rfl
  | succ n ih =>
    intro k hk
    cases k with
    | zero => simp [selectors]
    | succ k =>
      rw [selectors, List.head?_append, List.head?_map, ih k (by omega)]
      simp [List.replicate_succ]

theorem selectors_last : ∀ n k, k ≤ n →
    (selectors n k).getLast? = some (List.replicate (n - k) false ++ List.replicate k true) := by
  intro n
  induction n with
  | zero =>
    intro k hk
    have : k = 0 := by omega
    subst this
    rfl
  | succ n ih =>
    intro k hk
    cases k with
    | zero => simp [selectors]
    | succ k =>
      rw [selectors, List.getLast?_append, List.getLast?_map, List.getLast?_map]
      by_cases hkn : k + 1 ≤ n
      · rw [ih (k + 1) hkn]
        have : n + 1 - (k + 1) = (n - (k + 1)) + 1 := by omega
        rw [this]
        simp [List.replicate_succ]
      · rw [selectors_empty n (k + 1) (by omega), ih k (by omega)]
        have h1 : n - k = 0 := by omega
        have h2 : n + 1 - (k + 1) = 0 := by omega
        rw [h1, h2]
        simp [List.replicate_succ]

/-- Consecutive selectors are related by `std::prev_permutation`. -/
theorem selectors_chain : ∀ n k,
    List.Chain' (fun u v => prevPermStep u = some v) (selectors n k) := by
  intro n
  induction n with
  | zero =>
    intro k
    cases k with
    | zero => exact List.chain'_singleton _
    | succ k => exact List.chain'_nil
  | succ n ih =>
    intro k
    cases k with
    | zero => exact List.chain'_singleton _
    | succ k =>
      rw [selectors, List.chain'_append]
      refine ⟨?_, ?_, ?_⟩
      · rw [List.chain'_map]
        exact (ih k).imp (fun _ _ h => prevPermStep_cons_some h)
      · rw [List.chain'_map]
        exact (ih (k + 1)).imp (fun _ _ h => prevPermStep_cons_some h)
      · intro x hx y hy
        by_cases hkn : k + 1 ≤ n
        · rw [List.getLast?_map, selectors_last n k (by omega)] at hx
          rw [List.head?_map, selectors_head n (k + 1) hkn] at hy
          simp only [Option.map_some', Option.mem_def, Option.some.injEq] at hx hy
          subst hx
          subst hy
          have h1 : n - k = (n - (k + 1)) + 1 := by omega
          rw [h1]
          exact prevPermStep_boundary (n - (k + 1)) k
        · rw [selectors_empty n (k + 1) (by omega)] at hy
          cases hy

/-- The last selector has no predecessor. -/
theorem selectors_last_min (n k : Nat) :
    ∀ u, (selectors n k).getLast? = some u → prevPermStep u = none := by
  intro u hu
  by_cases hkn : k ≤ n
  · rw [selectors_last n k hkn] at hu
    cases hu
    exact prevPermStep_min _ _
  · rw [selectors_empty n k (by omega)] at hu
    cases hu

theorem mem_selectors : ∀ (s : List Bool), s ∈ selectors s.length (s.count true) := by
  intro s
  induction s with
  | nil => simp [selectors]
  | cons b s ih =>
    cases b with
    | true =>
      rw [List.length_cons, List.count_cons_self, selectors]
      exact List.mem_append_left _ (List.mem_map.mpr ⟨s, ih, rfl⟩)
    | false =>
      have hc : (false :: s).count true = s.count true := by simp
      rw [List.length_cons, hc]
      cases hk : s.count true with
      | zero =>
        rw [selectors]
        have : s = List.replicate s.length false := by
          apply List.eq_replicate_iff.mpr
          refine ⟨rfl, fun b hb => ?_⟩
          cases b with
          | false => rfl
          | true => exact absurd (List.count_pos_iff.mpr hb) (by omega)
        rw [List.mem_singleton, List.replicate_succ, ← this]
      | succ k =>
        rw [selectors]
        rw [hk] at ih
        exact List.mem_append_right _ (List.mem_map.mpr ⟨s, ih, rfl⟩)

theorem selectors_mem : ∀ n k (s : List Bool), s ∈ selectors n k →
    s.length = n ∧ s.count true = k := by
  intro n
  induction n with
  | zero =>
    intro k s hs
    cases k with
    | zero =>
      rw [selectors, List.mem_singleton] at hs
      subst hs
      exact ⟨rfl, rfl⟩
    | succ k => rw [selectors] at hs; cases hs
  | succ n ih =>
    intro k s hs
    cases k with
    | zero =>
      rw [selectors, List.mem_singleton] at hs
      subst hs
      refine ⟨by simp, ?_⟩
      rw [List.count_eq_zero]
      intro h
      have := List.eq_of_mem_replicate h
      cases this
    | succ k =>
      rw [selectors, List.mem_append] at hs
      rcases hs with hs | hs
      · obtain ⟨t, ht, rfl⟩ := List.mem_map.mp hs
        obtain ⟨h1, h2⟩ := ih k t ht
        exact ⟨by simp [h1], by simp [h2]⟩
      · obtain ⟨t, ht, rfl⟩ := List.mem_map.mp hs
        obtain ⟨h1, h2⟩ := ih (k + 1) t ht
        exact ⟨by simp [h1], by simp [h2]⟩

/-! ## The search loops visit every selection -/

theorem initSelector_eq (n k : Nat) (hk : k ≤ n) :
    initSelector n k = List.replicate k true ++ List.replicate (n - k) false := by
  apply List.ext_getElem
  · simp [initSelector]; omega
  · intro i h1 h2
    by_cases hik : i < k
    · rw [List.getElem_append_left (by simpa using hik)]
      simp [initSelector, hik]
    · rw [List.getElem_append_right (by simpa using hik)]
      simp [initSelector, hik]

/-- The list of selectors starts with the initial selector of the loop. -/
theorem selectors_eq_cons (n k : Nat) (hk : k ≤ n) :
    ∃ L, selectors n k = initSelector n k :: L := by
  have h := selectors_head n k hk
  rw [← initSelector_eq n k hk] at h
  cases hs : selectors n k with
  | nil => rw [hs] at h; cases h
  | cons u L =>
    rw [hs] at h
    simp only [List.head?_cons, Option.some.injEq] at h
    exact ⟨L, by rw [h]⟩

theorem prevPermutation_some {u v : List Bool} (h : prevPermStep u = some v) :
    prevPermutation u = (v, true) := by
  rw [prevPermutation, h]

theorem prevPermutation_none {u : List Bool} (h : prevPermStep u = none) :
    prevPermutation u = (u.reverse, false) := by
  rw [prevPermutation, h]

/-- A `do ... while (std::prev_permutation(...))` loop started at the head of
a chain of selectors: a result `none` means that the body returned `none` on
every selector of the chain, a result `some x` comes from the body on one of
them. -/
theorem doWhilePrev_visits {α : Type} (body : List Bool → Except Err (Option α)) :
    ∀ (L : List (List Bool)) (u : List Bool) (budget : Nat) (r : Option α),
      List.Chain' (fun a b => prevPermStep a = some b) (u :: L) →
      (∀ w, (u :: L).getLast? = some w → prevPermStep w = none) →
      doWhilePrev body budget u = .ok r →
      (r = none → ∀ v ∈ u :: L, body v = .ok none) ∧
        (∀ x, r = some x → ∃ v ∈ u :: L, body v = .ok (some x)) := by
  intro L
  induction L with
  | nil =>
    intro u budget r _ hlast h
    have hu : prevPermStep u = none := hlast u rfl
    unfold doWhilePrev at h
    cases hb : body u with
    | error e => rw [hb] at h; cases h
    | ok o =>
      rw [hb] at h
      cases o with
      | none =>
        simp only [prevPermutation_none hu] at h
        cases h
        refine ⟨fun _ v hv => ?_, fun x hx => by cases hx⟩
        rw [List.mem_singleton.mp hv]
        exact hb
      | some x =>
        simp only at h
        cases h
        refine ⟨fun hx => (by cases hx), fun y hy => ?_⟩
        cases hy
        exact ⟨u, List.mem_singleton.mpr rfl, hb⟩
  | cons v L ih =>
    intro u budget r hchain hlast h
    rw [List.chain'_cons] at hchain
    obtain ⟨huv, hchain'⟩ := hchain
    unfold doWhilePrev at h
    cases hb : body u with
    | error e => rw [hb] at h; cases h
    | ok o =>
      rw [hb] at h
      cases o with
      | none =>
        simp only [prevPermutation_some huv] at h
        cases budget with
        | zero => cases h
        | succ b =>
          simp only at h
          obtain ⟨h1, h2⟩ := ih v b r hchain'
            (fun w hw => hlast w (by rw [List.getLast?_cons_cons]; exact hw)) h
          refine ⟨fun hr y hy => ?_, fun x hx => ?_⟩
          · rcases List.mem_cons.mp hy with hy | hy
            · rw [hy]; exact hb
            · exact h1 hr y hy
          · obtain ⟨y, hy, hby⟩ := h2 x hx
            exact ⟨y, List.mem_cons_of_mem _ hy, hby⟩
      | some x =>
        simp only at h
        cases h
        refine ⟨fun hx => (by cases hx), fun y hy => ?_⟩
        cases hy
        exact ⟨u, List.mem_cons_self _ _, hb⟩

/-- A `do ... while (std::prev_permutation(...))` loop started at the head of
a chain of selectors returns when its body returns on every selector of the
chain and the budget is at least the number of repetitions. -/
theorem doWhilePrev_total {α : Type} (body : List Bool → Except Err (Option α)) :
    ∀ (L : List (List Bool)) (u : List Bool) (budget : Nat),
      List.Chain' (fun a b => prevPermStep a = some b) (u :: L) →
      (∀ w, (u :: L).getLast? = some w → prevPermStep w = none) →
      (∀ v ∈ u :: L, ∃ r, body v = .ok r) → L.length ≤ budget →
      ∃ r, doWhilePrev body budget u = .ok r := by
  intro L
  induction L with
  | nil =>
    intro u budget _ hlast hbody _
    have hu : prevPermStep u = none := hlast u rfl
    obtain ⟨o, hb⟩ := hbody u (List.mem_singleton.mpr rfl)
    unfold doWhilePrev
    rw [hb]
    cases o with
    | none => exact ⟨none, by simp only [prevPermutation_none hu]⟩
    | some x => exact ⟨some x, rfl⟩
  | cons v L ih =>
    intro u budget hchain hlast hbody hlen
    rw [List.chain'_cons] at hchain
    obtain ⟨huv, hchain'⟩ := hchain
    obtain ⟨o, hb⟩ := hbody u (List.mem_cons_self _ _)
    unfold doWhilePrev
    rw [hb]
    cases o with
    | some x => exact ⟨some x, rfl⟩
    | none =>
      simp only [prevPermutation_some huv]
      cases budget with
      | zero => simp at hlen
      | succ b =>
        simp only
        exact ih v b hchain'
          (fun w hw => hlast w (by rw [List.getLast?_cons_cons]; exact hw))
          (fun y hy => hbody y (List.mem_cons_of_mem _ hy))
          (by simpa using hlen)

/-- The loop over all selectors of length `n` with `k` entries `true`: the
result `none` means the body returned `none` on each of them. -/
theorem doWhilePrev_none {α : Type} (body : List Bool → Except Err (Option α))
    {n k budget : Nat} (hk : k ≤ n)
    (h : doWhilePrev body budget (initSelector n k) = .ok none) :
    ∀ s : List Bool, s.length = n → s.count true = k → body s = .ok none := by
  obtain ⟨L, hL⟩ := selectors_eq_cons n k hk
  have hchain := selectors_chain n k
  have hlast := selectors_last_min n k
  rw [hL] at hchain hlast
  intro s hs1 hs2
  have hmem := mem_selectors s
  rw [hs1, hs2, hL] at hmem
  exact (doWhilePrev_visits body L _ budget none hchain hlast h).1 rfl s hmem

/-- The loop over all selectors of length `n` with `k` entries `true`: a
result `some x` is returned by the body on one of them. -/
theorem doWhilePrev_some {α : Type} (body : List Bool → Except Err (Option α))
    {n k budget : Nat} (hk : k ≤ n) {x : α}
    (h : doWhilePrev body budget (initSelector n k) = .ok (some x)) :
    ∃ s : List Bool, s.length = n ∧ s.count true = k ∧ body s = .ok (some x) := by
  obtain ⟨L, hL⟩ := selectors_eq_cons n k hk
  have hchain := selectors_chain n k
  have hlast := selectors_last_min n k
  rw [hL] at hchain hlast
  obtain ⟨s, hs, hbs⟩ := (doWhilePrev_visits body L _ budget (some x) hchain hlast h).2 x rfl
  rw [← hL] at hs
  obtain ⟨h1, h2⟩ := selectors_mem n k s hs
  exact ⟨s, h1, h2, hbs⟩

/-! ## The indices selected by a selector -/

theorem selectedFrom_length : ∀ (s : List Bool) (i : Nat),
    (selectedFrom i s).length = s.count true := by
  intro s
  induction s with
  | nil => intro i; rfl
  | cons b s ih =>
    intro i
    cases b with
    | true => simp [selectedFrom, ih]
    | false => simp [selectedFrom, ih]

theorem selectedFrom_bounds : ∀ (s : List Bool) (i : Nat),
    ∀ x ∈ selectedFrom i s, i ≤ x ∧ x < i + s.length := by
  intro s
  induction s with
  | nil => intro i x hx; cases hx
  | cons b s ih =>
    intro i x hx
    cases b with
    | true =>
      simp only [selectedFrom, if_true, List.mem_cons] at hx
      rcases hx with hx | hx
      · rw [hx, List.length_cons]; omega
      · have := ih (i + 1) x hx
        rw [List.length_cons]; omega
    | false =>
      simp only [selectedFrom, Bool.false_eq_true, if_false] at hx
      have := ih (i + 1) x hx
      rw [List.length_cons]; omega

theorem selectedFrom_pairwise : ∀ (s : List Bool) (i : Nat),
    (selectedFrom i s).Pairwise (fun a b => a < b) := by
  intro s
  induction s with
  | nil => intro i; exact List.Pairwise.nil
  | cons b s ih =>
    intro i
    cases b with
    | true =>
      simp only [selectedFrom, if_true]
      refine List.Pairwise.cons ?_ (ih (i + 1))
      intro x hx
      have := selectedFrom_bounds s (i + 1) x hx
      omega
    | false =>
      simp only [selectedFrom, Bool.false_eq_true, if_false]
      exact ih (i + 1)

/-- Every strictly ascending list of indices in `[i, i + n)` is selected by a
selector of length `n`. -/
theorem selectedFrom_surjective : ∀ (n i : Nat) (R : List Nat),
    R.Pairwise (fun a b => a < b) → (∀ x ∈ R, i ≤ x ∧ x < i + n) →
    ∃ s : List Bool, s.length = n ∧ s.count true = R.length ∧ selectedFrom i s = R := by
  intro n
  induction n with
  | zero =>
    intro i R _ hR
    cases R with
    | nil => exact ⟨[], rfl, rfl, rfl⟩
    | cons x R => have := hR x (List.mem_cons_self _ _); omega
  | succ n ih =>
    intro i R hpw hR
    cases R with
    | nil =>
      obtain ⟨s, h1, h2, h3⟩ := ih (i + 1) [] List.Pairwise.nil (fun x hx => by cases hx)
      exact ⟨false :: s, by simp [h1], by simpa using h2, by simp [selectedFrom, h3]⟩
    | cons x R =>
      have hx := hR x (List.mem_cons_self _ _)
      rw [List.pairwise_cons] at hpw
      by_cases hxi : x = i
      · obtain ⟨s, h1, h2, h3⟩ := ih (i + 1) R hpw.2 (fun y hy => by
          have h4 := hpw.1 y hy
          have h5 := hR y (List.mem_cons_of_mem _ hy)
          omega)
        exact ⟨true :: s, by simp [h1], by simp [h2], by simp [selectedFrom, h3, hxi]⟩
      · obtain ⟨s, h1, h2, h3⟩ := ih (i + 1) (x :: R) (List.pairwise_cons.mpr hpw) (fun y hy => by
          have h5 := hR y hy
          rcases List.mem_cons.mp hy with hy | hy
          · rw [hy]; omega
          · have h4 := hpw.1 y hy
            omega)
        exact ⟨false :: s, by simp [h1], by simpa using h2, by simp [selectedFrom, h3]⟩

/-! ## The search `findInvertibleSubmatrix` -/

theorem sizeLoop_some {fuel : Nat} {A : Matrix} : ∀ (n : Nat) (info : SubmatrixInfo),
    Matrix.sizeLoop fuel A n = .ok (some info) →
    ∃ size, 1 ≤ size ∧ size ≤ n ∧
      doWhilePrev (Matrix.tryRows fuel A size) fuel (initSelector A.rows size)
        = .ok (some info) ∧
      ∀ s, size < s → s ≤ n →
        doWhilePrev (Matrix.tryRows fuel A s) fuel (initSelector A.rows s) = .ok none := by
  intro n
  induction n with
  | zero => intro info h; rw [Matrix.sizeLoop] at h; cases h
  | succ n ih =>
    intro info h
    rw [Matrix.sizeLoop] at h
    cases hd : doWhilePrev (Matrix.tryRows fuel A (n + 1)) fuel (initSelector A.rows (n + 1)) with
    | error e => rw [hd] at h; cases h
    | ok o =>
      rw [hd] at h
      cases o with
      | some r =>
        simp only at h
        cases h
        exact ⟨n + 1, by omega, Nat.le_refl _, hd, fun s h1 h2 => by omega⟩
      | none =>
        simp only at h
        obtain ⟨size, h1, h2, h3, h4⟩ := ih info h
        refine ⟨size, h1, by omega, h3, fun s hs1 hs2 => ?_⟩
        by_cases hsn : s = n + 1
        · rw [hsn]; exact hd
        · exact h4 s hs1 (by omega)

theorem sizeLoop_none {fuel : Nat} {A : Matrix} : ∀ (n : Nat),
    Matrix.sizeLoop fuel A n = .ok none →
    ∀ s, 1 ≤ s → s ≤ n →
      doWhilePrev (Matrix.tryRows fuel A s) fuel (initSelector A.rows s) = .ok none := by
  intro n
  induction n with
  | zero => intro _ s h1 h2; omega
  | succ n ih =>
    intro h s hs1 hs2
    rw [Matrix.sizeLoop] at h
    cases hd : doWhilePrev (Matrix.tryRows fuel A (n + 1)) fuel (initSelector A.rows (n + 1)) with
    | error e => rw [hd] at h; cases h
    | ok o =>
      rw [hd] at h
      cases o with
      | some r => simp only at h; cases h
      | none =>
        simp only at h
        by_cases hsn : s = n + 1
        · rw [hsn]; exact hd
        · exact ih h s hs1 (by omega)

theorem trySelection_some {fuel : Nat} {A : Matrix} {R : List Nat} {csel : List Bool}
    {info : SubmatrixInfo} (h : Matrix.trySelection fuel A R csel = .ok (some info)) :
    info.rows = R ∧ info.cols = selectedFrom 0 csel ∧
      A.submatrix R (selectedFrom 0 csel) = .ok info.submatrix ∧
      info.submatrix.isInvertible fuel = .ok true := by
  unfold Matrix.trySelection at h
  simp only at h
  cases hs : A.submatrix R (selectedFrom 0 csel) with
  | error e => rw [hs] at h; cases h
  | ok sub =>
    rw [hs] at h
    simp only at h
    cases hi : sub.isInvertible fuel with
    | error e => rw [hi] at h; cases h
    | ok b =>
      rw [hi] at h
      cases b with
      | false => simp only at h; cases h
      | true =>
        simp only at h
        cases h
        exact ⟨rfl, rfl, rfl, hi⟩

theorem trySelection_none {fuel : Nat} {A : Matrix} {R : List Nat} {csel : List Bool}
    (h : Matrix.trySelection fuel A R csel = .ok none) :
    ∃ S, A.submatrix R (selectedFrom 0 csel) = .ok S ∧ S.isInvertible fuel = .ok false := by
  unfold Matrix.trySelection at h
  simp only at h
  cases hs : A.submatrix R (selectedFrom 0 csel) with
  | error e => rw [hs] at h; cases h
  | ok sub =>
    rw [hs] at h
    simp only at h
    cases hi : sub.isInvertible fuel with
    | error e => rw [hi] at h; cases h
    | ok b =>
      rw [hi] at h
      cases b with
      | false => exact ⟨sub, rfl, hi⟩
      | true => simp only at h; cases h

/-- What a returned `SubmatrixInfo` records: the selections that produced it,
and that every larger size was tried without success. -/
theorem findInvertibleSubmatrix_some {fuel : Nat} {A : Matrix} {info : SubmatrixInfo}
    (h : A.findInvertibleSubmatrix fuel = .ok (some info)) :
    ∃ rsel csel : List Bool, rsel.length = A.rows ∧ csel.length = A.cols ∧
      rsel.count true = csel.count true ∧ 1 ≤ rsel.count true ∧
      info.rows = selectedFrom 0 rsel ∧ info.cols = selectedFrom 0 csel ∧
      A.submatrix info.rows info.cols = .ok info.submatrix ∧
      info.submatrix.isInvertible fuel = .ok true ∧
      ∀ s, rsel.count true < s → s ≤ min A.rows A.cols →
        doWhilePrev (Matrix.tryRows fuel A s) fuel (initSelector A.rows s) = .ok none := by
  unfold Matrix.findInvertibleSubmatrix at h
  obtain ⟨size, h1, h2, h3, h4⟩ := sizeLoop_some _ info h
  obtain ⟨rsel, hr1, hr2, hr3⟩ := doWhilePrev_some _ (by omega : size ≤ A.rows) h3
  unfold Matrix.tryRows at hr3
  obtain ⟨csel, hc1, hc2, hc3⟩ := doWhilePrev_some _ (by omega : size ≤ A.cols) hr3
  obtain ⟨t1, t2, t3, t4⟩ := trySelection_some hc3
  refine ⟨rsel, csel, hr1, hc1, by rw [hr2, hc2], by omega, t1, t2, ?_, t4, ?_⟩
  · rw [t1, t2]; exact t3
  · rw [hr2]; exact h4

/-- When the loops for size `s` end without a result, every choice of `s`
ascending row indices and `s` ascending column indices was extracted and
found not invertible. -/
theorem tryRows_none_all {fuel : Nat} {A : Matrix} {s : Nat}
    (h : doWhilePrev (Matrix.tryRows fuel A s) fuel (initSelector A.rows s) = .ok none)
    (R C : List Nat) (hR : R.length = s) (hC : C.length = s)
    (hRp : R.Pairwise (fun a b => a < b)) (hCp : C.Pairwise (fun a b => a < b))
    (hRr : ∀ i ∈ R, i < A.rows) (hCr : ∀ j ∈ C, j < A.cols) :
    ∃ S, A.submatrix R C = .ok S ∧ S.isInvertible fuel = .ok false := by
  obtain ⟨rsel, hr1, hr2, hr3⟩ := selectedFrom_surjective A.rows 0 R hRp
    (fun x hx => ⟨Nat.zero_le _, by have := hRr x hx; omega⟩)
  obtain ⟨csel, hc1, hc2, hc3⟩ := selectedFrom_surjective A.cols 0 C hCp
    (fun x hx => ⟨Nat.zero_le _, by have := hCr x hx; omega⟩)
  have hsr : s ≤ A.rows := by
    have := List.count_le_length true rsel
    omega
  have hsc : s ≤ A.cols := by
    have := List.count_le_length true csel
    omega
  have h1 := doWhilePrev_none _ hsr h rsel hr1 (by rw [hr2, hR])
  unfold Matrix.tryRows at h1
  have h2 := doWhilePrev_none _ hsc h1 csel hc1 (by rw [hc2, hC])
  rw [hr3] at h2
  have h3 := trySelection_none h2
  rw [hc3] at h3
  exact h3

section SubmatrixRep

variable {p : Nat} [hp : Fact p.Prime]

/-- The member `submatrix` on a matrix over GF(p), for in-range indices. -/
theorem matRep_submatrix {A : Matrix} {r c : Nat} {f : Nat → Nat → ZMod p}
    (hA : MatRep p A r c f) {R C : List Nat} (hR : ∀ i ∈ R, i < r) (hC : ∀ j ∈ C, j < c) :
    ∃ S, A.submatrix R C = .ok S ∧
      MatRep p S R.length C.length (fun i j => f (R.getD i 0) (C.getD j 0)) := by
  unfold Matrix.submatrix
  obtain ⟨Z, hZ, hZr⟩ := matRep_new (p := p) R.length C.length A.modulus
  rw [hA.2.2.1, hA.2.2.2.1, hZ]
  simp only
  have hRi : ∀ i, i < R.length → R.getD i 0 < r := fun i hi => by
    rw [List.getD_eq_getElem _ _ hi]
    exact hR _ (List.getElem_mem _)
  have hCj : ∀ j, j < C.length → C.getD j 0 < c := fun j hj => by
    rw [List.getD_eq_getElem _ _ hj]
    exact hC _ (List.getElem_mem _)
  obtain ⟨S, hS, hrep⟩ := fill_rows
    (fun i (result : Matrix) =>
      forRange
        (fun j (result : Matrix) =>
          match A.getEntry (R.getD i 0) (C.getD j 0) with
          | .error e => .error e
          | .ok x => result.setEntry i j x)
        0 C.length result)
    (fun i j => f (R.getD i 0) (C.getD j 0)) (r := R.length) (c := C.length) (n := R.length)
    (by
      intro i hi N g hN
      obtain ⟨N1, hN1, hrep1⟩ := fill_row
        (fun j => A.getEntry (R.getD i 0) (C.getD j 0)) (fun j => j) 0
        (fun j => (Nat.zero_add j).symm) (fun j => f (R.getD i 0) (C.getD j 0))
        (fun j hj => hA.2.2.2.2.2.2 _ _ (hRi i hi) (hCj j hj)) hN hi
        (by omega : 0 + C.length ≤ C.length)
      refine ⟨N1, hN1, hrep1.congr ?_⟩
      intro a b _ hb
      by_cases hai : a = i
      · rw [if_pos ⟨hai, Nat.zero_le _, by omega⟩, if_pos hai, Nat.sub_zero, hai]
      · rw [if_neg (by tauto), if_neg hai])
    hZr
  refine ⟨S, hS, hrep.congr ?_⟩
  intro a b ha _
  rw [if_pos ha]

end SubmatrixRep

/-! ## Claims about `findInvertibleSubmatrix` -/

theorem ascending_length_le {R : List Nat} {n : Nat} (hp : R.Pairwise (fun a b => a < b))
    (hr : ∀ x ∈ R, x < n) : R.length ≤ n := by
  obtain ⟨s, h1, h2, _⟩ := selectedFrom_surjective n 0 R hp
    (fun x hx => ⟨Nat.zero_le _, by have := hr x hx; omega⟩)
  have := List.count_le_length true s
  omega

/-- C15: whenever `findInvertibleSubmatrix` returns a result for a matrix over
a prime field, its `rows` and `cols` are strictly ascending, in range and of
equal length `k >= 1`, its `submatrix` is what `A.submatrix(rows, cols)`
returns, a `k` by `k` matrix whose entry `(i, j)` equals the entry
`(rows[i], cols[j])` of `A`, and `isInvertible()` is true for it. -/
theorem C15_found_submatrix (fuel p : Nat) (A : Matrix) (info : SubmatrixInfo)
    (hp : p.Prime) (hA : A.OverPrimeField p)
    (h : A.findInvertibleSubmatrix fuel = .ok (some info)) :
    info.rows.Pairwise (fun a b => a < b) ∧ info.cols.Pairwise (fun a b => a < b) ∧
      (∀ i ∈ info.rows, i < A.rows) ∧ (∀ j ∈ info.cols, j < A.cols) ∧
      info.rows.length = info.cols.length ∧ 1 ≤ info.rows.length ∧
      A.submatrix info.rows info.cols = .ok info.submatrix ∧
      info.submatrix.rows = info.rows.length ∧ info.submatrix.cols = info.cols.length ∧
      (∀ i j, i < info.rows.length → j < info.cols.length →
        ∃ e e', info.submatrix.getEntry i j = .ok e ∧
          A.getEntry (info.rows.getD i 0) (info.cols.getD j 0) = .ok e' ∧ e.eq e' = true) ∧
      info.submatrix.isInvertible fuel = .ok true := by
  haveI : Fact p.Prime := ⟨hp⟩
  obtain ⟨rsel, csel, hr, hc, hcount, hpos, hrows, hcols, hsub, hinv, _⟩ :=
    findInvertibleSubmatrix_some h
  have hRr : ∀ i ∈ info.rows, i < A.rows := by
    intro i hi
    rw [hrows] at hi
    have := selectedFrom_bounds rsel 0 i hi
    omega
  have hCr : ∀ j ∈ info.cols, j < A.cols := by
    intro j hj
    rw [hcols] at hj
    have := selectedFrom_bounds csel 0 j hj
    omega
  have hrep := overPrimeField_matRep hA
  obtain ⟨S, hS, hSrep⟩ := matRep_submatrix hrep hRr hCr
  rw [hsub] at hS
  cases hS
  refine ⟨by rw [hrows]; exact selectedFrom_pairwise rsel 0,
    by rw [hcols]; exact selectedFrom_pairwise csel 0, hRr, hCr,
    by rw [hrows, hcols, selectedFrom_length, selectedFrom_length, hcount],
    by rw [hrows, selectedFrom_length]; exact hpos, hsub, hSrep.1, hSrep.2.1, ?_, hinv⟩
  intro i j hi hj
  obtain ⟨e, he, her⟩ := hSrep.2.2.2.2.2.2 i j hi hj
  have hi' : info.rows.getD i 0 < A.rows := by
    rw [List.getD_eq_getElem _ _ hi]
    exact hRr _ (List.getElem_mem _)
  have hj' : info.cols.getD j 0 < A.cols := by
    rw [List.getD_eq_getElem _ _ hj]
    exact hCr _ (List.getElem_mem _)
  obtain ⟨e', he', her'⟩ := hrep.2.2.2.2.2.2 _ _ hi' hj'
  exact ⟨e, e', he, he', (elem_eq her her').mpr rfl⟩

/-- Witness for C15: the search on `[[1, 2], [2, 2]]` over GF(3) returns the
matrix itself with rows `{0, 1}` and columns `{0, 1}`. -/
theorem C15_found_submatrix_witness :
    exampleGF3Info.rows.Pairwise (fun a b => a < b) ∧
      exampleGF3Info.cols.Pairwise (fun a b => a < b) ∧
      (∀ i ∈ exampleGF3Info.rows, i < exampleGF3.rows) ∧
      (∀ j ∈ exampleGF3Info.cols, j < exampleGF3.cols) ∧
      exampleGF3Info.rows.length = exampleGF3Info.cols.length ∧
      1 ≤ exampleGF3Info.rows.length ∧
      exampleGF3.submatrix exampleGF3Info.rows exampleGF3Info.cols
        = .ok exampleGF3Info.submatrix ∧
      exampleGF3Info.submatrix.rows = exampleGF3Info.rows.length ∧
      exampleGF3Info.submatrix.cols = exampleGF3Info.cols.length ∧
      (∀ i j, i < exampleGF3Info.rows.length → j < exampleGF3Info.cols.length →
        ∃ e e', exampleGF3Info.submatrix.getEntry i j = .ok e ∧
          exampleGF3.getEntry (exampleGF3Info.rows.getD i 0) (exampleGF3Info.cols.getD j 0)
            = .ok e' ∧ e.eq e' = true) ∧
      exampleGF3Info.submatrix.isInvertible 0 = .ok true :=
  C15_found_submatrix 0 3 exampleGF3 exampleGF3Info (by norm_num) (by decide) (by decide!)

/-- C16: if `findInvertibleSubmatrix` returns a `k` by `k` submatrix, then for
every `s > k` and every choice of `s` strictly ascending in-range row indices
and `s` strictly ascending in-range column indices (so `s <= min(rows, cols)`)
the extracted submatrix is not invertible; if it returns nothing, the same
holds for every `s >= 1`. -/
theorem C16_found_submatrix_maximal (fuel : Nat) (A : Matrix) :
    (∀ info, A.findInvertibleSubmatrix fuel = .ok (some info) →
      ∀ (s : Nat) (R C : List Nat), info.rows.length < s → R.length = s → C.length = s →
        R.Pairwise (fun a b => a < b) → C.Pairwise (fun a b => a < b) →
        (∀ i ∈ R, i < A.rows) → (∀ j ∈ C, j < A.cols) →
        ∃ S, A.submatrix R C = .ok S ∧ S.isInvertible fuel = .ok false) ∧
    (A.findInvertibleSubmatrix fuel = .ok none →
      ∀ (s : Nat) (R C : List Nat), 1 ≤ s → R.length = s → C.length = s →
        R.Pairwise (fun a b => a < b) → C.Pairwise (fun a b => a < b) →
        (∀ i ∈ R, i < A.rows) → (∀ j ∈ C, j < A.cols) →
        ∃ S, A.submatrix R C = .ok S ∧ S.isInvertible fuel = .ok false) := by
  constructor
  · intro info h s R C hks hR hC hRp hCp hRr hCr
    obtain ⟨rsel, csel, _, _, _, _, hrows, _, _, _, hmax⟩ := findInvertibleSubmatrix_some h
    have hk : info.rows.length = rsel.count true := by rw [hrows, selectedFrom_length]
    have h1 := ascending_length_le hRp hRr
    have h2 := ascending_length_le hCp hCr
    exact tryRows_none_all (hmax s (by omega) (by omega)) R C hR hC hRp hCp hRr hCr
  · intro h s R C hs hR hC hRp hCp hRr hCr
    have h1 := ascending_length_le hRp hRr
    have h2 := ascending_length_le hCp hCr
    unfold Matrix.findInvertibleSubmatrix at h
    exact tryRows_none_all (sizeLoop_none _ h s hs (by omega)) R C hR hC hRp hCp hRr hCr

/-- Witness for C16: on `[[1, 2], [2, 1]]` over GF(3) the search returns a 1
by 1 submatrix and the only 2 by 2 submatrix is not invertible; on `[[0]]`
over GF(2) it returns nothing and the only 1 by 1 submatrix is not
invertible. -/
theorem C16_found_submatrix_maximal_witness :
    (singularGF3.findInvertibleSubmatrix 0 = .ok (some singularGF3Info) ∧
      ∃ S, singularGF3.submatrix [0, 1] [0, 1] = .ok S ∧ S.isInvertible 0 = .ok false) ∧
    (zeroGF2.findInvertibleSubmatrix 0 = .ok none ∧
      ∃ S, zeroGF2.submatrix [0] [0] = .ok S ∧ S.isInvertible 0 = .ok false) :=
  ⟨⟨by decide!,
      (C16_found_submatrix_maximal 0 singularGF3).1 singularGF3Info (by decide!) 2 [0, 1] [0, 1]
        (by decide) rfl rfl (by decide) (by decide) (by decide) (by decide)⟩,
    ⟨by decide!,
      (C16_found_submatrix_maximal 0 zeroGF2).2 (by decide!) 1 [0] [0]
        (by decide) rfl rfl (by decide) (by decide) (by decide) (by decide)⟩⟩

/-! ## The search returns over a prime field -/

theorem selectors_length_le : ∀ n k, (selectors n k).length ≤ 2 ^ n := by
  intro n
  induction n with
  | zero =>
    intro k
    cases k with
    | zero => simp [selectors]
    | succ k => simp [selectors]
  | succ n ih =>
    intro k
    cases k with
    | zero =>
      have : 1 ≤ 2 ^ (n + 1) := Nat.one_le_two_pow
      simpa [selectors] using this
    | succ k =>
      rw [selectors, List.length_append, List.length_map, List.length_map, pow_succ]
      have h1 := ih k
      have h2 := ih (k + 1)
      omega

/-- The loop over all selectors of length `n` with `k` entries `true` returns
when its body returns on each of them and the budget is at least `2^n`. -/
theorem doWhilePrev_returns {α : Type} (body : List Bool → Except Err (Option α))
    {n k budget : Nat} (hk : k ≤ n) (hbudget : 2 ^ n ≤ budget)
    (hbody : ∀ s : List Bool, s.length = n → s.count true = k → ∃ r, body s = .ok r) :
    ∃ r, doWhilePrev body budget (initSelector n k) = .ok r := by
  obtain ⟨L, hL⟩ := selectors_eq_cons n k hk
  have hchain := selectors_chain n k
  have hlast := selectors_last_min n k
  have hlen := selectors_length_le n k
  rw [hL] at hchain hlast hlen
  apply doWhilePrev_total body L _ budget hchain hlast
  · intro v hv
    rw [← hL] at hv
    obtain ⟨h1, h2⟩ := selectors_mem n k v hv
    exact hbody v h1 h2
  · rw [List.length_cons] at hlen
    omega

section SearchTotal

variable {p : Nat} [hp : Fact p.Prime]

theorem trySelection_returns (fuel : Nat) (hlt : p < 65536) {A : Matrix}
    (hA : A.OverPrimeField p) (rsel csel : List Bool) (hr : rsel.length = A.rows)
    (hc : csel.length = A.cols) :
    ∃ r, Matrix.trySelection fuel A (selectedFrom 0 rsel) csel = .ok r := by
  have hrep := overPrimeField_matRep hA
  obtain ⟨S, hS, hSrep⟩ := matRep_submatrix hrep
    (R := selectedFrom 0 rsel) (C := selectedFrom 0 csel)
    (fun i hi => by have := selectedFrom_bounds rsel 0 i hi; omega)
    (fun j hj => by have := selectedFrom_bounds csel 0 j hj; omega)
  obtain ⟨b, hinv⟩ : ∃ b, S.isInvertible fuel = .ok b := ⟨_, isInvertible_spec fuel hlt hSrep⟩
  unfold Matrix.trySelection
  simp only [hS, hinv]
  cases b with
  | true => exact ⟨_, rfl⟩
  | false => exact ⟨_, rfl⟩

/-- Over a prime field GF(p) with `p < 2^16`, `findInvertibleSubmatrix` returns
(a result or `nullopt`) for every step budget of at least
`2^max(rows, cols)`. -/
theorem findInvertibleSubmatrix_total (fuel : Nat) (hlt : p < 65536) {A : Matrix}
    (hA : A.OverPrimeField p) (hfuel : 2 ^ max A.rows A.cols ≤ fuel) :
    ∃ o, A.findInvertibleSubmatrix fuel = .ok o := by
  have hrows : 2 ^ A.rows ≤ fuel :=
    le_trans (Nat.pow_le_pow_right (by norm_num) (le_max_left _ _)) hfuel
  have hcols : 2 ^ A.cols ≤ fuel :=
    le_trans (Nat.pow_le_pow_right (by norm_num) (le_max_right _ _)) hfuel
  have hsize : ∀ s, s ≤ min A.rows A.cols →
      ∃ r, doWhilePrev (Matrix.tryRows fuel A s) fuel (initSelector A.rows s) = .ok r := by
    intro s hs
    apply doWhilePrev_returns _ (by omega) hrows
    intro rsel hr _
    unfold Matrix.tryRows
    apply doWhilePrev_returns _ (by omega) hcols
    intro csel hc _
    exact trySelection_returns fuel hlt hA rsel csel hr hc
  have hloop : ∀ n, n ≤ min A.rows A.cols → ∃ o, Matrix.sizeLoop fuel A n = .ok o := by
    intro n
    induction n with
    | zero => intro _; exact ⟨none, rfl⟩
    | succ n ih =>
      intro hn
      obtain ⟨r, hr⟩ := hsize (n + 1) hn
      rw [Matrix.sizeLoop, hr]
      cases r with
      | some x => exact ⟨some x, rfl⟩
      | none => exact ih (by omega)
  exact hloop _ (Nat.le_refl _)

end SearchTotal

/-! ## A prime above 2^31 -/

theorem zmod_sq_step (P : Nat) (a : ZMod P) (n x y : Nat) (h : a ^ n = (x : ZMod P))
    (hy : x * x % P = y) : a ^ (2 * n) = (y : ZMod P) := by
  rw [Nat.mul_comm, pow_mul, h, sq, ← Nat.cast_mul, ← hy, ZMod.natCast_mod]

theorem zmod_cube_step (P : Nat) (a : ZMod P) (n x y : Nat) (h : a ^ n = (x : ZMod P))
    (hy : x * x % P * x % P = y) : a ^ (3 * n) = (y : ZMod P) := by
  rw [Nat.mul_comm, pow_mul, h, ← hy, ZMod.natCast_mod, Nat.cast_mul, ZMod.natCast_mod,
    Nat.cast_mul]
  ring

theorem zmod_natCast_ne (P x y : Nat) (h : x % P ≠ y % P) : (x : ZMod P) ≠ (y : ZMod P) := by
  intro he
  exact h ((ZMod.natCast_eq_natCast_iff' x y P).mp he)

/-- Repeated squaring of 5 modulo 3221225473 = 3 * 2^30 + 1. -/
theorem pow5_chain :
    ((5 : ZMod 3221225473) ^ 536870912 = ((1610563585 : Nat) : ZMod 3221225473)) ∧
      ((5 : ZMod 3221225473) ^ 1073741824 = ((1610563584 : Nat) : ZMod 3221225473)) := by
  have h0 : (5 : ZMod 3221225473) ^ 1 = ((5 : Nat) : ZMod 3221225473) := by
    rw [pow_one]; rfl
  have h1 := zmod_sq_step 3221225473 5 1 5 25 h0 (by norm_num)
  have h2 := zmod_sq_step 3221225473 5 2 25 625 h1 (by norm_num)
  have h3 := zmod_sq_step 3221225473 5 4 625 390625 h2 (by norm_num)
  have h4 := zmod_sq_step 3221225473 5 8 390625 1190293394 h3 (by norm_num)
  have h5 := zmod_sq_step 3221225473 5 16 1190293394 2658181409 h4 (by norm_num)
  have h6 := zmod_sq_step 3221225473 5 32 2658181409 2609614933 h5 (by norm_num)
  have h7 := zmod_sq_step 3221225473 5 64 2609614933 3182078740 h6 (by norm_num)
  have h8 := zmod_sq_step 3221225473 5 128 3182078740 898048269 h7 (by norm_num)
  have h9 := zmod_sq_step 3221225473 5 256 898048269 3004042235 h8 (by norm_num)
  have h10 := zmod_sq_step 3221225473 5 512 3004042235 2869428413 h9 (by norm_num)
  have h11 := zmod_sq_step 3221225473 5 1024 2869428413 829835748 h10 (by norm_num)
  have h12 := zmod_sq_step 3221225473 5 2048 829835748 784716921 h11 (by norm_num)
  have h13 := zmod_sq_step 3221225473 5 4096 784716921 590197985 h12 (by norm_num)
  have h14 := zmod_sq_step 3221225473 5 8192 590197985 2524259225 h13 (by norm_num)
  have h15 := zmod_sq_step 3221225473 5 16384 2524259225 2766529116 h14 (by norm_num)
  have h16 := zmod_sq_step 3221225473 5 32768 2766529116 2468311158 h15 (by norm_num)
  have h17 := zmod_sq_step 3221225473 5 65536 2468311158 20925706 h16 (by norm_num)
  have h18 := zmod_sq_step 3221225473 5 131072 20925706 1444475235 h17 (by norm_num)
  have h19 := zmod_sq_step 3221225473 5 262144 1444475235 2207243129 h18 (by norm_num)
  have h20 := zmod_sq_step 3221225473 5 524288 2207243129 2838507500 h19 (by norm_num)
  have h21 := zmod_sq_step 3221225473 5 1048576 2838507500 1147292615 h20 (by norm_num)
  have h22 := zmod_sq_step 3221225473 5 2097152 1147292615 2054098098 h21 (by norm_num)
  have h23 := zmod_sq_step 3221225473 5 4194304 2054098098 2632611347 h22 (by norm_num)
  have h24 := zmod_sq_step 3221225473 5 8388608 2632611347 955475771 h23 (by norm_num)
  have h25 := zmod_sq_step 3221225473 5 16777216 955475771 1656619387 h24 (by norm_num)
  have h26 := zmod_sq_step 3221225473 5 33554432 1656619387 1808672996 h25 (by norm_num)
  have h27 := zmod_sq_step 3221225473 5 67108864 1808672996 821039136 h26 (by norm_num)
  have h28 := zmod_sq_step 3221225473 5 134217728 821039136 814403528 h27 (by norm_num)
  have h29 := zmod_sq_step 3221225473 5 268435456 814403528 1610563585 h28 (by norm_num)
  have h30 := zmod_sq_step 3221225473 5 536870912 1610563585 1610563584 h29 (by norm_num)
  exact ⟨h29, h30⟩

/-- The number 3221225473 = 3 * 2^30 + 1 is prime (Lucas test with base 5). -/
theorem prime_3221225473 : Nat.Prime 3221225473 := by
  obtain ⟨h29, h30⟩ := pow5_chain
  apply lucas_primality 3221225473 (5 : ZMod 3221225473)
  · have := zmod_cube_step 3221225473 5 1073741824 1610563584 1 h30 (by norm_num)
    simpa using this
  · intro q hq hdvd
    have hq23 : q = 2 ∨ q = 3 := by
      have h1 : (3221225473 - 1 : Nat) = 3 * 2 ^ 30 := by norm_num
      rw [h1] at hdvd
      rcases (Nat.Prime.dvd_mul hq).mp hdvd with h | h
      · exact Or.inr ((Nat.prime_dvd_prime_iff_eq hq Nat.prime_three).mp h)
      · exact Or.inl ((Nat.prime_dvd_prime_iff_eq hq Nat.prime_two).mp (hq.dvd_of_dvd_pow h))
    rcases hq23 with rfl | rfl
    · have h2 : (3221225473 - 1) / 2 = 3 * 536870912 := by norm_num
      rw [h2, zmod_cube_step 3221225473 5 536870912 1610563585 3221225472 h29 (by norm_num)]
      have := zmod_natCast_ne 3221225473 3221225472 1 (by norm_num)
      simpa using this
    · have h3 : (3221225473 - 1) / 3 = 1073741824 := by norm_num
      rw [h3, h30]
      have := zmod_natCast_ne 3221225473 1610563584 1 (by norm_num)
      simpa using this

/-! ## Facts used by the claims about element operations -/

theorem findInvAux_none (q lead : Nat) : ∀ (n i : Nat),
    (∀ j, i ≤ j → j < i + n → u32 (lead * j) % q ≠ 1) → findInvAux q lead n i = none := by
  intro n
  induction n with
  | zero => intro i _; rfl
  | succ n ih =>
    intro i h
    unfold findInvAux
    rw [if_neg (h i (Nat.le_refl _) (by omega))]
    exact ih (i + 1) (fun j h1 h2 => h j (by omega) (by omega))

/-- In GF(65537) the search for the inverse of 65536 finds nothing: every
product `65536 * i` is computed modulo 2^32. -/
theorem findInv_65537 : findInv 65537 65536 = none := by
  unfold findInv
  apply findInvAux_none
  intro j h1 h2
  unfold u32
  omega

/-- For the element `x` of GF(4) the member `inverse` uses up every step
budget. -/
theorem gf4X_inverse_outOfFuel (fuel : Nat) : gf4X.inverse fuel = .error .outOfFuel := by
  rcases fuel with _ | _ | _ | k
  · decide!
  · decide!
  · decide!
  · have hpm : polyMod (k + 3) 2 [1, 1, 1] [0, 1] = .ok [1] := by
      rw [Nat.add_comm]; exact polyMod_mono 3 2 _ _ _ (by decide!) k
    have hq : GFElement.quotientLoop 2 (k + 3)
        { dividend := [1, 1, 1], divisor := [0, 1], quotient := [] }
        = .ok { dividend := [1], divisor := [0, 1], quotient := [1, 1] } := by
      rw [Nat.add_comm]; exact quotientLoop_mono 2 3 _ _ (by decide!) k
    have hz : gf4X.isZero = false := by decide
    have hm : ¬ gf4X.m = 1 := by decide
    unfold GFElement.inverse
    rw [if_neg (by simp [hz]), if_neg hm]
    have he : GFElement.euclidLoop gf4X.p (k + 3) (k + 3)
        { r0 := gf4X.modulus, r1 := gf4X.coeffs, s0 := List.replicate gf4X.m 0,
          s1 := (List.replicate gf4X.m 0).set 0 1 } = .error .outOfFuel := by
      show GFElement.euclidLoop 2 (k + 3) (k + 3)
        { r0 := [1, 1, 1], r1 := [0, 1], s0 := [0, 0], s1 := [1, 0] } = _
      rw [GFElement.euclidLoop]
      have hnz : allZero [0, 1] = false := by decide
      simp only [hnz, if_true, hpm, hq]
      exact euclid_second_round _ _ _ _
    rw [he]

/-- The value constructor in degree one. -/
theorem ofValue_degree_one (v : Nat) {p : Nat} (modulus : List Nat) (hp : 2 ≤ p) :
    GFElement.ofValue v p 1 modulus
      = .ok { p := p, m := 1, modulus := modulus, coeffs := [v % p] } := by
  unfold GFElement.ofValue
  rw [if_neg (by omega), if_neg (by omega), if_pos rfl]

/-- The coefficient constructor in degree one. -/
theorem ofCoeffs_degree_one (fuel c : Nat) {p : Nat} (modulus : List Nat) (hp : 2 ≤ p) :
    GFElement.ofCoeffs fuel [c] p 1 modulus
      = .ok { p := p, m := 1, modulus := modulus, coeffs := [c % p] } := by
  have h2 : ¬ p < 2 := by omega
  simp [GFElement.ofCoeffs, GFElement.reduceModulo, GFElement.reduce, h2]

/-- In degree one `inverse` fails with the runtime condition when the search
finds no inverse. -/
theorem inverse_not_found (fuel : Nat) (a : GFElement) (hz : a.isZero = false) (hm : a.m = 1)
    (h : findInv a.p (a.coeffs.getD 0 0) = none) : a.inverse fuel = .error .runtimeError := by
  unfold GFElement.inverse
  rw [if_neg (by rw [hz]; simp), if_pos hm, h]

/-! ## Claims about the arithmetic of prime fields -/

/-- C21, counterexample: in the prime field GF(3221225473) the 32-bit sum
`3221225472 + 3221225472` wraps around, so `operator+` on the element
`3221225472` and itself returns the value 2147483648, while
`(3221225472 + 3221225472) mod 3221225473` is 3221225471. -/
theorem C21_add_wraps_above_2_31 :
    Nat.Prime 3221225473 ∧ 3221225473 < 4294967296 ∧
      ∀ fuel : Nat, ∃ x s, GFElement.ofValue 3221225472 3221225473 1 [1, 1] = .ok x ∧
        x.add fuel x = .ok s ∧ s.getValue = 2147483648 ∧
        (3221225472 % 3221225473 + 3221225472 % 3221225473) % 3221225473 = 3221225471 :=
  ⟨prime_3221225473, by norm_num, fun _ => ⟨_, _, rfl, rfl, rfl, by norm_num⟩⟩

/-- C21, amended: for every characteristic `p` with `2 <= p <= 2^31` and all
values `a`, `b`, the sum of `GFElement(a, p, 1)` and `GFElement(b, p, 1)` is
returned and its `getValue()` is `((a mod p) + (b mod p)) mod p`. -/
theorem C21_prime_field_add (fuel a b p : Nat) (modulus : List Nat) (hp : 2 ≤ p)
    (hle : p ≤ 2147483648) :
    ∃ x y s, GFElement.ofValue a p 1 modulus = .ok x ∧ GFElement.ofValue b p 1 modulus = .ok y ∧
      x.add fuel y = .ok s ∧ s.getValue = (a % p + b % p) % p := by
  have ha : a % p < p := Nat.mod_lt _ (by omega)
  have hb : b % p < p := Nat.mod_lt _ (by omega)
  refine ⟨_, _, { p := p, m := 1, modulus := modulus, coeffs := [(a % p + b % p) % p] },
    ofValue_degree_one a modulus hp, ofValue_degree_one b modulus hp, ?_, ?_⟩
  · unfold GFElement.add
    simp only [ne_eq, not_true_eq_false, or_self, if_false, range_one, List.map_cons,
      List.map_nil, List.getD_cons_zero]
    rw [u32_of_lt (by omega), ofCoeffs_degree_one fuel _ modulus hp, Nat.mod_mod]
  · simp [GFElement.getValue]

/-- Witness for the amended C21: 2 + 2 is 1 in GF(3). -/
theorem C21_prime_field_add_witness :
    ∃ x y s, GFElement.ofValue 2 3 1 [1, 1] = .ok x ∧ GFElement.ofValue 2 3 1 [1, 1] = .ok y ∧
      x.add 0 y = .ok s ∧ s.getValue = (2 % 3 + 2 % 3) % 3 :=
  C21_prime_field_add 0 2 2 3 [1, 1] (by decide) (by decide)

/-- C22, counterexample: in the prime field GF(65537) the 32-bit product
`65536 * 65536` is 0, so `operator*` on the element `65536` and itself returns
the value 0, while `(65536 * 65536) mod 65537` is 1. -/
theorem C22_mul_wraps_above_2_16 :
    Nat.Prime 65537 ∧ 65537 < 4294967296 ∧
      ∀ fuel : Nat, ∃ x s, GFElement.ofValue 65536 65537 1 [1, 1] = .ok x ∧
        x.mul fuel x = .ok s ∧ s.getValue = 0 ∧
        (65536 % 65537 * (65536 % 65537)) % 65537 = 1 :=
  ⟨by norm_num, by norm_num, fun _ => ⟨_, _, rfl, rfl, rfl, by norm_num⟩⟩

/-- C22, amended: for every characteristic `p` with `2 <= p <= 2^16` and all
values `a`, `b`, the product of `GFElement(a, p, 1)` and `GFElement(b, p, 1)`
is returned and its `getValue()` is `((a mod p) * (b mod p)) mod p`. -/
theorem C22_prime_field_mul (fuel a b p : Nat) (modulus : List Nat) (hp : 2 ≤ p)
    (hle : p ≤ 65536) :
    ∃ x y s, GFElement.ofValue a p 1 modulus = .ok x ∧ GFElement.ofValue b p 1 modulus = .ok y ∧
      x.mul fuel y = .ok s ∧ s.getValue = (a % p * (b % p)) % p := by
  have ha : a % p < p := Nat.mod_lt _ (by omega)
  have hb : b % p < p := Nat.mod_lt _ (by omega)
  have hprod : a % p * (b % p) < 4294967296 := by
    calc a % p * (b % p) ≤ 65535 * 65535 := Nat.mul_le_mul (by omega) (by omega)
      _ < 4294967296 := by norm_num
  refine ⟨_, _, { p := p, m := 1, modulus := modulus, coeffs := [(a % p * (b % p)) % p] },
    ofValue_degree_one a modulus hp, ofValue_degree_one b modulus hp, ?_, ?_⟩
  · have hmul : polyMul p [a % p] [b % p] = [(a % p * (b % p)) % p] := by
      simp [polyMul, range_one, u32_of_lt hprod]
    unfold GFElement.mul
    simp only [ne_eq, not_true_eq_false, or_self, if_false, hmul]
    rw [ofCoeffs_degree_one fuel _ modulus hp, Nat.mod_mod]
  · simp [GFElement.getValue]

/-- Witness for the amended C22: 2 * 2 is 1 in GF(3). -/
theorem C22_prime_field_mul_witness :
    ∃ x y s, GFElement.ofValue 2 3 1 [1, 1] = .ok x ∧ GFElement.ofValue 2 3 1 [1, 1] = .ok y ∧
      x.mul 0 y = .ok s ∧ s.getValue = (2 % 3 * (2 % 3)) % 3 :=
  C22_prime_field_mul 0 2 2 3 [1, 1] (by decide) (by decide)

/-! ## Claims about failing element operations -/

/-- C23, counterexample: (1) for `a = 1` in GF(2) and `b = x` in GF(4)
(modulus `x^2 + x + 1`), `a / b` runs `b.inverse()` first, which never returns,
so no invalid-argument condition is raised; (2) for `a = 1` in GF(2) and
`b = 65536` in the prime field GF(65537), `b.inverse()` finds no inverse (the
products are taken modulo 2^32) and `a / b` fails with the runtime condition
instead. -/
theorem C23_division_across_fields :
    ((gf2 1).p ≠ gf4X.p ∨ (gf2 1).m ≠ gf4X.m) ∧
      (∀ fuel : Nat, (gf2 1).div fuel gf4X = .error .outOfFuel) ∧
      Nat.Prime 65537 ∧
      ((gf2 1).p ≠ (gf65537 65536).p ∨ (gf2 1).m ≠ (gf65537 65536).m) ∧
      ∀ fuel : Nat, (gf2 1).div fuel (gf65537 65536) = .error .runtimeError := by
  refine ⟨by decide, fun fuel => ?_, by norm_num, by decide, fun fuel => ?_⟩
  · unfold GFElement.div
    rw [if_neg (by decide), gf4X_inverse_outOfFuel]
  · have hinv : (gf65537 65536).inverse fuel = .error .runtimeError :=
      inverse_not_found fuel _ (by decide) rfl findInv_65537
    unfold GFElement.div
    rw [if_neg (by decide), hinv]

/-- C23, amended: for all elements `a` and `b` whose characteristic or degree
differ, `a + b`, `a - b` and `a * b` fail with the invalid-argument condition,
and so does `a / b` when `b` is zero or `b` is an element of a prime field
GF(q) with `q < 2^16`. -/
theorem C23_mismatched_fields_fail (fuel : Nat) (a b : GFElement)
    (hdiff : a.p ≠ b.p ∨ a.m ≠ b.m) :
    a.add fuel b = .error .invalidArgument ∧ a.sub fuel b = .error .invalidArgument ∧
      a.mul fuel b = .error .invalidArgument ∧
      ((b.isZero = true ∨ ∃ q, q.Prime ∧ q < 65536 ∧ b.InPrimeField q) →
        a.div fuel b = .error .invalidArgument) := by
  refine ⟨?_, ?_, ?_, ?_⟩
  · unfold GFElement.add; rw [if_pos hdiff]
  · unfold GFElement.sub; rw [if_pos hdiff]
  · unfold GFElement.mul; rw [if_pos hdiff]
  · intro hb
    unfold GFElement.div
    by_cases hz : b.isZero = true
    · rw [if_pos hz]
    · rw [if_neg hz]
      rcases hb with hb | ⟨q, hq, hlt, hbq⟩
      · exact absurd hb hz
      · haveI : Fact q.Prime := ⟨hq⟩
        obtain ⟨x, hx⟩ := (inPrimeField_iff b).mp hbq
        have hx0 : x ≠ 0 := fun h => hz ((elem_isZero hx).mpr h)
        obtain ⟨r, hr, hrr⟩ := elem_inverse fuel hlt hx hx0
        rw [hr]
        show a.mul fuel r = _
        unfold GFElement.mul
        rw [if_pos (by rw [hrr.1, hrr.2.1, ← hx.1, ← hx.2.1]; exact hdiff)]

/-- Witness for the amended C23: `a = 1` in GF(2) and `b = 2` in GF(3). -/
theorem C23_mismatched_fields_fail_witness :
    (gf2 1).add 0 (gf3 2) = .error .invalidArgument ∧
      (gf2 1).sub 0 (gf3 2) = .error .invalidArgument ∧
      (gf2 1).mul 0 (gf3 2) = .error .invalidArgument ∧
      (((gf3 2).isZero = true ∨ ∃ q, q.Prime ∧ q < 65536 ∧ (gf3 2).InPrimeField q) →
        (gf2 1).div 0 (gf3 2) = .error .invalidArgument) :=
  C23_mismatched_fields_fail 0 (gf2 1) (gf3 2) (by decide)

/-- C24: for every element `a` and every zero element `z` (all coefficients
zero, as built by `GFElement(p, m, modulus)` for `p >= 2`, `m >= 1`), `a / z`
and `z.inverse()` fail with the invalid-argument condition; in a prime field
GF(p), `p < 2^16`, for every nonzero `b` the quotient `a / b` is returned and
is the product `a * b.inverse()`. -/
theorem C24_division_and_zero (fuel p m : Nat) (modulus : List Nat) (a z : GFElement)
    (hp : 2 ≤ p) (hm : 1 ≤ m) (hz : GFElement.new p m modulus = .ok z) :
    z.isZero = true ∧ a.div fuel z = .error .invalidArgument ∧
      z.inverse fuel = .error .invalidArgument ∧
      (p.Prime → p < 65536 → ∀ x b : GFElement, x.InPrimeField p → b.InPrimeField p →
        b.isZero = false →
        ∃ bi q, b.inverse fuel = .ok bi ∧ x.div fuel b = .ok q ∧ x.mul fuel bi = .ok q) := by
  have hzero : z.isZero = true := by
    unfold GFElement.new at hz
    rw [if_neg (by omega), if_neg (by omega)] at hz
    cases hz
    simp [GFElement.isZero, allZero]
  refine ⟨hzero, ?_, ?_, ?_⟩
  · unfold GFElement.div; rw [if_pos hzero]
  · unfold GFElement.inverse; rw [if_pos hzero]
  · intro hprime hlt x b hx hb hb0
    haveI : Fact p.Prime := ⟨hprime⟩
    obtain ⟨u, hu⟩ := (inPrimeField_iff x).mp hx
    obtain ⟨v, hv⟩ := (inPrimeField_iff b).mp hb
    have hv0 : v ≠ 0 := by
      intro h
      rw [(elem_isZero hv).mpr h] at hb0
      cases hb0
    obtain ⟨bi, hbi, hbir⟩ := elem_inverse fuel hlt hv hv0
    obtain ⟨q, hq, _⟩ := elem_mul fuel hlt hu hbir
    refine ⟨bi, q, hbi, ?_, hq⟩
    unfold GFElement.div
    rw [if_neg (by rw [hb0]; simp), hbi]
    exact hq

/-- Witness for C24: the field GF(4) with `a = x`, and GF(3) seen through the
general statement. -/
theorem C24_division_and_zero_witness :
    gf4Zero.isZero = true ∧ gf4X.div 0 gf4Zero = .error .invalidArgument ∧
      gf4Zero.inverse 0 = .error .invalidArgument ∧
      (Nat.Prime 2 → 2 < 65536 → ∀ x b : GFElement, x.InPrimeField 2 → b.InPrimeField 2 →
        b.isZero = false →
        ∃ bi q, b.inverse 0 = .ok bi ∧ x.div 0 b = .ok q ∧ x.mul 0 bi = .ok q) :=
  C24_division_and_zero 0 2 2 [1, 1, 1] gf4X gf4Zero (by decide) (by decide) (by decide)

/-- C25: each of the three constructors fails with the invalid-argument
condition when `p < 2` or `m < 1`, and the zero-element and the integer-value
constructors return an element for every `p >= 2` and `m >= 1`. -/
theorem C25_constructor_arguments (fuel p m value : Nat) (modulus coeffs : List Nat) :
    ((p < 2 ∨ m < 1) →
      GFElement.new p m modulus = .error .invalidArgument ∧
        GFElement.ofValue value p m modulus = .error .invalidArgument ∧
        GFElement.ofCoeffs fuel coeffs p m modulus = .error .invalidArgument) ∧
    ((2 ≤ p ∧ 1 ≤ m) →
      (∃ e, GFElement.new p m modulus = .ok e) ∧
        ∃ e, GFElement.ofValue value p m modulus = .ok e) := by
  constructor
  · intro h
    by_cases hp : p < 2
    · refine ⟨?_, ?_, ?_⟩
      · unfold GFElement.new; rw [if_pos hp]
      · unfold GFElement.ofValue; rw [if_pos hp]
      · unfold GFElement.ofCoeffs; rw [if_pos hp]
    · have hm : m < 1 := by
        rcases h with h | h
        · exact absurd h hp
        · exact h
      refine ⟨?_, ?_, ?_⟩
      · unfold GFElement.new; rw [if_neg hp, if_pos hm]
      · unfold GFElement.ofValue; rw [if_neg hp, if_pos hm]
      · unfold GFElement.ofCoeffs; rw [if_neg hp, if_pos hm]
  · rintro ⟨hp, hm⟩
    constructor
    · unfold GFElement.new
      rw [if_neg (by omega), if_neg (by omega)]
      exact ⟨_, rfl⟩
    · unfold GFElement.ofValue
      rw [if_neg (by omega), if_neg (by omega)]
      by_cases hm1 : m = 1
      · rw [if_pos hm1]; exact ⟨_, rfl⟩
      · rw [if_neg hm1]; exact ⟨_, rfl⟩

/-- Witness for C25: `p = 1` fails, `p = 3`, `m = 2` succeeds. -/
theorem C25_constructor_arguments_witness :
    (GFElement.new 1 2 [1, 1, 1] = .error .invalidArgument ∧
        GFElement.ofValue 5 1 2 [1, 1, 1] = .error .invalidArgument ∧
        GFElement.ofCoeffs 0 [1] 1 2 [1, 1, 1] = .error .invalidArgument) ∧
      ((∃ e, GFElement.new 3 2 [1, 1, 1] = .ok e) ∧
        ∃ e, GFElement.ofValue 5 3 2 [1, 1, 1] = .ok e) :=
  ⟨(C25_constructor_arguments 0 1 2 5 [1, 1, 1] [1]).1 (by decide),
    (C25_constructor_arguments 0 3 2 5 [1, 1, 1] [1]).2 (by decide)⟩

/-! ## Reading and writing stored entries of any matrix -/

theorem shaped_getEntry {M : Matrix} {r c i j : Nat} (h : M.Shaped r c) (hi : i < r)
    (hj : j < c) : ∃ e, M.getEntry i j = .ok e := by
  obtain ⟨h1, h2⟩ := h
  have hi' : i < M.data.length := by omega
  have hj' : j < (M.data[i]).length := by rw [h2 _ (List.getElem_mem hi')]; exact hj
  exact ⟨_, getEntry_eq (List.getElem?_eq_getElem hi') (List.getElem?_eq_getElem hj')⟩

/-- The write `data_[a][b] = e` into a stored cell: the cell holds `e`, every
other cell and the shape are unchanged. -/
theorem setEntry_shaped {M : Matrix} {r c a b : Nat} (h : M.Shaped r c) (ha : a < r)
    (hb : b < c) (e : GFElement) :
    ∃ M', M.setEntry a b e = .ok M' ∧ M'.Shaped r c ∧ M'.SameHeader M ∧
      M'.getEntry a b = .ok e ∧
      ∀ i j, (i ≠ a ∨ j ≠ b) → M'.getEntry i j = M.getEntry i j := by
  obtain ⟨h1, h2⟩ := h
  have ha' : a < M.data.length := by omega
  have hrow : M.data[a]? = some M.data[a] := List.getElem?_eq_getElem ha'
  have hlen : (M.data[a]).length = c := h2 _ (List.getElem_mem ha')
  refine ⟨{ M with data := M.data.set a ((M.data[a]).set b e) }, ?_, ⟨?_, ?_⟩,
    ⟨rfl, rfl, rfl, rfl, rfl⟩, ?_, ?_⟩
  · unfold Matrix.setEntry
    rw [hrow]
    simp only
    rw [if_pos (by omega)]
  · simp [h1]
  · intro row hmem
    rcases List.mem_or_eq_of_mem_set hmem with hm | hm
    · exact h2 _ hm
    · rw [hm, List.length_set]; exact hlen
  · exact getEntry_eq (List.getElem?_set_self ha') (List.getElem?_set_self (by omega))
  · intro i j hij
    unfold Matrix.getEntry
    simp only
    by_cases hia : a = i
    · subst hia
      rw [List.getElem?_set_self ha', hrow]
      simp only
      have hjb : b ≠ j := by
        rcases hij with h | h
        · exact absurd rfl h
        · exact fun hh => h hh.symm
      rw [List.getElem?_set_ne hjb]
    · rw [List.getElem?_set_ne hia]

theorem sameHeader_trans {M N P : Matrix} (h1 : M.SameHeader N) (h2 : N.SameHeader P) :
    M.SameHeader P :=
  ⟨h1.1.trans h2.1, h1.2.1.trans h2.2.1, h1.2.2.1.trans h2.2.2.1,
    h1.2.2.2.1.trans h2.2.2.2.1, h1.2.2.2.2.trans h2.2.2.2.2⟩

/-- Two nested loops that write `compute i j` into every cell `(i, j)` of an
`r` by `c` matrix. -/
theorem fill_entries (compute : Nat → Nat → Except Err GFElement) {r c : Nat}
    (hcomp : ∀ i j, i < r → j < c → ∃ e, compute i j = .ok e)
    {M : Matrix} (hM : M.Shaped r c) :
    ∃ M', forRange
        (fun i (R : Matrix) =>
          forRange
            (fun j (R : Matrix) =>
              match compute i j with
              | .error e => .error e
              | .ok s => R.setEntry i j s)
            0 c R)
        0 r M = .ok M' ∧
      M'.Shaped r c ∧ M'.SameHeader M ∧
      ∀ i j, i < r → j < c → M'.getEntry i j = compute i j := by
  obtain ⟨M', hM', hinv⟩ := forRange_inv
    (fun k (N : Matrix) => N.Shaped r c ∧ N.SameHeader M ∧
      ∀ i j, i < k → j < c → N.getEntry i j = compute i j)
    (fun i (R : Matrix) =>
      forRange
        (fun j (R : Matrix) =>
          match compute i j with
          | .error e => .error e
          | .ok s => R.setEntry i j s)
        0 c R)
    r 0 M ⟨hM, ⟨rfl, rfl, rfl, rfl, rfl⟩, fun i j hi _ => absurd hi (Nat.not_lt_zero _)⟩
    (by
      intro k N _ hk hN
      rw [Nat.zero_add] at hk
      obtain ⟨hN1, hN2, hN3⟩ := hN
      obtain ⟨N', hN', hinv'⟩ := forRange_inv
        (fun t (Q : Matrix) => Q.Shaped r c ∧ Q.SameHeader M ∧
          (∀ i j, i < k → j < c → Q.getEntry i j = compute i j) ∧
          ∀ j, j < t → Q.getEntry k j = compute k j)
        (fun j (R : Matrix) =>
          match compute k j with
          | .error e => .error e
          | .ok s => R.setEntry k j s)
        c 0 N ⟨hN1, hN2, hN3, fun j hj => absurd hj (Nat.not_lt_zero _)⟩
        (by
          intro t Q _ ht hQ
          rw [Nat.zero_add] at ht
          obtain ⟨hQ1, hQ2, hQ3, hQ4⟩ := hQ
          obtain ⟨e, he⟩ := hcomp k t hk ht
          obtain ⟨Q', hQ', hS, hH, hget, hother⟩ := setEntry_shaped hQ1 hk ht e
          refine ⟨Q', ?_, hS, sameHeader_trans hH hQ2, ?_, ?_⟩
          · simp only [he]; exact hQ'
          · intro i j hi hj
            rw [hother i j (Or.inl (by omega))]
            exact hQ3 i j hi hj
          · intro j hj
            by_cases hjt : j = t
            · rw [hjt, hget, he]
            · rw [hother k j (Or.inr hjt)]
              exact hQ4 j (by omega))
      rw [Nat.zero_add] at hinv'
      obtain ⟨h1, h2, h3, h4⟩ := hinv'
      refine ⟨N', hN', h1, h2, ?_⟩
      intro i j hi hj
      by_cases hik : i = k
      · rw [hik]; exact h4 j hj
      · exact h3 i j (by omega) hj)
  rw [Nat.zero_add] at hinv
  exact ⟨M', hM', hinv⟩

/-- The zero matrix built by the constructor `Matrix(rows, cols, p, m, modulus)`. -/
theorem new_shaped (r c : Nat) {p m : Nat} (modulus : List Nat) (hp : 2 ≤ p) (hm : 1 ≤ m) :
    ∃ Z, Matrix.new r c p m modulus = .ok Z ∧ Z.Shaped r c ∧ Z.rows = r ∧ Z.cols = c ∧
      Z.p = p ∧ Z.m = m ∧ Z.modulus = modulus ∧
      ∀ row ∈ Z.data, ∀ e ∈ row,
        e = { p := p, m := m, modulus := modulus, coeffs := List.replicate m 0 } := by
  unfold Matrix.new
  by_cases hr : r = 0
  · rw [if_pos hr]
    refine ⟨_, rfl, ⟨by simp [hr], fun row hrow => by cases hrow⟩, hr.symm, rfl, rfl, rfl, rfl,
      fun row hrow => by cases hrow⟩
  · rw [if_neg hr]
    have hz : GFElement.new p m modulus
        = .ok { p := p, m := m, modulus := modulus, coeffs := List.replicate m 0 } := by
      unfold GFElement.new
      rw [if_neg (by omega), if_neg (by omega)]
    rw [hz]
    refine ⟨_, rfl, ⟨by simp, ?_⟩, rfl, rfl, rfl, rfl, rfl, ?_⟩
    · intro row hrow
      rw [(List.mem_replicate.mp hrow).2, List.length_replicate]
    · intro row hrow e he
      rw [(List.mem_replicate.mp hrow).2] at he
      exact (List.mem_replicate.mp he).2

theorem overField_shaped {p m : Nat} {modulus : List Nat} {M : Matrix}
    (h : M.OverField p m modulus) : M.Shaped M.rows M.cols :=
  ⟨h.2.2.2.1, fun row hrow => (h.2.2.2.2 row hrow).1⟩

theorem overField_getEntry {p m : Nat} {modulus : List Nat} {M : Matrix}
    (h : M.OverField p m modulus) {i j : Nat} (hi : i < M.rows) (hj : j < M.cols) :
    ∃ e, M.getEntry i j = .ok e ∧ e.InField p m modulus := by
  obtain ⟨_, _, _, h4, h5⟩ := h
  have hi' : i < M.data.length := by omega
  have hrow := List.getElem_mem hi'
  have hj' : j < (M.data[i]).length := by rw [(h5 _ hrow).1]; exact hj
  exact ⟨_, getEntry_eq (List.getElem?_eq_getElem hi') (List.getElem?_eq_getElem hj'),
    (h5 _ hrow).2 _ (List.getElem_mem hj')⟩

/-- A matrix whose stored cells all hold elements of the field is a matrix
over the field. -/
theorem overField_of_entries {p m : Nat} {modulus : List Nat} {M : Matrix}
    (hp : M.p = p) (hm : M.m = m) (hmod : M.modulus = modulus) (hs : M.Shaped M.rows M.cols)
    (he : ∀ i j, i < M.rows → j < M.cols → ∃ e, M.getEntry i j = .ok e ∧ e.InField p m modulus) :
    M.OverField p m modulus := by
  refine ⟨hp, hm, hmod, hs.1, fun row hrow => ⟨hs.2 row hrow, fun e hmem => ?_⟩⟩
  obtain ⟨i, hi, hri⟩ := List.mem_iff_getElem.mp hrow
  obtain ⟨j, hj, hej⟩ := List.mem_iff_getElem.mp hmem
  have hjc : j < M.cols := by rw [← hs.2 row hrow]; exact hj
  obtain ⟨e', he', hf⟩ := he i j (by rw [← hs.1]; exact hi) hjc
  obtain ⟨row2, hrow2, hj2⟩ := getEntry_ok_iff.mp he'
  rw [List.getElem?_eq_getElem hi, hri] at hrow2
  cases hrow2
  rw [List.getElem?_eq_getElem hj, hej] at hj2
  cases hj2
  exact hf

/-! ## Element operations return in a field with a valid modulus -/

theorem add_returns (fuel : Nat) {p m : Nat} {modulus : List Nat} {a b : GFElement}
    (hp : 2 ≤ p) (hm : 1 ≤ m) (hmod : m = 1 ∨ ValidModulus m modulus)
    (ha : a.InField p m modulus) (hb : b.p = p ∧ b.m = m) :
    ∃ e, a.add fuel b = .ok e ∧ e.InField p m modulus := by
  obtain ⟨ha1, ha2, ha3, _⟩ := ha
  unfold GFElement.add
  rw [if_neg (by rw [ha1, ha2, hb.1, hb.2]; simp), ha1, ha2, ha3]
  have h := ofCoeffs_field fuel
    ((List.range m).map (fun i => u32 (a.coeffs.getD i 0 + b.coeffs.getD i 0) % p))
    modulus hp hm hmod
  exact ⟨_, h, (ofCoeffs_canonical fuel _ _ _ _ _ h).2.2⟩

theorem sub_returns (fuel : Nat) {p m : Nat} {modulus : List Nat} {a b : GFElement}
    (hp : 2 ≤ p) (hm : 1 ≤ m) (hmod : m = 1 ∨ ValidModulus m modulus)
    (ha : a.InField p m modulus) (hb : b.p = p ∧ b.m = m) :
    ∃ e, a.sub fuel b = .ok e ∧ e.InField p m modulus := by
  obtain ⟨ha1, ha2, ha3, _⟩ := ha
  unfold GFElement.sub
  rw [if_neg (by rw [ha1, ha2, hb.1, hb.2]; simp), ha1, ha2, ha3]
  have h := ofCoeffs_field fuel
    ((List.range m).map
      (fun i => usub (u32 (a.coeffs.getD i 0 + p)) (b.coeffs.getD i 0) % p))
    modulus hp hm hmod
  exact ⟨_, h, (ofCoeffs_canonical fuel _ _ _ _ _ h).2.2⟩

theorem mul_returns (fuel : Nat) {p m : Nat} {modulus : List Nat} {a b : GFElement}
    (hp : 2 ≤ p) (hm : 1 ≤ m) (hmod : m = 1 ∨ ValidModulus m modulus)
    (ha : a.InField p m modulus) (hb : b.p = p ∧ b.m = m) :
    ∃ e, a.mul fuel b = .ok e ∧ e.InField p m modulus := by
  obtain ⟨ha1, ha2, ha3, _⟩ := ha
  unfold GFElement.mul
  rw [if_neg (by rw [ha1, ha2, hb.1, hb.2]; simp), ha1, ha2, ha3]
  have h := ofCoeffs_field fuel (polyMul p a.coeffs b.coeffs) modulus hp hm hmod
  exact ⟨_, h, (ofCoeffs_canonical fuel _ _ _ _ _ h).2.2⟩

theorem new_inField {p m : Nat} (modulus : List Nat) (hp : 2 ≤ p) (hm : 1 ≤ m) :
    ∃ z, GFElement.new p m modulus = .ok z ∧ z.InField p m modulus ∧
      z = { p := p, m := m, modulus := modulus, coeffs := List.replicate m 0 } := by
  unfold GFElement.new
  rw [if_neg (by omega), if_neg (by omega)]
  refine ⟨_, rfl, ⟨rfl, rfl, rfl, by simp, ?_⟩, rfl⟩
  intro c hc
  rw [(List.mem_replicate.mp hc).2]
  show 0 < p
  omega

/-! ## Matrix sums, differences and products over a field with a valid modulus -/

section MatrixOps

variable {p m : Nat} {modulus : List Nat}

theorem addEntry_returns (fuel : Nat) (hp : 2 ≤ p) (hm : 1 ≤ m)
    (hmod : m = 1 ∨ ValidModulus m modulus) {A B : Matrix}
    (hA : A.OverField p m modulus) (hB : B.OverField p m modulus)
    (hr : A.rows = B.rows) (hc : A.cols = B.cols) {i j : Nat} (hi : i < A.rows)
    (hj : j < A.cols) :
    ∃ a b e, A.getEntry i j = .ok a ∧ B.getEntry i j = .ok b ∧ a.add fuel b = .ok e ∧
      Matrix.addEntry fuel A B i j = .ok e ∧ e.InField p m modulus := by
  obtain ⟨a, ha, haF⟩ := overField_getEntry hA hi hj
  obtain ⟨b, hb, hbF⟩ := overField_getEntry hB (by omega : i < B.rows) (by omega : j < B.cols)
  obtain ⟨e, he, heF⟩ := add_returns fuel hp hm hmod haF ⟨hbF.1, hbF.2.1⟩
  refine ⟨a, b, e, ha, hb, he, ?_, heF⟩
  unfold Matrix.addEntry
  rw [ha, hb]
  exact he

theorem subEntry_returns (fuel : Nat) (hp : 2 ≤ p) (hm : 1 ≤ m)
    (hmod : m = 1 ∨ ValidModulus m modulus) {A B : Matrix}
    (hA : A.OverField p m modulus) (hB : B.OverField p m modulus)
    (hr : A.rows = B.rows) (hc : A.cols = B.cols) {i j : Nat} (hi : i < A.rows)
    (hj : j < A.cols) :
    ∃ a b e, A.getEntry i j = .ok a ∧ B.getEntry i j = .ok b ∧ a.sub fuel b = .ok e ∧
      Matrix.subEntry fuel A B i j = .ok e ∧ e.InField p m modulus := by
  obtain ⟨a, ha, haF⟩ := overField_getEntry hA hi hj
  obtain ⟨b, hb, hbF⟩ := overField_getEntry hB (by omega : i < B.rows) (by omega : j < B.cols)
  obtain ⟨e, he, heF⟩ := sub_returns fuel hp hm hmod haF ⟨hbF.1, hbF.2.1⟩
  refine ⟨a, b, e, ha, hb, he, ?_, heF⟩
  unfold Matrix.subEntry
  rw [ha, hb]
  exact he

/-- The loops shared by the matrix sum, difference and product: a fresh
`r` by `c` matrix filled with `compute i j`. -/
theorem fill_new (compute : Nat → Nat → Except Err GFElement) (r c : Nat) (hp : 2 ≤ p)
    (hm : 1 ≤ m)
    (hcomp : ∀ i j, i < r → j < c → ∃ e, compute i j = .ok e ∧ e.InField p m modulus) :
    ∃ C, (match Matrix.new r c p m modulus with
        | .error e => (.error e : Except Err Matrix)
        | .ok z =>
          forRange
            (fun i (R : Matrix) =>
              forRange
                (fun j (R : Matrix) =>
                  match compute i j with
                  | .error e => .error e
                  | .ok s => R.setEntry i j s)
                0 c R)
            0 r z) = .ok C ∧
      C.OverField p m modulus ∧ C.rows = r ∧ C.cols = c ∧
      ∀ i j, i < r → j < c → C.getEntry i j = compute i j := by
  obtain ⟨Z, hZ, hZs, hZr, hZc, hZp, hZm, hZmod, _⟩ := new_shaped r c modulus hp hm
  obtain ⟨C, hC, hCs, hCh, hCe⟩ := fill_entries compute
    (fun i j hi hj => ⟨_, (hcomp i j hi hj).choose_spec.1⟩) hZs
  have hrows : C.rows = r := hCh.1.trans hZr
  have hcols : C.cols = c := hCh.2.1.trans hZc
  refine ⟨C, ?_, ?_, hrows, hcols, hCe⟩
  · rw [hZ]; exact hC
  · apply overField_of_entries (hCh.2.2.1.trans hZp) (hCh.2.2.2.1.trans hZm)
      (hCh.2.2.2.2.trans hZmod)
    · rw [hrows, hcols]; exact hCs
    · intro i j hi hj
      rw [hrows] at hi
      rw [hcols] at hj
      obtain ⟨e, he, heF⟩ := hcomp i j hi hj
      exact ⟨e, by rw [hCe i j hi hj, he], heF⟩

/-- The member `operator+` on two matrices of the same shape over the field. -/
theorem matrix_add_returns (fuel : Nat) (hp : 2 ≤ p) (hm : 1 ≤ m)
    (hmod : m = 1 ∨ ValidModulus m modulus) {A B : Matrix}
    (hA : A.OverField p m modulus) (hB : B.OverField p m modulus)
    (hr : A.rows = B.rows) (hc : A.cols = B.cols) :
    ∃ C, A.add fuel B = .ok C ∧ C.OverField p m modulus ∧ C.rows = A.rows ∧
      C.cols = A.cols ∧
      ∀ i j, i < A.rows → j < A.cols → C.getEntry i j = Matrix.addEntry fuel A B i j := by
  unfold Matrix.add
  rw [if_neg (by rw [hr, hc]; simp), hA.1, hA.2.1, hA.2.2.1]
  exact fill_new (fun i j => Matrix.addEntry fuel A B i j) A.rows A.cols hp hm
    (fun i j hi hj => by
      obtain ⟨_, _, e, _, _, _, he, heF⟩ := addEntry_returns fuel hp hm hmod hA hB hr hc hi hj
      exact ⟨e, he, heF⟩)

/-- The member `operator-` on two matrices of the same shape over the field. -/
theorem matrix_sub_returns (fuel : Nat) (hp : 2 ≤ p) (hm : 1 ≤ m)
    (hmod : m = 1 ∨ ValidModulus m modulus) {A B : Matrix}
    (hA : A.OverField p m modulus) (hB : B.OverField p m modulus)
    (hr : A.rows = B.rows) (hc : A.cols = B.cols) :
    ∃ C, A.sub fuel B = .ok C ∧ C.OverField p m modulus ∧ C.rows = A.rows ∧
      C.cols = A.cols ∧
      ∀ i j, i < A.rows → j < A.cols → C.getEntry i j = Matrix.subEntry fuel A B i j := by
  unfold Matrix.sub
  rw [if_neg (by rw [hr, hc]; simp), hA.1, hA.2.1, hA.2.2.1]
  exact fill_new (fun i j => Matrix.subEntry fuel A B i j) A.rows A.cols hp hm
    (fun i j hi hj => by
      obtain ⟨_, _, e, _, _, _, he, heF⟩ := subEntry_returns fuel hp hm hmod hA hB hr hc hi hj
      exact ⟨e, he, heF⟩)

end MatrixOps

/-! ## The matrix product and the matrix-vector product -/

section MatrixProducts

variable {p m : Nat} {modulus : List Nat}

theorem at_eq_getEntry {M : Matrix} {i j : Nat} (hi : i < M.rows) (hj : j < M.cols) :
    M.«at» i j = M.getEntry i j := by
  unfold Matrix.«at»
  rw [if_neg (by omega)]

/-- One step of the accumulation `sum += a * b` stays in the field. -/
theorem mul_add_returns (fuel : Nat) (hp : 2 ≤ p) (hm : 1 ≤ m)
    (hmod : m = 1 ∨ ValidModulus m modulus) {sum a b : GFElement}
    (hs : sum.InField p m modulus) (ha : a.InField p m modulus)
    (hb : b.InField p m modulus) :
    ∃ ab t, a.mul fuel b = .ok ab ∧ sum.add fuel ab = .ok t ∧ t.InField p m modulus := by
  obtain ⟨ab, hab, habF⟩ := mul_returns fuel hp hm hmod ha ⟨hb.1, hb.2.1⟩
  obtain ⟨t, ht, htF⟩ := add_returns fuel hp hm hmod hs ⟨habF.1, habF.2.1⟩
  exact ⟨ab, t, hab, ht, htF⟩

/-- The accumulation loop of the matrix product computes the ordered sum
`sumInOrder` over all `A.cols` indices, starting from the zero element. -/
theorem mulEntry_sumInOrder (fuel : Nat) (hp : 2 ≤ p) (hm : 1 ≤ m)
    (hmod : m = 1 ∨ ValidModulus m modulus) {A B : Matrix}
    (hA : A.OverField p m modulus) (hB : B.OverField p m modulus)
    (hk : A.cols = B.rows) {i j : Nat} (hi : i < A.rows) (hj : j < B.cols) :
    ∃ zero e, GFElement.new p m modulus = .ok zero ∧
      Matrix.mulEntry fuel A B i j = .ok e ∧ e.InField p m modulus ∧
      sumInOrder fuel A B i j zero A.cols = .ok e := by
  obtain ⟨z, hz, hzF, _⟩ := new_inField modulus hp hm
  have hloop := forRange_inv
    (fun k (s : GFElement) => sumInOrder fuel A B i j z k = .ok s ∧ s.InField p m modulus)
    (fun k (sum : GFElement) =>
        match A.getEntry i k with
        | .error e => .error e
        | .ok a =>
          match B.getEntry k j with
          | .error e => .error e
          | .ok b =>
            match a.mul fuel b with
            | .error e => .error e
            | .ok ab => sum.add fuel ab)
    A.cols 0 z ⟨rfl, hzF⟩
    (by
      intro k t _ hk2 ht
      have hkA : k < A.cols := by omega
      obtain ⟨a, ha, haF⟩ := overField_getEntry hA hi hkA
      obtain ⟨b, hb, hbF⟩ := overField_getEntry hB (by omega : k < B.rows) hj
      obtain ⟨ab, u, hab, hu, huF⟩ := mul_add_returns fuel hp hm hmod ht.2 haF hbF
      refine ⟨u, ?_, ?_, huF⟩
      · show (match A.getEntry i k with
          | .error e => .error e
          | .ok a =>
            match B.getEntry k j with
            | .error e => .error e
            | .ok b =>
              match a.mul fuel b with
              | .error e => .error e
              | .ok ab => t.add fuel ab) = Except.ok u
        rw [ha, hb]
        show (match a.mul fuel b with
              | .error e => .error e
              | .ok ab => t.add fuel ab) = Except.ok u
        rw [hab]
        exact hu
      · rw [sumInOrder, ht.1, at_eq_getEntry hi hkA,
          at_eq_getEntry (by omega : k < B.rows) hj, ha, hb]
        show (match a.mul fuel b with
              | .error e => .error e
              | .ok ab => t.add fuel ab) = Except.ok u
        rw [hab]
        exact hu)
  obtain ⟨e, he, hsum, heF⟩ := hloop
  rw [Nat.zero_add] at hsum
  refine ⟨z, e, hz, ?_, heF, hsum⟩
  unfold Matrix.mulEntry
  rw [hA.1, hA.2.1, hA.2.2.1, hz]
  exact he

/-- The member `operator*(const Matrix&)` on matrices over the field with
matching inner dimension. -/
theorem matrix_mul_returns (fuel : Nat) (hp : 2 ≤ p) (hm : 1 ≤ m)
    (hmod : m = 1 ∨ ValidModulus m modulus) {A B : Matrix}
    (hA : A.OverField p m modulus) (hB : B.OverField p m modulus)
    (hk : A.cols = B.rows) :
    ∃ C, A.mul fuel B = .ok C ∧ C.OverField p m modulus ∧ C.rows = A.rows ∧
      C.cols = B.cols ∧
      ∀ i j, i < A.rows → j < B.cols → C.getEntry i j = Matrix.mulEntry fuel A B i j := by
  unfold Matrix.mul
  rw [if_neg (by rw [hk]; simp), hA.1, hA.2.1, hA.2.2.1]
  exact fill_new (fun i j => Matrix.mulEntry fuel A B i j) A.rows B.cols hp hm
    (fun i j hi hj => by
      obtain ⟨_, e, _, he, heF, _⟩ := mulEntry_sumInOrder fuel hp hm hmod hA hB hk hi hj
      exact ⟨e, he, heF⟩)

end MatrixProducts

section MatrixVector

variable {p m : Nat} {modulus : List Nat}

/-- The accumulation loop of the matrix-vector product returns an element of
the field. -/
theorem dotVec_returns (fuel : Nat) (hp : 2 ≤ p) (hm : 1 ≤ m)
    (hmod : m = 1 ∨ ValidModulus m modulus) {A : Matrix} {vec : List GFElement}
    (hA : A.OverField p m modulus) (hv : ∀ e ∈ vec, e.InField p m modulus)
    (hlen : vec.length = A.cols) {i : Nat} (hi : i < A.rows) :
    ∃ e, Matrix.dotVec fuel A vec i = .ok e ∧ e.InField p m modulus := by
  obtain ⟨z, hz, hzF, _⟩ := new_inField modulus hp hm
  have hloop := forRange_inv
    (fun _ (s : GFElement) => s.InField p m modulus)
    (fun j (sum : GFElement) =>
        match A.getEntry i j with
        | .error e => .error e
        | .ok a =>
          match vec[j]? with
          | none => .error .outOfBounds
          | some v =>
            match a.mul fuel v with
            | .error e => .error e
            | .ok av => sum.add fuel av)
    A.cols 0 z hzF
    (by
      intro k t _ hk2 ht
      have hkA : k < A.cols := by omega
      obtain ⟨a, ha, haF⟩ := overField_getEntry hA hi hkA
      have hkv : k < vec.length := by omega
      have hvk : vec[k]? = some vec[k] := List.getElem?_eq_getElem hkv
      obtain ⟨av, u, hav, hu, huF⟩ := mul_add_returns fuel hp hm hmod ht haF
        (hv _ (List.getElem_mem hkv))
      refine ⟨u, ?_, huF⟩
      show (match A.getEntry i k with
          | .error e => .error e
          | .ok a =>
            match vec[k]? with
            | none => .error .outOfBounds
            | some v =>
              match a.mul fuel v with
              | .error e => .error e
              | .ok av => t.add fuel av) = Except.ok u
      rw [ha, hvk]
      show (match a.mul fuel vec[k] with
            | .error e => .error e
            | .ok av => t.add fuel av) = Except.ok u
      rw [hav]
      exact hu)
  obtain ⟨e, he, heF⟩ := hloop
  refine ⟨e, ?_, heF⟩
  unfold Matrix.dotVec
  rw [hA.1, hA.2.1, hA.2.2.1, hz]
  exact he

/-- The member `operator*(const std::vector<GFElement>&)` on a matrix over the
field and a vector of `A.cols` field elements. -/
theorem mulVec_returns (fuel : Nat) (hp : 2 ≤ p) (hm : 1 ≤ m)
    (hmod : m = 1 ∨ ValidModulus m modulus) {A : Matrix} {vec : List GFElement}
    (hA : A.OverField p m modulus) (hv : ∀ e ∈ vec, e.InField p m modulus)
    (hlen : vec.length = A.cols) :
    ∃ w, A.mulVec fuel vec = .ok w ∧ w.length = A.rows ∧
      ∀ e ∈ w, e.InField p m modulus := by
  obtain ⟨z, hz, hzF, _⟩ := new_inField modulus hp hm
  have hloop := forRange_inv
    (fun _ (w : List GFElement) => w.length = A.rows ∧ ∀ e ∈ w, e.InField p m modulus)
    (fun i (result : List GFElement) =>
          match Matrix.dotVec fuel A vec i with
          | .error e => .error e
          | .ok sum => .ok (result.set i sum))
    A.rows 0 (List.replicate A.rows z)
    ⟨by simp, fun e he => by rw [(List.mem_replicate.mp he).2]; exact hzF⟩
    (by
      intro k t _ hk2 ht
      obtain ⟨e, he, heF⟩ := dotVec_returns fuel hp hm hmod hA hv hlen (by omega : k < A.rows)
      refine ⟨t.set k e, ?_, by rw [List.length_set]; exact ht.1, ?_⟩
      · show (match Matrix.dotVec fuel A vec k with
          | .error e => .error e
          | .ok sum => .ok (t.set k sum)) = Except.ok (t.set k e)
        rw [he]
      · intro x hx
        rcases List.mem_or_eq_of_mem_set hx with h | h
        · exact ht.2 x h
        · rw [h]; exact heF)
  obtain ⟨w, hw, hwl, hwF⟩ := hloop
  refine ⟨w, ?_, hwl, hwF⟩
  unfold Matrix.mulVec
  rw [if_neg (by rw [hlen]; simp), hA.1, hA.2.1, hA.2.2.1, hz]
  exact hw

end MatrixVector

/-! ## The constructor from a grid of integers -/

theorem mapM_ok {α β : Type} (f : α → Except Err β) (g : α → β) :
    ∀ (l : List α), (∀ x ∈ l, f x = .ok (g x)) → l.mapM f = .ok (l.map g) := by
  intro l
  induction l with
  | nil => intro _; rfl
  | cons x xs ih =>
    intro h
    rw [List.mapM_cons, h x (List.mem_cons_self x xs), ih (fun y hy => h y (List.mem_cons_of_mem x hy))]
    rfl

/-- The cell stored at a column of a row by the constructor from a grid of
integers: the value constructor where the row has that column, the default
element (the zero of GF(2)) where it does not. -/
theorem ofGrid_cell {p m : Nat} (modulus : List Nat) (hp : 2 ≤ p) (hm : 1 ≤ m)
    (row : List Nat) (j : Nat) :
    (match row[j]? with
      | some v => GFElement.ofValue v p m modulus
      | none => GFElement.new 2 1 [1, 1]) =
    .ok (match row[j]? with
      | some v =>
        { p := p, m := m, modulus := modulus,
          coeffs := if m = 1 then [v % p] else GFElement.digits p m v }
      | none => { p := 2, m := 1, modulus := [1, 1], coeffs := [0] }) := by
  cases row[j]? with
  | none => rfl
  | some v =>
    dsimp only
    unfold GFElement.ofValue
    rw [if_neg (by omega), if_neg (by omega)]
    by_cases h1 : m = 1
    · rw [if_pos h1, if_pos h1]
    · rw [if_neg h1, if_neg h1]

/-- The constructor from a grid of integers returns for every grid, and
every stored row has as many cells as the first row of the grid. -/
theorem ofGrid_returns {p m : Nat} (modulus : List Nat) (hp : 2 ≤ p) (hm : 1 ≤ m)
    (grid : List (List Nat)) :
    ∃ M, Matrix.ofGrid grid p m modulus = .ok M ∧ M.rows = grid.length ∧
      M.cols = (grid.head?.getD []).length ∧ M.p = p ∧ M.m = m ∧ M.modulus = modulus ∧
      M.Shaped M.rows M.cols ∧
      M.data = grid.map (fun row =>
        (List.range (grid.head?.getD []).length).map (fun j =>
          match row[j]? with
          | some v =>
            ({ p := p, m := m, modulus := modulus,
               coeffs := if m = 1 then [v % p] else GFElement.digits p m v } : GFElement)
          | none => { p := 2, m := 1, modulus := [1, 1], coeffs := [0] })) := by
  have hrow : ∀ row ∈ grid,
      (List.range (grid.head?.getD []).length).mapM (fun j =>
        match row[j]? with
        | some v => GFElement.ofValue v p m modulus
        | none => GFElement.new 2 1 [1, 1]) =
      .ok ((List.range (grid.head?.getD []).length).map (fun j =>
          match row[j]? with
          | some v =>
            ({ p := p, m := m, modulus := modulus,
               coeffs := if m = 1 then [v % p] else GFElement.digits p m v } : GFElement)
          | none => { p := 2, m := 1, modulus := [1, 1], coeffs := [0] })) :=
    fun row _ => mapM_ok _ _ _ (fun j _ => ofGrid_cell modulus hp hm row j)
  have hall := mapM_ok _ _ grid hrow
  unfold Matrix.ofGrid
  dsimp only
  erw [hall]
  refine ⟨_, rfl, rfl, rfl, rfl, rfl, rfl, ⟨?_, ?_⟩, rfl⟩
  · simp
  · intro r hr
    obtain ⟨row, _, rfl⟩ := List.mem_map.mp hr
    simp

/-- The value constructor gives an element of the field. -/
theorem valueElem_inField {p m : Nat} (modulus : List Nat) (hp : 2 ≤ p) (v : Nat) :
    GFElement.InField p m modulus
      { p := p, m := m, modulus := modulus,
        coeffs := if m = 1 then [v % p] else GFElement.digits p m v } := by
  refine ⟨rfl, rfl, rfl, ?_, ?_⟩
  · show (if m = 1 then [v % p] else GFElement.digits p m v).length = m
    by_cases h1 : m = 1
    · rw [if_pos h1, h1]; rfl
    · rw [if_neg h1]; exact digits_length p m v
  · intro c hc
    show c < p
    by_cases h1 : m = 1
    · rw [if_pos h1] at hc
      rw [List.mem_singleton.mp hc]
      exact Nat.mod_lt _ (by omega)
    · rw [if_neg h1] at hc
      exact digits_bound (by omega) m v c hc

theorem ofValue_returns {p m : Nat} (modulus : List Nat) (hp : 2 ≤ p) (hm : 1 ≤ m) (v : Nat) :
    GFElement.ofValue v p m modulus =
      .ok { p := p, m := m, modulus := modulus,
            coeffs := if m = 1 then [v % p] else GFElement.digits p m v } := by
  unfold GFElement.ofValue
  rw [if_neg (by omega), if_neg (by omega)]
  by_cases h1 : m = 1
  · rw [if_pos h1, if_pos h1]
  · rw [if_neg h1, if_neg h1]

/-- On a rectangular grid the constructor from integers gives a matrix over
the field, whose cells are the value constructor applied to the grid. -/
theorem ofGrid_overField {p m : Nat} (modulus : List Nat) (hp : 2 ≤ p) (hm : 1 ≤ m)
    (grid : List (List Nat)) (c : Nat) (hrect : ∀ row ∈ grid, row.length = c) :
    ∃ M, Matrix.ofGrid grid p m modulus = .ok M ∧ M.OverField p m modulus ∧
      M.rows = grid.length ∧ M.cols = (grid.head?.getD []).length ∧
      ∀ i j, i < M.rows → j < M.cols →
        M.getEntry i j = GFElement.ofValue ((grid.getD i []).getD j 0) p m modulus := by
  obtain ⟨M, hM, hr, hc, hMp, hMm, hMmod, hS, hdata⟩ := ofGrid_returns modulus hp hm grid
  have hcols : ∀ row ∈ grid, row.length = (grid.head?.getD []).length := by
    intro row hrow
    cases grid with
    | nil => cases hrow
    | cons r0 rs =>
      rw [hrect row hrow]
      exact (hrect r0 (List.mem_cons_self r0 rs)).symm
  have hentry : ∀ i j, i < M.rows → j < M.cols →
      M.getEntry i j = GFElement.ofValue ((grid.getD i []).getD j 0) p m modulus := by
    intro i j hi hj
    rw [hr] at hi
    rw [hc] at hj
    have hrowlen : grid[i].length = (grid.head?.getD []).length :=
      hcols _ (List.getElem_mem hi)
    have hj2 : j < grid[i].length := by omega
    have hg : grid.getD i [] = grid[i] := List.getD_eq_getElem _ _ hi
    have hv : (grid[i]).getD j 0 = grid[i][j] := List.getD_eq_getElem _ _ hj2
    rw [hg, hv, ofValue_returns modulus hp hm]
    unfold Matrix.getEntry
    rw [hdata, List.getElem?_map, List.getElem?_eq_getElem hi]
    dsimp only [Option.map]
    rw [List.getElem?_map, List.getElem?_range hj]
    dsimp only [Option.map]
    rw [List.getElem?_eq_getElem hj2]
  refine ⟨M, hM, ?_, hr, hc, hentry⟩
  apply overField_of_entries hMp hMm hMmod hS
  intro i j hi hj
  exact ⟨_, (hentry i j hi hj).trans (ofValue_returns modulus hp hm _),
    valueElem_inField modulus hp _⟩

/-! ## Adding and then subtracting the same operand -/

/-- The word arithmetic of `operator+` followed by `operator-` on one
coefficient, for a characteristic of at most 2^31. -/
theorem add_sub_word {a b p : Nat} (ha : a < p) (hb : b < p) (hle : p ≤ 2147483648) :
    usub (u32 (u32 (a + b) % p + p)) b % p = a := by
  have h1 : u32 (a + b) = a + b := Nat.mod_eq_of_lt (by omega)
  rw [h1]
  have hs : (a + b) % p < p := Nat.mod_lt _ (by omega)
  have h2 : u32 ((a + b) % p + p) = (a + b) % p + p := Nat.mod_eq_of_lt (by omega)
  rw [h2]
  have h3 : usub ((a + b) % p + p) b = (a + b) % p + p - b := by
    unfold usub u32
    omega
  rw [h3]
  by_cases h : a + b < p
  · rw [Nat.mod_eq_of_lt h]
    have : a + b + p - b = a + p := by omega
    rw [this, Nat.add_mod_right]
    exact Nat.mod_eq_of_lt ha
  · have h4 : (a + b) % p = a + b - p := by
      rw [Nat.mod_eq_sub_mod (by omega)]
      exact Nat.mod_eq_of_lt (by omega)
    rw [h4]
    have : a + b - p + p - b = a := by omega
    rw [this]
    exact Nat.mod_eq_of_lt ha

theorem getD_lt_of_canonical {e : GFElement} (he : e.Canonical) {i : Nat} (hi : i < e.m) :
    e.coeffs.getD i 0 < e.p := by
  have hi2 : i < e.coeffs.length := by rw [he.1]; exact hi
  rw [List.getD_eq_getElem _ _ hi2]
  exact he.2 _ (List.getElem_mem hi2)

/-- In a field with a valid modulus and characteristic at most 2^31,
`(a + b) - b` is `a`. -/
theorem add_sub_cancel_elem (fuel : Nat) {p m : Nat} {modulus : List Nat} {a b : GFElement}
    (hp : 2 ≤ p) (hle : p ≤ 2147483648) (hm : 1 ≤ m)
    (hmod : m = 1 ∨ ValidModulus m modulus)
    (ha : a.InField p m modulus) (hb : b.InField p m modulus) :
    ∃ s, a.add fuel b = .ok s ∧ s.sub fuel b = .ok a := by
  obtain ⟨ha1, ha2, ha3, ha4⟩ := ha
  obtain ⟨hb1, hb2, _, hb4⟩ := hb
  have hadd : a.add fuel b =
      .ok { p := p, m := m, modulus := modulus,
            coeffs := (List.range m).map
              (fun i => u32 (a.coeffs.getD i 0 + b.coeffs.getD i 0) % p) } := by
    unfold GFElement.add
    rw [if_neg (by rw [ha1, ha2, hb1, hb2]; simp), ha1, ha2, ha3]
    apply ofCoeffs_field_canonical fuel _ modulus hp hm hmod (by simp)
    intro c hc
    obtain ⟨i, _, rfl⟩ := List.mem_map.mp hc
    exact Nat.mod_lt _ (by omega)
  refine ⟨_, hadd, ?_⟩
  unfold GFElement.sub
  dsimp only
  rw [if_neg (by rw [hb1, hb2]; simp)]
  have hcs : (List.range m).map (fun i =>
      usub (u32 (((List.range m).map
        (fun i => u32 (a.coeffs.getD i 0 + b.coeffs.getD i 0) % p)).getD i 0 + p))
        (b.coeffs.getD i 0) % p) = a.coeffs := by
    apply List.ext_getElem
    · rw [List.length_map, List.length_range, ha4.1, ha2]
    · intro i h1 h2
      rw [List.length_map, List.length_range] at h1
      rw [List.getElem_map, List.getElem_range,
        List.getD_eq_getElem _ _ (by rw [List.length_map, List.length_range]; exact h1),
        List.getElem_map, List.getElem_range]
      have hai : a.coeffs.getD i 0 < p := by
        rw [← ha1]; exact getD_lt_of_canonical ha4 (by rw [ha2]; exact h1)
      have hbi : b.coeffs.getD i 0 < p := by
        rw [← hb1]; exact getD_lt_of_canonical hb4 (by rw [hb2]; exact h1)
      rw [add_sub_word hai hbi hle]
      exact List.getD_eq_getElem _ _ h2
  rw [hcs, ofCoeffs_field_canonical fuel a.coeffs modulus hp hm hmod (by rw [ha4.1, ha2])
    (fun c hc => by rw [← ha1]; exact ha4.2 c hc)]
  cases a
  cases ha1
  cases ha2
  cases ha3
  rfl

theorem eq_self (a : GFElement) : a.eq a = true := by
  unfold GFElement.eq
  simp

/-- Over a field with a valid modulus and characteristic at most 2^31, for
matrices of the same shape `(A + B) - B` is a matrix with the cells of `A`,
and `operator==` says so. -/
theorem matrix_add_sub_cancel (fuel : Nat) {p m : Nat} {modulus : List Nat} (hp : 2 ≤ p)
    (hle : p ≤ 2147483648) (hm : 1 ≤ m) (hmod : m = 1 ∨ ValidModulus m modulus)
    {A B : Matrix} (hA : A.OverField p m modulus) (hB : B.OverField p m modulus)
    (hr : A.rows = B.rows) (hc : A.cols = B.cols) :
    ∃ S D, A.add fuel B = .ok S ∧ S.sub fuel B = .ok D ∧ D.eq A = true ∧
      D.rows = A.rows ∧ D.cols = A.cols ∧
      ∀ i j, i < A.rows → j < A.cols → D.getEntry i j = A.getEntry i j := by
  obtain ⟨S, hS, hSF, hSr, hSc, hSe⟩ := matrix_add_returns fuel hp hm hmod hA hB hr hc
  obtain ⟨D, hD, hDF, hDr, hDc, hDe⟩ := matrix_sub_returns fuel hp hm hmod hSF hB
    (hSr.trans hr) (hSc.trans hc)
  have hent : ∀ i j, i < A.rows → j < A.cols → D.getEntry i j = A.getEntry i j := by
    intro i j hi hj
    obtain ⟨a, haE, haF⟩ := overField_getEntry hA hi hj
    obtain ⟨b, hbE, hbF⟩ := overField_getEntry hB (by omega : i < B.rows) (by omega : j < B.cols)
    obtain ⟨s, hs, hd⟩ := add_sub_cancel_elem fuel hp hle hm hmod haF hbF
    have hSij : S.getEntry i j = .ok s := by
      rw [hSe i j hi hj]
      unfold Matrix.addEntry
      rw [haE, hbE]
      exact hs
    rw [hDe i j (by omega) (by omega), haE]
    unfold Matrix.subEntry
    rw [hSij, hbE]
    exact hd
  refine ⟨S, D, hS, hD, ?_, hDr.trans hSr, hDc.trans hSc, hent⟩
  unfold Matrix.eq
  rw [if_neg (by rw [hDr, hSr, hDc, hSc]; simp)]
  rw [List.all_eq_true]
  intro i hi
  rw [List.all_eq_true]
  intro j hj
  have hi2 : i < A.rows := by rw [hDr, hSr] at hi; exact List.mem_range.mp hi
  have hj2 : j < A.cols := by rw [hDc, hSc] at hj; exact List.mem_range.mp hj
  obtain ⟨a, haE, _⟩ := overField_getEntry hA hi2 hj2
  rw [hent i j hi2 hj2, haE]
  exact eq_self a

/-! ## C26, C27: the invariants of the matrix constructors -/

/-- C26 fails on the code: the matrix built by `Matrix(data, p, m, modulus)` from
the ragged grid `{{1, 1}, {1}}` over GF(3) has two rows of two cells, the
matrix and the cells present in the grid carry `p = 3`, and the cell `(1, 1)`
that the short row lacks is the default-constructed element, with `p = 2`. -/
theorem C26_short_row_cell_in_gf2 :
    ∃ M e00 e11, Matrix.ofGrid [[1, 1], [1]] 3 1 [1, 1] = .ok M ∧
      M.rows = 2 ∧ M.cols = 2 ∧ M.p = 3 ∧ M.m = 1 ∧
      M.«at» 0 0 = .ok e00 ∧ e00.p = 3 ∧
      M.«at» 1 1 = .ok e11 ∧ e11.p = 2 ∧ e11.p ≠ M.p :=
  ⟨_, _, _, rfl, rfl, rfl, rfl, rfl, rfl, rfl, rfl, rfl, by decide⟩

/-- C27 fails on the code: the constructor from a grid of elements copies the
ragged grid `{{1, 1}, {1}}` over GF(2) as it is, so `cols()` is 2 while the
stored row 1 has one entry, and `at(1, 1)`, inside the declared shape, reads
past the end of that row. -/
theorem C27_element_grid_keeps_short_rows (p0 m0 : Nat) :
    (Matrix.ofElements [[gf2 1, gf2 1], [gf2 1]] p0 m0).rows = 2 ∧
      (Matrix.ofElements [[gf2 1, gf2 1], [gf2 1]] p0 m0).cols = 2 ∧
      (Matrix.ofElements [[gf2 1, gf2 1], [gf2 1]] p0 m0).data.map List.length = [2, 1] ∧
      (Matrix.ofElements [[gf2 1, gf2 1], [gf2 1]] p0 m0).«at» 1 1 = .error .outOfBounds :=
  ⟨rfl, rfl, rfl, rfl⟩

/-! ## C28: shape errors of the matrix operations -/

/-- C28: for matrices `A`, `B` over the same field with a valid modulus and a
vector `v` of elements of that field, `A + B` and `A - B` fail with the
invalid-argument condition exactly when `A` and `B` differ in rows or in
columns, `A * B` exactly when `A.cols() != B.rows()`, and `A * v` exactly when
the length of `v` is not `A.cols()`; in every other case the result is
returned, with shape `rows x cols` for the sum and the difference,
`A.rows() x B.cols()` for the product and length `A.rows()` for the vector
product. -/
theorem C28_shape_errors (fuel p m : Nat) (modulus : List Nat) (A B : Matrix)
    (v : List GFElement) (hp : 2 ≤ p) (hm : 1 ≤ m) (hmod : ValidModulus m modulus)
    (hA : A.OverField p m modulus) (hB : B.OverField p m modulus)
    (hv : ∀ e ∈ v, e.InField p m modulus) :
    (A.add fuel B = .error .invalidArgument ↔ (A.rows ≠ B.rows ∨ A.cols ≠ B.cols)) ∧
    (A.sub fuel B = .error .invalidArgument ↔ (A.rows ≠ B.rows ∨ A.cols ≠ B.cols)) ∧
    (A.mul fuel B = .error .invalidArgument ↔ A.cols ≠ B.rows) ∧
    (A.mulVec fuel v = .error .invalidArgument ↔ v.length ≠ A.cols) ∧
    ((A.rows = B.rows ∧ A.cols = B.cols) →
      (∃ S, A.add fuel B = .ok S ∧ S.OverField p m modulus ∧ S.rows = A.rows ∧
        S.cols = A.cols) ∧
      ∃ D, A.sub fuel B = .ok D ∧ D.OverField p m modulus ∧ D.rows = A.rows ∧
        D.cols = A.cols) ∧
    (A.cols = B.rows →
      ∃ C, A.mul fuel B = .ok C ∧ C.OverField p m modulus ∧ C.rows = A.rows ∧
        C.cols = B.cols) ∧
    (v.length = A.cols →
      ∃ w, A.mulVec fuel v = .ok w ∧ w.length = A.rows ∧
        ∀ e ∈ w, e.InField p m modulus) := by
  have hshape : ¬(A.rows ≠ B.rows ∨ A.cols ≠ B.cols) → A.rows = B.rows ∧ A.cols = B.cols := by
    intro h
    constructor
    · by_contra h1; exact h (Or.inl h1)
    · by_contra h1; exact h (Or.inr h1)
  have hsum : (A.rows = B.rows ∧ A.cols = B.cols) →
      (∃ S, A.add fuel B = .ok S ∧ S.OverField p m modulus ∧ S.rows = A.rows ∧
        S.cols = A.cols) ∧
      ∃ D, A.sub fuel B = .ok D ∧ D.OverField p m modulus ∧ D.rows = A.rows ∧
        D.cols = A.cols := by
    rintro ⟨hr, hc⟩
    obtain ⟨S, hS, hSF, hSr, hSc, _⟩ := matrix_add_returns fuel hp hm (Or.inr hmod) hA hB hr hc
    obtain ⟨D, hD, hDF, hDr, hDc, _⟩ := matrix_sub_returns fuel hp hm (Or.inr hmod) hA hB hr hc
    exact ⟨⟨S, hS, hSF, hSr, hSc⟩, ⟨D, hD, hDF, hDr, hDc⟩⟩
  have hprod : A.cols = B.rows →
      ∃ C, A.mul fuel B = .ok C ∧ C.OverField p m modulus ∧ C.rows = A.rows ∧
        C.cols = B.cols := by
    intro h
    obtain ⟨C, hC, hCF, hCr, hCc, _⟩ :=
      matrix_mul_returns fuel hp hm (Or.inr hmod) hA hB h
    exact ⟨C, hC, hCF, hCr, hCc⟩
  have hvec : v.length = A.cols →
      ∃ w, A.mulVec fuel v = .ok w ∧ w.length = A.rows ∧
        ∀ e ∈ w, e.InField p m modulus :=
    fun h => mulVec_returns fuel hp hm (Or.inr hmod) hA hv h
  have haddE : A.add fuel B = .error .invalidArgument ↔
      (A.rows ≠ B.rows ∨ A.cols ≠ B.cols) := by
    constructor
    · intro h
      by_contra hn
      obtain ⟨⟨S, hS, _⟩, _⟩ := hsum (hshape hn)
      rw [hS] at h
      cases h
    · intro h
      unfold Matrix.add
      rw [if_pos h]
  have hsubE : A.sub fuel B = .error .invalidArgument ↔
      (A.rows ≠ B.rows ∨ A.cols ≠ B.cols) := by
    constructor
    · intro h
      by_contra hn
      obtain ⟨_, ⟨D, hD, _⟩⟩ := hsum (hshape hn)
      rw [hD] at h
      cases h
    · intro h
      unfold Matrix.sub
      rw [if_pos h]
  have hmulE : A.mul fuel B = .error .invalidArgument ↔ A.cols ≠ B.rows := by
    constructor
    · intro h hn
      obtain ⟨C, hC, _⟩ := hprod hn
      rw [hC] at h
      cases h
    · intro h
      unfold Matrix.mul
      rw [if_pos h]
  have hvecE : A.mulVec fuel v = .error .invalidArgument ↔ v.length ≠ A.cols := by
    constructor
    · intro h hn
      obtain ⟨w, hw, _⟩ := hvec hn
      rw [hw] at h
      cases h
    · intro h
      unfold Matrix.mulVec
      rw [if_pos h]
  exact ⟨haddE, hsubE, hmulE, hvecE, hsum, hprod, hvec⟩

/-- Witness for C28: the matrices `[[1, 2], [2, 2]]` and `[[1, 2], [2, 1]]` over
GF(3) and the vector `(1, 2)`. -/
theorem C28_shape_errors_witness :
    (exampleGF3.add 0 singularGF3 = .error .invalidArgument ↔
      (exampleGF3.rows ≠ singularGF3.rows ∨ exampleGF3.cols ≠ singularGF3.cols)) ∧
    (exampleGF3.sub 0 singularGF3 = .error .invalidArgument ↔
      (exampleGF3.rows ≠ singularGF3.rows ∨ exampleGF3.cols ≠ singularGF3.cols)) ∧
    (exampleGF3.mul 0 singularGF3 = .error .invalidArgument ↔
      exampleGF3.cols ≠ singularGF3.rows) ∧
    (exampleGF3.mulVec 0 [gf3 1, gf3 2] = .error .invalidArgument ↔
      [gf3 1, gf3 2].length ≠ exampleGF3.cols) ∧
    ((exampleGF3.rows = singularGF3.rows ∧ exampleGF3.cols = singularGF3.cols) →
      (∃ S, exampleGF3.add 0 singularGF3 = .ok S ∧ S.OverField 3 1 [1, 1] ∧
        S.rows = exampleGF3.rows ∧ S.cols = exampleGF3.cols) ∧
      ∃ D, exampleGF3.sub 0 singularGF3 = .ok D ∧ D.OverField 3 1 [1, 1] ∧
        D.rows = exampleGF3.rows ∧ D.cols = exampleGF3.cols) ∧
    (exampleGF3.cols = singularGF3.rows →
      ∃ C, exampleGF3.mul 0 singularGF3 = .ok C ∧ C.OverField 3 1 [1, 1] ∧
        C.rows = exampleGF3.rows ∧ C.cols = singularGF3.cols) ∧
    ([gf3 1, gf3 2].length = exampleGF3.cols →
      ∃ w, exampleGF3.mulVec 0 [gf3 1, gf3 2] = .ok w ∧ w.length = exampleGF3.rows ∧
        ∀ e ∈ w, e.InField 3 1 [1, 1]) :=
  C28_shape_errors 0 3 1 [1, 1] exampleGF3 singularGF3 [gf3 1, gf3 2] (by decide) (by decide)
    (by decide) (by decide) (by decide) (by decide)

/-! ## C29: the entries of the matrix product -/

/-- C29: for matrices `A` (`r x k`) and `B` (`k x c`) over the same field with
a valid modulus, the product `A * B` is returned and its entry `(i, j)` is the
field sum, starting from the zero element and taken for `k' = 0, ..., k - 1`
in this order, of `A(i, k') * B(k', j)`; for `k = 0` the entry is the zero
element. -/
theorem C29_product_entries (fuel p m : Nat) (modulus : List Nat) (A B : Matrix) (i j : Nat)
    (hp : 2 ≤ p) (hm : 1 ≤ m) (hmod : ValidModulus m modulus)
    (hA : A.OverField p m modulus) (hB : B.OverField p m modulus)
    (hk : A.cols = B.rows) (hi : i < A.rows) (hj : j < B.cols) :
    ∃ C zero e, A.mul fuel B = .ok C ∧ GFElement.new p m modulus = .ok zero ∧
      zero.isZero = true ∧ C.«at» i j = .ok e ∧
      sumInOrder fuel A B i j zero A.cols = .ok e ∧ (A.cols = 0 → e = zero) := by
  obtain ⟨C, hC, _, hCr, hCc, hCe⟩ := matrix_mul_returns fuel hp hm (Or.inr hmod) hA hB hk
  obtain ⟨zero, e, hz, he, _, hsum⟩ :=
    mulEntry_sumInOrder fuel hp hm (Or.inr hmod) hA hB hk hi hj
  refine ⟨C, zero, e, hC, hz, ?_, ?_, hsum, ?_⟩
  · obtain ⟨z, hz2, _, hzeq⟩ := new_inField modulus hp hm
    rw [hz2] at hz
    cases hz
    rw [hzeq]
    simp [GFElement.isZero, allZero]
  · rw [at_eq_getEntry (by rw [hCr]; exact hi) (by rw [hCc]; exact hj), hCe i j hi hj]
    exact he
  · intro h0
    rw [h0] at hsum
    cases hsum
    rfl

/-- Witness for C29: entry `(0, 1)` of `[[1, 2], [2, 2]] * [[1, 2], [2, 1]]`
over GF(3). -/
theorem C29_product_entries_witness :
    ∃ C zero e, exampleGF3.mul 0 singularGF3 = .ok C ∧ GFElement.new 3 1 [1, 1] = .ok zero ∧
      zero.isZero = true ∧ C.«at» 0 1 = .ok e ∧
      sumInOrder 0 exampleGF3 singularGF3 0 1 zero exampleGF3.cols = .ok e ∧
      (exampleGF3.cols = 0 → e = zero) :=
  C29_product_entries 0 3 1 [1, 1] exampleGF3 singularGF3 0 1 (by decide) (by decide)
    (by decide) (by decide) (by decide) (by decide) (by decide) (by decide)

/-! ## C30: adding and then subtracting a matrix -/

/-- C30 fails on the code for a characteristic above 2^31: 3221225473 is prime,
`{1, 1}` is a valid modulus for `m = 1`, and for the 1 by 1 matrix `A` built
from the grid `{{3221225472}}` the 32-bit sum in `A + A` wraps around, so that
`(A + A) - A == A` is false. -/
theorem C30_wraps_above_2_31 :
    Nat.Prime 3221225473 ∧ ValidModulus 1 [1, 1] ∧
      ∀ fuel, ∃ A S D, Matrix.ofGrid [[3221225472]] 3221225473 1 [1, 1] = .ok A ∧
        A.add fuel A = .ok S ∧ S.sub fuel A = .ok D ∧ D.eq A = false :=
  ⟨prime_3221225473, by decide, fun _ => ⟨_, _, _, rfl, rfl, rfl, rfl⟩⟩

/-- C30, amended: for a field with `2 <= p <= 2^31`, `m >= 1` and a valid
modulus, and matrices `A` and `B` built from rectangular integer grids with
`r` rows of `c` entries each, `A + B` and `(A + B) - B` are returned and
`(A + B) - B == A` holds. -/
theorem C30_add_then_sub (fuel p m : Nat) (modulus : List Nat) (gridA gridB : List (List Nat))
    (r c : Nat) (hp : 2 ≤ p) (hle : p ≤ 2147483648) (hm : 1 ≤ m)
    (hmod : ValidModulus m modulus)
    (hA : gridA.length = r ∧ ∀ row ∈ gridA, row.length = c)
    (hB : gridB.length = r ∧ ∀ row ∈ gridB, row.length = c) :
    ∃ A B S D, Matrix.ofGrid gridA p m modulus = .ok A ∧
      Matrix.ofGrid gridB p m modulus = .ok B ∧
      A.add fuel B = .ok S ∧ S.sub fuel B = .ok D ∧ D.eq A = true := by
  obtain ⟨A, hAok, hAF, hAr, hAc, _⟩ := ofGrid_overField modulus hp hm gridA c hA.2
  obtain ⟨B, hBok, hBF, hBr, hBc, _⟩ := ofGrid_overField modulus hp hm gridB c hB.2
  have hr : A.rows = B.rows := by rw [hAr, hBr, hA.1, hB.1]
  have hc : A.cols = B.cols := by
    rw [hAc, hBc]
    cases gridA with
    | nil =>
      cases gridB with
      | nil => rfl
      | cons b bs =>
        have h1 := hA.1
        have h2 := hB.1
        rw [← h1] at h2
        cases h2
    | cons a as =>
      cases gridB with
      | nil =>
        have h1 := hA.1
        have h2 := hB.1
        rw [← h1] at h2
        cases h2
      | cons b bs =>
        show a.length = b.length
        rw [hA.2 a (List.mem_cons_self a as), hB.2 b (List.mem_cons_self b bs)]
  obtain ⟨S, D, hS, hD, heq, _⟩ :=
    matrix_add_sub_cancel fuel hp hle hm (Or.inr hmod) hAF hBF hr hc
  exact ⟨A, B, S, D, hAok, hBok, hS, hD, heq⟩

/-- Witness for C30: two 2 by 2 grids over GF(4) with modulus `x^2 + x + 1`. -/
theorem C30_add_then_sub_witness :
    ∃ A B S D, Matrix.ofGrid [[1, 2], [3, 0]] 2 2 [1, 1, 1] = .ok A ∧
      Matrix.ofGrid [[3, 3], [1, 2]] 2 2 [1, 1, 1] = .ok B ∧
      A.add 5 B = .ok S ∧ S.sub 5 B = .ok D ∧ D.eq A = true :=
  C30_add_then_sub 5 2 2 [1, 1, 1] [[1, 2], [3, 0]] [[3, 3], [1, 2]] 2 2 (by decide)
    (by decide) (by decide) (by decide) (by decide) (by decide)

/-! ## Transposition of a matrix -/

/-- Two nested loops that write `compute i j` into the cell `(j, i)` of a
`c` by `r` matrix. -/
theorem fill_transposed (compute : Nat → Nat → Except Err GFElement) {r c : Nat}
    (hcomp : ∀ i j, i < r → j < c → ∃ e, compute i j = .ok e)
    {M : Matrix} (hM : M.Shaped c r) :
    ∃ M', forRange
        (fun i (R : Matrix) =>
          forRange
            (fun j (R : Matrix) =>
              match compute i j with
              | .error e => .error e
              | .ok s => R.setEntry j i s)
            0 c R)
        0 r M = .ok M' ∧
      M'.Shaped c r ∧ M'.SameHeader M ∧
      ∀ i j, i < r → j < c → M'.getEntry j i = compute i j := by
  obtain ⟨M', hM', hinv⟩ := forRange_inv
    (fun k (N : Matrix) => N.Shaped c r ∧ N.SameHeader M ∧
      ∀ i j, i < k → j < c → N.getEntry j i = compute i j)
    (fun i (R : Matrix) =>
      forRange
        (fun j (R : Matrix) =>
          match compute i j with
          | .error e => .error e
          | .ok s => R.setEntry j i s)
        0 c R)
    r 0 M ⟨hM, ⟨rfl, rfl, rfl, rfl, rfl⟩, fun i j hi _ => absurd hi (Nat.not_lt_zero _)⟩
    (by
      intro k N _ hk hN
      rw [Nat.zero_add] at hk
      obtain ⟨hN1, hN2, hN3⟩ := hN
      obtain ⟨N', hN', hinv'⟩ := forRange_inv
        (fun t (Q : Matrix) => Q.Shaped c r ∧ Q.SameHeader M ∧
          (∀ i j, i < k → j < c → Q.getEntry j i = compute i j) ∧
          ∀ j, j < t → Q.getEntry j k = compute k j)
        (fun j (R : Matrix) =>
          match compute k j with
          | .error e => .error e
          | .ok s => R.setEntry j k s)
        c 0 N ⟨hN1, hN2, hN3, fun j hj => absurd hj (Nat.not_lt_zero _)⟩
        (by
          intro t Q _ ht hQ
          rw [Nat.zero_add] at ht
          obtain ⟨hQ1, hQ2, hQ3, hQ4⟩ := hQ
          obtain ⟨e, he⟩ := hcomp k t hk ht
          obtain ⟨Q', hQ', hS, hH, hget, hother⟩ := setEntry_shaped hQ1 ht hk e
          refine ⟨Q', ?_, hS, sameHeader_trans hH hQ2, ?_, ?_⟩
          · simp only [he]; exact hQ'
          · intro i j hi hj
            rw [hother j i (Or.inr (by omega))]
            exact hQ3 i j hi hj
          · intro j hj
            by_cases hjt : j = t
            · rw [hjt, hget, he]
            · rw [hother j k (Or.inl hjt)]
              exact hQ4 j (by omega))
      rw [Nat.zero_add] at hinv'
      obtain ⟨h1, h2, h3, h4⟩ := hinv'
      refine ⟨N', hN', h1, h2, ?_⟩
      intro i j hi hj
      by_cases hik : i = k
      · rw [hik]; exact h4 j hj
      · exact h3 i j (by omega) hj)
  rw [Nat.zero_add] at hinv
  exact ⟨M', hM', hinv⟩

/-- The `transpose` member on a matrix over a field: the result is returned,
has the shape `cols x rows` and holds at `(j, i)` the cell `(i, j)`. -/
theorem transpose_returns {p m : Nat} {modulus : List Nat} (hp : 2 ≤ p) (hm : 1 ≤ m)
    {A : Matrix} (hA : A.OverField p m modulus) :
    ∃ T, A.transpose = .ok T ∧ T.OverField p m modulus ∧ T.rows = A.cols ∧
      T.cols = A.rows ∧
      ∀ i j, i < A.rows → j < A.cols → T.getEntry j i = A.getEntry i j := by
  obtain ⟨Z, hZ, hZs, hZr, hZc, hZp, hZm, hZmod, _⟩ := new_shaped A.cols A.rows modulus hp hm
  obtain ⟨T, hT, hTs, hTh, hTe⟩ := fill_transposed (fun i j => A.getEntry i j)
    (fun i j hi hj => ⟨_, (overField_getEntry hA hi hj).choose_spec.1⟩) hZs
  have hrows : T.rows = A.cols := hTh.1.trans hZr
  have hcols : T.cols = A.rows := hTh.2.1.trans hZc
  refine ⟨T, ?_, ?_, hrows, hcols, hTe⟩
  · unfold Matrix.transpose
    rw [hA.1, hA.2.1, hA.2.2.1, hZ]
    exact hT
  · apply overField_of_entries (hTh.2.2.1.trans hZp) (hTh.2.2.2.1.trans hZm)
      (hTh.2.2.2.2.trans hZmod)
    · rw [hrows, hcols]; exact hTs
    · intro i j hi hj
      rw [hrows] at hi
      rw [hcols] at hj
      obtain ⟨e, he, heF⟩ := overField_getEntry hA hj hi
      exact ⟨e, by rw [hTe j i hj hi, he], heF⟩

/-- Two loops whose bodies agree on the rounds made are the same loop. -/
theorem forRange_congr {σ : Type} (body body' : Nat → σ → Except Err σ) :
    ∀ (n lo : Nat) (s : σ), (∀ k t, lo ≤ k → k < lo + n → body k t = body' k t) →
      forRange body lo n s = forRange body' lo n s := by
  intro n
  induction n with
  | zero => intro lo s _; rfl
  | succ n ih =>
    intro lo s h
    rw [forRange, forRange, h lo s (le_refl lo) (by omega)]
    cases body' lo s with
    | error e => rfl
    | ok t => exact ih (lo + 1) t (fun k u hk1 hk2 => h k u (by omega) (by omega))

/-- The member `operator==` on two matrices of the same shape whose cells in
range are stored and equal. -/
theorem eq_of_getEntry {M N : Matrix} (hr : M.rows = N.rows) (hc : M.cols = N.cols)
    (h : ∀ i j, i < M.rows → j < M.cols →
      ∃ e, M.getEntry i j = .ok e ∧ N.getEntry i j = .ok e) :
    M.eq N = true := by
  unfold Matrix.eq
  rw [if_neg (by rw [hr, hc]; simp), List.all_eq_true]
  intro i hi
  rw [List.all_eq_true]
  intro j hj
  obtain ⟨e, h1, h2⟩ := h i j (List.mem_range.mp hi) (List.mem_range.mp hj)
  rw [h1, h2]
  exact eq_self e

/-! ## The product of the transposes -/

section TransposeProduct

variable {p : Nat} [hp : Fact p.Prime]

theorem pConv_comm {m : Nat} (g h : Nat → ZMod p) (k : Nat) :
    pConv m m g h k = pConv m m h g k := by
  unfold pConv
  rw [Finset.sum_comm]
  apply Finset.sum_congr rfl
  intro i _
  apply Finset.sum_congr rfl
  intro j _
  rw [Nat.add_comm j i, mul_comm]

/-- In a field with a valid modulus and `p < 2^16` the member `operator*`
gives the same element for both orders of the operands. -/
theorem mul_comm_elem (fuel : Nat) (hlt : p < 65536) {m : Nat} {modulus : List Nat}
    {a b : GFElement} (hm : 1 ≤ m) (hmod : m = 1 ∨ ValidModulus m modulus)
    (ha : a.InField p m modulus) (hb : b.InField p m modulus) :
    ∃ r, a.mul fuel b = .ok r ∧ b.mul fuel a = .ok r ∧ r.InField p m modulus := by
  obtain ⟨r1, h1, hF1, hC1⟩ := field_mul fuel hlt hm hmod ha hb
  obtain ⟨r2, h2, hF2, hC2⟩ := field_mul fuel hlt hm hmod hb ha
  have hcs : r1.coeffs = r2.coeffs :=
    coeffRep_unique hC1 (coeffRep_congr hC2 (fun k _ => pConv_comm _ _ k))
  have heq : r2 = r1 := by
    obtain ⟨p1, m1, mod1, cs1⟩ := r1
    obtain ⟨p2, m2, mod2, cs2⟩ := r2
    obtain ⟨e1, e2, e3, _⟩ := hF1
    obtain ⟨f1, f2, f3, _⟩ := hF2
    dsimp only at e1 e2 e3 f1 f2 f3 hcs
    rw [e1, e2, e3, f1, f2, f3, hcs]
  exact ⟨r1, h1, by rw [← heq]; exact h2, hF1⟩

/-- The accumulation loops of `A * B` at `(i, j)` and of
`B.transpose() * A.transpose()` at `(j, i)` return the same element. -/
theorem mulEntry_transpose (fuel : Nat) (hlt : p < 65536) {m : Nat} {modulus : List Nat}
    (hm : 1 ≤ m) (hmod : m = 1 ∨ ValidModulus m modulus) {A B AT BT : Matrix}
    (hA : A.OverField p m modulus) (hB : B.OverField p m modulus)
    (hk : A.cols = B.rows) (hAT : A.transpose = .ok AT) (hBT : B.transpose = .ok BT)
    {i j : Nat} (hi : i < A.rows) (hj : j < B.cols) :
    Matrix.mulEntry fuel BT AT j i = Matrix.mulEntry fuel A B i j := by
  have hp2 : 2 ≤ p := hp.out.two_le
  obtain ⟨T1, hT1, hT1F, _, _, hT1e⟩ := transpose_returns hp2 hm hA
  obtain ⟨T2, hT2, hT2F, hT2r, hT2c, hT2e⟩ := transpose_returns hp2 hm hB
  rw [hAT] at hT1
  rw [hBT] at hT2
  cases hT1
  cases hT2
  unfold Matrix.mulEntry
  rw [hT2F.1, hT2F.2.1, hT2F.2.2.1, hA.1, hA.2.1, hA.2.2.1, hT2c, ← hk]
  cases GFElement.new p m modulus with
  | error e => rfl
  | ok zero =>
    dsimp only
    apply forRange_congr
    intro t s _ ht
    rw [Nat.zero_add] at ht
    obtain ⟨a, ha, haF⟩ := overField_getEntry hA hi ht
    obtain ⟨b, hb, hbF⟩ := overField_getEntry hB (by omega : t < B.rows) hj
    obtain ⟨r, hab, hba, _⟩ := mul_comm_elem fuel hlt hm hmod haF hbF
    rw [hT2e t j (by omega) hj, hT1e i t hi ht, ha, hb]
    dsimp only
    rw [hab, hba]

end TransposeProduct

/-! ## C31: the transpose of a product -/

/-- C31: for matrices `A` (`r x k`) and `B` (`k x c`) over the same field with
`p` prime, `p < 2^16` and a valid modulus, the matrices `(A * B).transpose()`
and `B.transpose() * A.transpose()` are returned and `operator==` holds
between them. -/
theorem C31_transpose_of_product (fuel p m : Nat) (modulus : List Nat) (A B : Matrix)
    (hp : p.Prime) (hlt : p < 65536) (hm : 1 ≤ m) (hmod : ValidModulus m modulus)
    (hA : A.OverField p m modulus) (hB : B.OverField p m modulus) (hk : A.cols = B.rows) :
    ∃ P PT BT AT Q, A.mul fuel B = .ok P ∧ P.transpose = .ok PT ∧
      B.transpose = .ok BT ∧ A.transpose = .ok AT ∧ BT.mul fuel AT = .ok Q ∧
      PT.eq Q = true := by
  haveI : Fact p.Prime := ⟨hp⟩
  have hp2 : 2 ≤ p := hp.two_le
  obtain ⟨P, hP, hPF, hPr, hPc, hPe⟩ := matrix_mul_returns fuel hp2 hm (Or.inr hmod) hA hB hk
  obtain ⟨PT, hPT, _, hPTr, hPTc, hPTe⟩ := transpose_returns hp2 hm hPF
  obtain ⟨AT, hAT, hATF, hATr, hATc, _⟩ := transpose_returns hp2 hm hA
  obtain ⟨BT, hBT, hBTF, hBTr, hBTc, _⟩ := transpose_returns hp2 hm hB
  obtain ⟨Q, hQ, _, hQr, hQc, hQe⟩ := matrix_mul_returns fuel hp2 hm (Or.inr hmod) hBTF hATF
    (by rw [hBTc, hATr, hk])
  refine ⟨P, PT, BT, AT, Q, hP, hPT, hBT, hAT, hQ, ?_⟩
  apply eq_of_getEntry (by rw [hPTr, hQr, hPc, hBTr]) (by rw [hPTc, hQc, hPr, hATc])
  intro j i hj hi
  rw [hPTr, hPc] at hj
  rw [hPTc, hPr] at hi
  obtain ⟨_, e, _, he, _, _⟩ := mulEntry_sumInOrder fuel hp2 hm (Or.inr hmod) hA hB hk hi hj
  refine ⟨e, ?_, ?_⟩
  · rw [hPTe i j (by rw [hPr]; exact hi) (by rw [hPc]; exact hj), hPe i j hi hj, he]
  · rw [hQe j i (by rw [hBTr]; exact hj) (by rw [hATc]; exact hi),
      mulEntry_transpose fuel hlt hm (Or.inr hmod) hA hB hk hAT hBT hi hj, he]

/-- Witness for C31: a 2 by 2 and a 2 by 3 matrix over GF(4). -/
theorem C31_transpose_of_product_witness :
    ∃ P PT BT AT Q, exampleGF4.mul 4 wideGF4 = .ok P ∧ P.transpose = .ok PT ∧
      wideGF4.transpose = .ok BT ∧ exampleGF4.transpose = .ok AT ∧ BT.mul 4 AT = .ok Q ∧
      PT.eq Q = true :=
  C31_transpose_of_product 4 2 2 [1, 1, 1] exampleGF4 wideGF4 Nat.prime_two (by decide)
    (by decide) (by decide) (by decide) (by decide) (by decide)

/-! ## `polyMul` on operands whose integer product has coefficients below `p` -/

/-- One update `result[t] = (result[t] + x * y) % p` when the sum stays below
`p`: nothing is reduced and nothing wraps. -/
theorem polyMul_update_exact {p : Nat} (hp32 : p ≤ 4294967296) {L : Nat} {res : List Nat}
    {g : Nat → Nat} (hlen : res.length = L) (hg : ∀ k, k < L → res.getD k 0 = g k)
    {x y t : Nat} (ht : t < L) (hb : g t + x * y < p) :
    (res.set t (u32 (res.getD t 0 + u32 (x * y)) % p)).length = L ∧
      ∀ k, k < L →
        (res.set t (u32 (res.getD t 0 + u32 (x * y)) % p)).getD k 0
          = g k + if t = k then x * y else 0 := by
  refine ⟨by rw [List.length_set]; exact hlen, ?_⟩
  intro k hk
  have hxy : u32 (x * y) = x * y := u32_of_lt (by omega)
  have hsum : u32 (res.getD t 0 + x * y) = res.getD t 0 + x * y := by
    rw [hg t ht]
    exact u32_of_lt (by omega)
  by_cases htk : t = k
  · subst htk
    rw [List.getD_eq_getElem _ _ (by rw [List.length_set, hlen]; exact ht), List.getElem_set_self,
      hxy, hsum, if_pos rfl, hg t ht]
    exact Nat.mod_eq_of_lt hb
  · have hget : (res.set t (u32 (res.getD t 0 + u32 (x * y)) % p)).getD k 0 = res.getD k 0 := by
      simp only [List.getD_eq_getElem?_getD, List.getElem?_set_ne htk]
    rw [hget, if_neg htk, Nat.add_zero]
    exact hg k hk

/-- The inner loop of `polyMul` for a fixed `i`, when no sum reaches `p`. -/
theorem polyMul_inner_exact {p : Nat} (hp32 : p ≤ 4294967296) {L : Nat} (a b : List Nat)
    (i : Nat) :
    ∀ (n : Nat) (res : List Nat) (g : Nat → Nat), res.length = L →
      (∀ k, k < L → res.getD k 0 = g k) → n ≤ b.length → i + b.length ≤ L →
      (∀ k, g k + ∑ j in Finset.range b.length,
        (if i + j = k then a.getD i 0 * b.getD j 0 else 0) < p) →
      ((List.range n).foldl
          (fun res j =>
            res.set (i + j) (u32 (res.getD (i + j) 0 + u32 (a.getD i 0 * b.getD j 0)) % p))
          res).length = L ∧
        ∀ k, k < L →
          ((List.range n).foldl
            (fun res j =>
              res.set (i + j) (u32 (res.getD (i + j) 0 + u32 (a.getD i 0 * b.getD j 0)) % p))
            res).getD k 0
            = g k + ∑ j in Finset.range n,
                (if i + j = k then a.getD i 0 * b.getD j 0 else 0) := by
  intro n
  induction n with
  | zero =>
    intro res g hlen hg _ _ _
    simp only [List.range_zero, List.foldl_nil, Finset.range_zero, Finset.sum_empty,
      Nat.add_zero]
    exact ⟨hlen, hg⟩
  | succ n ih =>
    intro res g hlen hg hn hL hbound
    rw [List.range_succ, List.foldl_append]
    simp only [List.foldl_cons, List.foldl_nil]
    obtain ⟨h1, h2⟩ := ih res g hlen hg (by omega) hL hbound
    have hmono : ∑ j in Finset.range (n + 1),
          (if i + j = i + n then a.getD i 0 * b.getD j 0 else 0)
        ≤ ∑ j in Finset.range b.length,
          (if i + j = i + n then a.getD i 0 * b.getD j 0 else 0) :=
      Finset.sum_le_sum_of_subset (Finset.range_subset.mpr hn)
    have hb2 : (g (i + n) + ∑ j in Finset.range n,
          (if i + j = i + n then a.getD i 0 * b.getD j 0 else 0))
        + a.getD i 0 * b.getD n 0 < p := by
      have h3 := hbound (i + n)
      rw [Finset.sum_range_succ, if_pos rfl] at hmono
      omega
    obtain ⟨h4, h5⟩ := polyMul_update_exact hp32 h1 h2 (show i + n < L by omega) hb2
    refine ⟨h4, fun k hk => ?_⟩
    rw [h5 k hk, Finset.sum_range_succ, Nat.add_assoc]

/-- The product computed by `polyMul` when every coefficient of the integer
product of the operands is below `p`: the integer product itself. -/
theorem polyMul_exact {p : Nat} (hp32 : p ≤ 4294967296) (a b : List Nat) (ha0 : 0 < a.length)
    (hb0 : 0 < b.length)
    (hsum : ∀ k, nConv a.length b.length (fun i => a.getD i 0) (fun j => b.getD j 0) k < p) :
    (polyMul p a b).length = a.length + b.length - 1 ∧
      ∀ k, k < a.length + b.length - 1 →
        (polyMul p a b).getD k 0
          = nConv a.length b.length (fun i => a.getD i 0) (fun j => b.getD j 0) k := by
  have hne : ¬ (a = [] ∨ b = []) := by
    rintro (h | h)
    · rw [h] at ha0; exact absurd ha0 (by simp)
    · rw [h] at hb0; exact absurd hb0 (by simp)
  have houter : ∀ n, n ≤ a.length →
      ((List.range n).foldl
          (fun res i =>
            (List.range b.length).foldl
              (fun res j =>
                res.set (i + j)
                  (u32 (res.getD (i + j) 0 + u32 (a.getD i 0 * b.getD j 0)) % p))
              res)
          (List.replicate (a.length + b.length - 1) 0)).length = a.length + b.length - 1 ∧
        ∀ k, k < a.length + b.length - 1 →
          ((List.range n).foldl
            (fun res i =>
              (List.range b.length).foldl
                (fun res j =>
                  res.set (i + j)
                    (u32 (res.getD (i + j) 0 + u32 (a.getD i 0 * b.getD j 0)) % p))
                res)
            (List.replicate (a.length + b.length - 1) 0)).getD k 0
            = nConv n b.length (fun i => a.getD i 0) (fun j => b.getD j 0) k := by
    intro n
    induction n with
    | zero =>
      intro _
      simp only [List.range_zero, List.foldl_nil]
      refine ⟨List.length_replicate _ _, fun k hk => ?_⟩
      rw [List.getD_eq_getElem _ _ (by rw [List.length_replicate]; exact hk)]
      simp [nConv]
    | succ n ih =>
      intro hn
      rw [List.range_succ, List.foldl_append]
      simp only [List.foldl_cons, List.foldl_nil]
      obtain ⟨h1, h2⟩ := ih (by omega)
      have hbound : ∀ k, nConv n b.length (fun i => a.getD i 0) (fun j => b.getD j 0) k
          + ∑ j in Finset.range b.length,
            (if n + j = k then a.getD n 0 * b.getD j 0 else 0) < p := by
        intro k
        have h3 : nConv (n + 1) b.length (fun i => a.getD i 0) (fun j => b.getD j 0) k
            ≤ nConv a.length b.length (fun i => a.getD i 0) (fun j => b.getD j 0) k :=
          Finset.sum_le_sum_of_subset (Finset.range_subset.mpr hn)
        have h4 := hsum k
        unfold nConv at h3 h4 ⊢
        rw [Finset.sum_range_succ] at h3
        dsimp only at h3 h4 ⊢
        omega
      obtain ⟨h5, h6⟩ := polyMul_inner_exact hp32 a b n b.length _ _ h1 h2 (Nat.le_refl _)
        (by omega) hbound
      refine ⟨h5, fun k hk => ?_⟩
      rw [h6 k hk]
      unfold nConv
      rw [Finset.sum_range_succ]
  unfold polyMul
  rw [if_neg hne]
  exact houter a.length (Nat.le_refl _)

/-! ## Products and sums with the zero and the one of a field -/

/-- The member `operator*` on two elements of a field with a valid modulus
whose integer product has all coefficients below `p`: the first `m`
coefficients of that product. -/
theorem mul_exact (fuel : Nat) {p m : Nat} {modulus : List Nat} {a b : GFElement}
    (hp : 2 ≤ p) (hp32 : p ≤ 4294967296) (hm : 1 ≤ m)
    (hmod : m = 1 ∨ ValidModulus m modulus)
    (ha : a.InField p m modulus) (hb : b.InField p m modulus)
    (hsum : ∀ k, nConv m m (fun i => a.coeffs.getD i 0) (fun j => b.coeffs.getD j 0) k < p) :
    a.mul fuel b =
      .ok { p := p, m := m, modulus := modulus,
            coeffs := (List.range m).map
              (nConv m m (fun i => a.coeffs.getD i 0) (fun j => b.coeffs.getD j 0)) } := by
  obtain ⟨ha1, ha2, ha3, ha4, _⟩ := ha
  obtain ⟨hb1, hb2, _, hb4, _⟩ := hb
  rw [ha2] at ha4
  rw [hb2] at hb4
  have hex := polyMul_exact hp32 a.coeffs b.coeffs (by omega) (by omega)
    (by rw [ha4, hb4]; exact hsum)
  rw [ha4, hb4] at hex
  obtain ⟨hlen, hget⟩ := hex
  unfold GFElement.mul
  rw [if_neg (by rw [ha1, ha2, hb1, hb2]; simp), ha1, ha2, ha3,
    ofCoeffs_field fuel _ modulus hp hm hmod]
  have hcs : ((polyMul p a.coeffs b.coeffs).take m).map (fun c => c % p)
        ++ List.replicate (m - (polyMul p a.coeffs b.coeffs).length) 0
      = (List.range m).map
          (nConv m m (fun i => a.coeffs.getD i 0) (fun j => b.coeffs.getD j 0)) := by
    have h0 : m - (polyMul p a.coeffs b.coeffs).length = 0 := by omega
    rw [h0, List.replicate_zero, List.append_nil]
    apply List.ext_getElem
    · rw [List.length_map, List.length_take, List.length_map, List.length_range, hlen]
      omega
    · intro k h1 h2
      rw [List.length_map, List.length_range] at h2
      have hk : k < (polyMul p a.coeffs b.coeffs).length := by omega
      rw [List.getElem_map, List.getElem_take, List.getElem_map, List.getElem_range,
        ← List.getD_eq_getElem _ 0 hk, hget k (by omega)]
      exact Nat.mod_eq_of_lt (hsum k)
  rw [hcs]

theorem nConv_one_left {m : Nat} (hm : 1 ≤ m) (b : Nat → Nat) (k : Nat) :
    nConv m m (fun i => if i = 0 then 1 else 0) b k = if k < m then b k else 0 := by
  unfold nConv
  rw [Finset.sum_eq_single 0]
  · simp only [if_true, Nat.zero_add, Nat.one_mul]
    rw [Finset.sum_ite_eq']
    simp only [Finset.mem_range]
  · intro i _ hi
    apply Finset.sum_eq_zero
    intro j _
    simp [hi]
  · intro h
    exact absurd (Finset.mem_range.mpr (by omega)) h

theorem nConv_one_right {m : Nat} (hm : 1 ≤ m) (a : Nat → Nat) (k : Nat) :
    nConv m m a (fun j => if j = 0 then 1 else 0) k = if k < m then a k else 0 := by
  unfold nConv
  have hinner : ∀ i, ∑ j in Finset.range m,
      (if i + j = k then a i * (if j = 0 then 1 else 0) else 0)
      = if i = k then a i else 0 := by
    intro i
    rw [Finset.sum_eq_single 0]
    · simp
    · intro j _ hj
      simp [hj]
    · intro h
      exact absurd (Finset.mem_range.mpr (by omega)) h
  simp only [hinner]
  rw [Finset.sum_ite_eq']
  simp only [Finset.mem_range]

theorem nConv_zero_left {m : Nat} (b : Nat → Nat) (k : Nat) :
    nConv m m (fun _ => 0) b k = 0 := by
  unfold nConv
  simp

theorem nConv_zero_right {m : Nat} (a : Nat → Nat) (k : Nat) :
    nConv m m a (fun _ => 0) k = 0 := by
  unfold nConv
  simp

theorem digits_zero (p : Nat) : ∀ n, GFElement.digits p n 0 = List.replicate n 0 := by
  intro n
  cases n with
  | zero => rfl
  | succ n => rfl

/-- The element built by `GFElement(1, p, m, modulus)`: coefficient 0 is one,
the others are zero. -/
theorem ofValue_one {p m : Nat} (modulus : List Nat) (hp : 2 ≤ p) (hm : 1 ≤ m) :
    GFElement.ofValue 1 p m modulus =
      .ok { p := p, m := m, modulus := modulus, coeffs := 1 :: List.replicate (m - 1) 0 } := by
  rw [ofValue_returns modulus hp hm]
  have h1 : 1 % p = 1 := Nat.mod_eq_of_lt (by omega)
  by_cases hm1 : m = 1
  · rw [if_pos hm1, h1, hm1]
    rfl
  · rw [if_neg hm1]
    obtain ⟨n, rfl⟩ : ∃ n, m = n + 1 := ⟨m - 1, by omega⟩
    have h2 : 1 / p = 0 := Nat.div_eq_of_lt (by omega)
    rw [GFElement.digits, if_pos (by omega), h1, h2, digits_zero]
    rfl

theorem getD_one_coeffs (n i : Nat) :
    (1 :: List.replicate n 0).getD i 0 = if i = 0 then 1 else 0 := by
  cases i with
  | zero => rfl
  | succ i =>
    rw [if_neg (by omega)]
    simp only [List.getD_eq_getElem?_getD, List.getElem?_cons_succ, List.getElem?_replicate]
    split <;> rfl

theorem getD_zero_coeffs (n i : Nat) : (List.replicate n 0).getD i 0 = 0 := by
  simp only [List.getD_eq_getElem?_getD, List.getElem?_replicate]
  split <;> rfl

section UnitElements

variable {p m : Nat} {modulus : List Nat}

theorem one_inField (hp : 2 ≤ p) (hm : 1 ≤ m) :
    GFElement.InField p m modulus
      { p := p, m := m, modulus := modulus, coeffs := 1 :: List.replicate (m - 1) 0 } := by
  refine ⟨rfl, rfl, rfl, ?_, ?_⟩
  · show (1 :: List.replicate (m - 1) 0).length = m
    rw [List.length_cons, List.length_replicate]
    omega
  · intro c hc
    show c < p
    rcases List.mem_cons.mp hc with h | h
    · omega
    · rw [(List.mem_replicate.mp h).2]; omega

theorem zero_inField (hp : 2 ≤ p) :
    GFElement.InField p m modulus
      { p := p, m := m, modulus := modulus, coeffs := List.replicate m 0 } := by
  refine ⟨rfl, rfl, rfl, by simp [GFElement.Canonical], ?_⟩
  intro c hc
  show c < p
  rw [(List.mem_replicate.mp hc).2]
  omega

theorem inField_eta {a : GFElement} (ha : a.InField p m modulus) :
    ({ p := p, m := m, modulus := modulus, coeffs := a.coeffs } : GFElement) = a := by
  obtain ⟨h1, h2, h3, _⟩ := ha
  cases a
  cases h1
  cases h2
  cases h3
  rfl

theorem range_map_getD {cs : List Nat} (h : cs.length = m) (f : Nat → Nat)
    (hf : ∀ k, k < m → f k = cs.getD k 0) : (List.range m).map f = cs := by
  apply List.ext_getElem
  · rw [List.length_map, List.length_range, h]
  · intro k h1 h2
    rw [List.getElem_map, List.getElem_range, hf k (by rw [← h]; exact h2),
      List.getD_eq_getElem _ _ h2]

/-- The one of the field is a two-sided unit of `operator*`, for every
characteristic that fits in 32 bits. -/
theorem one_mul_elem (fuel : Nat) (hp : 2 ≤ p) (hp32 : p ≤ 4294967296) (hm : 1 ≤ m)
    (hmod : m = 1 ∨ ValidModulus m modulus) {a : GFElement} (ha : a.InField p m modulus) :
    GFElement.mul fuel
        { p := p, m := m, modulus := modulus, coeffs := 1 :: List.replicate (m - 1) 0 } a
        = .ok a ∧
      a.mul fuel
        { p := p, m := m, modulus := modulus, coeffs := 1 :: List.replicate (m - 1) 0 }
        = .ok a := by
  have hlen : a.coeffs.length = m := by rw [ha.2.2.2.1, ha.2.1]
  have hlt : ∀ k, k < m → a.coeffs.getD k 0 < p := by
    intro k hk
    rw [← ha.1]
    exact getD_lt_of_canonical ha.2.2.2 (by rw [ha.2.1]; exact hk)
  have hone : (fun i => (1 :: List.replicate (m - 1) 0).getD i 0)
      = fun i => if i = 0 then 1 else 0 := funext (getD_one_coeffs (m - 1))
  have hval : ∀ k, (if k < m then a.coeffs.getD k 0 else 0) < p := by
    intro k
    by_cases hk : k < m
    · rw [if_pos hk]; exact hlt k hk
    · rw [if_neg hk]; omega
  constructor
  · rw [mul_exact fuel hp hp32 hm hmod (one_inField hp hm) ha
      (by dsimp only; rw [hone]; intro k; rw [nConv_one_left hm]; exact hval k)]
    dsimp only
    rw [hone, range_map_getD hlen _ (fun k hk => by rw [nConv_one_left hm, if_pos hk])]
    exact congrArg Except.ok (inField_eta ha)
  · rw [mul_exact fuel hp hp32 hm hmod ha (one_inField hp hm)
      (by dsimp only; rw [hone]; intro k; rw [nConv_one_right hm]; exact hval k)]
    dsimp only
    rw [hone, range_map_getD hlen _ (fun k hk => by rw [nConv_one_right hm, if_pos hk])]
    exact congrArg Except.ok (inField_eta ha)

/-- A product with the zero of the field is that zero. -/
theorem zero_mul_elem (fuel : Nat) (hp : 2 ≤ p) (hp32 : p ≤ 4294967296) (hm : 1 ≤ m)
    (hmod : m = 1 ∨ ValidModulus m modulus) {a : GFElement} (ha : a.InField p m modulus) :
    GFElement.mul fuel
        { p := p, m := m, modulus := modulus, coeffs := List.replicate m 0 } a
        = .ok { p := p, m := m, modulus := modulus, coeffs := List.replicate m 0 } ∧
      a.mul fuel { p := p, m := m, modulus := modulus, coeffs := List.replicate m 0 }
        = .ok { p := p, m := m, modulus := modulus, coeffs := List.replicate m 0 } := by
  have hzero : (fun i => (List.replicate m 0).getD i 0) = fun _ => 0 :=
    funext (getD_zero_coeffs m)
  have hcs : ∀ f : Nat → Nat, (∀ k, f k = 0) → (List.range m).map f = List.replicate m 0 := by
    intro f hf
    apply range_map_getD (List.length_replicate _ _)
    intro k _
    rw [hf k, getD_zero_coeffs]
  constructor
  · rw [mul_exact fuel hp hp32 hm hmod (zero_inField hp) ha
      (by dsimp only; rw [hzero]; intro k; rw [nConv_zero_left]; omega)]
    dsimp only
    rw [hzero, hcs _ (fun k => nConv_zero_left _ k)]
  · rw [mul_exact fuel hp hp32 hm hmod ha (zero_inField hp)
      (by dsimp only; rw [hzero]; intro k; rw [nConv_zero_right]; omega)]
    dsimp only
    rw [hzero, hcs _ (fun k => nConv_zero_right _ k)]

/-- The zero of the field is a two-sided unit of `operator+`. -/
theorem add_zero_elem (fuel : Nat) (hp : 2 ≤ p) (hp32 : p ≤ 4294967296) (hm : 1 ≤ m)
    (hmod : m = 1 ∨ ValidModulus m modulus) {a : GFElement} (ha : a.InField p m modulus) :
    a.add fuel { p := p, m := m, modulus := modulus, coeffs := List.replicate m 0 } = .ok a ∧
      GFElement.add fuel
        { p := p, m := m, modulus := modulus, coeffs := List.replicate m 0 } a = .ok a := by
  have hlen : a.coeffs.length = m := by rw [ha.2.2.2.1, ha.2.1]
  have hlt : ∀ k, k < m → a.coeffs.getD k 0 < p := by
    intro k hk
    rw [← ha.1]
    exact getD_lt_of_canonical ha.2.2.2 (by rw [ha.2.1]; exact hk)
  have hmem : ∀ c ∈ a.coeffs, c < p := by
    intro c hc
    rw [← ha.1]
    exact ha.2.2.2.2 c hc
  have hword : ∀ k, k < m → u32 (a.coeffs.getD k 0) % p = a.coeffs.getD k 0 := by
    intro k hk
    rw [u32_of_lt (by have := hlt k hk; omega)]
    exact Nat.mod_eq_of_lt (hlt k hk)
  constructor
  · unfold GFElement.add
    rw [if_neg (by rw [ha.1, ha.2.1]; simp), ha.1, ha.2.1, ha.2.2.1]
    dsimp only
    rw [range_map_getD hlen _ (fun k hk => by rw [getD_zero_coeffs, Nat.add_zero, hword k hk]),
      ofCoeffs_field_canonical fuel _ modulus hp hm hmod hlen hmem]
    exact congrArg Except.ok (inField_eta ha)
  · unfold GFElement.add
    dsimp only
    rw [if_neg (by rw [ha.1, ha.2.1]; simp)]
    rw [range_map_getD hlen _ (fun k hk => by rw [getD_zero_coeffs, Nat.zero_add, hword k hk]),
      ofCoeffs_field_canonical fuel _ modulus hp hm hmod hlen hmem]
    exact congrArg Except.ok (inField_eta ha)

end UnitElements

/-! ## The identity matrix over any field, and products with it -/

section IdentityProducts

variable {p m : Nat}

/-- The static member `Matrix::identity` over the field `(p, m, modulus)`:
ones on the diagonal, zeros elsewhere. -/
theorem identity_returns (n : Nat) (modulus : List Nat) (hp : 2 ≤ p) (hm : 1 ≤ m) :
    ∃ I, Matrix.identity n p m modulus = .ok I ∧ I.OverField p m modulus ∧ I.rows = n ∧
      I.cols = n ∧
      ∀ i j, i < n → j < n →
        I.getEntry i j = .ok (if i = j then
            { p := p, m := m, modulus := modulus, coeffs := 1 :: List.replicate (m - 1) 0 }
          else { p := p, m := m, modulus := modulus, coeffs := List.replicate m 0 }) := by
  obtain ⟨Z, hZ, hZs, hZr, hZc, hZp, hZm, hZmod, hZe⟩ := new_shaped n n modulus hp hm
  have hZget : ∀ i j, i < n → j < n →
      Z.getEntry i j = .ok { p := p, m := m, modulus := modulus, coeffs := List.replicate m 0 } := by
    intro i j hi hj
    obtain ⟨e, he⟩ := shaped_getEntry hZs hi hj
    obtain ⟨row, hrow, hj2⟩ := getEntry_ok_iff.mp he
    rw [he, hZe row (List.getElem?_mem hrow) e (List.getElem?_mem hj2)]
  obtain ⟨I, hI, hIs, hIh, hIe⟩ := forRange_inv
    (fun k (M : Matrix) => M.Shaped n n ∧ M.SameHeader Z ∧
      ∀ i j, i < n → j < n →
        M.getEntry i j = .ok (if i = j ∧ i < k then
            { p := p, m := m, modulus := modulus, coeffs := 1 :: List.replicate (m - 1) 0 }
          else { p := p, m := m, modulus := modulus, coeffs := List.replicate m 0 }))
    (fun i (M : Matrix) =>
        match GFElement.ofValue 1 p m modulus with
        | .error e => .error e
        | .ok one => M.setEntry i i one)
    n 0 Z
    ⟨hZs, ⟨rfl, rfl, rfl, rfl, rfl⟩, fun i j hi hj => by
      rw [if_neg (by omega)]; exact hZget i j hi hj⟩
    (by
      intro k M _ hk hM
      rw [Nat.zero_add] at hk
      obtain ⟨hM1, hM2, hM3⟩ := hM
      obtain ⟨M', hM', hS, hH, hget, hother⟩ := setEntry_shaped hM1 hk hk
        { p := p, m := m, modulus := modulus, coeffs := 1 :: List.replicate (m - 1) 0 }
      refine ⟨M', ?_, hS, sameHeader_trans hH hM2, ?_⟩
      · simp only [ofValue_one modulus hp hm]
        exact hM'
      · intro i j hi hj
        by_cases hik : i = k ∧ j = k
        · rw [hik.1, hik.2, hget, if_pos ⟨rfl, by omega⟩]
        · rw [hother i j (by
            by_cases h1 : i = k
            · exact Or.inr (fun h2 => hik ⟨h1, h2⟩)
            · exact Or.inl h1), hM3 i j hi hj]
          by_cases hij : i = j
          · have hne : i ≠ k := fun h => hik ⟨h, hij ▸ h⟩
            by_cases hlt : i < k
            · rw [if_pos ⟨hij, hlt⟩, if_pos ⟨hij, by omega⟩]
            · rw [if_neg (fun h => hlt h.2), if_neg (fun h => by omega)]
          · rw [if_neg (fun h => hij h.1), if_neg (fun h => hij h.1)])
  rw [Nat.zero_add] at hIe
  have hrows : I.rows = n := hIh.1.trans hZr
  have hcols : I.cols = n := hIh.2.1.trans hZc
  have hentries : ∀ i j, i < n → j < n →
      I.getEntry i j = .ok (if i = j then
          { p := p, m := m, modulus := modulus, coeffs := 1 :: List.replicate (m - 1) 0 }
        else { p := p, m := m, modulus := modulus, coeffs := List.replicate m 0 }) := by
    intro i j hi hj
    rw [hIe i j hi hj]
    by_cases hij : i = j
    · rw [if_pos ⟨hij, hi⟩, if_pos hij]
    · rw [if_neg (fun h => hij h.1), if_neg hij]
  refine ⟨I, ?_, ?_, hrows, hcols, hentries⟩
  · unfold Matrix.identity
    rw [hZ]
    exact hI
  · apply overField_of_entries (hIh.2.2.1.trans hZp) (hIh.2.2.2.1.trans hZm)
      (hIh.2.2.2.2.trans hZmod)
    · rw [hrows, hcols]; exact hIs
    · intro i j hi hj
      rw [hrows] at hi
      rw [hcols] at hj
      refine ⟨_, hentries i j hi hj, ?_⟩
      by_cases hij : i = j
      · rw [if_pos hij]; exact one_inField hp hm
      · rw [if_neg hij]; exact zero_inField hp

end IdentityProducts

section IdentityUnit

variable {p m : Nat} {modulus : List Nat}

/-- The accumulation loop of `identity(r) * A` at `(i, j)` returns the cell
`(i, j)` of `A`. -/
theorem mulEntry_identity_left (fuel : Nat) (hp : 2 ≤ p) (hp32 : p ≤ 4294967296)
    (hm : 1 ≤ m) (hmod : m = 1 ∨ ValidModulus m modulus) {A I : Matrix}
    (hA : A.OverField p m modulus) (hI : Matrix.identity A.rows p m modulus = .ok I)
    {i j : Nat} (hi : i < A.rows) (hj : j < A.cols) :
    Matrix.mulEntry fuel I A i j = A.getEntry i j := by
  obtain ⟨I', hI', hIF, _, hIc, hIe⟩ := identity_returns A.rows modulus hp hm
  rw [hI] at hI'
  cases hI'
  obtain ⟨a, ha, haF⟩ := overField_getEntry hA hi hj
  obtain ⟨z, hz, _, hzeq⟩ := new_inField modulus hp hm
  have hloop := forRange_inv
    (fun k (s : GFElement) => s = if i < k then a else z)
    (fun k (sum : GFElement) =>
        match I.getEntry i k with
        | .error e => .error e
        | .ok x =>
          match A.getEntry k j with
          | .error e => .error e
          | .ok b =>
            match x.mul fuel b with
            | .error e => .error e
            | .ok xb => sum.add fuel xb)
    A.rows 0 z (by dsimp only; rw [if_neg (by omega)])
    (by
      intro k t _ hk2 ht
      rw [Nat.zero_add] at hk2
      obtain ⟨b, hb, hbF⟩ := overField_getEntry hA hk2 hj
      by_cases hik : i = k
      · subst hik
        rw [if_neg (by omega)] at ht
        refine ⟨a, ?_, by dsimp only; rw [if_pos (by omega)]⟩
        rw [ha] at hb
        cases hb
        dsimp only
        rw [hIe i i hi hi, if_pos rfl, ha]
        dsimp only
        rw [(one_mul_elem fuel hp hp32 hm hmod haF).1, ht, hzeq]
        exact (add_zero_elem fuel hp hp32 hm hmod haF).2
      · have htF : t.InField p m modulus := by
          rw [ht]
          by_cases hlt : i < k
          · rw [if_pos hlt]; exact haF
          · rw [if_neg hlt, hzeq]; exact zero_inField hp
        refine ⟨t, ?_, ?_⟩
        · dsimp only
          rw [hIe i k hi hk2, if_neg hik, hb]
          dsimp only
          rw [(zero_mul_elem fuel hp hp32 hm hmod hbF).1]
          exact (add_zero_elem fuel hp hp32 hm hmod htF).1
        · dsimp only
          rw [ht]
          by_cases hlt : i < k
          · rw [if_pos hlt, if_pos (by omega)]
          · rw [if_neg hlt, if_neg (by omega)])
  obtain ⟨e, he, hinv⟩ := hloop
  rw [Nat.zero_add, if_pos hi] at hinv
  unfold Matrix.mulEntry
  rw [hIF.1, hIF.2.1, hIF.2.2.1, hz, hIc, ha, ← hinv]
  exact he

/-- The accumulation loop of `A * identity(c)` at `(i, j)` returns the cell
`(i, j)` of `A`. -/
theorem mulEntry_identity_right (fuel : Nat) (hp : 2 ≤ p) (hp32 : p ≤ 4294967296)
    (hm : 1 ≤ m) (hmod : m = 1 ∨ ValidModulus m modulus) {A I : Matrix}
    (hA : A.OverField p m modulus) (hI : Matrix.identity A.cols p m modulus = .ok I)
    {i j : Nat} (hi : i < A.rows) (hj : j < A.cols) :
    Matrix.mulEntry fuel A I i j = A.getEntry i j := by
  obtain ⟨I', hI', _, _, _, hIe⟩ := identity_returns A.cols modulus hp hm
  rw [hI] at hI'
  cases hI'
  obtain ⟨a, ha, haF⟩ := overField_getEntry hA hi hj
  obtain ⟨z, hz, _, hzeq⟩ := new_inField modulus hp hm
  have hloop := forRange_inv
    (fun k (s : GFElement) => s = if j < k then a else z)
    (fun k (sum : GFElement) =>
        match A.getEntry i k with
        | .error e => .error e
        | .ok b =>
          match I.getEntry k j with
          | .error e => .error e
          | .ok x =>
            match b.mul fuel x with
            | .error e => .error e
            | .ok bx => sum.add fuel bx)
    A.cols 0 z (by dsimp only; rw [if_neg (by omega)])
    (by
      intro k t _ hk2 ht
      rw [Nat.zero_add] at hk2
      obtain ⟨b, hb, hbF⟩ := overField_getEntry hA hi hk2
      by_cases hjk : k = j
      · subst hjk
        rw [if_neg (by omega)] at ht
        refine ⟨a, ?_, by dsimp only; rw [if_pos (by omega)]⟩
        rw [ha] at hb
        cases hb
        dsimp only
        rw [ha, hIe k k hj hj, if_pos rfl]
        dsimp only
        rw [(one_mul_elem fuel hp hp32 hm hmod haF).2, ht, hzeq]
        exact (add_zero_elem fuel hp hp32 hm hmod haF).2
      · have htF : t.InField p m modulus := by
          rw [ht]
          by_cases hlt : j < k
          · rw [if_pos hlt]; exact haF
          · rw [if_neg hlt, hzeq]; exact zero_inField hp
        refine ⟨t, ?_, ?_⟩
        · dsimp only
          rw [hb, hIe k j hk2 hj, if_neg hjk]
          dsimp only
          rw [(zero_mul_elem fuel hp hp32 hm hmod hbF).2]
          exact (add_zero_elem fuel hp hp32 hm hmod htF).1
        · dsimp only
          rw [ht]
          by_cases hlt : j < k
          · rw [if_pos hlt, if_pos (by omega)]
          · rw [if_neg hlt, if_neg (by omega)])
  obtain ⟨e, he, hinv⟩ := hloop
  rw [Nat.zero_add, if_pos hj] at hinv
  unfold Matrix.mulEntry
  rw [hA.1, hA.2.1, hA.2.2.1, hz, ha, ← hinv]
  exact he

/-- For a matrix `A` over a field with a valid modulus, `identity(rows) * A`
and `A * identity(cols)` are returned and `operator==` holds between each of
them and `A`. -/
theorem identity_mul_returns (fuel : Nat) (hp : 2 ≤ p) (hp32 : p ≤ 4294967296)
    (hm : 1 ≤ m) (hmod : m = 1 ∨ ValidModulus m modulus) {A : Matrix}
    (hA : A.OverField p m modulus) :
    ∃ Ir Ic L R, Matrix.identity A.rows p m modulus = .ok Ir ∧
      Matrix.identity A.cols p m modulus = .ok Ic ∧
      Ir.mul fuel A = .ok L ∧ L.eq A = true ∧ A.mul fuel Ic = .ok R ∧ R.eq A = true := by
  obtain ⟨Ir, hIr, hIrF, hIrr, hIrc, _⟩ := identity_returns A.rows modulus hp hm
  obtain ⟨Ic, hIc, hIcF, hIcr, hIcc, _⟩ := identity_returns A.cols modulus hp hm
  obtain ⟨L, hL, _, hLr, hLc, hLe⟩ := matrix_mul_returns fuel hp hm hmod hIrF hA hIrc
  obtain ⟨R, hR, _, hRr, hRc, hRe⟩ := matrix_mul_returns fuel hp hm hmod hA hIcF hIcr.symm
  refine ⟨Ir, Ic, L, R, hIr, hIc, hL, ?_, hR, ?_⟩
  · apply eq_of_getEntry (hLr.trans hIrr) hLc
    intro i j hi hj
    rw [hLr, hIrr] at hi
    rw [hLc] at hj
    obtain ⟨a, ha, _⟩ := overField_getEntry hA hi hj
    refine ⟨a, ?_, ha⟩
    rw [hLe i j (by rw [hIrr]; exact hi) hj,
      mulEntry_identity_left fuel hp hp32 hm hmod hA hIr hi hj, ha]
  · apply eq_of_getEntry hRr (hRc.trans hIcc)
    intro i j hi hj
    rw [hRr] at hi
    rw [hRc, hIcc] at hj
    obtain ⟨a, ha, _⟩ := overField_getEntry hA hi hj
    refine ⟨a, ?_, ha⟩
    rw [hRe i j hi (by rw [hIcc]; exact hj),
      mulEntry_identity_right fuel hp hp32 hm hmod hA hIc hi hj, ha]

end IdentityUnit

/-! ## C32: the identity matrix is a two-sided unit -/

/-- C32: for every matrix `A` built from a rectangular integer grid over a
field with a valid modulus (`p >= 2` a 32-bit value, `m >= 1`), the identity
matrices of sizes `A.rows()` and `A.cols()` over that field, the products
`identity(rows) * A` and `A * identity(cols)` are returned, and `operator==`
holds between each product and `A`. -/
theorem C32_identity_is_unit (fuel p m : Nat) (modulus : List Nat) (grid : List (List Nat))
    (c : Nat) (hp : 2 ≤ p) (hp32 : p < 4294967296) (hm : 1 ≤ m)
    (hmod : ValidModulus m modulus) (hrect : ∀ row ∈ grid, row.length = c) :
    ∃ A Ir Ic L R, Matrix.ofGrid grid p m modulus = .ok A ∧
      A.rows = grid.length ∧ (grid ≠ [] → A.cols = c) ∧
      Matrix.identity A.rows p m modulus = .ok Ir ∧
      Matrix.identity A.cols p m modulus = .ok Ic ∧
      Ir.mul fuel A = .ok L ∧ L.eq A = true ∧ A.mul fuel Ic = .ok R ∧ R.eq A = true := by
  obtain ⟨A, hA, hAF, hAr, hAc, _⟩ := ofGrid_overField modulus hp hm grid c hrect
  obtain ⟨Ir, Ic, L, R, h1, h2, h3, h4, h5, h6⟩ :=
    identity_mul_returns fuel hp (Nat.le_of_lt hp32) hm (Or.inr hmod) hAF
  refine ⟨A, Ir, Ic, L, R, hA, hAr, ?_, h1, h2, h3, h4, h5, h6⟩
  intro hne
  rw [hAc]
  cases grid with
  | nil => exact absurd rfl hne
  | cons r0 rs => exact hrect r0 (List.mem_cons_self r0 rs)

/-- Witness for C32: the grid `{{1, 2, 3}, {3, 0, 1}}` over GF(4). -/
theorem C32_identity_is_unit_witness :
    ∃ A Ir Ic L R, Matrix.ofGrid [[1, 2, 3], [3, 0, 1]] 2 2 [1, 1, 1] = .ok A ∧
      A.rows = [[1, 2, 3], [3, 0, 1]].length ∧ ([[1, 2, 3], [3, 0, 1]] ≠ [] → A.cols = 3) ∧
      Matrix.identity A.rows 2 2 [1, 1, 1] = .ok Ir ∧
      Matrix.identity A.cols 2 2 [1, 1, 1] = .ok Ic ∧
      Ir.mul 3 A = .ok L ∧ L.eq A = true ∧ A.mul 3 Ic = .ok R ∧ R.eq A = true :=
  C32_identity_is_unit 3 2 2 [1, 1, 1] [[1, 2, 3], [3, 0, 1]] 3 (by decide) (by decide)
    (by decide) (by decide) (by decide)

/-! ## The effect and the frame of `addRow` -/

theorem forRangeState_ok {σ : Type} (body : Nat → σ → Except Err σ) :
    ∀ (n lo : Nat) (s s' : σ), forRange body lo n s = .ok s' →
      forRangeState body lo n s = (s', none) := by
  intro n
  induction n with
  | zero =>
    intro lo s s' h
    rw [forRange] at h
    cases h
    rfl
  | succ n ih =>
    intro lo s s' h
    rw [forRange] at h
    rw [forRangeState]
    cases hb : body lo s with
    | error e => rw [hb] at h; cases h
    | ok t =>
      rw [hb] at h
      exact ih (lo + 1) t s' h

/-- The write `data_[a][b] = e` leaves the other stored rows as they are. -/
theorem setEntry_rows {M M' : Matrix} {a b : Nat} {e : GFElement}
    (h : M.setEntry a b e = .ok M') : ∀ i, i ≠ a → M'.data[i]? = M.data[i]? := by
  intro i hi
  unfold Matrix.setEntry at h
  cases hrow : M.data[a]? with
  | none => rw [hrow] at h; cases h
  | some row =>
    rw [hrow] at h
    dsimp only at h
    split at h
    · cases h
      exact List.getElem?_set_ne (fun hh => hi hh.symm)
    · cases h

theorem getEntry_of_row {M N : Matrix} {i : Nat} (h : M.data[i]? = N.data[i]?) (j : Nat) :
    M.getEntry i j = N.getEntry i j := by
  unfold Matrix.getEntry
  rw [h]

section AddRow

variable {p m : Nat} {modulus : List Nat}

/-- The member `addRow(dest, src, s)` with both indices in range, on a matrix
over a field with a valid modulus and a scalar of that field: the call
returns, each cell `(dest, j)` holds `A(dest, j) + A(src, j) * s`, and the
other stored rows, the shape and the field descriptor are those of `A`. -/
theorem addRow_effect (fuel : Nat) (hp : 2 ≤ p) (hm : 1 ≤ m)
    (hmod : m = 1 ∨ ValidModulus m modulus) {A : Matrix} (hA : A.OverField p m modulus)
    {s : GFElement} (hs : s.InField p m modulus) {dest src : Nat} (hd : dest < A.rows)
    (hsrc : src < A.rows) :
    ∃ B, A.addRow fuel dest src s = .ok B ∧ A.addRowInPlace fuel dest src s = (B, none) ∧
      B.Shaped A.rows A.cols ∧ B.SameHeader A ∧
      (∀ i, i ≠ dest → B.data[i]? = A.data[i]?) ∧
      ∀ j, j < A.cols → ∃ d x xs y, A.getEntry dest j = .ok d ∧ A.getEntry src j = .ok x ∧
        x.mul fuel s = .ok xs ∧ d.add fuel xs = .ok y ∧ y.InField p m modulus ∧
        B.getEntry dest j = .ok y := by
  have hloop := forRange_inv
    (fun t (M : Matrix) => M.Shaped A.rows A.cols ∧ M.SameHeader A ∧
      (∀ i, i ≠ dest → M.data[i]? = A.data[i]?) ∧
      (∀ k, t ≤ k → M.getEntry dest k = A.getEntry dest k) ∧
      ∀ k, k < t → ∃ d x xs y, A.getEntry dest k = .ok d ∧ A.getEntry src k = .ok x ∧
        x.mul fuel s = .ok xs ∧ d.add fuel xs = .ok y ∧ y.InField p m modulus ∧
        M.getEntry dest k = .ok y)
    (fun j (M : Matrix) =>
        match M.getEntry src j with
        | .error e => .error e
        | .ok x =>
          match x.mul fuel s with
          | .error e => .error e
          | .ok xs =>
            match M.getEntry dest j with
            | .error e => .error e
            | .ok d =>
              match d.add fuel xs with
              | .error e => .error e
              | .ok y => M.setEntry dest j y)
    A.cols 0 A
    ⟨overField_shaped hA, ⟨rfl, rfl, rfl, rfl, rfl⟩, fun _ _ => rfl, fun _ _ => rfl,
      fun k hk => absurd hk (Nat.not_lt_zero _)⟩
    (by
      intro t M _ ht hM
      rw [Nat.zero_add] at ht
      obtain ⟨hM1, hM2, hM3, hM4, hM5⟩ := hM
      obtain ⟨x, hx, hxF⟩ := overField_getEntry hA hsrc ht
      obtain ⟨d, hdE, hdF⟩ := overField_getEntry hA hd ht
      obtain ⟨xs, hxs, hxsF⟩ := mul_returns fuel hp hm hmod hxF ⟨hs.1, hs.2.1⟩
      obtain ⟨y, hy, hyF⟩ := add_returns fuel hp hm hmod hdF ⟨hxsF.1, hxsF.2.1⟩
      have hMsrc : M.getEntry src t = .ok x := by
        by_cases hsd : src = dest
        · rw [hsd, hM4 t (Nat.le_refl _), ← hsd]; exact hx
        · rw [getEntry_of_row (hM3 src hsd) t]; exact hx
      have hMdest : M.getEntry dest t = .ok d := by
        rw [hM4 t (Nat.le_refl _)]; exact hdE
      obtain ⟨M', hM', hS, hH, hget, hother⟩ := setEntry_shaped hM1 hd ht y
      refine ⟨M', ?_, hS, sameHeader_trans hH hM2, ?_, ?_, ?_⟩
      · dsimp only
        rw [hMsrc]
        dsimp only
        rw [hxs, hMdest]
        dsimp only
        rw [hy]
        exact hM'
      · intro i hi
        rw [setEntry_rows hM' i hi]
        exact hM3 i hi
      · intro k hk
        rw [hother dest k (Or.inr (by omega))]
        exact hM4 k (by omega)
      · intro k hk
        by_cases hkt : k = t
        · rw [hkt]
          exact ⟨d, x, xs, y, hdE, hx, hxs, hy, hyF, hget⟩
        · obtain ⟨d', x', xs', y', h1, h2, h3, h4, h5, h6⟩ := hM5 k (by omega)
          exact ⟨d', x', xs', y', h1, h2, h3, h4, h5, by rw [hother dest k (Or.inr hkt)]; exact h6⟩)
  obtain ⟨B, hB, hB1, hB2, hB3, _, hB5⟩ := hloop
  rw [Nat.zero_add] at hB5
  refine ⟨B, ?_, ?_, hB1, hB2, hB3, hB5⟩
  · unfold Matrix.addRow
    rw [if_neg (by omega)]
    exact hB
  · unfold Matrix.addRowInPlace
    rw [if_neg (by omega)]
    exact forRangeState_ok _ _ _ _ _ hB

end AddRow

/-! ## C33: effect and frame of `addRow` -/

/-- C33: for every matrix `A` over a field with a valid modulus, every scalar
`s` of that field and row indices `dest`, `src` below `rows`, the call
`addRow(dest, src, s)` returns, replaces each entry `(dest, j)` by
`A(dest, j) + A(src, j) * s` and leaves every other row, the shape and the
field descriptor unchanged; when `dest >= rows` or `src >= rows` the call
fails with the out-of-range condition and the matrix is left as it was. -/
theorem C33_addRow_effect_and_frame (fuel p m : Nat) (modulus : List Nat) (A : Matrix)
    (s : GFElement) (dest src : Nat) (hp : 2 ≤ p) (hm : 1 ≤ m)
    (hmod : ValidModulus m modulus) (hA : A.OverField p m modulus)
    (hs : s.InField p m modulus) :
    ((dest < A.rows ∧ src < A.rows) →
      ∃ B, A.addRowInPlace fuel dest src s = (B, none) ∧ A.addRow fuel dest src s = .ok B ∧
        B.rows = A.rows ∧ B.cols = A.cols ∧ B.p = A.p ∧ B.m = A.m ∧
        B.modulus = A.modulus ∧
        (∀ i, i ≠ dest → B.data[i]? = A.data[i]?) ∧
        (∀ i j, i ≠ dest → B.«at» i j = A.«at» i j) ∧
        ∀ j, j < A.cols → ∃ d x xs y, A.«at» dest j = .ok d ∧ A.«at» src j = .ok x ∧
          x.mul fuel s = .ok xs ∧ d.add fuel xs = .ok y ∧ B.«at» dest j = .ok y) ∧
    ((A.rows ≤ dest ∨ A.rows ≤ src) →
      A.addRowInPlace fuel dest src s = (A, some .outOfRange) ∧
        A.addRow fuel dest src s = .error .outOfRange) := by
  constructor
  · rintro ⟨hd, hsrc⟩
    obtain ⟨B, hB, hBs, _, hBh, hBrows, hBe⟩ :=
      addRow_effect fuel hp hm (Or.inr hmod) hA hs hd hsrc
    refine ⟨B, hBs, hB, hBh.1, hBh.2.1, hBh.2.2.1, hBh.2.2.2.1, hBh.2.2.2.2, hBrows, ?_, ?_⟩
    · intro i j hi
      unfold Matrix.«at»
      rw [hBh.1, hBh.2.1, getEntry_of_row (hBrows i hi) j]
    · intro j hj
      obtain ⟨d, x, xs, y, h1, h2, h3, h4, _, h6⟩ := hBe j hj
      refine ⟨d, x, xs, y, ?_, ?_, h3, h4, ?_⟩
      · rw [at_eq_getEntry hd hj]; exact h1
      · rw [at_eq_getEntry hsrc hj]; exact h2
      · rw [at_eq_getEntry (by rw [hBh.1]; exact hd) (by rw [hBh.2.1]; exact hj)]; exact h6
  · intro h
    constructor
    · unfold Matrix.addRowInPlace
      rw [if_pos h]
    · unfold Matrix.addRow
      rw [if_pos h]

/-- Witness for C33: `addRow(0, 1, 2)` on `[[1, 2], [2, 2]]` over GF(3). -/
theorem C33_addRow_effect_and_frame_witness :
    ((0 < exampleGF3.rows ∧ 1 < exampleGF3.rows) →
      ∃ B, exampleGF3.addRowInPlace 0 0 1 (gf3 2) = (B, none) ∧
        exampleGF3.addRow 0 0 1 (gf3 2) = .ok B ∧
        B.rows = exampleGF3.rows ∧ B.cols = exampleGF3.cols ∧ B.p = exampleGF3.p ∧
        B.m = exampleGF3.m ∧ B.modulus = exampleGF3.modulus ∧
        (∀ i, i ≠ 0 → B.data[i]? = exampleGF3.data[i]?) ∧
        (∀ i j, i ≠ 0 → B.«at» i j = exampleGF3.«at» i j) ∧
        ∀ j, j < exampleGF3.cols → ∃ d x xs y, exampleGF3.«at» 0 j = .ok d ∧
          exampleGF3.«at» 1 j = .ok x ∧ x.mul 0 (gf3 2) = .ok xs ∧ d.add 0 xs = .ok y ∧
          B.«at» 0 j = .ok y) ∧
    ((exampleGF3.rows ≤ 0 ∨ exampleGF3.rows ≤ 1) →
      exampleGF3.addRowInPlace 0 0 1 (gf3 2) = (exampleGF3, some .outOfRange) ∧
        exampleGF3.addRow 0 0 1 (gf3 2) = .error .outOfRange) :=
  C33_addRow_effect_and_frame 0 3 1 [1, 1] exampleGF3 (gf3 2) 0 1 (by decide) (by decide)
    (by decide) (by decide) (by decide)

/-! ## C34: a singular matrix over GF(2) -/

/-- C34: over GF(2) (`p = 2`, `m = 1`) the matrix
`A = [[1, 0, 1], [0, 1, 1], [1, 1, 0]]` has `A.rank() == 2`,
`A.isInvertible() == false` and `A.inverse()` returns nothing (in both
modes), and the matrix `[[1, 1], [1, 1]]` has rank 1. -/
theorem C34_singular_matrix_over_gf2 (fuel : Nat) :
    ∃ A B, Matrix.ofGrid [[1, 0, 1], [0, 1, 1], [1, 1, 0]] 2 1 [1, 1] = .ok A ∧
      A.rank fuel = .ok 2 ∧ A.isInvertible fuel = .ok false ∧
      A.inverse fuel false = .ok none ∧ A.inverse fuel true = .ok none ∧
      Matrix.ofGrid [[1, 1], [1, 1]] 2 1 [1, 1] = .ok B ∧ B.rank fuel = .ok 1 :=
  ⟨_, _, rfl, rfl, rfl, rfl, rfl, rfl, rfl⟩

/-! ## The educational mode only writes the step log -/

theorem forRange_sim {σ : Type} (f : σ → σ) (b1 b2 : Nat → σ → Except Err σ)
    (h : ∀ k s, b1 k (f s) = (b2 k s).map f) :
    ∀ (n lo : Nat) (s : σ), forRange b1 lo n (f s) = (forRange b2 lo n s).map f := by
  intro n
  induction n with
  | zero => intro lo s; rfl
  | succ n ih =>
    intro lo s
    rw [forRange, forRange, h lo s]
    cases b2 lo s with
    | error e => rfl
    | ok t => exact ih (lo + 1) t

theorem forDown_sim {σ : Type} (f : σ → σ) (b1 b2 : Nat → σ → Except Err σ)
    (h : ∀ k s, b1 k (f s) = (b2 k s).map f) :
    ∀ (n : Nat) (s : σ), forDown b1 n (f s) = (forDown b2 n s).map f := by
  intro n
  induction n with
  | zero => intro s; rfl
  | succ n ih =>
    intro s
    rw [forDown, forDown, h n s]
    cases b2 n s with
    | error e => rfl
    | ok t => exact ih t

theorem logStep_quiet (res : GaussResult) (line : String) :
    Matrix.logStep false res.withoutSteps line = (Matrix.logStep true res line).withoutSteps := rfl

theorem eliminateEntry_quiet (fuel src col row : Nat) (res : GaussResult) :
    Matrix.eliminateEntry fuel false src col row res.withoutSteps
      = (Matrix.eliminateEntry fuel true src col row res).map GaussResult.withoutSteps := by
  unfold Matrix.eliminateEntry
  dsimp only [GaussResult.withoutSteps]
  cases res.matrix.getEntry row col with
  | error e => rfl
  | ok x =>
    dsimp only
    cases x.isZero with
    | true => rfl
    | false =>
      cases x.neg fuel with
      | error e => rfl
      | ok factor =>
        dsimp only
        cases res.matrix.addRow fuel row src factor with
        | error e => rfl
        | ok M => rfl

theorem swapStep_quiet (col currentRow pivotRow : Nat) (res : GaussResult) :
    Matrix.swapStep false col currentRow pivotRow res.withoutSteps
      = (Matrix.swapStep true col currentRow pivotRow res).map GaussResult.withoutSteps := by
  unfold Matrix.swapStep
  by_cases h : pivotRow ≠ currentRow
  · rw [if_pos h, if_pos h]
    dsimp only [GaussResult.withoutSteps]
    cases res.matrix.swapRows currentRow pivotRow with
    | error e => rfl
    | ok M => rfl
  · rw [if_neg h, if_neg h]
    rfl

theorem normalizeStep_quiet (fuel col currentRow : Nat) (res : GaussResult) :
    Matrix.normalizeStep fuel false col currentRow res.withoutSteps
      = (Matrix.normalizeStep fuel true col currentRow res).map GaussResult.withoutSteps := by
  unfold Matrix.normalizeStep
  dsimp only [GaussResult.withoutSteps]
  cases res.matrix.getEntry currentRow col with
  | error e => rfl
  | ok pivot =>
    dsimp only
    cases pivot.isOne with
    | true => rfl
    | false =>
      cases pivot.inverse fuel with
      | error e => rfl
      | ok pivotInv =>
        dsimp only
        cases res.matrix.multiplyRow fuel currentRow pivotInv with
        | error e => rfl
        | ok M => rfl

theorem forwardStep_quiet (fuel rows col : Nat) (res : GaussResult) (cr : Nat) :
    Matrix.forwardStep fuel false rows col res.withoutSteps cr
      = (Matrix.forwardStep fuel true rows col res cr).map
          (fun q => (q.1.withoutSteps, q.2)) := by
  unfold Matrix.forwardStep
  have hm : res.withoutSteps.matrix = res.matrix := rfl
  rw [hm]
  cases res.matrix.findPivot col cr with
  | error e => rfl
  | ok o =>
    cases o with
    | none => rfl
    | some pivotRow =>
      dsimp only
      rw [swapStep_quiet]
      cases Matrix.swapStep true col cr pivotRow res with
      | error e => rfl
      | ok res1 =>
        have e1 : ({ res1.withoutSteps with
              pivotCols := res1.withoutSteps.pivotCols ++ [col] } : GaussResult)
            = GaussResult.withoutSteps { res1 with pivotCols := res1.pivotCols ++ [col] } :=
          rfl
        dsimp only [Except.map]
        rw [e1, normalizeStep_quiet]
        cases Matrix.normalizeStep fuel true col cr
            { res1 with pivotCols := res1.pivotCols ++ [col] } with
        | error e => rfl
        | ok res3 =>
          dsimp only [Except.map]
          rw [forRange_sim GaussResult.withoutSteps _ _
            (fun k s => eliminateEntry_quiet fuel cr col k s)]
          cases forRange (Matrix.eliminateEntry fuel true cr col) (cr + 1) (rows - (cr + 1))
              res3 with
          | error e => rfl
          | ok res4 => rfl

theorem forwardLoop_quiet (fuel rows : Nat) :
    ∀ (n col : Nat) (res : GaussResult) (cr : Nat),
      Matrix.forwardLoop fuel false rows n col res.withoutSteps cr
        = (Matrix.forwardLoop fuel true rows n col res cr).map
            (fun q => (q.1.withoutSteps, q.2)) := by
  intro n
  induction n with
  | zero => intro col res cr; rfl
  | succ n ih =>
    intro col res cr
    rw [Matrix.forwardLoop, Matrix.forwardLoop]
    by_cases h : cr < rows
    · rw [if_pos h, if_pos h, forwardStep_quiet]
      cases Matrix.forwardStep fuel true rows col res cr with
      | error e => rfl
      | ok q =>
        obtain ⟨res1, cr1⟩ := q
        exact ih (col + 1) res1 cr1
    · rw [if_neg h, if_neg h]
      rfl

theorem rediscoverRow_quiet (cols row : Nat) (res : GaussResult) :
    Matrix.rediscoverRow cols row res.withoutSteps
      = (Matrix.rediscoverRow cols row res).map GaussResult.withoutSteps := by
  unfold Matrix.rediscoverRow
  have hm : res.withoutSteps.matrix = res.matrix := rfl
  rw [hm]
  cases Matrix.firstNonzeroAux res.matrix row cols 0 with
  | error e => rfl
  | ok o =>
    cases o with
    | none => rfl
    | some col => rfl

theorem backwardStep_quiet (fuel pivotIdx : Nat) (res : GaussResult) :
    Matrix.backwardStep fuel false pivotIdx res.withoutSteps
      = (Matrix.backwardStep fuel true pivotIdx res).map GaussResult.withoutSteps := by
  unfold Matrix.backwardStep
  have hm : res.withoutSteps.pivotCols = res.pivotCols := rfl
  rw [hm]
  cases res.pivotCols[pivotIdx]? with
  | none => rfl
  | some pivotCol =>
    exact forDown_sim GaussResult.withoutSteps _ _
      (fun k s => eliminateEntry_quiet fuel pivotIdx pivotCol k s) pivotIdx res

theorem forwardPass_quiet (fuel : Nat) (A : Matrix) (res : GaussResult) :
    Matrix.forwardPass fuel A false res.withoutSteps
      = (Matrix.forwardPass fuel A true res).map GaussResult.withoutSteps := by
  unfold Matrix.forwardPass
  rw [forwardLoop_quiet]
  cases Matrix.forwardLoop fuel true A.rows A.cols 0 res 0 with
  | error e => rfl
  | ok q => rfl

theorem backwardPass_quiet (fuel : Nat) (A : Matrix) (forward : Bool) (res : GaussResult) :
    Matrix.backwardPass fuel A forward false res.withoutSteps
      = (Matrix.backwardPass fuel A forward true res).map GaussResult.withoutSteps := by
  unfold Matrix.backwardPass
  cases forward with
  | true =>
    dsimp only [if_true]
    have h1 : Matrix.logStep false res.withoutSteps "Начинаем обратный ход (приведение к RREF)"
        = (Matrix.logStep true res
            "Начинаем обратный ход (приведение к RREF)").withoutSteps := rfl
    simp only [if_true]
    rw [h1]
    have hp : (Matrix.logStep true res
        "Начинаем обратный ход (приведение к RREF)").withoutSteps.pivotCols
        = (Matrix.logStep true res "Начинаем обратный ход (приведение к RREF)").pivotCols :=
      rfl
    rw [hp, forDown_sim GaussResult.withoutSteps _ _ (fun k s => backwardStep_quiet fuel k s)]
    cases forDown (Matrix.backwardStep fuel true)
        (Matrix.logStep true res "Начинаем обратный ход (приведение к RREF)").pivotCols.length
        (Matrix.logStep true res "Начинаем обратный ход (приведение к RREF)") with
    | error e => rfl
    | ok r => rfl
  | false =>
    simp only [Bool.false_eq_true, if_false]
    have e1 : ({ res.withoutSteps with pivotCols := [] } : GaussResult)
        = GaussResult.withoutSteps { res with pivotCols := [] } := rfl
    rw [e1, forRange_sim GaussResult.withoutSteps _ _
      (fun k s => rediscoverRow_quiet A.cols k s)]
    cases forRange (Matrix.rediscoverRow A.cols) 0 A.rows { res with pivotCols := [] } with
    | error e => rfl
    | ok r1 =>
      dsimp only [Except.map]
      have hp : r1.withoutSteps.pivotCols = r1.pivotCols := rfl
      rw [hp, forDown_sim GaussResult.withoutSteps _ _ (fun k s => backwardStep_quiet fuel k s)]
      cases forDown (Matrix.backwardStep fuel true) r1.pivotCols.length r1 with
      | error e => rfl
      | ok r => rfl

/-- The private member `gaussElimination` with `educational = false` returns
what it returns with `educational = true`, with an empty step log. -/
theorem gaussElimination_quiet (fuel : Nat) (A : Matrix) (forward backward : Bool) :
    A.gaussElimination fuel forward backward false
      = (A.gaussElimination fuel forward backward true).map GaussResult.withoutSteps := by
  unfold Matrix.gaussElimination
  dsimp only
  cases forward with
  | true =>
    simp only [if_true]
    have hq := forwardPass_quiet fuel A { matrix := A, rank := 0, pivotCols := [], steps := [] }
    have e0 : GaussResult.withoutSteps { matrix := A, rank := 0, pivotCols := [], steps := [] }
        = { matrix := A, rank := 0, pivotCols := [], steps := [] } := rfl
    rw [e0] at hq
    rw [hq]
    generalize Matrix.forwardPass fuel A true
      { matrix := A, rank := 0, pivotCols := [], steps := [] } = x
    cases x with
    | error e => rfl
    | ok r =>
      dsimp only [Except.map]
      have hr : r.withoutSteps.rank = r.rank := rfl
      rw [hr]
      by_cases h : backward = true ∧ 0 < r.rank
      · rw [if_pos h, if_pos h]
        exact backwardPass_quiet fuel A true r
      · rw [if_neg h, if_neg h]
  | false =>
    simp only [Bool.false_eq_true, if_false]
    by_cases h : backward = true ∧ 0 < 0
    · exact absurd h.2 (Nat.lt_irrefl 0)
    · rw [if_neg h, if_neg h]
      rfl

/-! ## C36: the educational flag affects only the step log -/

/-- Reading of `quiet = loud.map withoutSteps` on the members of the results. -/
theorem quiet_loud {quiet loud : Except Err GaussResult}
    (h : quiet = loud.map GaussResult.withoutSteps) :
    (∀ l, loud = .ok l →
      quiet = .ok { matrix := l.matrix, rank := l.rank, pivotCols := l.pivotCols, steps := [] }) ∧
    (∀ q, quiet = .ok q →
      q.steps = [] ∧ ∃ l, loud = .ok l ∧ l.matrix = q.matrix ∧ l.rank = q.rank ∧
        l.pivotCols = q.pivotCols) ∧
    (∀ e, loud = .error e ↔ quiet = .error e) := by
  subst h
  cases loud with
  | error e0 =>
    refine ⟨fun l hl => (by cases hl), fun q hq => (by cases hq), fun e => ?_⟩
    exact ⟨fun h => (by cases h; rfl), fun h => (by cases h; rfl)⟩
  | ok l0 =>
    refine ⟨fun l hl => (by cases hl; rfl), fun q hq => ?_, fun e => ?_⟩
    · cases hq
      exact ⟨rfl, l0, rfl, rfl, rfl, rfl⟩
    · exact ⟨fun h => (by cases h), fun h => (by cases h)⟩

/-- C36: for every matrix `A` over a prime field and each of `forwardGauss`,
`backwardGauss` and `reducedRowEchelonForm`, the call with
`educational = false` returns exactly when the call with `educational = true`
does, with the same matrix, the same rank and the same pivot columns and with
an empty `steps` sequence (a call that fails does so with the same condition
in both modes); for `p < 2^16` all these calls return. -/
theorem C36_educational_flag_only_logs (fuel p : Nat) (A : Matrix) (hp : p.Prime)
    (hA : A.OverPrimeField p) :
    ((∀ l, A.forwardGauss fuel true = .ok l →
        A.forwardGauss fuel false
          = .ok { matrix := l.matrix, rank := l.rank, pivotCols := l.pivotCols, steps := [] }) ∧
      (∀ q, A.forwardGauss fuel false = .ok q →
        q.steps = [] ∧ ∃ l, A.forwardGauss fuel true = .ok l ∧ l.matrix = q.matrix ∧
          l.rank = q.rank ∧ l.pivotCols = q.pivotCols) ∧
      (∀ e, A.forwardGauss fuel true = .error e ↔ A.forwardGauss fuel false = .error e)) ∧
    ((∀ l, A.backwardGauss fuel true = .ok l →
        A.backwardGauss fuel false
          = .ok { matrix := l.matrix, rank := l.rank, pivotCols := l.pivotCols, steps := [] }) ∧
      (∀ q, A.backwardGauss fuel false = .ok q →
        q.steps = [] ∧ ∃ l, A.backwardGauss fuel true = .ok l ∧ l.matrix = q.matrix ∧
          l.rank = q.rank ∧ l.pivotCols = q.pivotCols) ∧
      (∀ e, A.backwardGauss fuel true = .error e ↔ A.backwardGauss fuel false = .error e)) ∧
    ((∀ l, A.reducedRowEchelonForm fuel true = .ok l →
        A.reducedRowEchelonForm fuel false
          = .ok { matrix := l.matrix, rank := l.rank, pivotCols := l.pivotCols, steps := [] }) ∧
      (∀ q, A.reducedRowEchelonForm fuel false = .ok q →
        q.steps = [] ∧ ∃ l, A.reducedRowEchelonForm fuel true = .ok l ∧
          l.matrix = q.matrix ∧ l.rank = q.rank ∧ l.pivotCols = q.pivotCols) ∧
      (∀ e, A.reducedRowEchelonForm fuel true = .error e ↔
        A.reducedRowEchelonForm fuel false = .error e)) ∧
    (p < 65536 →
      (∃ l, A.forwardGauss fuel true = .ok l) ∧ (∃ l, A.backwardGauss fuel true = .ok l) ∧
        ∃ l, A.reducedRowEchelonForm fuel true = .ok l) := by
  haveI : Fact p.Prime := ⟨hp⟩
  refine ⟨quiet_loud (gaussElimination_quiet fuel A true false),
    quiet_loud (gaussElimination_quiet fuel A false true),
    quiet_loud (gaussElimination_quiet fuel A true true), fun hlt => ?_⟩
  have hrep := overPrimeField_matRep hA
  obtain ⟨f, hf, _⟩ := forwardGauss_spec fuel hlt true hrep
  obtain ⟨r, hr, _⟩ := rref_spec fuel hlt true hrep
  exact ⟨⟨f, hf⟩, ⟨_, backwardGauss_noop fuel A true⟩, ⟨r, hr⟩⟩

/-- Witness for C36: the matrix `[[1, 2], [2, 2]]` over GF(3). -/
theorem C36_educational_flag_only_logs_witness :
    (∃ l, exampleGF3.forwardGauss 0 true = .ok l) ∧
      (∃ l, exampleGF3.backwardGauss 0 true = .ok l) ∧
      ∃ l, exampleGF3.reducedRowEchelonForm 0 true = .ok l :=
  (C36_educational_flag_only_logs 0 3 exampleGF3 (by norm_num) (by decide)).2.2.2 (by decide)

/-! ## Elimination on a matrix whose left block is an identity pattern -/

theorem forRange_fixed {σ : Type} (body : Nat → σ → Except Err σ) (s : σ) :
    ∀ (n lo : Nat), (∀ k, lo ≤ k → k < lo + n → body k s = .ok s) →
      forRange body lo n s = .ok s := by
  intro n
  induction n with
  | zero => intro lo _; rfl
  | succ n ih =>
    intro lo h
    rw [forRange, h lo (le_refl lo) (by omega)]
    exact ih (lo + 1) (fun k hk1 hk2 => h k (by omega) (by omega))

theorem forDown_fixed {σ : Type} (body : Nat → σ → Except Err σ) (s : σ) :
    ∀ (n : Nat), (∀ k, k < n → body k s = .ok s) → forDown body n s = .ok s := by
  intro n
  induction n with
  | zero => intro _; rfl
  | succ n ih =>
    intro h
    rw [forDown, h n (by omega)]
    exact ih (fun k hk => h k (by omega))

/-- The body of the clearing loops does nothing on an entry for which
`isZero()` holds. -/
theorem eliminateEntry_zero (fuel : Nat) (edu : Bool) (src col row : Nat) (res : GaussResult)
    {e : GFElement} (he : res.matrix.getEntry row col = .ok e) (hz : e.isZero = true) :
    Matrix.eliminateEntry fuel edu src col row res = .ok res := by
  unfold Matrix.eliminateEntry
  rw [he]
  dsimp only
  rw [if_pos hz]

theorem findPivot_unit {M : Matrix} {r c : Nat} (hM : M.UnitLeft r c) {col : Nat}
    (hcol : col < r) : M.findPivot col col = .ok (some col) := by
  obtain ⟨hr, _, _, _, hent⟩ := hM
  obtain ⟨e, he, h1, _⟩ := hent col col hcol hcol
  unfold Matrix.findPivot
  obtain ⟨n, hn⟩ : ∃ n, M.rows - col = n + 1 := ⟨M.rows - col - 1, by omega⟩
  rw [hn, Matrix.findPivotAux, he]
  dsimp only
  rw [(h1 rfl).2]
  rfl

/-- One round of the forward loop on an identity pattern, in column
`col < r` with row pointer `col`: the pivot is found in place, nothing is
swapped, scaled or cleared. -/
theorem forwardStep_unit (fuel : Nat) {M : Matrix} {r c : Nat} (hM : M.UnitLeft r c)
    {col : Nat} (hcol : col < r) (res : GaussResult) (hres : res.matrix = M) :
    Matrix.forwardStep fuel false r col res col
      = .ok ({ res with pivotCols := res.pivotCols ++ [col], rank := res.rank + 1 },
          col + 1) := by
  subst hres
  obtain ⟨e, he, h1, _⟩ := hM.2.2.2.2 col col hcol hcol
  unfold Matrix.forwardStep
  rw [findPivot_unit hM hcol]
  dsimp only
  have hswap : Matrix.swapStep false col col col res = .ok res := by
    unfold Matrix.swapStep
    rw [if_neg (by simp)]
  rw [hswap]
  dsimp only
  have hnorm : Matrix.normalizeStep fuel false col col
      { res with pivotCols := res.pivotCols ++ [col] }
      = .ok { res with pivotCols := res.pivotCols ++ [col] } := by
    unfold Matrix.normalizeStep
    dsimp only
    rw [he]
    dsimp only
    rw [if_pos (h1 rfl).1]
  rw [hnorm]
  dsimp only
  rw [forRange_fixed _ _ _ _ (by
    intro k hk1 hk2
    obtain ⟨e', he', _, h2⟩ := hM.2.2.2.2 k col (by omega) hcol
    exact eliminateEntry_zero fuel false col col k _ he' (h2 (by omega)))]

/-- The forward loop on an identity pattern, entered in column `col <= r`
with row pointer `col`: one pivot per column up to column `r`. -/
theorem forwardLoop_unit (fuel : Nat) {M : Matrix} {r c : Nat} (hM : M.UnitLeft r c) :
    ∀ (n col : Nat) (res : GaussResult), res.matrix = M → col ≤ r →
      Matrix.forwardLoop fuel false r n col res col
        = .ok ({ res with
                 rank := res.rank + (min (col + n) r - col),
                 pivotCols := res.pivotCols ++ List.range' col (min (col + n) r - col) },
            min (col + n) r) := by
  intro n
  induction n with
  | zero =>
    intro col res _ hcol
    rw [Matrix.forwardLoop]
    have h0 : min (col + 0) r - col = 0 := by omega
    have h1 : min (col + 0) r = col := by omega
    rw [h0, h1]
    simp
  | succ n ih =>
    intro col res hres hcol
    rw [Matrix.forwardLoop]
    by_cases h : col < r
    · rw [if_pos h, forwardStep_unit fuel hM h res hres]
      dsimp only
      rw [ih (col + 1) { res with pivotCols := res.pivotCols ++ [col], rank := res.rank + 1 }
        hres (by omega)]
      have hk : min (col + (n + 1)) r - col = (min (col + 1 + n) r - (col + 1)) + 1 := by omega
      have hmin : min (col + (n + 1)) r = min (col + 1 + n) r := by omega
      rw [hk, hmin, List.range'_succ]
      dsimp only
      rw [List.append_assoc, Nat.add_assoc, Nat.add_comm 1]
      rfl
    · rw [if_neg h]
      have h0 : min (col + (n + 1)) r - col = 0 := by omega
      have h1 : min (col + (n + 1)) r = col := by omega
      rw [h0, h1]
      simp

theorem forwardPass_unit (fuel : Nat) {M : Matrix} {r c : Nat} (hM : M.UnitLeft r c) :
    Matrix.forwardPass fuel M false { matrix := M, rank := 0, pivotCols := [], steps := [] }
      = .ok { matrix := M, rank := r, pivotCols := List.range r, steps := [] } := by
  unfold Matrix.forwardPass
  rw [hM.1, hM.2.1,
    forwardLoop_unit fuel hM c 0 { matrix := M, rank := 0, pivotCols := [], steps := [] } rfl
      (Nat.zero_le r)]
  have hmin : min (0 + c) r - 0 = r := by have := hM.2.2.1; omega
  dsimp only
  rw [hmin, Nat.zero_add, List.nil_append, List.range_eq_range']
  rfl

theorem backwardStep_unit (fuel : Nat) {M : Matrix} {r c : Nat} (hM : M.UnitLeft r c)
    {k : Nat} (hk : k < r) (res : GaussResult) (hres : res.matrix = M)
    (hpiv : res.pivotCols = List.range r) :
    Matrix.backwardStep fuel false k res = .ok res := by
  unfold Matrix.backwardStep
  rw [hpiv, List.getElem?_range hk]
  dsimp only
  apply forDown_fixed
  intro i hi
  obtain ⟨e, he, _, h2⟩ := hM.2.2.2.2 i k (by omega) hk
  exact eliminateEntry_zero fuel false k k i res (by rw [hres]; exact he) (h2 (by omega))

/-- The elimination with a forward pass on an identity pattern, with or
without the backward pass: the matrix is returned as it is, with rank `r` and
pivot columns `0, ..., r - 1`. -/
theorem gaussElimination_unit (fuel : Nat) {M : Matrix} {r c : Nat} (hM : M.UnitLeft r c)
    (backward : Bool) :
    M.gaussElimination fuel true backward false
      = .ok { matrix := M, rank := r, pivotCols := List.range r, steps := [] } := by
  unfold Matrix.gaussElimination
  dsimp only
  rw [if_pos rfl, forwardPass_unit fuel hM]
  dsimp only
  by_cases h : backward = true ∧ 0 < r
  · rw [if_pos h]
    unfold Matrix.backwardPass
    dsimp only
    rw [if_pos rfl, if_pos rfl]
    dsimp only [Matrix.logStep]
    rw [if_neg (by simp)]
    dsimp only
    rw [List.length_range, forDown_fixed _ _ r (fun k hk =>
      backwardStep_unit fuel hM hk _ rfl rfl)]
    rfl
  · rw [if_neg h]

/-! ## The identity matrix under elimination and inversion -/

section IdentityElimination

variable {p m : Nat} {modulus : List Nat}

theorem allZero_replicate (n : Nat) : allZero (List.replicate n 0) = true := by
  unfold allZero
  rw [List.all_eq_true]
  intro x hx
  rw [(List.mem_replicate.mp hx).2]
  rfl

theorem one_tests :
    GFElement.isOne
        { p := p, m := m, modulus := modulus, coeffs := 1 :: List.replicate (m - 1) 0 } = true ∧
      GFElement.isZero
        { p := p, m := m, modulus := modulus, coeffs := 1 :: List.replicate (m - 1) 0 }
        = false := by
  constructor
  · unfold GFElement.isOne
    dsimp only
    rw [if_neg (by simp)]
    exact allZero_replicate (m - 1)
  · rfl

theorem zero_tests :
    GFElement.isZero
        { p := p, m := m, modulus := modulus, coeffs := List.replicate m 0 } = true :=
  allZero_replicate m

/-- The identity matrix has the identity pattern. -/
theorem identity_unitLeft (n : Nat) (hp : 2 ≤ p) (hm : 1 ≤ m) {I : Matrix}
    (hI : Matrix.identity n p m modulus = .ok I) : I.UnitLeft n n := by
  obtain ⟨I', hI', hIF, hIr, hIc, hIe⟩ := identity_returns n modulus hp hm
  rw [hI] at hI'
  cases hI'
  refine ⟨hIr, hIc, Nat.le_refl n, ?_, ?_⟩
  · have := overField_shaped hIF
    rw [hIr, hIc] at this
    exact this
  · intro i j hi hj
    refine ⟨_, hIe i j hi hj, ?_, ?_⟩
    · intro hij
      rw [if_pos hij]
      exact one_tests
    · intro hij
      rw [if_neg hij]
      exact zero_tests

/-- The loops of `inverse` that fill the augmented matrix, for a square
matrix over a field: the left block holds the cells of `A`, the right block
the ones and zeros of an identity matrix. -/
theorem augment_returns (hp : 2 ≤ p) (hm : 1 ≤ m) {A aug0 : Matrix} {n : Nat}
    (hA : A.OverField p m modulus) (hr : A.rows = n) (hc : A.cols = n)
    (h0 : aug0.Shaped n (2 * n)) :
    ∃ aug, Matrix.augment A aug0 = .ok aug ∧ aug.Shaped n (2 * n) ∧ aug.SameHeader aug0 ∧
      ∀ i j, i < n → j < n →
        aug.getEntry i j = A.getEntry i j ∧
        aug.getEntry i (n + j) = .ok (if i = j then
            { p := p, m := m, modulus := modulus, coeffs := 1 :: List.replicate (m - 1) 0 }
          else { p := p, m := m, modulus := modulus, coeffs := List.replicate m 0 }) := by
  have hunit : ∀ i j : Nat,
      (if i = j then GFElement.ofValue 1 A.p A.m A.modulus
        else GFElement.new A.p A.m A.modulus : Except Err GFElement)
      = .ok (if i = j then
            { p := p, m := m, modulus := modulus, coeffs := 1 :: List.replicate (m - 1) 0 }
          else { p := p, m := m, modulus := modulus, coeffs := List.replicate m 0 }) := by
    intro i j
    rw [hA.1, hA.2.1, hA.2.2.1]
    by_cases hij : i = j
    · rw [if_pos hij, if_pos hij]; exact ofValue_one modulus hp hm
    · rw [if_neg hij, if_neg hij]
      obtain ⟨z, hz, _, hzeq⟩ := new_inField modulus hp hm
      rw [hz, hzeq]
  unfold Matrix.augment
  rw [hr, hc]
  obtain ⟨aug, haug, hinv⟩ := forRange_inv
    (fun k (N : Matrix) => N.Shaped n (2 * n) ∧ N.SameHeader aug0 ∧
      ∀ i j, i < k → j < n →
        N.getEntry i j = A.getEntry i j ∧
        N.getEntry i (n + j) = .ok (if i = j then
            { p := p, m := m, modulus := modulus, coeffs := 1 :: List.replicate (m - 1) 0 }
          else { p := p, m := m, modulus := modulus, coeffs := List.replicate m 0 }))
    (fun i (aug : Matrix) =>
      match forRange
          (fun j (aug : Matrix) =>
            match A.getEntry i j with
            | .error e => .error e
            | .ok x => aug.setEntry i j x)
          0 n aug with
      | .error e => .error e
      | .ok aug =>
        forRange
          (fun j (aug : Matrix) =>
            match (if i = j then GFElement.ofValue 1 A.p A.m A.modulus
              else GFElement.new A.p A.m A.modulus : Except Err GFElement) with
            | .error e => .error e
            | .ok x => aug.setEntry i (n + j) x)
          0 n aug)
    n 0 aug0 ⟨h0, ⟨rfl, rfl, rfl, rfl, rfl⟩, fun i j hi _ => absurd hi (Nat.not_lt_zero _)⟩
    (by
      intro k N _ hk hN
      rw [Nat.zero_add] at hk
      obtain ⟨hN1, hN2, hN3⟩ := hN
      obtain ⟨N1, hN1', h11, h12, h13, h14⟩ := forRange_inv
        (fun t (Q : Matrix) => Q.Shaped n (2 * n) ∧ Q.SameHeader aug0 ∧
          (∀ i j, i ≠ k → Q.getEntry i j = N.getEntry i j) ∧
          ∀ j, j < t → Q.getEntry k j = A.getEntry k j)
        (fun j (aug : Matrix) =>
            match A.getEntry k j with
            | .error e => .error e
            | .ok x => aug.setEntry k j x)
        n 0 N ⟨hN1, hN2, fun _ _ _ => rfl, fun j hj => absurd hj (Nat.not_lt_zero _)⟩
        (by
          intro t Q _ ht hQ
          rw [Nat.zero_add] at ht
          obtain ⟨hQ1, hQ2, hQ3, hQ4⟩ := hQ
          obtain ⟨x, hx, _⟩ := overField_getEntry hA (by rw [hr]; exact hk) (by rw [hc]; exact ht)
          obtain ⟨Q', hQ', hS, hH, hget, hother⟩ :=
            setEntry_shaped hQ1 hk (by omega : t < 2 * n) x
          refine ⟨Q', ?_, hS, sameHeader_trans hH hQ2, ?_, ?_⟩
          · dsimp only
            rw [hx]
            exact hQ'
          · intro i j hik
            rw [hother i j (Or.inl hik)]
            exact hQ3 i j hik
          · intro j hj
            by_cases hjt : j = t
            · rw [hjt, hget, hx]
            · rw [hother k j (Or.inr hjt)]
              exact hQ4 j (by omega))
      rw [Nat.zero_add] at h14
      obtain ⟨N2, hN2', h21, h22, h23, h24, h25⟩ := forRange_inv
        (fun t (Q : Matrix) => Q.Shaped n (2 * n) ∧ Q.SameHeader aug0 ∧
          (∀ i j, i ≠ k → Q.getEntry i j = N.getEntry i j) ∧
          (∀ j, j < n → Q.getEntry k j = A.getEntry k j) ∧
          ∀ j, j < t → Q.getEntry k (n + j) = .ok (if k = j then
              { p := p, m := m, modulus := modulus, coeffs := 1 :: List.replicate (m - 1) 0 }
            else { p := p, m := m, modulus := modulus, coeffs := List.replicate m 0 }))
        (fun j (aug : Matrix) =>
            match (if k = j then GFElement.ofValue 1 A.p A.m A.modulus
              else GFElement.new A.p A.m A.modulus : Except Err GFElement) with
            | .error e => .error e
            | .ok x => aug.setEntry k (n + j) x)
        n 0 N1 ⟨h11, h12, h13, h14, fun j hj => absurd hj (Nat.not_lt_zero _)⟩
        (by
          intro t Q _ ht hQ
          rw [Nat.zero_add] at ht
          obtain ⟨hQ1, hQ2, hQ3, hQ4, hQ5⟩ := hQ
          obtain ⟨Q', hQ', hS, hH, hget, hother⟩ :=
            setEntry_shaped hQ1 hk (by omega : n + t < 2 * n)
              (if k = t then
                { p := p, m := m, modulus := modulus, coeffs := 1 :: List.replicate (m - 1) 0 }
              else { p := p, m := m, modulus := modulus, coeffs := List.replicate m 0 })
          refine ⟨Q', ?_, hS, sameHeader_trans hH hQ2, ?_, ?_, ?_⟩
          · dsimp only
            rw [hunit k t]
            exact hQ'
          · intro i j hik
            rw [hother i j (Or.inl hik)]
            exact hQ3 i j hik
          · intro j hj
            rw [hother k j (Or.inr (by omega))]
            exact hQ4 j hj
          · intro j hj
            by_cases hjt : j = t
            · rw [hjt, hget]
            · rw [hother k (n + j) (Or.inr (by omega))]
              exact hQ5 j (by omega))
      rw [Nat.zero_add] at h25
      refine ⟨N2, ?_, h21, h22, ?_⟩
      · dsimp only
        rw [hN1']
        exact hN2'
      · intro i j hi hj
        by_cases hik : i = k
        · rw [hik]
          exact ⟨h24 j hj, h25 j hj⟩
        · rw [h23 i j hik, h23 i (n + j) hik]
          exact hN3 i j (by omega) hj)
  rw [Nat.zero_add] at hinv
  exact ⟨aug, haug, hinv⟩

end IdentityElimination

section IdentityInverse

variable {p m : Nat} {modulus : List Nat}

/-- The identity test of `inverse` succeeds on an identity pattern. -/
theorem leftIsIdentity_unit {R : Matrix} {n c : Nat} (hR : R.UnitLeft n c) :
    Matrix.leftIsIdentity R n n = .ok true := by
  unfold Matrix.leftIsIdentity
  apply forRange_fixed
  intro i _ hi
  rw [Nat.zero_add] at hi
  apply forRange_fixed
  intro j _ hj
  rw [Nat.zero_add] at hj
  obtain ⟨e, he, h1, h2⟩ := hR.2.2.2.2 i j hi hj
  rw [if_pos rfl, he]
  dsimp only
  by_cases hij : i = j
  · rw [if_pos hij, (h1 hij).1]
  · rw [if_neg hij, h2 hij]

/-- The member `inverse` on the identity matrix, in the mode without the step
log: a matrix equal to the identity matrix is returned. -/
theorem inverse_identity (fuel n : Nat) (hp : 2 ≤ p) (hm : 1 ≤ m) {I : Matrix}
    (hI : Matrix.identity n p m modulus = .ok I) :
    ∃ J, I.inverse fuel false = .ok (some J) ∧ J.eq I = true := by
  obtain ⟨I', hI', hIF, hIr, hIc, hIe⟩ := identity_returns n modulus hp hm
  rw [hI] at hI'
  cases hI'
  obtain ⟨aug0, haug0, h0s, h0r, h0c, _⟩ := new_shaped n (2 * n) modulus hp hm
  obtain ⟨aug, haug, hS, hH, hent⟩ := augment_returns hp hm hIF hIr hIc h0s
  have hunit : aug.UnitLeft n (2 * n) := by
    refine ⟨hH.1.trans h0r, hH.2.1.trans h0c, by omega, hS, ?_⟩
    intro i j hi hj
    obtain ⟨e, he, h1, h2⟩ := (identity_unitLeft n hp hm hI).2.2.2.2 i j hi hj
    exact ⟨e, by rw [(hent i j hi hj).1]; exact he, h1, h2⟩
  obtain ⟨inv0, hinv0, hi0s, hi0r, hi0c, _⟩ := new_shaped n n modulus hp hm
  obtain ⟨J, hJ, _, hJh, hJe⟩ := fill_entries (fun i j => aug.getEntry i (n + j))
    (fun i j hi hj => ⟨_, (hent i j hi hj).2⟩) hi0s
  refine ⟨J, ?_, ?_⟩
  · unfold Matrix.inverse
    rw [if_neg (by rw [hIr, hIc]; simp), hIr, hIc, hIF.1, hIF.2.1, hIF.2.2.1, haug0]
    dsimp only
    rw [haug]
    dsimp only
    have hrref : aug.reducedRowEchelonForm fuel false
        = .ok { matrix := aug, rank := n, pivotCols := List.range n, steps := [] } :=
      gaussElimination_unit fuel hunit true
    rw [hrref]
    dsimp only
    rw [leftIsIdentity_unit hunit]
    dsimp only
    rw [hinv0]
    dsimp only
    unfold Matrix.extractRight
    rw [hJ]
  · apply eq_of_getEntry (by rw [hJh.1, hi0r, hIr]) (by rw [hJh.2.1, hi0c, hIc])
    intro i j hi hj
    rw [hJh.1, hi0r] at hi
    rw [hJh.2.1, hi0c] at hj
    exact ⟨_, by rw [hJe i j hi hj]; exact (hent i j hi hj).2, hIe i j hi hj⟩

/-- The member `inverse` returns the same value in both modes. -/
theorem inverse_quiet (fuel : Nat) (A : Matrix) :
    A.inverse fuel false = A.inverse fuel true := by
  unfold Matrix.inverse
  by_cases h : A.rows ≠ A.cols
  · rw [if_pos h, if_pos h]
  · rw [if_neg h, if_neg h]
    cases Matrix.new A.rows (2 * A.cols) A.p A.m A.modulus with
    | error e => rfl
    | ok aug0 =>
      dsimp only
      cases Matrix.augment A aug0 with
      | error e => rfl
      | ok augmented =>
        dsimp only
        have hq : augmented.reducedRowEchelonForm fuel false
            = (augmented.reducedRowEchelonForm fuel true).map GaussResult.withoutSteps :=
          gaussElimination_quiet fuel augmented true true
        rw [hq]
        cases augmented.reducedRowEchelonForm fuel true with
        | error e => rfl
        | ok result => rfl

end IdentityInverse

/-! ## C35: the identity matrix -/

/-- C35: for every `n >= 0` and every `p >= 2`, `m >= 1` (and every modulus),
the matrix `I = Matrix::identity(n, p, m, modulus)` is returned,
`I.rank()` is `n`, `I.reducedRowEchelonForm()` returns `I` itself with rank
`n`, and `I.inverse()` returns a matrix equal to `I` (in both modes). -/
theorem C35_identity_matrix (fuel n p m : Nat) (modulus : List Nat) (educational : Bool)
    (hp : 2 ≤ p) (hm : 1 ≤ m) :
    ∃ I, Matrix.identity n p m modulus = .ok I ∧ I.rank fuel = .ok n ∧
      (∃ res, I.reducedRowEchelonForm fuel educational = .ok res ∧ res.matrix = I ∧
        res.matrix.eq I = true ∧ res.rank = n) ∧
      ∃ J, I.inverse fuel educational = .ok (some J) ∧ J.eq I = true := by
  obtain ⟨I, hI, hIF, _, _, _⟩ := identity_returns n modulus hp hm
  have hunit := identity_unitLeft n hp hm hI
  have hself : I.eq I = true :=
    eq_of_getEntry rfl rfl (fun i j hi hj =>
      ⟨_, (overField_getEntry hIF hi hj).choose_spec.1, (overField_getEntry hIF hi hj).choose_spec.1⟩)
  have hfw : I.forwardGauss fuel false
      = .ok { matrix := I, rank := n, pivotCols := List.range n, steps := [] } :=
    gaussElimination_unit fuel hunit false
  have hrref : I.reducedRowEchelonForm fuel false
      = .ok { matrix := I, rank := n, pivotCols := List.range n, steps := [] } :=
    gaussElimination_unit fuel hunit true
  refine ⟨I, hI, ?_, ?_, ?_⟩
  · unfold Matrix.rank
    rw [hfw]
  · cases educational with
    | false => exact ⟨_, hrref, rfl, hself, rfl⟩
    | true =>
      have hq : I.reducedRowEchelonForm fuel false
          = (I.reducedRowEchelonForm fuel true).map GaussResult.withoutSteps :=
        gaussElimination_quiet fuel I true true
      rw [hrref] at hq
      cases hl : I.reducedRowEchelonForm fuel true with
      | error e => rw [hl] at hq; cases hq
      | ok l =>
        rw [hl] at hq
        have hw : GaussResult.withoutSteps l
            = { matrix := I, rank := n, pivotCols := List.range n, steps := [] } :=
          (Except.ok.inj hq).symm
        have hmat : l.matrix = I := congrArg GaussResult.matrix hw
        have hrank : l.rank = n := congrArg GaussResult.rank hw
        exact ⟨l, rfl, hmat, by rw [hmat]; exact hself, hrank⟩
  · obtain ⟨J, hJ, hJe⟩ := inverse_identity fuel n hp hm hI
    cases educational with
    | false => exact ⟨J, hJ, hJe⟩
    | true => exact ⟨J, by rw [← inverse_quiet]; exact hJ, hJe⟩

/-- Witness for C35: `Matrix::identity(4)` over GF(4). -/
theorem C35_identity_matrix_witness :
    ∃ I, Matrix.identity 4 2 2 [1, 1, 1] = .ok I ∧ I.rank 0 = .ok 4 ∧
      (∃ res, I.reducedRowEchelonForm 0 false = .ok res ∧ res.matrix = I ∧
        res.matrix.eq I = true ∧ res.rank = 4) ∧
      ∃ J, I.inverse 0 false = .ok (some J) ∧ J.eq I = true :=
  C35_identity_matrix 0 4 2 2 [1, 1, 1] false (by decide) (by decide)

/-! ## Linear algebra: submatrices of full rank -/

section Minors

variable {K : Type} [Field K]

/-- Among the rows of a matrix of rank `r` there are `r` linearly independent
ones, taken in ascending order. -/
theorem exists_independent_rows {a c : Nat} (M : Fin a → Fin c → K) (r : Nat)
    (hr : (Matrix.of M).rank = r) :
    ∃ f : Fin r → Fin a, StrictMono f ∧ LinearIndependent K (fun i => M (f i)) := by
  classical
  obtain ⟨b, hb1, hb2, hb3⟩ := exists_linearIndependent K (Set.range M)
  have hfin : b.Finite := (Set.finite_range M).subset hb1
  haveI : Fintype b := hfin.fintype
  have hcard : Fintype.card b = r := by
    have h1 := finrank_span_eq_card hb3
    rw [Subtype.range_coe, hb2] at h1
    rw [← h1, ← hr, Matrix.rank_eq_finrank_span_row]
    rfl
  choose g hg using (fun x : b => hb1 x.2)
  have ginj : Function.Injective g := fun x y h => Subtype.ext (by rw [← hg x, ← hg y, h])
  have hS : (Finset.univ.image g).card = r := by
    rw [Finset.card_image_of_injective _ ginj, Finset.card_univ, hcard]
  have hmem : ∀ i : Fin r, ∃ x : b, g x = (Finset.univ.image g).orderEmbOfFin hS i := by
    intro i
    have h := Finset.orderEmbOfFin_mem (Finset.univ.image g) hS i
    obtain ⟨x, _, hx⟩ := Finset.mem_image.mp h
    exact ⟨x, hx⟩
  choose t ht using hmem
  have tinj : Function.Injective t := fun i j h =>
    ((Finset.univ.image g).orderEmbOfFin hS).injective (by rw [← ht i, ← ht j, h])
  refine ⟨(Finset.univ.image g).orderEmbOfFin hS,
    ((Finset.univ.image g).orderEmbOfFin hS).strictMono, ?_⟩
  have hfam : (fun i => M ((Finset.univ.image g).orderEmbOfFin hS i))
      = (Subtype.val : b → Fin c → K) ∘ t := by
    funext i
    rw [← ht i, hg]
    rfl
  rw [hfam]
  exact hb3.comp t tinj

/-- A selection of rows does not increase the rank. -/
theorem rank_rows_le {a c s : Nat} (M : Fin a → Fin c → K) (f : Fin s → Fin a) :
    (Matrix.of fun i j => M (f i) j).rank ≤ (Matrix.of M).rank := by
  rw [Matrix.rank_eq_finrank_span_row, Matrix.rank_eq_finrank_span_row]
  apply Submodule.finrank_mono
  apply Submodule.span_mono
  rintro x ⟨i, rfl⟩
  exact ⟨f i, rfl⟩

theorem rank_flip {a c : Nat} (M : Fin a → Fin c → K) :
    (Matrix.of fun j i => M i j).rank = (Matrix.of M).rank :=
  Matrix.rank_transpose (Matrix.of M)

/-- A selection of rows and columns does not increase the rank. -/
theorem rank_minor_le {a c s t : Nat} (M : Fin a → Fin c → K) (f : Fin s → Fin a)
    (g : Fin t → Fin c) :
    (Matrix.of fun i j => M (f i) (g j)).rank ≤ (Matrix.of M).rank := by
  have h1 := rank_rows_le (fun j i => M (f i) j) g
  have h2 := rank_flip (fun i j => M (f i) (g j))
  have h3 := rank_flip (fun i j => M (f i) j)
  have h4 := rank_rows_le M f
  rw [← h2]
  exact le_trans h1 (le_trans (le_of_eq h3) h4)

/-- A matrix of rank `r` has an `r` by `r` submatrix of rank `r`, on rows and
columns taken in ascending order. -/
theorem exists_full_rank_minor {a c : Nat} (M : Fin a → Fin c → K) (r : Nat)
    (hr : (Matrix.of M).rank = r) :
    ∃ (f : Fin r → Fin a) (g : Fin r → Fin c), StrictMono f ∧ StrictMono g ∧
      (Matrix.of fun i j => M (f i) (g j)).rank = r := by
  obtain ⟨f, hf, hind⟩ := exists_independent_rows M r hr
  have h1 : (Matrix.of fun i j => M (f i) j).rank = r := by
    have := LinearIndependent.rank_matrix (M := Matrix.of fun i j => M (f i) j) hind
    rw [this, Fintype.card_fin]
  have h2 : (Matrix.of fun j i => M (f i) j).rank = r := by
    rw [rank_flip (fun i j => M (f i) j)]
    exact h1
  obtain ⟨g, hg, hind2⟩ := exists_independent_rows (fun j i => M (f i) j) r h2
  refine ⟨f, g, hf, hg, ?_⟩
  have h3 := LinearIndependent.rank_matrix (M := Matrix.of fun j i => M (f i) (g j)) hind2
  rw [← rank_flip (fun i j => M (f i) (g j)), h3, Fintype.card_fin]

end Minors

/-! ## Transposition over a prime field and the rank -/

/-- The `transpose` member on any matrix whose stored rows have `cols`
entries: the cells are copied, whatever they hold. -/
theorem transpose_shaped {A : Matrix} (hp : 2 ≤ A.p) (hm : 1 ≤ A.m)
    (hs : A.Shaped A.rows A.cols) :
    ∃ T, A.transpose = .ok T ∧ T.Shaped A.cols A.rows ∧ T.rows = A.cols ∧ T.cols = A.rows ∧
      T.p = A.p ∧ T.m = A.m ∧
      ∀ i j, i < A.rows → j < A.cols → T.getEntry j i = A.getEntry i j := by
  obtain ⟨Z, hZ, hZs, hZr, hZc, hZp, hZm, _, _⟩ := new_shaped A.cols A.rows A.modulus hp hm
  obtain ⟨T, hT, hTs, hTh, hTe⟩ := fill_transposed (fun i j => A.getEntry i j)
    (fun i j hi hj => shaped_getEntry hs hi hj) hZs
  refine ⟨T, ?_, hTs, hTh.1.trans hZr, hTh.2.1.trans hZc, hTh.2.2.1.trans hZp,
    hTh.2.2.2.1.trans hZm, hTe⟩
  unfold Matrix.transpose
  rw [hZ]
  exact hT

theorem overField_prime {p : Nat} {modulus : List Nat} {M : Matrix}
    (h : M.OverField p 1 modulus) : M.OverPrimeField p := by
  obtain ⟨h1, h2, _, h4, h5⟩ := h
  refine ⟨h1, h2, h4, fun row hrow => ⟨(h5 row hrow).1, fun e he => ?_⟩⟩
  obtain ⟨e1, e2, _, e4, e5⟩ := (h5 row hrow).2 e he
  exact ⟨e1, e2, by rw [e4, e2], fun c hc => by rw [← e1]; exact e5 c hc⟩

section TransposeRank

variable {p : Nat} [hp : Fact p.Prime]

/-- The `transpose` member on values: the transposed values. -/
theorem matRep_transpose {A : Matrix} {r c : Nat} {f : Nat → Nat → ZMod p}
    (hA : MatRep p A r c f) :
    ∃ T, A.transpose = .ok T ∧ MatRep p T c r (fun i j => f j i) := by
  obtain ⟨h1, h2, h3, h4, h5, h6, h7⟩ := hA
  have hs : A.Shaped A.rows A.cols := by
    rw [h1, h2]
    exact ⟨h5, h6⟩
  obtain ⟨T, hT, hTs, hTr, hTc, hTp, hTm, hTe⟩ :=
    transpose_shaped (by rw [h3]; exact hp.out.two_le) (by rw [h4]) hs
  rw [h1, h2] at hTs hTe
  refine ⟨T, hT, hTr.trans h2, hTc.trans h1, hTp.trans h3, hTm.trans h4, hTs.1, hTs.2, ?_⟩
  intro i j hi hj
  obtain ⟨e, he, her⟩ := h7 j i hj hi
  exact ⟨e, by rw [hTe j i hj hi]; exact he, her⟩

/-- Over a prime field GF(p), `p < 2^16`, the transpose of a matrix has the
rank of the matrix. -/
theorem rank_transpose_eq (fuel : Nat) (hlt : p < 65536) {A : Matrix}
    (hA : A.OverPrimeField p) :
    ∃ T k, A.transpose = .ok T ∧ T.OverPrimeField p ∧ A.rank fuel = .ok k ∧
      T.rank fuel = .ok k := by
  have hrep := overPrimeField_matRep hA
  obtain ⟨T, hT, hTrep⟩ := matRep_transpose hrep
  refine ⟨T, _, hT, matRep_overPrimeField hTrep, rank_spec fuel hlt hrep, ?_⟩
  rw [rank_spec fuel hlt hTrep, pForward_cr_eq_rank, pForward_cr_eq_rank]
  exact congrArg Except.ok
    (rank_flip (fun (i : Fin A.rows) (j : Fin A.cols) => A.toZMod p i j))

end TransposeRank

/-! ## The size of the submatrix found is the rank -/

section SearchRank

variable {p : Nat} [hp : Fact p.Prime]

/-- The invertibility test on the submatrix on rows `R` and columns `C`, read
on the values of `A`. -/
theorem minor_isInvertible (fuel : Nat) (hlt : p < 65536) {A : Matrix}
    (hA : A.OverPrimeField p) {R C : List Nat} (hR : ∀ i ∈ R, i < A.rows)
    (hC : ∀ j ∈ C, j < A.cols) :
    ∃ S, A.submatrix R C = .ok S ∧ S.rows = R.length ∧
      S.isInvertible fuel = .ok (decide (R.length = C.length ∧
        (Matrix.of fun (i : Fin R.length) (j : Fin C.length) =>
          A.toZMod p (R.getD i 0) (C.getD j 0)).rank = R.length)) := by
  obtain ⟨S, hS, hrep⟩ := matRep_submatrix (overPrimeField_matRep hA) hR hC
  refine ⟨S, hS, hrep.1, ?_⟩
  rw [isInvertible_spec fuel hlt hrep, pForward_cr_eq_rank]

/-- The list of the values of a strictly increasing `f`. -/
theorem ofFn_selection {k n : Nat} (f : Fin k → Fin n) (hf : StrictMono f) :
    (List.ofFn fun i => (f i).val).length = k ∧
      (List.ofFn fun i => (f i).val).Pairwise (fun a b => a < b) ∧
      (∀ x ∈ List.ofFn fun i => (f i).val, x < n) ∧
      ∀ (i : Nat) (hi : i < k), (List.ofFn fun i => (f i).val).getD i 0 = (f ⟨i, hi⟩).val := by
  refine ⟨List.length_ofFn _, ?_, ?_, ?_⟩
  · rw [List.pairwise_ofFn]
    intro i j hij
    exact hf hij
  · intro x hx
    obtain ⟨i, rfl⟩ := (List.mem_ofFn _ _).mp hx
    exact (f i).isLt
  · intro i hi
    rw [List.getD_eq_getElem _ _ (by rw [List.length_ofFn]; exact hi), List.getElem_ofFn]

/-- A matrix over GF(p) whose values have rank `k >= 1` has an invertible
`k` by `k` submatrix on ascending rows and columns. -/
theorem exists_invertible_minor (fuel : Nat) (hlt : p < 65536) {A : Matrix}
    (hA : A.OverPrimeField p) {k : Nat}
    (hk : (Matrix.of fun (i : Fin A.rows) (j : Fin A.cols) => A.toZMod p i j).rank = k) :
    ∃ (R C : List Nat) (S : Matrix), R.length = k ∧ C.length = k ∧
      R.Pairwise (fun a b => a < b) ∧ C.Pairwise (fun a b => a < b) ∧
      (∀ i ∈ R, i < A.rows) ∧ (∀ j ∈ C, j < A.cols) ∧
      A.submatrix R C = .ok S ∧ S.isInvertible fuel = .ok true := by
  obtain ⟨f, g, hf, hg, hrank⟩ :=
    exists_full_rank_minor (fun (i : Fin A.rows) (j : Fin A.cols) => A.toZMod p i j) k hk
  obtain ⟨hR1, hR2, hR3, hR4⟩ := ofFn_selection f hf
  obtain ⟨hC1, hC2, hC3, hC4⟩ := ofFn_selection g hg
  obtain ⟨S, hS, _, hinv⟩ := minor_isInvertible fuel hlt hA hR3 hC3
  refine ⟨_, _, S, hR1, hC1, hR2, hC2, hR3, hC3, hS, ?_⟩
  rw [hinv]
  apply congrArg Except.ok
  rw [decide_eq_true_iff]
  refine ⟨by rw [hR1, hC1], ?_⟩
  have key : ∀ (a b : Nat) (ha : a = k) (hb : b = k),
      (Matrix.of fun (i : Fin a) (j : Fin b) =>
        A.toZMod p ((List.ofFn fun i => (f i).val).getD i 0)
          ((List.ofFn fun i => (g i).val).getD j 0)).rank = a := by
    intro a b ha hb
    subst ha
    subst hb
    refine Eq.trans ?_ hrank
    congr 1
    funext i j
    show A.toZMod p _ _ = A.toZMod p _ _
    rw [hR4 i i.isLt, hC4 j j.isLt]
  exact key _ _ hR1 hC1

/-- An invertible submatrix on in-range rows and columns is not larger than
the rank of the values of `A`. -/
theorem invertible_minor_le_rank (fuel : Nat) (hlt : p < 65536) {A : Matrix}
    (hA : A.OverPrimeField p) {R C : List Nat} {S : Matrix} (hR : ∀ i ∈ R, i < A.rows)
    (hC : ∀ j ∈ C, j < A.cols) (hS : A.submatrix R C = .ok S)
    (hinv : S.isInvertible fuel = .ok true) :
    R.length ≤ (Matrix.of fun (i : Fin A.rows) (j : Fin A.cols) => A.toZMod p i j).rank := by
  obtain ⟨S', hS', _, hinv'⟩ := minor_isInvertible fuel hlt hA hR hC
  rw [hS] at hS'
  cases hS'
  rw [hinv] at hinv'
  have h := of_decide_eq_true (Except.ok.inj hinv').symm
  have hle := rank_minor_le (fun (i : Fin A.rows) (j : Fin A.cols) => A.toZMod p i j)
    (fun i : Fin R.length => ⟨R.getD i 0, by
      rw [List.getD_eq_getElem _ _ i.isLt]; exact hR _ (List.getElem_mem _)⟩)
    (fun j : Fin C.length => ⟨C.getD j 0, by
      rw [List.getD_eq_getElem _ _ j.isLt]; exact hC _ (List.getElem_mem _)⟩)
  rw [← h.2]
  exact hle

end SearchRank

section SearchRankResult

variable {p : Nat} [hp : Fact p.Prime]

/-- The values of `A` have rank zero exactly when every entry is zero. -/
theorem rank_zero_iff {A : Matrix} (hA : A.OverPrimeField p) :
    (Matrix.of fun (i : Fin A.rows) (j : Fin A.cols) => A.toZMod p i j).rank = 0 ↔
      ∀ i j, i < A.rows → j < A.cols → A.EntryIsZero i j := by
  have hrep := overPrimeField_matRep hA
  constructor
  · intro h0 i j hi hj
    rw [matRep_entryIsZero hrep hi hj]
    by_contra hne
    have hle := rank_minor_le (fun (i : Fin A.rows) (j : Fin A.cols) => A.toZMod p i j)
      (fun _ : Fin 1 => ⟨i, hi⟩) (fun _ : Fin 1 => ⟨j, hj⟩)
    have hind : LinearIndependent (ZMod p)
        (fun (_ : Fin 1) (_ : Fin 1) => A.toZMod p i j) := by
      rw [linearIndependent_unique_iff]
      intro h
      exact hne (congrFun h 0)
    have h1 := LinearIndependent.rank_matrix
      (M := Matrix.of fun (_ : Fin 1) (_ : Fin 1) => A.toZMod p i j) hind
    rw [Fintype.card_fin] at h1
    have h2 : (Matrix.of fun (_ : Fin 1) (_ : Fin 1) => A.toZMod p i j).rank ≤ 0 := by
      rw [← h0]
      exact hle
    omega
  · intro h
    have hz : (Matrix.of fun (i : Fin A.rows) (j : Fin A.cols) => A.toZMod p i j) = 0 := by
      funext i j
      exact (matRep_entryIsZero hrep i.isLt j.isLt).mp (h i j i.isLt j.isLt)
    rw [hz]
    exact Matrix.rank_zero

/-- The search returns nothing exactly for rank zero, and otherwise a
submatrix whose number of rows is the rank. -/
theorem search_size_is_rank (fuel : Nat) (hlt : p < 65536) {A : Matrix}
    (hA : A.OverPrimeField p) (hfuel : 2 ^ max A.rows A.cols ≤ fuel) :
    ∃ o k, A.findInvertibleSubmatrix fuel = .ok o ∧ A.rank fuel = .ok k ∧
      k = (Matrix.of fun (i : Fin A.rows) (j : Fin A.cols) => A.toZMod p i j).rank ∧
      (o = none ↔ k = 0) ∧ ∀ info, o = some info → info.submatrix.rows = k := by
  have hrep := overPrimeField_matRep hA
  obtain ⟨o, ho⟩ := findInvertibleSubmatrix_total fuel hlt hA hfuel
  refine ⟨o, _, ho, ?_, rfl, ?_⟩
  · rw [rank_spec fuel hlt hrep, pForward_cr_eq_rank]
  obtain ⟨R, C, S, hR1, hC1, hR2, hC2, hR3, hC3, hS, hinv⟩ :=
    exists_invertible_minor fuel hlt hA rfl
  cases o with
  | none =>
    have hzero : (Matrix.of fun (i : Fin A.rows) (j : Fin A.cols) => A.toZMod p i j).rank
        = 0 := by
      by_contra hne
      have h1 := ascending_length_le hR2 hR3
      have h2 := ascending_length_le hC2 hC3
      unfold Matrix.findInvertibleSubmatrix at ho
      obtain ⟨S', hS', hinv'⟩ := tryRows_none_all
        (sizeLoop_none _ ho _ (Nat.one_le_iff_ne_zero.mpr hne) (by omega)) R C hR1 hC1 hR2 hC2
        hR3 hC3
      rw [hS] at hS'
      cases hS'
      rw [hinv] at hinv'
      cases hinv'
    exact ⟨⟨fun _ => hzero, fun _ => rfl⟩, fun info h => (by cases h)⟩
  | some info =>
    obtain ⟨rsel, csel, _, _, _, hpos, hrows, hcols, hsub, hinvI, hmax⟩ :=
      findInvertibleSubmatrix_some ho
    have hRr : ∀ i ∈ info.rows, i < A.rows := by
      intro i hi
      rw [hrows] at hi
      have := selectedFrom_bounds rsel 0 i hi
      omega
    have hCr : ∀ j ∈ info.cols, j < A.cols := by
      intro j hj
      rw [hcols] at hj
      have := selectedFrom_bounds csel 0 j hj
      omega
    have hlen : info.rows.length = rsel.count true := by rw [hrows, selectedFrom_length]
    have hle := invertible_minor_le_rank fuel hlt hA hRr hCr hsub hinvI
    have hge : (Matrix.of fun (i : Fin A.rows) (j : Fin A.cols) => A.toZMod p i j).rank
        ≤ info.rows.length := by
      by_contra hlt2
      have h1 := ascending_length_le hR2 hR3
      have h2 := ascending_length_le hC2 hC3
      obtain ⟨S', hS', hinv'⟩ := tryRows_none_all (hmax _ (by omega) (by omega)) R C hR1 hC1
        hR2 hC2 hR3 hC3
      rw [hS] at hS'
      cases hS'
      rw [hinv] at hinv'
      cases hinv'
    obtain ⟨S2, hS2, hS2r, _⟩ := minor_isInvertible fuel hlt hA hRr hCr
    rw [hsub] at hS2
    cases hS2
    refine ⟨⟨fun h => (by cases h), fun h => ?_⟩, fun info' h => ?_⟩
    · omega
    · cases h
      rw [hS2r]
      omega

end SearchRankResult

/-! ## C37, C38: the rank, the submatrix search and transposition -/

/-- C37: for every matrix `A` over a prime field GF(p) (`m = 1`, `p` prime,
`p < 2^16`) and enough steps for the search, `A.findInvertibleSubmatrix()`
returns nothing exactly when `A.rank()` is 0, which is the case exactly when
`A` has no entry or only zero entries, and otherwise it returns a submatrix
whose number of rows is `A.rank()`. -/
theorem C37_found_size_is_rank (fuel p : Nat) (A : Matrix) (hp : p.Prime) (hlt : p < 65536)
    (hA : A.OverPrimeField p) (hfuel : 2 ^ max A.rows A.cols ≤ fuel) :
    ∃ o k, A.findInvertibleSubmatrix fuel = .ok o ∧ A.rank fuel = .ok k ∧
      (o = none ↔ k = 0) ∧
      (k = 0 ↔ ∀ i j, i < A.rows → j < A.cols → A.EntryIsZero i j) ∧
      ∀ info, o = some info → info.submatrix.rows = k := by
  haveI : Fact p.Prime := ⟨hp⟩
  obtain ⟨o, k, ho, hk, hkr, hnone, hsome⟩ := search_size_is_rank fuel hlt hA hfuel
  refine ⟨o, k, ho, hk, hnone, ?_, hsome⟩
  rw [hkr]
  exact rank_zero_iff hA

/-- Witness for C37: the matrix `[[1, 2], [2, 1]]` over GF(3), of rank 1. -/
theorem C37_found_size_is_rank_witness :
    ∃ o k, singularGF3.findInvertibleSubmatrix 4 = .ok o ∧ singularGF3.rank 4 = .ok k ∧
      (o = none ↔ k = 0) ∧
      (k = 0 ↔ ∀ i j, i < singularGF3.rows → j < singularGF3.cols →
        singularGF3.EntryIsZero i j) ∧
      ∀ info, o = some info → info.submatrix.rows = k :=
  C37_found_size_is_rank 4 3 singularGF3 (by norm_num) (by decide) (by decide) (by decide)

/-- C38: for every matrix `A` built from a rectangular integer grid over a
prime field GF(p) (`m = 1`, `p` prime, `p < 2^16`), `A.transpose()` is
returned and `A.transpose().rank() == A.rank()`. -/
theorem C38_rank_of_transpose (fuel p : Nat) (modulus : List Nat) (grid : List (List Nat))
    (c : Nat) (hp : p.Prime) (hlt : p < 65536) (hrect : ∀ row ∈ grid, row.length = c) :
    ∃ A T k, Matrix.ofGrid grid p 1 modulus = .ok A ∧ A.transpose = .ok T ∧
      A.rank fuel = .ok k ∧ T.rank fuel = .ok k := by
  haveI : Fact p.Prime := ⟨hp⟩
  obtain ⟨A, hA, hAF, _⟩ := ofGrid_overField modulus hp.two_le (Nat.le_refl 1) grid c hrect
  obtain ⟨T, k, hT, _, hk, hTk⟩ := rank_transpose_eq fuel hlt (overField_prime hAF)
  exact ⟨A, T, k, hA, hT, hk, hTk⟩

/-- Witness for C38: the grid `{{1, 2, 0}, {2, 1, 0}}` over GF(3). -/
theorem C38_rank_of_transpose_witness :
    ∃ A T k, Matrix.ofGrid [[1, 2, 0], [2, 1, 0]] 3 1 [1, 1] = .ok A ∧
      A.transpose = .ok T ∧ A.rank 0 = .ok k ∧ T.rank 0 = .ok k :=
  C38_rank_of_transpose 0 3 [1, 1] [[1, 2, 0], [2, 1, 0]] 3 (by norm_num) (by decide)
    (by decide)

end MatrixGF2
